import Mathlib

/-!
# Verification development for `subdomain.tpp`

Shallow embedding of the domain-decomposition set-up code of
`Subdomain<DType>::Subdomain` and of the member functions that use it.

Conventions of the embedding.

* `DType` (float/double) and `long long` values that hold element counts,
  global ids and ranks are embedded as `Int` or `Nat`: every value the
  code stores in them on the paths below is an integer.  Where the precision
  of `DType` matters (the rank counter of `ranking`, the conversions of the
  global ids at lines 1159 and 1169) the definitions named `..._DType` round
  with `DType.round`; the others compute with exact integers.
* `int` arithmetic that can leave the range of `int` is wrapped with
  `int_wrap`.
* A C++ array that is only indexed below a known size is embedded either as a
  `List` (when the code sorts or copies it) or as a function `Nat → α`.
* Loops `for (e = 0; e < n; e++)` are folds over `List.range n`.

Definitions come first, theorems afterwards.
-/

namespace Subdomain

/-! ## Definitions -/

/-! ### Ranking (`subdomain.tpp`, lines 881-918 and 1666-1704) -/

/-- Comparator of the first `std::sort` of `ranking`:
`a.second < b.second` is the strict part of this total preorder. -/
def entry_le (a b : Nat × Int) : Prop := a.2 ≤ b.2

instance entry_le_decidable : DecidableRel entry_le :=
  fun a b => inferInstanceAs (Decidable (a.2 ≤ b.2))

instance entry_le_total : IsTotal (Nat × Int) entry_le :=
  ⟨fun a b => le_total a.2 b.2⟩

instance entry_le_trans : IsTrans (Nat × Int) entry_le :=
  ⟨fun _ _ _ hab hbc => le_trans (α := Int) hab hbc⟩

/-- Order of the second `std::sort` of `ranking`, the default `operator<` of
`std::pair<unsigned int, DType>`: lexicographic, index first. -/
def pair_le (a b : Nat × Int) : Prop := a.1 < b.1 ∨ (a.1 = b.1 ∧ a.2 ≤ b.2)

instance pair_le_decidable : DecidableRel pair_le :=
  fun a b => inferInstanceAs (Decidable (a.1 < b.1 ∨ (a.1 = b.1 ∧ a.2 ≤ b.2)))

instance pair_le_total : IsTotal (Nat × Int) pair_le :=
  ⟨fun a b => by
    unfold pair_le
    rcases lt_trichotomy a.1 b.1 with h | h | h
    · exact Or.inl (Or.inl h)
    · rcases le_total a.2 b.2 with h2 | h2
      · exact Or.inl (Or.inr ⟨h, h2⟩)
      · exact Or.inr (Or.inr ⟨h.symm, h2⟩)
    · exact Or.inr (Or.inl h)⟩

instance pair_le_trans : IsTrans (Nat × Int) pair_le :=
  ⟨fun a b c hab hbc => by
    unfold pair_le at *
    rcases hab with h | ⟨h, h2⟩ <;> rcases hbc with k | ⟨k, k2⟩
    · exact Or.inl (lt_trans h k)
    · exact Or.inl (k ▸ h)
    · exact Or.inl (h ▸ k)
    · exact Or.inr ⟨h.trans k, le_trans h2 k2⟩⟩

instance pair_le_antisymm : IsAntisymm (Nat × Int) pair_le :=
  ⟨fun a b hab hba => by
    unfold pair_le at *
    rcases hab with h | ⟨h, h2⟩ <;> rcases hba with k | ⟨k, k2⟩
    · exact absurd (lt_trans h k) (lt_irrefl _)
    · exact absurd (k ▸ h) (lt_irrefl _)
    · exact absurd (h ▸ k) (lt_irrefl _)
    · exact Prod.ext h (le_antisymm h2 k2)⟩

/-- The loop `for (int i = 1; i < size; i++)` of `ranking` (lines 900-914)
over the sorted entries after the first one, with an exact counter (the
integer block of lines 1666-1704 has a `long long` counter).  `value` and
`rank` are the two running locals; the result is the rewritten entries and the
final `rank`. -/
def rank_loop : Int → Int → List (Nat × Int) → List (Nat × Int) × Int
  | _, rank, [] => ([], rank)
  | value, rank, entry :: rest =>
    if entry.2 = value then
      ((entry.1, rank) :: (rank_loop value rank rest).1, (rank_loop value rank rest).2)
    else
      ((entry.1, rank + 1) :: (rank_loop entry.2 (rank + 1) rest).1,
        (rank_loop entry.2 (rank + 1) rest).2)

/-- Body of `ranking` after the `size == 0` guard: build the entries
`(i, data[i])`, sort them by value, rank them, sort them back by index.
Returns the entries in index order and the final value of `rank`.
`std::sort` is embedded as insertion sort: any sorted permutation gives the
same ranks because tied values share a rank. -/
def ranking_entries (data : List Int) (size : Nat) : List (Nat × Int) × Int :=
  match List.insertionSort entry_le ((List.range size).map (fun i => (i, data.getD i 0))) with
  | [] => ([], 0)
  | first :: rest =>
    (List.insertionSort pair_le
        ((first.1, if first.2 = 0 then 0 else 1) ::
          (rank_loop first.2 (if first.2 = 0 then 0 else 1) rest).1),
      (rank_loop first.2 (if first.2 = 0 then 0 else 1) rest).2)

/-- The lambda `ranking(data, size)` (lines 881-918) with an exact counter
`rank`: the first `size` entries of `data` are replaced by their ranks, the
others are left as they are.  `ranking_DType` below has the counter in
`DType`; its ranks are these cut at `2 ^ T.digits` (`ranking_DType_eq`), so the
two agree on every array with at most `2 ^ T.digits` distinct values. -/
def ranking (data : List Int) (size : Nat) : List Int :=
  if size = 0 then data
  else (ranking_entries data size).1.map Prod.snd ++ data.drop size

/-- The integer ranking block of the coarse numbering (lines 1666-1704), with
`size = dof_num_coarse.size()`: returns the new `dof_num_coarse` and
`num_coarse_dofs` (the final `rank`). -/
def coarse_ranking (dof_num_coarse : List Int) : List Int × Int :=
  ((ranking_entries dof_num_coarse dof_num_coarse.length).1.map Prod.snd,
    (ranking_entries dof_num_coarse dof_num_coarse.length).2)

/-- Number of distinct values of `S` strictly below `v`. -/
def below (S : Finset Int) (v : Int) : Int := ((S.filter (fun w => w < v)).card : Int)

/-- Closed form of the rank that `ranking` gives to value `v` when the ranked
values are `vals`: the number of distinct smaller values, shifted by one
unless the smallest value is `0`. -/
def rank_of (vals : List Int) (v : Int) : Int :=
  (if (∀ w ∈ vals, 0 ≤ w) ∧ 0 ∈ vals then 0 else 1) + below vals.toFinset v

/-! ### Ranking in `DType` (lines 881-918) -/

/-- The floating-point types the class is instantiated with. -/
inductive DType where
  | float
  | double
  deriving DecidableEq

/-- Number of significant binary digits: 24 for `float`, 53 for `double`. -/
def DType.digits : DType → Nat
  | DType.float => 24
  | DType.double => 53

/-- Number of low binary digits that `a` loses when it is held with `p`
significant digits: the least `e` with `a / 2^e < 2^p`. -/
def dropped_digits (p : Nat) : Nat → Nat → Nat
  | 0, _ => 0
  | fuel + 1, a => if a < 2 ^ p then 0 else 1 + dropped_digits p fuel (a / 2)

/-- The conversion `(DType)(x)` of an integer and the rounding of an integer
result of `DType` arithmetic: round to nearest, ties to even, with
`T.digits` significant digits.  Integers up to `2 ^ T.digits` in absolute
value are held exactly.  (The overflow to infinity beyond the largest finite
value is not embedded; `long long` values are far below it.) -/
def DType.round (T : DType) (x : Int) : Int :=
  if x.natAbs ≤ 2 ^ T.digits then x
  else
    let e := dropped_digits T.digits x.natAbs x.natAbs
    let q := x.natAbs / 2 ^ e
    let r := x.natAbs % 2 ^ e
    let q1 := if 2 ^ (e - 1) < r ∨ (r = 2 ^ (e - 1) ∧ q % 2 = 1) then q + 1 else q
    Int.sign x * ((q1 * 2 ^ e : Nat) : Int)

/-- The loop of `ranking` (lines 900-914) with the counter `rank` in `DType`:
`rank += 1.0` rounds the sum. -/
def rank_loop_DType (T : DType) : Int → Int → List (Nat × Int) → List (Nat × Int) × Int
  | _, rank, [] => ([], rank)
  | value, rank, entry :: rest =>
    if entry.2 = value then
      ((entry.1, rank) :: (rank_loop_DType T value rank rest).1,
        (rank_loop_DType T value rank rest).2)
    else
      ((entry.1, T.round (rank + 1)) :: (rank_loop_DType T entry.2 (T.round (rank + 1)) rest).1,
        (rank_loop_DType T entry.2 (T.round (rank + 1)) rest).2)

/-- Body of `ranking` after the `size == 0` guard with the counter in
`DType`. -/
def ranking_entries_DType (T : DType) (data : List Int) (size : Nat) :
    List (Nat × Int) × Int :=
  match List.insertionSort entry_le ((List.range size).map (fun i => (i, data.getD i 0))) with
  | [] => ([], 0)
  | first :: rest =>
    (List.insertionSort pair_le
        ((first.1, if first.2 = 0 then 0 else 1) ::
          (rank_loop_DType T first.2 (if first.2 = 0 then 0 else 1) rest).1),
      (rank_loop_DType T first.2 (if first.2 = 0 then 0 else 1) rest).2)

/-- The lambda `ranking(data, size)` (lines 881-918) on an array of `DType`
values that are integers, with the counter `rank` in `DType`. -/
def ranking_DType (T : DType) (data : List Int) (size : Nat) : List Int :=
  if size = 0 then data
  else (ranking_entries_DType T data size).1.map Prod.snd ++ data.drop size

/-- The tags `1, ..., N` followed by `N + 2`: `N + 1` distinct positive
values.  For `N = 2^24` every one of them is a `float`. -/
def long_tags (N : Nat) : List Int :=
  (List.range N).map (fun i : Nat => (i : Int) + 1) ++ [(N : Int) + 2]

/-! ### Coarsening ladder (lines 98-110) -/

/-- The `while` loop that fills `poly_degree` (lines 100-108) with the
subtraction of line 102 in exact arithmetic.  `fuel` bounds the number of
iterations; `none` means the bound was reached with the last degree still
above `1`.  `ladder_loop_int` below is the same loop with the subtraction in
`int`; the two agree for every `int` degree when
`1 <= poly_reduction` (`ladder_loop_int_eq`), where no subtraction leaves the
range of `int`. -/
def ladder_loop : Nat → Int → List Int → Option (List Int)
  | 0, _, _ => none
  | fuel + 1, poly_reduction, poly_degree =>
    if poly_degree.getLastD 0 > 1 then
      ladder_loop fuel poly_reduction
        (poly_degree ++
          [if poly_degree.getLastD 0 - poly_reduction ≥ 1
            then poly_degree.getLastD 0 - poly_reduction else 1])
    else some poly_degree

/-- The ladder `poly_degree` built from `poly_degree_` and `poly_reduction`
(lines 98-108). -/
def ladder (fuel : Nat) (poly_degree_ poly_reduction : Int) : Option (List Int) :=
  ladder_loop fuel poly_reduction [poly_degree_]

/-- The value an `int` variable holds when the exact result of an operation
is `x`: the representative of `x` modulo `2^32` in `-2^31 .. 2^31 - 1`. -/
def int_wrap (x : Int) : Int := (x + 2147483648) % 4294967296 - 2147483648

/-- The `while` loop of lines 100-108 with `poly_degree_reduced` computed in
`int` arithmetic (line 102): `fuel` bounds the number of iterations, `none`
means the bound was reached with the last degree still above `1`. -/
def ladder_loop_int : Nat → Int → List Int → Option (List Int)
  | 0, _, _ => none
  | fuel + 1, poly_reduction, poly_degree =>
    if poly_degree.getLastD 0 > 1 then
      ladder_loop_int fuel poly_reduction
        (poly_degree ++
          [if int_wrap (poly_degree.getLastD 0 - poly_reduction) ≥ 1
            then int_wrap (poly_degree.getLastD 0 - poly_reduction) else 1])
    else some poly_degree

/-- The ladder `poly_degree` built from the `int` arguments `poly_degree_` and
`poly_reduction` (lines 98-108), in `int` arithmetic. -/
def ladder_int (fuel : Nat) (poly_degree_ poly_reduction : Int) : Option (List Int) :=
  ladder_loop_int fuel poly_reduction [poly_degree_]

/-! ### Sparse matrices -/

/-- Modelled from the spec: class `CSR_Matrix<DType>` is not part of
`subdomain.tpp`; only its calls are.  It is the coordinate-assembled sparse
matrix of the spec (section 6, "sparse matrix-vector product"): `entries`
holds the triples `(row, column, value)` handed to `add_entry`, and after
`assemble` one triple per stored position. -/
structure CSR_Matrix (α : Type) where
  /-- Number of rows given to `initialize`. -/
  num_rows : Nat
  /-- Number of columns given to `initialize`. -/
  num_cols : Nat
  /-- Coordinate triples `(row, column, value)`. -/
  entries : List (Nat × Nat × α)

namespace CSR_Matrix

variable {α : Type}

/-- Modelled from the spec: the call `M.initialize(rows, cols)`, an empty
matrix of the given shape. -/
def empty (rows cols : Nat) : CSR_Matrix α := ⟨rows, cols, []⟩

/-- Modelled from the spec: `add_entry(i, j, v)` records one triple. -/
def add_entry (M : CSR_Matrix α) (i j : Nat) (v : α) : CSR_Matrix α :=
  { M with entries := M.entries ++ [(i, j, v)] }

/-- Modelled from the spec: `assemble()` keeps one stored entry per position
`(i, j)`, holding the sum of the values added there. -/
def assemble [AddCommMonoid α] (M : CSR_Matrix α) : CSR_Matrix α :=
  { M with entries :=
      ((M.entries.map (fun t => (t.1, t.2.1))).dedup).map (fun p =>
        (p.1, p.2,
          ((M.entries.filter (fun t => t.1 = p.1 ∧ t.2.1 = p.2)).map (fun t => t.2.2)).sum)) }

/-- The call `math.set_to_value(M.val, v, M.num_nnz)`: every stored value
becomes `v`. -/
def set_to_value (M : CSR_Matrix α) (v : α) : CSR_Matrix α :=
  { M with entries := M.entries.map (fun t => (t.1, t.2.1, v)) }

/-- Modelled from the spec: `multiply(y, x)`, the sparse matrix-vector product
`y[i] = sum over stored (i, j) of value * x[j]`. -/
def multiply [Semiring α] (M : CSR_Matrix α) (x : Nat → α) : Nat → α :=
  fun i => ((M.entries.filter (fun t => t.1 = i)).map (fun t => t.2.2 * x t.2.1)).sum

/-- Modelled from the spec: `transpose(Mt)`, rows and columns exchanged. -/
def transpose (M : CSR_Matrix α) : CSR_Matrix α :=
  ⟨M.num_cols, M.num_rows, M.entries.map (fun t => (t.2.1, t.1, t.2.2))⟩

end CSR_Matrix

/-! ### Mesh connectivity and expander (lines 199-453) -/

/-- The inputs of the connectivity code: the class constant `dim`, the number
of global elements and the gathered corner table `geometry_mesh`, indexed by
`e * num_vertices + vid`. -/
structure Mesh where
  /-- The class constant `dim`. -/
  dim : Nat
  /-- The field `domain.num_total_elements`. -/
  num_total_elements : Nat
  /-- The gathered table of corner vertex ids. -/
  geometry_mesh : Nat → Int

namespace Mesh

/-- Line 199. -/
def num_vertices (m : Mesh) : Nat := if m.dim = 2 then 4 else 8

/-- Line 200. -/
def num_edges (m : Mesh) : Nat := if m.dim = 2 then 4 else 12

/-- Line 201. -/
def num_faces (m : Mesh) : Nat := if m.dim = 2 then 0 else 6

/-- The corner id `geometry_mesh[e * num_vertices + vid]`. -/
def corner (m : Mesh) (e vid : Nat) : Int := m.geometry_mesh (e * m.num_vertices + vid)

/-- The map `vertices` after its fill loop (lines 291-295): the set of
elements that have `g` among their corners, in increasing order. -/
def vertices (m : Mesh) (g : Int) : List Nat :=
  (List.range m.num_total_elements).filter (fun e =>
    (List.range m.num_vertices).any (fun vid => m.corner e vid = g))

/-- The set `vert_conn[e][vid]` (lines 297-305); the sets are only filled
when `dim >= 1` (line 289). -/
def vert_conn (m : Mesh) (e vid : Nat) : List Nat :=
  if 1 ≤ m.dim then (m.vertices (m.corner e vid)).filter (fun e_j => e_j ≠ e) else []

/-- The table `edge_pairs` of the branch taken for `dim` (lines 312-318 and
348-362). -/
def edge_pairs (m : Mesh) : List (Nat × Nat) :=
  if m.dim = 2 then [(0, 1), (2, 3), (0, 2), (1, 3)]
  else [(0, 1), (2, 3), (0, 2), (1, 3), (4, 5), (6, 7), (4, 6), (5, 7),
        (0, 4), (1, 5), (2, 6), (3, 7)]

/-- The sorted pair of corner ids of one edge, the key of the map `edges`. -/
def edge_key (m : Mesh) (e : Nat) (p : Nat × Nat) : Int × Int :=
  (min (m.corner e p.1) (m.corner e p.2), max (m.corner e p.1) (m.corner e p.2))

/-- The map `edges` after its fill loop: the elements having an edge with the
sorted corner pair `k`. -/
def edges (m : Mesh) (k : Int × Int) : List Nat :=
  (List.range m.num_total_elements).filter (fun e =>
    m.edge_pairs.any (fun p => m.edge_key e p = k))

/-- The set `edge_conn[e][eid]`. -/
def edge_conn (m : Mesh) (e eid : Nat) : List Nat :=
  (m.edges (m.edge_key e (m.edge_pairs.getD eid (0, 0)))).filter (fun e_j => e_j ≠ e)

/-- The table `face_pairs` (lines 393-401). -/
def face_pairs : List (Nat × Nat × Nat × Nat) :=
  [(0, 1, 2, 3), (4, 5, 6, 7), (0, 1, 4, 5), (2, 3, 6, 7), (0, 2, 4, 6), (1, 3, 5, 7)]

/-- The sorted four corner ids of one face, the key of the map `faces`. -/
def face_key (m : Mesh) (e : Nat) (f : Nat × Nat × Nat × Nat) : List Int :=
  List.insertionSort (fun a b : Int => a ≤ b)
    [m.corner e f.1, m.corner e f.2.1, m.corner e f.2.2.1, m.corner e f.2.2.2]

/-- The map `faces` after its fill loop. -/
def faces (m : Mesh) (k : List Int) : List Nat :=
  (List.range m.num_total_elements).filter (fun e =>
    face_pairs.any (fun f => m.face_key e f = k))

/-- The set `face_conn[e][fid]`; the sets are only filled when `dim == 3`
(line 389). -/
def face_conn (m : Mesh) (e fid : Nat) : List Nat :=
  if m.dim = 3 then
    (m.faces (m.face_key e (face_pairs.getD fid (0, 0, 0, 0)))).filter (fun e_j => e_j ≠ e)
  else []

/-- The calls `expander.add_entry(e_i, ., 1.0)` of one row (lines 437-449). -/
def expander_row (m : Mesh) (e_i : Nat) : List (Nat × Nat × Nat) :=
  (e_i, e_i, 1) ::
    (((List.range m.num_vertices).flatMap (fun vid =>
        (m.vert_conn e_i vid).map (fun e_j => (e_i, e_j, 1)))) ++
     ((List.range m.num_edges).flatMap (fun eid =>
        (m.edge_conn e_i eid).map (fun e_j => (e_i, e_j, 1)))) ++
     ((List.range m.num_faces).flatMap (fun fid =>
        (m.face_conn e_i fid).map (fun e_j => (e_i, e_j, 1)))))

/-- The matrix `expander` (lines 433-453): all rows added, assembled, and the
stored values set to `1.0`. -/
def expander (m : Mesh) : CSR_Matrix Nat :=
  (CSR_Matrix.assemble
    ⟨m.num_total_elements, m.num_total_elements,
      (List.range m.num_total_elements).flatMap m.expander_row⟩).set_to_value 1

end Mesh

/-! ### Region construction (lines 455-553) -/

/-- The record `Element<DType>(id, dim, poly_degree)`: the two constructor
arguments that vary. -/
structure Element where
  /-- Global element id. -/
  id : Nat
  /-- Polynomial degree of the element. -/
  poly_degree : Int
  deriving DecidableEq

/-- The array write `v[i] = a`. -/
def vset {α : Type} (v : Nat → α) (i : Nat) (a : α) : Nat → α :=
  fun j => if j = i then a else v j

/-- The locals and members that the region construction reads and writes.
The work vectors are functions of the element index; only indices below
`num_total_elements` are ever read, and a copy of the first
`num_total_elements` entries is embedded as a copy of the function.  Their
`DType` values are sums of products of non-negative numbers, and the code
only tests them with `> 0.0` and `== 0.0`; a floating-point sum of
non-negative terms is positive exactly when one term is, so the tests agree
with the same tests on `Nat`. -/
structure Regions where
  /-- The vector `subdomain_region`. -/
  subdomain_region : List Element
  /-- The vector `superdomain_region`. -/
  superdomain_region : List Element
  /-- The vector `subdomain_partition`. -/
  subdomain_partition : Nat → Nat
  /-- The vector `superdomain_partition`. -/
  superdomain_partition : Nat → Nat
  /-- The counter `num_subdomain_elems`. -/
  num_subdomain_elems : Nat
  /-- The counter `num_superdomain_elems`. -/
  num_superdomain_elems : Nat
  /-- The counter `num_subdomain_extended_elems`. -/
  num_subdomain_extended_elems : Nat
  /-- The counter `num_superdomain_extended_elems`. -/
  num_superdomain_extended_elems : Nat
  /-- The host vector `work_hst[0]`. -/
  work_hst0 : Nat → Nat
  /-- The host vector `work_hst[1]`. -/
  work_hst1 : Nat → Nat
  /-- The device vector `work_dev[0]`. -/
  work_dev0 : Nat → Nat
  /-- The device vector `work_dev[1]`. -/
  work_dev1 : Nat → Nat
  /-- The member `subdomain_overlap`. -/
  subdomain_overlap : Int

/-- State at line 467: empty regions, zero counters. -/
def Regions.start (subdomain_overlap : Int) : Regions :=
  { subdomain_region := [], superdomain_region := [],
    subdomain_partition := fun _ => 0, superdomain_partition := fun _ => 0,
    num_subdomain_elems := 0, num_superdomain_elems := 0,
    num_subdomain_extended_elems := 0, num_superdomain_extended_elems := 0,
    work_hst0 := fun _ => 0, work_hst1 := fun _ => 0,
    work_dev0 := fun _ => 0, work_dev1 := fun _ => 0,
    subdomain_overlap := subdomain_overlap }

/-- Body of the loop of lines 468-474 (`offset` is `proc_offset[proc_id]`). -/
def owned_step (poly_degree : List Int) (offset : Nat) (s : Regions) (e : Nat) : Regions :=
  { s with
    subdomain_region := s.subdomain_region ++ [⟨offset + e, poly_degree.getD 0 0⟩],
    subdomain_partition := vset s.subdomain_partition (offset + e) (s.num_subdomain_elems + 1),
    num_subdomain_elems := s.num_subdomain_elems + 1,
    num_subdomain_extended_elems := s.num_subdomain_extended_elems + 1 }

/-- Body of the loop of lines 479-483. -/
def mark_step (offset : Nat) (s : Regions) (e : Nat) : Regions :=
  { s with
    work_hst0 := vset s.work_hst0 (offset + e) 1,
    work_hst1 := vset s.work_hst1 (offset + e) (e + 1) }

/-- Body of the loop of lines 489-493: one expander application. -/
def expand_step (m : Mesh) (s : Regions) (_nu : Nat) : Regions :=
  { s with
    work_dev1 := m.expander.multiply s.work_dev0,
    work_dev0 := m.expander.multiply s.work_dev0 }

/-- Body of the loop of lines 497-507 for the level of degree `degree`. -/
def collect_step (degree : Int) (s : Regions) (e : Nat) : Regions :=
  if 0 < s.work_hst0 e ∧ s.work_hst1 e = 0 then
    { s with
      work_hst1 := vset s.work_hst1 e s.num_subdomain_elems,
      subdomain_region := s.subdomain_region ++ [⟨e, degree⟩],
      subdomain_partition := vset s.subdomain_partition e (s.num_subdomain_elems + 1),
      num_subdomain_elems := s.num_subdomain_elems + 1,
      num_subdomain_extended_elems := s.num_subdomain_extended_elems + 1 }
  else s

/-- Body of the level loop of lines 487-510. -/
def level_step (m : Mesh) (poly_degree : List Int) (s : Regions) (l : Nat) : Regions :=
  let s1 := (List.range s.subdomain_overlap.toNat).foldl (expand_step m) s
  let s2 := { s1 with work_hst0 := s1.work_dev0 }
  let s3 := (List.range m.num_total_elements).foldl (collect_step (poly_degree.getD l 0)) s2
  if s3.subdomain_overlap = 0 then { s3 with subdomain_overlap := 1 } else s3

/-- Body of the loop of lines 515-531; `degree` is
`poly_degree[num_levels - 1]`. -/
def remainder_step (degree : Int) (s : Regions) (e : Nat) : Regions :=
  if s.work_hst1 e = 0 then
    let s1 : Regions :=
      if 0 < s.work_hst0 e then
        { s with
          subdomain_region := s.subdomain_region ++ [⟨e, degree⟩],
          subdomain_partition :=
            vset s.subdomain_partition e (s.num_subdomain_extended_elems + 1),
          num_subdomain_extended_elems := s.num_subdomain_extended_elems + 1 }
      else s
    { s1 with
      superdomain_region := s1.superdomain_region ++ [⟨e, degree⟩],
      superdomain_partition := vset s1.superdomain_partition e (s1.num_superdomain_elems + 1),
      num_superdomain_elems := s1.num_superdomain_elems + 1,
      num_superdomain_extended_elems := s1.num_superdomain_extended_elems + 1 }
  else s

/-- Body of the loop of lines 533-539. -/
def indicator_step (s : Regions) (e : Nat) : Regions :=
  { s with work_hst0 := vset s.work_hst0 e (if s.work_hst1 e = 0 then 1 else 0) }

/-- Body of the loop of lines 545-553. -/
def overlap_step (degree : Int) (s : Regions) (e : Nat) : Regions :=
  if 0 < s.work_hst0 e ∧ 0 < s.work_hst1 e then
    { s with
      superdomain_region := s.superdomain_region ++ [⟨e, degree⟩],
      superdomain_partition :=
        vset s.superdomain_partition e (s.num_superdomain_extended_elems + 1),
      num_superdomain_extended_elems := s.num_superdomain_extended_elems + 1 }
  else s

/-- State after the level loop (lines 462-510). -/
def grow_regions (m : Mesh) (offset num_local_elements : Nat) (poly_degree : List Int)
    (subdomain_overlap : Int) : Regions :=
  let s0 := (List.range num_local_elements).foldl (owned_step poly_degree offset)
    (Regions.start subdomain_overlap)
  let s1 := (List.range num_local_elements).foldl (mark_step offset)
    { s0 with work_hst0 := fun _ => 0, work_hst1 := fun _ => 0 }
  let s2 := { s1 with work_dev0 := s1.work_hst0 }
  (List.range poly_degree.length).foldl (level_step m poly_degree) s2

/-- The region construction of the constructor (lines 462-553) for the process
that owns the `num_local_elements` elements from `offset` on. -/
def build_regions (m : Mesh) (offset num_local_elements : Nat) (poly_degree : List Int)
    (subdomain_overlap : Int) : Regions :=
  let degree := poly_degree.getD (poly_degree.length - 1) 0
  let s3 := grow_regions m offset num_local_elements poly_degree subdomain_overlap
  let s4 := { s3 with
    work_dev1 := m.expander.multiply s3.work_dev0,
    work_hst0 := m.expander.multiply s3.work_dev0 }
  let s5 := (List.range m.num_total_elements).foldl (remainder_step degree) s4
  let s6 := (List.range m.num_total_elements).foldl indicator_step s5
  let s7 := { s6 with
    work_dev0 := s6.work_hst0,
    work_dev1 := m.expander.multiply s6.work_hst0,
    work_hst0 := m.expander.multiply s6.work_hst0 }
  (List.range m.num_total_elements).foldl (overlap_step degree) s7

/-- State at the start of pass `l` of the level loop of lines 487-510: the
state of `grow_regions` with the loop stopped before pass `l`. -/
def level_entry (m : Mesh) (offset num_local_elements : Nat) (poly_degree : List Int)
    (subdomain_overlap : Int) (l : Nat) : Regions :=
  let s0 := (List.range num_local_elements).foldl (owned_step poly_degree offset)
    (Regions.start subdomain_overlap)
  let s1 := (List.range num_local_elements).foldl (mark_step offset)
    { s0 with work_hst0 := fun _ => 0, work_hst1 := fun _ => 0 }
  let s2 := { s1 with work_dev0 := s1.work_hst0 }
  (List.range l).foldl (level_step m poly_degree) s2

/-- Number of passes of the loop `for (nu = 0; nu < subdomain_overlap; nu++)`
(lines 489-493) in pass `l` of the level loop: the value of the member
`subdomain_overlap` at the start of the pass. -/
def expander_applications (m : Mesh) (offset num_local_elements : Nat)
    (poly_degree : List Int) (subdomain_overlap : Int) (l : Nat) : Nat :=
  (level_entry m offset num_local_elements poly_degree subdomain_overlap l).subdomain_overlap.toNat

/-- The element ids of a region, in list order. -/
def ids (region : List Element) : List Nat := region.map Element.id

/-- A `2 x 2` mesh of quadrilaterals on the `3 x 3` vertex grid `1..9`. -/
def mesh_2x2 : Mesh :=
  { dim := 2, num_total_elements := 4,
    geometry_mesh := fun i =>
      ([1, 2, 4, 5, 2, 3, 5, 6, 4, 5, 7, 8, 5, 6, 8, 9] : List Int).getD i 0 }

/-- A strip of five quadrilaterals in a row on the `6 x 2` vertex grid
`1..12`. -/
def mesh_strip : Mesh :=
  { dim := 2, num_total_elements := 5,
    geometry_mesh := fun i =>
      ([1, 2, 7, 8, 2, 3, 8, 9, 3, 4, 9, 10, 4, 5, 10, 11, 5, 6, 11, 12] : List Int).getD i 0 }

/-! ### Continuity operators and direct stiffness summation
(lines 1496-1585, 2673-2729, 3970-3985) -/

/-- An element of a region together with the numbering arrays the operator
assembly reads: `num_points`, `offset`, `loc_num` and `dof_num`. -/
structure NodalElement extends Element where
  /-- Number of points of the element. -/
  num_points : Nat
  /-- Offset of the element in the flat point buffer. -/
  offset : Nat
  /-- The array `loc_num` (line 725: `offset + v`). -/
  loc_num : Nat → Nat
  /-- The array `dof_num` after the final ranking. -/
  dof_num : Nat → Int

/-- The running maximum `num_dofs = max(num_dofs, dof)` over the `dof_num`
entries of the elements (lines 1504-1508 and 1591-1598). -/
def max_dof (elements : List NodalElement) : Int :=
  elements.foldl (fun acc elem =>
    (List.range elem.num_points).foldl (fun a v => max a (elem.dof_num v)) acc) 0

/-- The matrix `Q` of one region (lines 1502-1581).  The unit entries of the
loop "Vertices" (lines 1518-1520) are embedded; the interpolation entries of
the loops "Edges" and "Faces", which exist only next to a neighbour of lower
degree, are the parameter `hanging_entries`.  `assemble` does not depend on
the order of the `add_entry` calls. -/
def assemble_Q {α : Type} [Semiring α] (elements : List NodalElement)
    (hanging_entries : List (Nat × Nat × α)) : CSR_Matrix α :=
  CSR_Matrix.assemble
    ⟨(match elements.getLast? with
      | some elem => elem.offset + elem.num_points
      | none => 0),
     (max_dof elements).toNat,
     elements.flatMap (fun elem_i =>
        ((List.range elem_i.num_points).filter (fun vid => 0 < elem_i.dof_num vid)).map
          (fun vid => (elem_i.loc_num vid, (elem_i.dof_num vid - 1).toNat, 1)))
      ++ hanging_entries⟩

/-- The inputs of the assembly of `QQt_int` (lines 2673-2729). -/
structure Composite where
  /-- The local `num_vertices`. -/
  num_vertices : Nat
  /-- The vector `subdomain_region`. -/
  subdomain_region : List NodalElement
  /-- The vector `superdomain_region`. -/
  superdomain_region : List NodalElement
  /-- The counter `num_subdomain_elems`. -/
  num_subdomain_elems : Nat
  /-- The counter `num_subdomain_extended_elems`. -/
  num_subdomain_extended_elems : Nat
  /-- The counter `num_superdomain_elems`. -/
  num_superdomain_elems : Nat
  /-- The counter `num_superdomain_extended_elems`. -/
  num_superdomain_extended_elems : Nat
  /-- The vector `subdomain_partition`. -/
  subdomain_partition : Nat → Nat
  /-- The vector `dof_num_coarse` after the coarse ranking. -/
  dof_num_coarse : Nat → Int
  /-- The vector `dof_sup`. -/
  dof_sup : Nat → Int
  /-- The member `subdomain_operator.num_dofs`. -/
  sub_num_dofs : Nat
  /-- The member `subdomain_operator.num_extended_dofs`. -/
  sub_num_extended_dofs : Nat
  /-- The member `superdomain_operator.num_dofs`. -/
  sup_num_dofs : Nat
  /-- The member `superdomain_operator.num_extended_dofs`. -/
  sup_num_extended_dofs : Nat
  /-- The member `num_interface_dofs`. -/
  num_interface_dofs : Nat

/-- A default element for an index outside a region list. -/
def NodalElement.absent : NodalElement :=
  { id := 0, poly_degree := 0, num_points := 0, offset := 0,
    loc_num := fun _ => 0, dof_num := fun _ => 0 }

/-- State of the assembly of `QQt_int`: the matrix and the flags written
to `work_hst[0]`. -/
structure QQtState (α : Type) where
  /-- The matrix `QQt_int`. -/
  QQt_int : CSR_Matrix α
  /-- The flags `work_hst[0][i]` (`0.0` or `1.0`). -/
  work_hst0 : Nat → Nat

/-- Body of the loop of lines 2677-2681. -/
def qqt_owned_step {α : Type} [Semiring α] (s : QQtState α) (i : Nat) : QQtState α :=
  ⟨s.QQt_int.add_entry i i 1, vset s.work_hst0 i 1⟩

/-- Body of the inner loop of lines 2687-2694 for the extended Subdomain
element `elem`. -/
def qqt_extended_step {α : Type} [Semiring α] (c : Composite) (elem : NodalElement)
    (s : QQtState α) (v : Nat) : QQtState α :=
  if 0 < elem.dof_num v ∧ s.work_hst0 (elem.dof_num v - 1).toNat = 0 then
    ⟨s.QQt_int.add_entry (elem.dof_num v - 1).toNat
        ((c.sub_num_extended_dofs : Int) +
          c.dof_sup (c.dof_num_coarse (elem.id * c.num_vertices + v) - 1).toNat - 1).toNat 1,
      vset s.work_hst0 (elem.dof_num v - 1).toNat 1⟩
  else s

/-- Body of the loop of lines 2697-2701. -/
def qqt_interface_step {α : Type} [Semiring α] (c : Composite) (s : QQtState α) (i : Nat) :
    QQtState α :=
  ⟨s.QQt_int.add_entry (c.sub_num_extended_dofs + i)
      ((c.sub_num_dofs : Int) - c.num_interface_dofs + i).toNat 1,
    vset s.work_hst0 (c.sub_num_extended_dofs + i) 1⟩

/-- Body of the loop of lines 2703-2707. -/
def qqt_remainder_step {α : Type} [Semiring α] (c : Composite) (s : QQtState α) (i : Nat) :
    QQtState α :=
  ⟨s.QQt_int.add_entry (c.sub_num_extended_dofs + i) (c.sub_num_extended_dofs + i) 1,
    vset s.work_hst0 (c.sub_num_extended_dofs + i) 1⟩

/-- Body of the inner loop of lines 2714-2726 for the Superdomain overlap
element `elem`, with `slem` its Subdomain copy. -/
def qqt_ring_step {α : Type} [Semiring α] (c : Composite) (elem slem : NodalElement)
    (s : QQtState α) (v : Nat) : QQtState α :=
  if 0 < c.dof_num_coarse (elem.id * c.num_vertices + v) then
    if s.work_hst0 ((c.sub_num_extended_dofs : Int) +
        c.dof_sup (c.dof_num_coarse (elem.id * c.num_vertices + v) - 1).toNat - 1).toNat = 0 then
      ⟨s.QQt_int.add_entry
          ((c.sub_num_extended_dofs : Int) +
            c.dof_sup (c.dof_num_coarse (elem.id * c.num_vertices + v) - 1).toNat - 1).toNat
          (slem.dof_num v - 1).toNat 1,
        vset s.work_hst0 ((c.sub_num_extended_dofs : Int) +
          c.dof_sup (c.dof_num_coarse (elem.id * c.num_vertices + v) - 1).toNat - 1).toNat 1⟩
    else s
  else s

/-- The matrix `QQt_int` built by lines 2673-2729. -/
def assemble_QQt_int {α : Type} [Semiring α] (c : Composite) : CSR_Matrix α :=
  let s0 : QQtState α :=
    ⟨CSR_Matrix.empty (c.sub_num_extended_dofs + c.sup_num_extended_dofs)
        (c.sub_num_extended_dofs + c.sup_num_extended_dofs), fun _ => 0⟩
  let s1 := (List.range c.sub_num_dofs).foldl qqt_owned_step s0
  let s2 := (List.range' c.num_subdomain_elems
      (c.num_subdomain_extended_elems - c.num_subdomain_elems)).foldl
    (fun s e =>
      (List.range (c.subdomain_region.getD e NodalElement.absent).num_points).foldl
        (qqt_extended_step c (c.subdomain_region.getD e NodalElement.absent)) s) s1
  let s3 := (List.range c.num_interface_dofs).foldl (qqt_interface_step c) s2
  let s4 := (List.range' c.num_interface_dofs
      (c.sup_num_dofs - c.num_interface_dofs)).foldl (qqt_remainder_step c) s3
  let s5 := (List.range' c.num_superdomain_elems
      (c.num_superdomain_extended_elems - c.num_superdomain_elems)).foldl
    (fun s e =>
      (List.range (c.superdomain_region.getD e NodalElement.absent).num_points).foldl
        (qqt_ring_step c (c.superdomain_region.getD e NodalElement.absent)
          (c.subdomain_region.getD
            (c.subdomain_partition (c.superdomain_region.getD e NodalElement.absent).id - 1)
            NodalElement.absent)) s) s4
  s5.QQt_int.assemble

/-- The member function `direct_stiffness_summation(QQtu, u)` (lines
3970-3985).  `Q`, `Qt` are `subdomain_operator.Q`, `subdomain_operator.Qt`;
`num_points`, `sub_ned` and `sup_ned` are `subdomain_operator.num_points`,
`subdomain_operator.num_extended_dofs` and
`superdomain_operator.num_extended_dofs`.  The result is `QQtu`; entries of
the scratch vectors outside the written ranges are never read. -/
def direct_stiffness_summation {α : Type} [Semiring α] (Q Qt QQt_int : CSR_Matrix α)
    (num_points sub_ned sup_ned : Nat) (u : Nat → α) : Nat → α :=
  let u_sub_l : Nat → α := u
  let u_sup : Nat → α := fun i => u (num_points + i)
  let work_dev0 : Nat → α := fun i =>
    if sub_ned ≤ i ∧ i < sub_ned + sup_ned then u_sup (i - sub_ned) else Qt.multiply u_sub_l i
  let work_dev1 : Nat → α := QQt_int.multiply work_dev0
  fun i =>
    if i < num_points then Q.multiply work_dev1 i
    else if i < num_points + sup_ned then work_dev1 (sub_ned + (i - num_points))
    else 0

/-- Two bilinear elements side by side on one process: points `0..3` and
`4..7`, DOFs `1..6`, the points `1, 3` of the first element and `0, 2` of the
second carrying the shared DOFs `2` and `4`. -/
def two_elements : List NodalElement :=
  [{ id := 0, poly_degree := 1, num_points := 4, offset := 0,
     loc_num := fun v => 0 + v, dof_num := fun v => ([1, 2, 3, 4] : List Int).getD v 0 },
   { id := 1, poly_degree := 1, num_points := 4, offset := 4,
     loc_num := fun v => 4 + v, dof_num := fun v => ([2, 5, 4, 6] : List Int).getD v 0 }]

/-- The composite data of `two_elements`: both elements owned, empty
Superdomain, six DOFs, no interface. -/
def two_elements_composite : Composite :=
  { num_vertices := 4, subdomain_region := two_elements, superdomain_region := [],
    num_subdomain_elems := 2, num_subdomain_extended_elems := 2,
    num_superdomain_elems := 0, num_superdomain_extended_elems := 0,
    subdomain_partition := fun e => e + 1,
    dof_num_coarse := fun i => ([1, 2, 3, 4, 2, 5, 4, 6] : List Int).getD i 0,
    dof_sup := fun _ => 0,
    sub_num_dofs := 6, sub_num_extended_dofs := 6, sup_num_dofs := 0,
    sup_num_extended_dofs := 0, num_interface_dofs := 0 }

/-- The composite data of two bilinear elements side by side, the first
owned by the Subdomain and the second by the Superdomain, each region holding
the other element as its overlap: coarse DOFs `1..6`, Subdomain DOFs
`[1, 3, 2, 4]` and `[3, 5, 4, 6]` (owned `1..4`, interface `3, 4`), Superdomain
DOFs `[1, 3, 2, 4]` and `[5, 1, 6, 2]` (owned `1..4`, interface `1, 2`). -/
def overlap_composite : Composite :=
  { num_vertices := 4,
    subdomain_region :=
      [{ id := 0, poly_degree := 1, num_points := 4, offset := 0,
         loc_num := fun v => 0 + v, dof_num := fun v => ([1, 3, 2, 4] : List Int).getD v 0 },
       { id := 1, poly_degree := 1, num_points := 4, offset := 4,
         loc_num := fun v => 4 + v, dof_num := fun v => ([3, 5, 4, 6] : List Int).getD v 0 }],
    superdomain_region :=
      [{ id := 1, poly_degree := 1, num_points := 4, offset := 0,
         loc_num := fun v => 0 + v, dof_num := fun v => ([1, 3, 2, 4] : List Int).getD v 0 },
       { id := 0, poly_degree := 1, num_points := 4, offset := 4,
         loc_num := fun v => 4 + v, dof_num := fun v => ([5, 1, 6, 2] : List Int).getD v 0 }],
    num_subdomain_elems := 1, num_subdomain_extended_elems := 2,
    num_superdomain_elems := 1, num_superdomain_extended_elems := 2,
    subdomain_partition := fun e => e + 1,
    dof_num_coarse := fun i => ([1, 2, 3, 4, 2, 5, 4, 6] : List Int).getD i 0,
    dof_sup := fun i => ([5, 1, 6, 2, 3, 4] : List Int).getD i 0,
    sub_num_dofs := 4, sub_num_extended_dofs := 6, sup_num_dofs := 4,
    sup_num_extended_dofs := 6, num_interface_dofs := 2 }

/-! ### Global numbering of the regions (lines 810-843 and 920-1176) -/

/-- An element of a region during the numbering: the record of
`NodalElement` together with the point counts per direction `n_x`, `n_y`,
`n_z`, the arrays `glo_num` and `dirichlet_mask`, and the region-local
neighbour sets `edge_conn[eid]`, `face_conn[fid]` filled by lines 846-878.
Before the final ranking `dof_num` holds the interface marks of lines
832-843.  The mask is `0.0` or `1.0` in the code and an integer here. -/
structure RegionElement extends NodalElement where
  /-- Points per direction x. -/
  n_x : Nat
  /-- Points per direction y. -/
  n_y : Nat
  /-- Points per direction z. -/
  n_z : Nat
  /-- The array `glo_num`. -/
  glo_num : Nat → Int
  /-- The array `dirichlet_mask`. -/
  dirichlet_mask : Nat → Int
  /-- The sets `edge_conn[eid]` of region-local element indices. -/
  edge_conn : Nat → List Nat
  /-- The sets `face_conn[fid]` of region-local element indices. -/
  face_conn : Nat → List Nat

/-- A default element for an index outside a region list. -/
def RegionElement.absent : RegionElement :=
  { NodalElement.absent with
    n_x := 0, n_y := 0, n_z := 0, glo_num := fun _ => 0, dirichlet_mask := fun _ => 0,
    edge_conn := fun _ => [], face_conn := fun _ => [] }

/-- The loop `for (v = 0; v < n; v++) if (c(v)) a[v] = f(v, a[v]);`. -/
def update_points {α : Type} (n : Nat) (c : Nat → Bool) (f : Nat → α → α) (a : Nat → α) :
    Nat → α :=
  (List.range n).foldl (fun a v => if c v then vset a v (f v (a v)) else a) a

/-- The assignment `m[k] = a` on a map with integer keys; a key that was
never written reads as `0`, as `operator[]` of `std::unordered_map` gives. -/
def kset (m : Int → Int) (k a : Int) : Int → Int :=
  fun j => if j = k then a else m j

/-- The map `global_offset` of lines 921-924.  `std::pow` is evaluated on
small integers, where it is exact. -/
def global_offset (num_total_elements : Int) (dim : Nat) (poly_degree : List Int) : Int → Int :=
  (List.range' 1 (poly_degree.length - 1)).foldl
    (fun g l => kset g (poly_degree.getD l 0)
      (g (poly_degree.getD (l - 1) 0)
        + num_total_elements * (poly_degree.getD (l - 1) 0 + 1) ^ dim))
    (kset (fun _ => 0) (poly_degree.getD 0 0) 0)

/-- The indices of the corner nodes read at lines 930-933 (`dim == 2`) and
947-954, in the order of the vector `corners`. -/
def corner_indices (dim : Nat) (elem : RegionElement) : List Nat :=
  if dim = 2 then
    [0 + 0 * elem.n_x,
     (elem.n_x - 1) + 0 * elem.n_x,
     0 + (elem.n_y - 1) * elem.n_x,
     (elem.n_x - 1) + (elem.n_y - 1) * elem.n_x]
  else
    [0 + 0 * elem.n_x + 0 * elem.n_x * elem.n_y,
     (elem.n_x - 1) + 0 * elem.n_x + 0 * elem.n_x * elem.n_y,
     0 + (elem.n_y - 1) * elem.n_x + 0 * elem.n_x * elem.n_y,
     (elem.n_x - 1) + (elem.n_y - 1) * elem.n_x + 0 * elem.n_x * elem.n_y,
     0 + 0 * elem.n_x + (elem.n_z - 1) * elem.n_x * elem.n_y,
     (elem.n_x - 1) + 0 * elem.n_x + (elem.n_z - 1) * elem.n_x * elem.n_y,
     0 + (elem.n_y - 1) * elem.n_x + (elem.n_z - 1) * elem.n_x * elem.n_y,
     (elem.n_x - 1) + (elem.n_y - 1) * elem.n_x + (elem.n_z - 1) * elem.n_x * elem.n_y]

/-- Body of the loops over `subdomain_region` of lines 928-941 and 945-966:
save the corner ids, add `global_offset[elem.poly_degree]` to every entry,
write the saved corner ids back. -/
def offset_step (dim : Nat) (global_offset : Int → Int) (elem : RegionElement) :
    RegionElement :=
  let corners := (corner_indices dim elem).map elem.glo_num
  let shifted := update_points elem.num_points (fun _ => true)
    (fun _ g => g + global_offset elem.poly_degree) elem.glo_num
  { elem with
    glo_num := ((corner_indices dim elem).zip corners).foldl
      (fun g p => vset g p.1 p.2) shifted }

/-- The indices written by the branch `eid` of lines 984-994 (`dim == 2`) and
1017-1051: the nodes of edge `eid` of `elem` between its two corners. -/
def edge_interior (dim : Nat) (elem : RegionElement) (eid : Nat) : List Nat :=
  if dim = 2 then
    if eid = 0 then (List.range' 1 (elem.n_x - 2)).map (fun i => i + 0 * elem.n_x)
    else if eid = 1 then
      (List.range' 1 (elem.n_x - 2)).map (fun i => i + (elem.n_y - 1) * elem.n_x)
    else if eid = 2 then (List.range' 1 (elem.n_y - 2)).map (fun j => 0 + j * elem.n_x)
    else if eid = 3 then
      (List.range' 1 (elem.n_y - 2)).map (fun j => (elem.n_x - 1) + j * elem.n_x)
    else []
  else
    if eid = 0 then
      (List.range' 1 (elem.n_x - 2)).map
        (fun i => i + 0 * elem.n_x + 0 * (elem.n_x * elem.n_y))
    else if eid = 1 then
      (List.range' 1 (elem.n_x - 2)).map
        (fun i => i + (elem.n_y - 1) * elem.n_x + 0 * (elem.n_x * elem.n_y))
    else if eid = 2 then
      (List.range' 1 (elem.n_y - 2)).map
        (fun j => 0 + j * elem.n_x + 0 * (elem.n_x * elem.n_y))
    else if eid = 3 then
      (List.range' 1 (elem.n_y - 2)).map
        (fun j => (elem.n_x - 1) + j * elem.n_x + 0 * (elem.n_x * elem.n_y))
    else if eid = 4 then
      (List.range' 1 (elem.n_x - 2)).map
        (fun i => i + 0 * elem.n_x + (elem.n_z - 1) * (elem.n_x * elem.n_y))
    else if eid = 5 then
      (List.range' 1 (elem.n_x - 2)).map
        (fun i => i + (elem.n_y - 1) * elem.n_x + (elem.n_z - 1) * (elem.n_x * elem.n_y))
    else if eid = 6 then
      (List.range' 1 (elem.n_y - 2)).map
        (fun j => 0 + j * elem.n_x + (elem.n_z - 1) * (elem.n_x * elem.n_y))
    else if eid = 7 then
      (List.range' 1 (elem.n_y - 2)).map
        (fun j => (elem.n_x - 1) + j * elem.n_x + (elem.n_z - 1) * (elem.n_x * elem.n_y))
    else if eid = 8 then
      (List.range' 1 (elem.n_z - 2)).map
        (fun k => 0 + 0 * elem.n_x + k * (elem.n_x * elem.n_y))
    else if eid = 9 then
      (List.range' 1 (elem.n_z - 2)).map
        (fun k => (elem.n_x - 1) + 0 * elem.n_x + k * (elem.n_x * elem.n_y))
    else if eid = 10 then
      (List.range' 1 (elem.n_z - 2)).map
        (fun k => 0 + (elem.n_y - 1) * elem.n_x + k * (elem.n_x * elem.n_y))
    else if eid = 11 then
      (List.range' 1 (elem.n_z - 2)).map
        (fun k => (elem.n_x - 1) + (elem.n_y - 1) * elem.n_x + k * (elem.n_x * elem.n_y))
    else []

/-- The indices written by the branch `fid` of lines 1064-1092: the nodes of
face `fid` of `elem` inside its four edges. -/
def face_interior (elem : RegionElement) (fid : Nat) : List Nat :=
  if fid = 0 then
    (List.range' 1 (elem.n_y - 2)).flatMap (fun j =>
      (List.range' 1 (elem.n_x - 2)).map
        (fun i => i + j * elem.n_x + 0 * (elem.n_x * elem.n_y)))
  else if fid = 1 then
    (List.range' 1 (elem.n_y - 2)).flatMap (fun j =>
      (List.range' 1 (elem.n_x - 2)).map
        (fun i => i + j * elem.n_x + (elem.n_z - 1) * (elem.n_x * elem.n_y)))
  else if fid = 2 then
    (List.range' 1 (elem.n_z - 2)).flatMap (fun k =>
      (List.range' 1 (elem.n_x - 2)).map
        (fun i => i + 0 * elem.n_x + k * (elem.n_x * elem.n_y)))
  else if fid = 3 then
    (List.range' 1 (elem.n_z - 2)).flatMap (fun k =>
      (List.range' 1 (elem.n_x - 2)).map
        (fun i => i + (elem.n_y - 1) * elem.n_x + k * (elem.n_x * elem.n_y)))
  else if fid = 4 then
    (List.range' 1 (elem.n_z - 2)).flatMap (fun k =>
      (List.range' 1 (elem.n_y - 2)).map
        (fun j => 0 + j * elem.n_x + k * (elem.n_x * elem.n_y)))
  else if fid = 5 then
    (List.range' 1 (elem.n_z - 2)).flatMap (fun k =>
      (List.range' 1 (elem.n_y - 2)).map
        (fun j => (elem.n_x - 1) + j * elem.n_x + k * (elem.n_x * elem.n_y)))
  else []

/-- The loops over `eid` and `e_j` of lines 976-996 and 1009-1053 (with
`interior = edge_interior dim elem_i`, `conn = elem_i.edge_conn`, `count =
num_edges`) and over `fid` and `e_j` of lines 1056-1094 (with `face_interior`,
`face_conn`, `num_faces`): for every neighbour of strictly lower degree the
listed entries of `glo_num` are set to `0`. -/
def zero_loop (region : List RegionElement) (elem_i : RegionElement)
    (interior : Nat → List Nat) (conn : Nat → List Nat) (count : Nat) (glo_num : Nat → Int) :
    Nat → Int :=
  (List.range count).foldl (fun g id =>
    (conn id).foldl (fun g e_j =>
      if (region.getD e_j RegionElement.absent).poly_degree < elem_i.poly_degree then
        (interior id).foldl (fun g v => vset g v 0) g
      else g) g) glo_num

/-- Body of the loops over `elem_i` of lines 971-997 (`dim == 2`, edges only)
and 1002-1096 (edges, then faces). -/
def zero_step (dim : Nat) (region : List RegionElement) (elem_i : RegionElement) :
    RegionElement :=
  if dim = 2 then
    { elem_i with
      glo_num := zero_loop region elem_i (edge_interior dim elem_i) elem_i.edge_conn 4
        elem_i.glo_num }
  else
    { elem_i with
      glo_num := zero_loop region elem_i (face_interior elem_i) elem_i.face_conn 6
        (zero_loop region elem_i (edge_interior dim elem_i) elem_i.edge_conn 12
          elem_i.glo_num) }

/-- The zeroing of lines 969-1098 over `subdomain_region`.  The step of one
element reads only the degrees of the others, which the step never writes, so
the loop in place is a map over the region. -/
def zero_stage (dim : Nat) (region : List RegionElement) : List RegionElement :=
  region.map (zero_step dim region)

/-- Body of the loops of lines 832-836 and 838-843: `dof_num[v] = glo_num[v]`
at the nodes whose id is in `interface_glo_num`. -/
def mark_interface (interface : List Int) (elem : RegionElement) : RegionElement :=
  { elem with
    dof_num := update_points elem.num_points (fun v => elem.glo_num v ∈ interface)
      (fun v _ => elem.glo_num v) elem.dof_num }

/-- Line 2582: `num_interface_dofs = interface_glo_num.size()`. -/
def num_interface_dofs (interface : List Int) : Nat := interface.length

/-- The running maximum `max = std::max(max, glo)` over all `glo_num`
entries of a region (lines 1103-1105, 1113-1115, 1129-1131, 1138-1140). -/
def max_glo (init : Int) (region : List RegionElement) : Int :=
  region.foldl (fun m elem =>
    (List.range elem.num_points).foldl (fun m v => max m (elem.glo_num v)) m) init

/-- The loop `for v: if (cond(v)) elem.glo_num[v] += amount`. -/
def shift_glo (cond : RegionElement → Nat → Bool) (amount : Int) (elem : RegionElement) :
    RegionElement :=
  { elem with
    glo_num := update_points elem.num_points (cond elem) (fun _ g => g + amount)
      elem.glo_num }

/-- Body of the loop of lines 1107-1111: in an element of degree 1 the nodes
with a positive interface mark are moved up by `amount`. -/
def shift_marked (amount : Int) (elem : RegionElement) : RegionElement :=
  if elem.poly_degree = 1 then shift_glo (fun el v => 0 < el.dof_num v) amount elem
  else elem

/-- Body of the loops of lines 1117-1123, 1133-1136 and 1142-1149: the
unmasked nodes without an interface mark are moved up by `amount`. -/
def shift_unmarked (amount : Int) (elem : RegionElement) : RegionElement :=
  shift_glo (fun el v => 0 < el.dirichlet_mask v ∧ el.dof_num v = 0) amount elem

/-- Lines 1101-1123: in the Subdomain region the marked nodes of the elements
of degree 1 are moved above every id, then the unmasked, unmarked nodes of the
extended elements above those. -/
def mark_subdomain (num_subdomain_elems : Nat) (region : List RegionElement) :
    List RegionElement :=
  let max1 := max_glo 0 region
  let r1 := region.map (shift_marked max1)
  let max2 := max_glo max1 r1
  r1.take num_subdomain_elems ++
    (r1.drop num_subdomain_elems).map (shift_unmarked max2)

/-- Lines 1126-1149: in the Superdomain region every unmasked, unmarked node
is moved above every id, and those of the overlap elements once more. -/
def mark_superdomain (num_superdomain_elems : Nat) (region : List RegionElement) :
    List RegionElement :=
  let max1 := max_glo 0 region
  let r1 := region.map (shift_unmarked max1)
  let max2 := max_glo max1 r1
  r1.take num_superdomain_elems ++
    (r1.drop num_superdomain_elems).map (shift_unmarked max2)

/-- The loops `work_hst[0][elem.offset + v] = val(elem, v)` over a region
(lines 1157-1159 and 1167-1169). -/
def scatter (region : List RegionElement) (val : RegionElement → Nat → Int)
    (work : Nat → Int) : Nat → Int :=
  region.foldl (fun w elem =>
    (List.range elem.num_points).foldl (fun w v => vset w (elem.offset + v) (val elem v)) w)
    work

/-- The call `ranking(work_hst[0], num_points)` on the work vector: the
list of the first `num_points` entries after the call. -/
def rank_work (work : Nat → Int) (num_points : Nat) : List Int :=
  ranking ((List.range num_points).map work) num_points

/-- The work vector whose first `num_points` entries are `ranks` and whose
other entries are those of `work`. -/
def ranked (ranks : List Int) (num_points : Nat) (work : Nat → Int) : Nat → Int :=
  fun i => if i < num_points then ranks.getD i 0 else work i

/-- The body of the loop over the regions of lines 1151-1176 for one region
with exact integers: the ids are ranked and read back into `glo_num`, then the
ranked ids times the mask are ranked and read into `dof_num`.
`final_ranking_DType` below has the conversions `(DType)` of lines 1159 and
1169 and the `DType` counter; the two agree when every id of the region is at
most `2 ^ T.digits` (`final_ranking_DType_exact`). -/
def final_ranking (region : List RegionElement) (num_points : Nat) (work_hst0 : Nat → Int) :
    List RegionElement :=
  let s1 := scatter region (fun elem v => elem.glo_num v) work_hst0
  let k1 := rank_work s1 num_points
  let r1 := region.map (fun elem =>
    { elem with
      glo_num := update_points elem.num_points (fun _ => true)
        (fun v _ => ranked k1 num_points s1 (elem.offset + v)) elem.glo_num })
  let s2 := scatter r1 (fun elem v => elem.glo_num v * elem.dirichlet_mask v)
    (ranked k1 num_points s1)
  let k2 := rank_work s2 num_points
  r1.map (fun elem =>
    { elem with
      toNodalElement :=
        { elem.toNodalElement with
          dof_num := update_points elem.num_points (fun _ => true)
            (fun v _ => ranked k2 num_points s2 (elem.offset + v)) elem.dof_num } })

/-- A biquadratic element (degree 2, 3 x 3 points) with the ids `10 + v`,
all points unmasked, whose edge 3 (the points 5 of its interior) faces the
element 1 of its region. -/
def quadratic_element : RegionElement :=
  { id := 0, poly_degree := 2, num_points := 9, offset := 0,
    loc_num := fun v => 0 + v, dof_num := fun _ => 0,
    n_x := 3, n_y := 3, n_z := 1, glo_num := fun v => 10 + v,
    dirichlet_mask := fun _ => 1,
    edge_conn := fun eid => if eid = 3 then [1] else [], face_conn := fun _ => [] }

/-- A bilinear element (degree 1, 2 x 2 points) to the right of
`quadratic_element`: its points 0 and 2 carry the ids 12 and 18 of the corners
2 and 8 of that element, and its edge 2 faces the element 0 of the region. -/
def bilinear_element : RegionElement :=
  { id := 1, poly_degree := 1, num_points := 4, offset := 9,
    loc_num := fun v => 9 + v, dof_num := fun _ => 0,
    n_x := 2, n_y := 2, n_z := 1,
    glo_num := fun v => ([12, 30, 18, 31] : List Int).getD v 0,
    dirichlet_mask := fun _ => 1,
    edge_conn := fun eid => if eid = 2 then [0] else [], face_conn := fun _ => [] }

/-- A Subdomain region of two elements, of degrees 2 and 1, sharing an edge;
both are non-extended. -/
def hanging_region : List RegionElement := [quadratic_element, bilinear_element]

/-- Lines 1101-1123 followed by the body of the loop of lines 1151-1176 for
the Subdomain region, with exact integers. -/
def number_subdomain (num_subdomain_elems : Nat) (subdomain_region : List RegionElement)
    (num_subdomain_extended_points : Nat) (work_hst0 : Nat → Int) : List RegionElement :=
  final_ranking (mark_subdomain num_subdomain_elems subdomain_region)
    num_subdomain_extended_points work_hst0

/-- Lines 1126-1149 followed by the body of the loop of lines 1151-1176 for
the Superdomain region, with exact integers. -/
def number_superdomain (num_superdomain_elems : Nat) (superdomain_region : List RegionElement)
    (num_superdomain_extended_points : Nat) (work_hst0 : Nat → Int) : List RegionElement :=
  final_ranking (mark_superdomain num_superdomain_elems superdomain_region)
    num_superdomain_extended_points work_hst0

/-- Four elements on a 2 x 2 grid, all in the Subdomain and none extended:
two biquadratic elements side by side (indices 0 and 1) below two bilinear
ones (indices 2 and 3).  The ids of the biquadratic elements are `1 + x + 5 y`
on the grid of their points, the bilinear elements share the corner ids 11,
13, 15 with them. -/
def nonconforming_region : List RegionElement :=
  [{ id := 0, poly_degree := 2, num_points := 9, offset := 0,
     loc_num := fun v => 0 + v, dof_num := fun _ => 0,
     n_x := 3, n_y := 3, n_z := 1,
     glo_num := fun v => ([1, 2, 3, 6, 7, 8, 11, 12, 13] : List Int).getD v 0,
     dirichlet_mask := fun _ => 1,
     edge_conn := fun eid => if eid = 1 then [2] else if eid = 3 then [1] else [],
     face_conn := fun _ => [] },
   { id := 1, poly_degree := 2, num_points := 9, offset := 9,
     loc_num := fun v => 9 + v, dof_num := fun _ => 0,
     n_x := 3, n_y := 3, n_z := 1,
     glo_num := fun v => ([3, 4, 5, 8, 9, 10, 13, 14, 15] : List Int).getD v 0,
     dirichlet_mask := fun _ => 1,
     edge_conn := fun eid => if eid = 1 then [3] else if eid = 2 then [0] else [],
     face_conn := fun _ => [] },
   { id := 2, poly_degree := 1, num_points := 4, offset := 18,
     loc_num := fun v => 18 + v, dof_num := fun _ => 0,
     n_x := 2, n_y := 2, n_z := 1,
     glo_num := fun v => ([11, 13, 20, 21] : List Int).getD v 0,
     dirichlet_mask := fun _ => 1,
     edge_conn := fun eid => if eid = 0 then [0] else if eid = 3 then [3] else [],
     face_conn := fun _ => [] },
   { id := 3, poly_degree := 1, num_points := 4, offset := 22,
     loc_num := fun v => 22 + v, dof_num := fun _ => 0,
     n_x := 2, n_y := 2, n_z := 1,
     glo_num := fun v => ([13, 15, 21, 22] : List Int).getD v 0,
     dirichlet_mask := fun _ => 1,
     edge_conn := fun eid => if eid = 0 then [1] else if eid = 2 then [2] else [],
     face_conn := fun _ => [] }]

/-- The member `num_dofs` of line 2583. -/
def composite_num_dofs (c : Composite) : Int :=
  (c.sub_num_dofs : Int) + c.sup_num_dofs - c.num_interface_dofs

/-- The contents of `work_hst[0]` copied to `norm_weight` (lines 2733-2736);
`work_hst0` is the vector before the four loops. -/
def norm_weight (c : Composite) (work_hst0 : Nat → Int) : Nat → Int :=
  let w1 := (List.range (c.sub_num_extended_dofs + c.sup_num_extended_dofs)).foldl
    (fun w i => vset w i 1) work_hst0
  let w2 := (List.range' c.sub_num_dofs (c.sub_num_extended_dofs - c.sub_num_dofs)).foldl
    (fun w i => vset w i 0) w1
  let w3 := (List.range c.num_interface_dofs).foldl
    (fun w i => vset w (c.sub_num_extended_dofs + i) 0) w2
  (List.range' c.sup_num_dofs (c.sup_num_extended_dofs - c.sup_num_dofs)).foldl
    (fun w i => vset w (c.sub_num_extended_dofs + i) 0) w3

/-! ### Multigrid level placement (lines 3499-3549) -/

/-- Line 3499: `level_cutoff = std::max(0, std::min(num_levels_fem - 2,
level_cutoff))`. -/
def clamp_level_cutoff (num_levels_fem level_cutoff : Int) : Int :=
  max 0 (min (num_levels_fem - 2) level_cutoff)

/-- The two values of `mem_loc`. -/
inductive MemLoc where
  | device
  | host
  deriving DecidableEq

/-- Line 3509: `mem_loc = (l <= level_cutoff) ? "device" : "host"`. -/
def level_mem_loc (level_cutoff l : Int) : MemLoc :=
  if l ≤ level_cutoff then MemLoc.device else MemLoc.host

/-- Line 3505: the size given to `R_fem` (and line 3504 to `P_fem`). -/
def R_fem_size (num_levels_fem : Int) : Int := num_levels_fem - 1

/-- The sum `global_offset[poly_degree[l]]` unfolded: the point counts
`num_total_elements * (poly_degree[k] + 1)^dim` of the levels `k < l`. -/
def offset_sum (num_total_elements : Int) (dim : Nat) (poly_degree : List Int) : Nat → Int
  | 0 => 0
  | l + 1 => offset_sum num_total_elements dim poly_degree l
      + num_total_elements * (poly_degree.getD l 0 + 1) ^ dim

/-- The node `v` of `elem_i` lies inside an edge (or, in 3-D, a face) of
`elem_i` across which `region` holds an element of strictly lower degree:
the condition under which lines 969-1098 write `glo_num[v] = 0`. -/
def Hanging (dim : Nat) (region : List RegionElement) (elem_i : RegionElement) (v : Nat) :
    Prop :=
  (∃ eid, eid < (if dim = 2 then 4 else 12) ∧ ∃ e_j ∈ elem_i.edge_conn eid,
    (region.getD e_j RegionElement.absent).poly_degree < elem_i.poly_degree ∧
    v ∈ edge_interior dim elem_i eid) ∨
  (dim ≠ 2 ∧ ∃ fid, fid < 6 ∧ ∃ e_j ∈ elem_i.face_conn fid,
    (region.getD e_j RegionElement.absent).poly_degree < elem_i.poly_degree ∧
    v ∈ face_interior elem_i fid)

/-- The offsets of a region are the prefix sums of its point counts, starting
at `start`, as lines 558-566 and 571-579 set them. -/
def Tiled : Nat → List RegionElement → Prop
  | _, [] => True
  | start, elem :: rest => elem.offset = start ∧ Tiled (start + elem.num_points) rest

/-- The counters `num_subdomain_extended_points` and
`num_superdomain_extended_points`: the sum of the point counts of a region. -/
def total_points (region : List RegionElement) : Nat :=
  (region.map (fun elem => elem.num_points)).sum

/-- The values `val(elem, v)` of all nodes of a region, element by element. -/
def node_values (region : List RegionElement) (val : RegionElement → Nat → Int) : List Int :=
  region.flatMap (fun elem => (List.range elem.num_points).map (val elem))

/-- The values ranked by the first pass of the final ranking. -/
def pass1_values (region : List RegionElement) : List Int :=
  node_values region (fun elem v => elem.glo_num v)

/-- The values ranked by the second pass of the final ranking. -/
def pass2_values (region : List RegionElement) : List Int :=
  node_values region
    (fun elem v => rank_of (pass1_values region) (elem.glo_num v) * elem.dirichlet_mask v)

/-- The element `elem` after the final ranking of its region, in closed
form: `glo_num` holds the rank of the id among `ids1`, `dof_num` the rank of
that rank times the mask among `ids2`. -/
def ranked_element (ids1 ids2 : List Int) (elem : RegionElement) : RegionElement :=
  { elem with
    glo_num := fun v =>
      if v < elem.num_points then rank_of ids1 (elem.glo_num v) else elem.glo_num v,
    dof_num := fun v =>
      if v < elem.num_points then
        rank_of ids2 (rank_of ids1 (elem.glo_num v) * elem.dirichlet_mask v)
      else elem.dof_num v }

/-- The amount that lines 1101-1123 add to the id of node `v` of element `e`
of the Subdomain region: the first maximum on a marked node of an element of
degree 1, the second maximum on an unmasked, unmarked node of an extended
element, nothing elsewhere. -/
def sub_shift (n : Nat) (region : List RegionElement) (e v : Nat) : Int :=
  if (region.getD e RegionElement.absent).poly_degree = 1 ∧
      v < (region.getD e RegionElement.absent).num_points ∧
      0 < (region.getD e RegionElement.absent).dof_num v then
    max_glo 0 region
  else if n ≤ e ∧ v < (region.getD e RegionElement.absent).num_points ∧
      0 < (region.getD e RegionElement.absent).dirichlet_mask v ∧
      (region.getD e RegionElement.absent).dof_num v = 0 then
    max_glo (max_glo 0 region) (region.map (shift_marked (max_glo 0 region)))
  else 0

/-- The amount that lines 1126-1149 add to the id of node `v` of element `e`
of the Superdomain region: the first maximum on an unmasked, unmarked node,
and the second maximum as well when the element is an overlap element. -/
def sup_shift (n : Nat) (region : List RegionElement) (e v : Nat) : Int :=
  if v < (region.getD e RegionElement.absent).num_points ∧
      0 < (region.getD e RegionElement.absent).dirichlet_mask v ∧
      (region.getD e RegionElement.absent).dof_num v = 0 then
    if n ≤ e then
      max_glo 0 region
        + max_glo (max_glo 0 region) (region.map (shift_unmarked (max_glo 0 region)))
    else max_glo 0 region
  else 0

/-- The unit entries that the loop "Vertices" (lines 1512-1520) adds for one
element. -/
def unit_entries {α : Type} [Semiring α] (elem_i : NodalElement) : List (Nat × Nat × α) :=
  ((List.range elem_i.num_points).filter (fun vid => 0 < elem_i.dof_num vid)).map
    (fun vid => (elem_i.loc_num vid, (elem_i.dof_num vid - 1).toNat, 1))

/-- The nodes `v1` of element `e1` and `v2` of element `e2` of a numbered
region are one DOF: they carry the same positive `dof_num`, and when no
interpolation entry lies in their rows, each of their rows of `Q` is the
single unit entry in the column of that DOF and `Q u` agrees at both. -/
def Identified {α : Type} [Semiring α] (numbered : List RegionElement)
    (hanging_entries : List (Nat × Nat × α)) (e1 v1 e2 v2 : Nat) : Prop :=
  0 < (numbered.getD e1 RegionElement.absent).dof_num v1 ∧
  (numbered.getD e1 RegionElement.absent).dof_num v1
    = (numbered.getD e2 RegionElement.absent).dof_num v2 ∧
  ((∀ t ∈ hanging_entries,
      t.1 ≠ (numbered.getD e1 RegionElement.absent).loc_num v1 ∧
      t.1 ≠ (numbered.getD e2 RegionElement.absent).loc_num v2) →
    (assemble_Q (numbered.map (fun el => el.toNodalElement)) hanging_entries).entries.filter
        (fun t => t.1 = (numbered.getD e1 RegionElement.absent).loc_num v1)
      = [((numbered.getD e1 RegionElement.absent).loc_num v1,
          ((numbered.getD e1 RegionElement.absent).dof_num v1 - 1).toNat, 1)] ∧
    (assemble_Q (numbered.map (fun el => el.toNodalElement)) hanging_entries).entries.filter
        (fun t => t.1 = (numbered.getD e2 RegionElement.absent).loc_num v2)
      = [((numbered.getD e2 RegionElement.absent).loc_num v2,
          ((numbered.getD e1 RegionElement.absent).dof_num v1 - 1).toNat, 1)] ∧
    ∀ u : Nat → α,
      (assemble_Q (numbered.map (fun el => el.toNodalElement)) hanging_entries).multiply u
          ((numbered.getD e1 RegionElement.absent).loc_num v1)
        = (assemble_Q (numbered.map (fun el => el.toNodalElement)) hanging_entries).multiply u
          ((numbered.getD e2 RegionElement.absent).loc_num v2))

/-- What the setup before line 1100 leaves in the Subdomain region: offsets
that are prefix sums (lines 558-566), ids that are non-negative, masks that are
`0` or `1`, `loc_num[v] = offset + v` (line 725), on the elements of degree 1
the interface marks `dof_num[v] = glo_num[v]` exactly at the ids of
`interface` (lines 832-836), extended elements of degree 1 with positive ids at
their unmasked nodes, and every id that an unmasked node of a non-extended
element of degree 1 shares with an unmasked node of an extended element in
`interface` (lines 814-829; the extended elements are owned by the
Superdomain). -/
structure SubdomainReady (interface : List Int) (n : Nat) (sub : List RegionElement)
    (num_points : Nat) : Prop where
  /-- Offsets are prefix sums. -/
  tiled : Tiled 0 sub
  /-- The point count of the ranking. -/
  total : num_points = total_points sub
  /-- Ids are non-negative. -/
  glo_nonneg : ∀ elem ∈ sub, ∀ v, v < elem.num_points → 0 ≤ elem.glo_num v
  /-- Masks are `0` or `1`. -/
  mask_01 : ∀ elem ∈ sub, ∀ v, v < elem.num_points →
    elem.dirichlet_mask v = 0 ∨ elem.dirichlet_mask v = 1
  /-- Line 725. -/
  loc : ∀ elem ∈ sub, ∀ v, v < elem.num_points → elem.loc_num v = elem.offset + v
  /-- Lines 832-836 on the elements of degree 1. -/
  marks : ∀ elem ∈ sub, elem.poly_degree = 1 → ∀ v, v < elem.num_points →
    elem.dof_num v = if elem.glo_num v ∈ interface then elem.glo_num v else 0
  /-- Extended elements have degree 1. -/
  extended_degree : ∀ e, e < sub.length → n ≤ e →
    (sub.getD e RegionElement.absent).poly_degree = 1
  /-- Unmasked nodes of extended elements carry positive ids. -/
  extended_pos : ∀ e, e < sub.length → n ≤ e → ∀ v,
    v < (sub.getD e RegionElement.absent).num_points →
    0 < (sub.getD e RegionElement.absent).dirichlet_mask v →
    0 < (sub.getD e RegionElement.absent).glo_num v
  /-- Ids shared with an extended element are interface ids. -/
  cover : ∀ e1, e1 < n → ∀ e2, e2 < sub.length → n ≤ e2 →
    ∀ v1, v1 < (sub.getD e1 RegionElement.absent).num_points →
    ∀ v2, v2 < (sub.getD e2 RegionElement.absent).num_points →
    (sub.getD e1 RegionElement.absent).poly_degree = 1 →
    0 < (sub.getD e1 RegionElement.absent).dirichlet_mask v1 →
    0 < (sub.getD e2 RegionElement.absent).dirichlet_mask v2 →
    (sub.getD e1 RegionElement.absent).glo_num v1
      = (sub.getD e2 RegionElement.absent).glo_num v2 →
    (sub.getD e1 RegionElement.absent).glo_num v1 ∈ interface

/-- The ids that become DOFs: the nonzero ids of the unmasked nodes of a
region. -/
def live_ids (region : List RegionElement) : Finset Int :=
  (node_values region
    (fun el v => if 0 < el.dirichlet_mask v then el.glo_num v else 0)).toFinset.erase 0

/-- The invariant of the assembly of `QQt_int`: a row whose flag in
`work_hst[0]` is `0` has no entry yet, a row whose flag is `1` has exactly one
entry, of value `1`. -/
def RowsFlagged {α : Type} [Semiring α] (s : QQtState α) : Prop :=
  ∀ r, (s.work_hst0 r = 0 ∧ s.QQt_int.entries.filter (fun t => t.1 = r) = []) ∨
    (s.work_hst0 r = 1 ∧
      ∃ col, s.QQt_int.entries.filter (fun t => t.1 = r) = [(r, col, 1)])

/-- The state in which the numbering leaves the inputs of the assembly of
`QQt_int`: the owned Subdomain DOFs are among the extended ones, the nodes of
the extended Subdomain elements carry DOFs up to `num_extended_dofs`, every
Subdomain DOF beyond `num_dofs` is carried by a node of an extended element,
and every Superdomain DOF beyond `num_dofs` is the `dof_sup` of the coarse DOF
of a node of an overlap element of the Superdomain. -/
structure QQtCovered (c : Composite) : Prop where
  /-- The owned DOFs are among the extended ones. -/
  owned_le : c.sub_num_dofs ≤ c.sub_num_extended_dofs
  /-- DOFs of extended elements are at most `num_extended_dofs`. -/
  extended_le : ∀ e v, c.num_subdomain_elems ≤ e → e < c.num_subdomain_extended_elems →
    v < (c.subdomain_region.getD e NodalElement.absent).num_points →
    (c.subdomain_region.getD e NodalElement.absent).dof_num v ≤ c.sub_num_extended_dofs
  /-- Every extended DOF of the Subdomain is carried by an extended element. -/
  extended_cover : ∀ r, c.sub_num_dofs ≤ r → r < c.sub_num_extended_dofs →
    ∃ e v, c.num_subdomain_elems ≤ e ∧ e < c.num_subdomain_extended_elems ∧
      v < (c.subdomain_region.getD e NodalElement.absent).num_points ∧
      (c.subdomain_region.getD e NodalElement.absent).dof_num v = (r : Int) + 1
  /-- Every extended DOF of the Superdomain is carried by an overlap element. -/
  ring_cover : ∀ k, c.sup_num_dofs ≤ k → k < c.sup_num_extended_dofs →
    ∃ e v, c.num_superdomain_elems ≤ e ∧ e < c.num_superdomain_extended_elems ∧
      v < (c.superdomain_region.getD e NodalElement.absent).num_points ∧
      0 < c.dof_num_coarse
        ((c.superdomain_region.getD e NodalElement.absent).id * c.num_vertices + v) ∧
      c.dof_sup (c.dof_num_coarse
        ((c.superdomain_region.getD e NodalElement.absent).id * c.num_vertices + v)
          - 1).toNat = (k : Int) + 1

/-! ### Final ranking in `DType` (lines 1151-1176) -/

/-- The operations the two Krylov drivers call on the composite vectors of
type `Vec`, as functions from the arguments read to the arguments written.
`preconditioner` is `low_order_preconditioner` when `use_preconditioner` holds
and `direct_stiffness_summation` otherwise; `vector_scaling a x` is the call
`math.vector_scaling(out, a, x, n)` and `vector_vector_addition a x b y` the
call `math.vector_vector_addition(out, a, x, b, y, n)`; `sqrt` is `std::sqrt`.
The device kernels behind these calls are not part of `subdomain.tpp`, and the
drivers are embedded for every choice of them. -/
structure Krylov_Ops (K Vec : Type) where
  /-- The call `tree_operator(Tu, u)`. -/
  tree_operator : Vec → Vec
  /-- The call `initialize_arrays(u_k, r_k, f)`, giving `(u_k, r_k)`. -/
  initialize_arrays : Vec → Vec → Vec → Vec × Vec
  /-- The call `math.set_to_value(u_k, 0.0, num_values)`. -/
  set_to_zero : Vec → Vec
  /-- The call `residual_norm(r_norm, r)`. -/
  residual_norm : Vec → K
  /-- The preconditioner call `(z, r)`. -/
  preconditioner : Vec → Vec
  /-- The call `stiffness_matrix(q, p)`. -/
  stiffness_matrix : Vec → Vec
  /-- The call `assembled_inner_product(uv, u, v)`. -/
  assembled_inner_product : Vec → Vec → K
  /-- The call `math.vector_scaling`. -/
  vector_scaling : K → Vec → Vec
  /-- The call `math.vector_vector_addition`. -/
  vector_vector_addition : K → Vec → K → Vec → Vec
  /-- The call `copy_to_domain_data_kernel(u_l, u_k, n)`, giving `u_l`. -/
  copy_to_domain_data : Vec → Vec → Vec
  /-- The function `std::sqrt`. -/
  sqrt : K → K
  /-- The call `projection_inner_products(gamma_k, theta_k, z_k, r_k, p_k, q_k)`,
  giving `(gamma_k, theta_k)`. -/
  projection_inner_products : Vec → Vec → Vec → Vec → K × K
  /-- The call `solution_and_residual_update(u_k, r_kp1, r_k, p_k, q_k, alpha_k)`,
  giving `(u_k, r_kp1)`. -/
  solution_and_residual_update : Vec → Vec → Vec → Vec → Vec → K → Vec × Vec
  /-- The call `search_update_inner_product(theta_k, r_k, r_kp1, z_k)`. -/
  search_update_inner_product : Vec → Vec → Vec → K
  /-- The call `residual_and_search_update(p_k, r_k, z_k, r_kp1, beta_k)`,
  giving `(p_k, r_k)`. -/
  residual_and_search_update : Vec → Vec → Vec → Vec → K → Vec × Vec

/-- The members read by the drivers. -/
structure Krylov_Settings (K : Type) where
  /-- The member `max_iterations`. -/
  max_iterations : Nat
  /-- The member `num_vectors`. -/
  num_vectors : Nat
  /-- The member `tolerance`. -/
  tolerance : K
  /-- The argument `use_relative`. -/
  use_relative : Bool

/-- The stopping test of lines 4231-4238 and 4432-4447 on a residual norm. -/
def below_tolerance {K : Type} [LinearOrderedField K] (cfg : Krylov_Settings K)
    (r_0_norm r_norm : K) : Bool :=
  if cfg.use_relative then decide (r_norm / r_0_norm < cfg.tolerance)
  else decide (r_norm < cfg.tolerance)

/-- The divisor of the stopping test: `r_0_norm` when `use_relative`. -/
def tolerance_divisors {K : Type} (cfg : Krylov_Settings K) (r_0_norm : K) : List K :=
  if cfg.use_relative then [r_0_norm] else []

/-- The member arrays and locals of `flexible_conjugate_gradient`, with the
value of `u_l` and of the member `num_iterations`.  `divisors` lists the
divisors of the divisions in the order they are executed and `history` the
pairs `(iter, r_norm)` that `print_history` prints after iteration 0; neither
is read by the driver. -/
structure FCG_State (K Vec : Type) where
  /-- The argument `u_l`. -/
  u_l : Vec
  /-- The member `num_iterations`. -/
  num_iterations : Nat
  /-- The member `u_k`. -/
  u_k : Vec
  /-- The member `r_k`. -/
  r_k : Vec
  /-- The member `r_kp1`. -/
  r_kp1 : Vec
  /-- The member `z_k`. -/
  z_k : Vec
  /-- The member `p_k`. -/
  p_k : Vec
  /-- The member `q_k`. -/
  q_k : Vec
  /-- The local `alpha_k`. -/
  alpha_k : K
  /-- The local `beta_k`. -/
  beta_k : K
  /-- The local `gamma_k`. -/
  gamma_k : K
  /-- The local `theta_k`. -/
  theta_k : K
  /-- The local `r_norm`. -/
  r_norm : K
  /-- The local `iter`. -/
  iter : Nat
  /-- The divisors used so far. -/
  divisors : List K
  /-- The reported residual norms. -/
  history : List (Nat × K)

/-- Lines 4205-4227 of the loop body: projection, update of solution and
residual, residual norm, `iter++`, followed by the division of the relative
test. -/
def fcg_projection {K Vec : Type} [LinearOrderedField K] (ops : Krylov_Ops K Vec)
    (cfg : Krylov_Settings K) (r_0_norm : K) (s : FCG_State K Vec) : FCG_State K Vec :=
  let q_k := ops.stiffness_matrix s.p_k
  let gt := ops.projection_inner_products s.z_k s.r_k s.p_k q_k
  let alpha_k := gt.1 / gt.2
  let ur := ops.solution_and_residual_update s.u_k s.r_kp1 s.r_k s.p_k q_k alpha_k
  let r_norm := ops.residual_norm ur.2
  { s with
    q_k := q_k, gamma_k := gt.1, theta_k := gt.2, alpha_k := alpha_k,
    u_k := ur.1, r_kp1 := ur.2, r_norm := r_norm, iter := s.iter + 1,
    divisors := s.divisors ++ [gt.2] ++ tolerance_divisors cfg r_0_norm,
    history := s.history ++ [(s.iter + 1, r_norm)] }

/-- Lines 4242-4259 of the loop body: the update of the search direction. -/
def fcg_search_update {K Vec : Type} [LinearOrderedField K] (ops : Krylov_Ops K Vec)
    (s : FCG_State K Vec) : FCG_State K Vec :=
  let z_k := ops.preconditioner s.r_kp1
  let theta_k := ops.search_update_inner_product s.r_k s.r_kp1 z_k
  let beta_k := theta_k / s.gamma_k
  let pr := ops.residual_and_search_update s.p_k s.r_k z_k s.r_kp1 beta_k
  { s with
    z_k := z_k, theta_k := theta_k, beta_k := beta_k, p_k := pr.1, r_k := pr.2,
    divisors := s.divisors ++ [s.gamma_k] }

/-- The `while` loop of lines 4203-4261.  `fuel` bounds the number of passes;
`none` means the bound was reached before the loop ended. -/
def fcg_loop {K Vec : Type} [LinearOrderedField K] (ops : Krylov_Ops K Vec)
    (cfg : Krylov_Settings K) (r_0_norm : K) : Nat → FCG_State K Vec → Option (FCG_State K Vec)
  | 0, _ => none
  | fuel + 1, s =>
    if s.iter < cfg.max_iterations then
      if below_tolerance cfg r_0_norm (fcg_projection ops cfg r_0_norm s).r_norm then
        some (fcg_projection ops cfg r_0_norm s)
      else if (fcg_projection ops cfg r_0_norm s).iter = cfg.max_iterations then
        some (fcg_projection ops cfg r_0_norm s)
      else fcg_loop ops cfg r_0_norm fuel
        (fcg_search_update ops (fcg_projection ops cfg r_0_norm s))
    else some s

/-- The member function `flexible_conjugate_gradient(u_l, f_l, print_history,
use_relative)` (lines 4158-4268), started from the member state `mem`. -/
def flexible_conjugate_gradient {K Vec : Type} [LinearOrderedField K] (ops : Krylov_Ops K Vec)
    (cfg : Krylov_Settings K) (fuel : Nat) (mem : FCG_State K Vec) (f_l : Vec) :
    Option (FCG_State K Vec) :=
  let s0 : FCG_State K Vec :=
    { mem with r_k := ops.tree_operator f_l, u_k := ops.set_to_zero mem.u_k }
  let r_0_norm := ops.residual_norm s0.r_k
  let s1 : FCG_State K Vec :=
    { s0 with z_k := ops.preconditioner s0.r_k, iter := 0, divisors := [], history := [] }
  let s2 : FCG_State K Vec := { s1 with p_k := s1.z_k }
  (fcg_loop ops cfg r_0_norm fuel s2).map (fun s =>
    { s with num_iterations := s.num_iterations + s.iter,
             u_l := ops.copy_to_domain_data s.u_l s.u_k })

/-- The assignment `H[i][j] = a`. -/
def set2 {α : Type} (H : Nat → Nat → α) (i j : Nat) (a : α) : Nat → Nat → α :=
  fun i2 j2 => if i2 = i ∧ j2 = j then a else H i2 j2

/-- The member arrays and locals of `generalized_minimum_residual`, with the
value of `u_l` and of the member `num_iterations`.  `inner_products` counts the
calls of `assembled_inner_product`, `divisors` lists the divisors of the
divisions in the order they are executed and `history` the pairs
`(iter, r_norm)` that `print_history` prints after iteration 0; none of the
three is read by the driver. -/
structure GMRES_State (K Vec : Type) where
  /-- The argument `u_l`. -/
  u_l : Vec
  /-- The member `num_iterations`. -/
  num_iterations : Nat
  /-- The member `f`. -/
  f : Vec
  /-- The member `u_k`. -/
  u_k : Vec
  /-- The member `r_k`. -/
  r_k : Vec
  /-- The member `q_k`. -/
  q_k : Vec
  /-- The member `V`. -/
  V : Nat → Vec
  /-- The member `Z`. -/
  Z : Nat → Vec
  /-- The member `H`. -/
  H : Nat → Nat → K
  /-- The member `c_gmres`. -/
  c_gmres : Nat → K
  /-- The member `s_gmres`. -/
  s_gmres : Nat → K
  /-- The member `gamma`. -/
  gamma : Nat → K
  /-- The local `alpha_j`. -/
  alpha_j : K
  /-- The local `beta_j`. -/
  beta_j : K
  /-- The local `gamma_j`. -/
  gamma_j : K
  /-- The local `gamma_k`. -/
  gamma_k : K
  /-- The local `r_norm`. -/
  r_norm : K
  /-- The local `iter`. -/
  iter : Nat
  /-- The local `outer`. -/
  outer : Nat
  /-- The local `converged`. -/
  converged : Bool
  /-- The number of calls of `assembled_inner_product` so far. -/
  inner_products : Nat
  /-- The divisors used so far. -/
  divisors : List K
  /-- The reported residual norms. -/
  history : List (Nat × K)

/-- The two loops under the comment `2-pass Gram-Schmidt (1st pass)` (lines
4384-4397): the inner products of `q_k` with `V[0..j]`, then their
subtraction. -/
def gram_schmidt {K Vec : Type} [LinearOrderedField K] (ops : Krylov_Ops K Vec) (j : Nat)
    (s : GMRES_State K Vec) : GMRES_State K Vec :=
  (List.range (j + 1)).foldl
    (fun s i =>
      { s with q_k := ops.vector_vector_addition 1 s.q_k (- s.H i j) (s.V i) })
    ((List.range (j + 1)).foldl
      (fun s i =>
        { s with H := set2 s.H i j (ops.assembled_inner_product s.q_k (s.V i)),
                 inner_products := s.inner_products + 1 })
      s)

/-- The loop of lines 4400-4405: the earlier rotations applied to column `j`. -/
def givens_column {K Vec : Type} [LinearOrderedField K] (j : Nat)
    (s : GMRES_State K Vec) : GMRES_State K Vec :=
  (List.range j).foldl
    (fun s i =>
      { s with
        H := set2 (set2 s.H i j (s.c_gmres i * s.H i j + s.s_gmres i * s.H (i + 1) j)) (i + 1) j
          (- s.s_gmres i * s.H i j
            + s.c_gmres i
              * set2 s.H i j (s.c_gmres i * s.H i j + s.s_gmres i * s.H (i + 1) j) (i + 1) j) })
    s

/-- Lines 4370-4409 of the body of the loop over `j`: `iter++`, the
preconditioned direction, the operator, the orthogonalisation, the earlier
rotations and the norm `alpha_j`. -/
def arnoldi_vector {K Vec : Type} [LinearOrderedField K] (ops : Krylov_Ops K Vec) (j : Nat)
    (s : GMRES_State K Vec) : GMRES_State K Vec :=
  let s1 : GMRES_State K Vec :=
    { s with iter := s.iter + 1, Z := vset s.Z j (ops.preconditioner (s.V j)),
             q_k := ops.stiffness_matrix (ops.preconditioner (s.V j)) }
  let s2 := givens_column j (gram_schmidt ops j s1)
  { s2 with alpha_j := ops.residual_norm s2.q_k }

/-- Lines 4417-4427: the new rotation, the update of `gamma` and the residual
estimate, followed by the division of the relative test. -/
def givens_update {K Vec : Type} [LinearOrderedField K] (ops : Krylov_Ops K Vec)
    (cfg : Krylov_Settings K) (r_0_norm : K) (j : Nat) (s : GMRES_State K Vec) :
    GMRES_State K Vec :=
  let beta_j := ops.sqrt (s.H j j * s.H j j + s.alpha_j * s.alpha_j)
  let gamma_j := 1 / beta_j
  let c_j := s.H j j * gamma_j
  let s_j := s.alpha_j * gamma_j
  let gamma1 := vset s.gamma (j + 1) (- s_j * s.gamma j)
  let gamma2 := vset gamma1 j (c_j * gamma1 j)
  { s with
    beta_j := beta_j, gamma_j := gamma_j, c_gmres := vset s.c_gmres j c_j,
    s_gmres := vset s.s_gmres j s_j, H := set2 s.H j j beta_j, gamma := gamma2,
    r_norm := |gamma2 (j + 1)|,
    divisors := s.divisors ++ [beta_j] ++ tolerance_divisors cfg r_0_norm,
    history := s.history ++ [(s.iter, |gamma2 (j + 1)|)] }

/-- The body of the loop over `j` (lines 4370-4457); the second component
tells whether the body ended in a `break`. -/
def arnoldi_step {K Vec : Type} [LinearOrderedField K] (ops : Krylov_Ops K Vec)
    (cfg : Krylov_Settings K) (r_0_norm : K) (j : Nat) (s : GMRES_State K Vec) :
    GMRES_State K Vec × Bool :=
  if |(arnoldi_vector ops j s).alpha_j| = 0 then
    ({ arnoldi_vector ops j s with converged := true }, true)
  else if below_tolerance cfg r_0_norm
      (givens_update ops cfg r_0_norm j (arnoldi_vector ops j s)).r_norm then
    ({ givens_update ops cfg r_0_norm j (arnoldi_vector ops j s) with converged := true }, true)
  else if cfg.max_iterations ≤ (givens_update ops cfg r_0_norm j (arnoldi_vector ops j s)).iter then
    ({ givens_update ops cfg r_0_norm j (arnoldi_vector ops j s) with converged := true }, true)
  else
    ({ givens_update ops cfg r_0_norm j (arnoldi_vector ops j s) with
        V := vset (givens_update ops cfg r_0_norm j (arnoldi_vector ops j s)).V (j + 1)
          (ops.vector_scaling (1 / (arnoldi_vector ops j s).alpha_j)
            (givens_update ops cfg r_0_norm j (arnoldi_vector ops j s)).q_k),
        divisors := (givens_update ops cfg r_0_norm j (arnoldi_vector ops j s)).divisors
          ++ [(arnoldi_vector ops j s).alpha_j] }, false)

/-- The loop `for (j = 0; j < num_vectors; j++)` of lines 4368-4458, entered
at `j` with `n` values of `j` left; the second component is `j` at the exit. -/
def arnoldi_loop {K Vec : Type} [LinearOrderedField K] (ops : Krylov_Ops K Vec)
    (cfg : Krylov_Settings K) (r_0_norm : K) :
    Nat → Nat → GMRES_State K Vec → GMRES_State K Vec × Nat
  | 0, j, s => (s, j)
  | n + 1, j, s =>
    if (arnoldi_step ops cfg r_0_norm j s).2 then ((arnoldi_step ops cfg r_0_norm j s).1, j)
    else arnoldi_loop ops cfg r_0_norm n (j + 1) (arnoldi_step ops cfg r_0_norm j s).1

/-- The back-substitution of lines 4462-4470 for `k = j, ..., 0`; `bound` is
`j + 1`. -/
def back_substitution {K Vec : Type} [LinearOrderedField K] (bound : Nat)
    (s : GMRES_State K Vec) : GMRES_State K Vec :=
  (List.range bound).reverse.foldl
    (fun s k =>
      { s with
        gamma_k := (List.range' (k + 1) (bound - (k + 1))).reverse.foldl
          (fun g i => g - s.H k i * s.c_gmres i) (s.gamma k),
        c_gmres := vset s.c_gmres k
          ((List.range' (k + 1) (bound - (k + 1))).reverse.foldl
            (fun g i => g - s.H k i * s.c_gmres i) (s.gamma k) / s.H k k),
        divisors := s.divisors ++ [s.H k k] })
    s

/-- The loop of lines 4473-4478: the sum of the Arnoldi vectors; `bound` is
`j + 1`. -/
def sum_arnoldi {K Vec : Type} [LinearOrderedField K] (ops : Krylov_Ops K Vec) (bound : Nat)
    (s : GMRES_State K Vec) : GMRES_State K Vec :=
  (List.range bound).foldl
    (fun s i => { s with u_k := ops.vector_vector_addition 1 s.u_k (s.c_gmres i) (s.Z i) })
    s

/-- Lines 4343-4366: the residual at a restart and the first basis vector. -/
def restart_residual {K Vec : Type} [LinearOrderedField K] (ops : Krylov_Ops K Vec)
    (r_0_norm : K) (s : GMRES_State K Vec) : GMRES_State K Vec :=
  let s1 : GMRES_State K Vec :=
    if 0 < s.iter then
      { s with
        r_k := ops.vector_vector_addition 1 s.f (-1) (ops.stiffness_matrix s.u_k),
        r_norm := ops.residual_norm
          (ops.vector_vector_addition 1 s.f (-1) (ops.stiffness_matrix s.u_k)),
        gamma := vset s.gamma 0 (ops.residual_norm
          (ops.vector_vector_addition 1 s.f (-1) (ops.stiffness_matrix s.u_k))) }
    else { s with gamma := vset s.gamma 0 r_0_norm }
  { s1 with V := vset s1.V 0 (ops.vector_scaling (1 / s1.gamma 0) s1.r_k),
            divisors := s1.divisors ++ [s1.gamma 0] }

/-- One pass of the body of the `while` loop up to the test of `converged`
(lines 4343-4480).  After the loop over `j` the code lowers `j` by one when it
equals `num_vectors`; the two loops that follow run over `k, i = 0, ..., j`,
that is `j + 1` indices, none when `j` is `-1`. -/
def gmres_cycle {K Vec : Type} [LinearOrderedField K] (ops : Krylov_Ops K Vec)
    (cfg : Krylov_Settings K) (r_0_norm : K) (s : GMRES_State K Vec) : GMRES_State K Vec :=
  let sj := arnoldi_loop ops cfg r_0_norm cfg.num_vectors 0 (restart_residual ops r_0_norm s)
  let bound := if sj.2 = cfg.num_vectors then sj.2 else sj.2 + 1
  sum_arnoldi ops bound (back_substitution bound sj.1)

/-- The `while` loop of lines 4341-4483.  `fuel` bounds the number of passes;
`none` means the bound was reached before the loop ended. -/
def gmres_loop {K Vec : Type} [LinearOrderedField K] (ops : Krylov_Ops K Vec)
    (cfg : Krylov_Settings K) (r_0_norm : K) :
    Nat → GMRES_State K Vec → Option (GMRES_State K Vec)
  | 0, _ => none
  | fuel + 1, s =>
    if s.iter < cfg.max_iterations then
      if (gmres_cycle ops cfg r_0_norm s).converged then some (gmres_cycle ops cfg r_0_norm s)
      else gmres_loop ops cfg r_0_norm fuel
        { gmres_cycle ops cfg r_0_norm s with outer := (gmres_cycle ops cfg r_0_norm s).outer + 1 }
    else some s

/-- The member function `generalized_minimum_residual(u_l, f_l, print_history,
use_relative)` (lines 4309-4489), started from the member state `mem`. -/
def generalized_minimum_residual {K Vec : Type} [LinearOrderedField K]
    (ops : Krylov_Ops K Vec) (cfg : Krylov_Settings K) (fuel : Nat) (mem : GMRES_State K Vec)
    (f_l : Vec) : Option (GMRES_State K Vec) :=
  let f := ops.tree_operator f_l
  let ur := ops.initialize_arrays mem.u_k mem.r_k f
  let s0 : GMRES_State K Vec :=
    { mem with f := f, u_k := ur.1, r_k := ur.2, converged := false, iter := 0, outer := 0,
               inner_products := 0, divisors := [], history := [] }
  (gmres_loop ops cfg (ops.residual_norm ur.2) fuel s0).map (fun s =>
    { s with u_l := ops.copy_to_domain_data s.u_l s.u_k,
             num_iterations := s.num_iterations + s.iter })

/-- The operations of the one-dimensional system `a * u = f` over the
rationals, with the identity as preconditioner and as tree operator; the
square root is the integer square root of numerator and denominator, exact on
squares of rationals. -/
def scalar_ops (a : ℚ) : Krylov_Ops ℚ ℚ :=
  { tree_operator := fun f_l => f_l,
    initialize_arrays := fun _ _ f => (0, f),
    set_to_zero := fun _ => 0,
    residual_norm := fun r => |r|,
    preconditioner := fun r => r,
    stiffness_matrix := fun p => a * p,
    assembled_inner_product := fun u v => u * v,
    vector_scaling := fun c x => c * x,
    vector_vector_addition := fun c x d y => c * x + d * y,
    copy_to_domain_data := fun _ u_k => u_k,
    sqrt := fun x => (Nat.sqrt x.num.toNat : ℚ) / (Nat.sqrt x.den : ℚ),
    projection_inner_products := fun z r p q => (z * r, p * q),
    solution_and_residual_update := fun u _ r p q alpha => (u + alpha * p, r - alpha * q),
    search_update_inner_product := fun _ r_kp1 z => r_kp1 * z,
    residual_and_search_update := fun p _ z r_kp1 beta => (z + beta * p, r_kp1) }

/-- The square root on the rationals used in the examples: the integer
square roots of numerator and denominator, exact on squares of rationals. -/
def rat_sqrt (x : ℚ) : ℚ := (Nat.sqrt x.num.toNat : ℚ) / (Nat.sqrt x.den : ℚ)

/-- The operations of the two-dimensional system with the matrix
`[[a, b], [c, d]]` over the rationals, with the Euclidean inner product and
norm and the identity as preconditioner and as tree operator. -/
def plane_ops (a b c d : ℚ) : Krylov_Ops ℚ (ℚ × ℚ) :=
  { tree_operator := fun f_l => f_l,
    initialize_arrays := fun _ _ f => ((0, 0), f),
    set_to_zero := fun _ => (0, 0),
    residual_norm := fun r => rat_sqrt (r.1 * r.1 + r.2 * r.2),
    preconditioner := fun r => r,
    stiffness_matrix := fun p => (a * p.1 + b * p.2, c * p.1 + d * p.2),
    assembled_inner_product := fun u v => u.1 * v.1 + u.2 * v.2,
    vector_scaling := fun k x => (k * x.1, k * x.2),
    vector_vector_addition := fun k x l y => (k * x.1 + l * y.1, k * x.2 + l * y.2),
    copy_to_domain_data := fun _ u_k => u_k,
    sqrt := rat_sqrt,
    projection_inner_products := fun z r p q => (z.1 * r.1 + z.2 * r.2, p.1 * q.1 + p.2 * q.2),
    solution_and_residual_update := fun u _ r p q alpha =>
      ((u.1 + alpha * p.1, u.2 + alpha * p.2), (r.1 - alpha * q.1, r.2 - alpha * q.2)),
    search_update_inner_product := fun _ r_kp1 z => r_kp1.1 * z.1 + r_kp1.2 * z.2,
    residual_and_search_update := fun p _ z r_kp1 beta =>
      ((z.1 + beta * p.1, z.2 + beta * p.2), r_kp1) }

/-- Member state of the GMRES driver on the plane at the start of the first
Arnoldi step for the right-hand side `(1, 0)`: `gamma[0] = 1`, `V[0] = (1, 0)`. -/
def plane_members : GMRES_State ℚ (ℚ × ℚ) :=
  { u_l := (0, 0), num_iterations := 0, f := (1, 0), u_k := (0, 0), r_k := (1, 0),
    q_k := (0, 0), V := fun i => if i = 0 then (1, 0) else (0, 0), Z := fun _ => (0, 0),
    H := fun _ _ => 0, c_gmres := fun _ => 0, s_gmres := fun _ => 0,
    gamma := fun i => if i = 0 then 1 else 0, alpha_j := 0, beta_j := 0, gamma_j := 0,
    gamma_k := 0, r_norm := 0, iter := 0, outer := 0, converged := false,
    inner_products := 0, divisors := [1], history := [] }

/-- Member state of the GMRES driver before the first solve: every array and
scalar zero. -/
def gmres_members : GMRES_State ℚ ℚ :=
  { u_l := 0, num_iterations := 0, f := 0, u_k := 0, r_k := 0, q_k := 0,
    V := fun _ => 0, Z := fun _ => 0, H := fun _ _ => 0, c_gmres := fun _ => 0,
    s_gmres := fun _ => 0, gamma := fun _ => 0, alpha_j := 0, beta_j := 0, gamma_j := 0,
    gamma_k := 0, r_norm := 0, iter := 0, outer := 0, converged := false,
    inner_products := 0, divisors := [], history := [] }

/-- Member state of the conjugate gradient driver before the first solve. -/
def fcg_members : FCG_State ℚ ℚ :=
  { u_l := 0, num_iterations := 0, u_k := 0, r_k := 0, r_kp1 := 0, z_k := 0, p_k := 0,
    q_k := 0, alpha_k := 0, beta_k := 0, gamma_k := 0, theta_k := 0, r_norm := 0, iter := 0,
    divisors := [], history := [] }

/-- Settings of the examples: at most five iterations, restart length two,
absolute tolerance one half. -/
def example_settings : Krylov_Settings ℚ :=
  { max_iterations := 5, num_vectors := 2, tolerance := 1 / 2, use_relative := false }

/-! ### Edge matching (lines 1179-1348) -/

/-- One branch of `matching_edge`: the local indices `c1`, `c2` of the two
corners of an edge, the number `count` of points along it and the local index
`idx k` of its `k`-th point. -/
structure EdgeRow where
  /-- Local index of the first corner. -/
  c1 : Nat
  /-- Local index of the second corner. -/
  c2 : Nat
  /-- Number of points along the edge. -/
  count : Nat
  /-- Local index of the `k`-th point. -/
  idx : Nat → Nat

/-- The branches of `matching_edge` for an element with `n_x`, `n_y`, `n_z`
points per direction, in the order of the source (`eid = 0, 1, ...` for the
first element, the order of the tests for the second): four for `dim == 2`
(lines 1196-1232), twelve otherwise (lines 1236-1343). -/
def edge_rows (dim n_x n_y n_z : Nat) : List EdgeRow :=
  if dim = 2 then
    [
      ⟨0 + 0 * n_x, (n_x - 1) + 0 * n_x, n_x,
        fun k => k + 0 * n_x⟩,
      ⟨0 + (n_y - 1) * n_x, (n_x - 1) + (n_y - 1) * n_x, n_x,
        fun k => k + (n_y - 1) * n_x⟩,
      ⟨0 + 0 * n_x, 0 + (n_y - 1) * n_x, n_y,
        fun k => 0 + k * n_x⟩,
      ⟨(n_x - 1) + 0 * n_x, (n_x - 1) + (n_y - 1) * n_x, n_y,
        fun k => (n_x - 1) + k * n_x⟩]
  else
    [
      ⟨0 + 0 * n_x + 0 * (n_x * n_y), (n_x - 1) + 0 * n_x + 0 * (n_x * n_y), n_x,
        fun k => k + 0 * n_x + 0 * (n_x * n_y)⟩,
      ⟨0 + (n_y - 1) * n_x + 0 * (n_x * n_y), (n_x - 1) + (n_y - 1) * n_x + 0 * (n_x * n_y), n_x,
        fun k => k + (n_y - 1) * n_x + 0 * (n_x * n_y)⟩,
      ⟨0 + 0 * n_x + 0 * (n_x * n_y), 0 + (n_y - 1) * n_x + 0 * (n_x * n_y), n_y,
        fun k => 0 + k * n_x + 0 * (n_x * n_y)⟩,
      ⟨(n_x - 1) + 0 * n_x + 0 * (n_x * n_y), (n_x - 1) + (n_y - 1) * n_x + 0 * (n_x * n_y), n_y,
        fun k => (n_x - 1) + k * n_x + 0 * (n_x * n_y)⟩,
      ⟨0 + 0 * n_x + (n_z - 1) * (n_x * n_y), (n_x - 1) + 0 * n_x + (n_z - 1) * (n_x * n_y), n_x,
        fun k => k + 0 * n_x + (n_z - 1) * (n_x * n_y)⟩,
      ⟨0 + (n_y - 1) * n_x + (n_z - 1) * (n_x * n_y), (n_x - 1) + (n_y - 1) * n_x + (n_z - 1) * (n_x * n_y), n_x,
        fun k => k + (n_y - 1) * n_x + (n_z - 1) * (n_x * n_y)⟩,
      ⟨0 + 0 * n_x + (n_z - 1) * (n_x * n_y), 0 + (n_y - 1) * n_x + (n_z - 1) * (n_x * n_y), n_y,
        fun k => 0 + k * n_x + (n_z - 1) * (n_x * n_y)⟩,
      ⟨(n_x - 1) + 0 * n_x + (n_z - 1) * (n_x * n_y), (n_x - 1) + (n_y - 1) * n_x + (n_z - 1) * (n_x * n_y), n_y,
        fun k => (n_x - 1) + k * n_x + (n_z - 1) * (n_x * n_y)⟩,
      ⟨0 + 0 * n_x + 0 * (n_x * n_y), 0 + 0 * n_x + (n_z - 1) * (n_x * n_y), n_z,
        fun k => 0 + 0 * n_x + k * (n_x * n_y)⟩,
      ⟨(n_x - 1) + 0 * n_x + 0 * (n_x * n_y), (n_x - 1) + 0 * n_x + (n_z - 1) * (n_x * n_y), n_z,
        fun k => (n_x - 1) + 0 * n_x + k * (n_x * n_y)⟩,
      ⟨0 + (n_y - 1) * n_x + 0 * (n_x * n_y), 0 + (n_y - 1) * n_x + (n_z - 1) * (n_x * n_y), n_z,
        fun k => 0 + (n_y - 1) * n_x + k * (n_x * n_y)⟩,
      ⟨(n_x - 1) + (n_y - 1) * n_x + 0 * (n_x * n_y), (n_x - 1) + (n_y - 1) * n_x + (n_z - 1) * (n_x * n_y), n_z,
        fun k => (n_x - 1) + (n_y - 1) * n_x + k * (n_x * n_y)⟩]

/-- The loop `for (k = 0; k < count; k++) idx[k] = ...` of one branch on a
vector of zeros. -/
def fill_indices (r : EdgeRow) : Nat → Nat :=
  (List.range r.count).foldl (fun idx k => vset idx k (r.idx k)) (fun _ => 0)

/-- The lambda `matching_edge(elem_i, elem_j, eid)` (lines 1179-1346): the
pair `(idx_i, idx_j)`.  The set `edge` holds the ids of the two corners of
edge `eid` of `elem_i`; `idx_j` runs along the first edge of `elem_j`, in the
order of the tests, whose two corner ids are both in the set, and stays zero
when there is none.  Both vectors are allocated with `n_x` entries in the
source; they are total functions here, and an edge along `y` or `z` has as
many points as that when the element has the same number in each direction. -/
def matching_edge (dim : Nat) (elem_i elem_j : RegionElement) (eid : Nat) :
    (Nat → Nat) × (Nat → Nat) :=
  match (edge_rows dim elem_i.n_x elem_i.n_y elem_i.n_z)[eid]? with
  | none =>
    (fun _ => 0,
      match (edge_rows dim elem_j.n_x elem_j.n_y elem_j.n_z).find?
          (fun r => decide (elem_j.glo_num r.c1 ∈ ([] : List Int)) &&
            decide (elem_j.glo_num r.c2 ∈ ([] : List Int))) with
      | none => fun _ => 0
      | some r => fill_indices r)
  | some r_i =>
    (fill_indices r_i,
      match (edge_rows dim elem_j.n_x elem_j.n_y elem_j.n_z).find?
          (fun r => decide (elem_j.glo_num r.c1
              ∈ [elem_i.glo_num r_i.c1, elem_i.glo_num r_i.c2]) &&
            decide (elem_j.glo_num r.c2
              ∈ [elem_i.glo_num r_i.c1, elem_i.glo_num r_i.c2])) with
      | none => fun _ => 0
      | some r => fill_indices r)

/-- A bilinear element of the plane with the given corner ids. -/
def bilinear_with (ids : List Int) : RegionElement :=
  { RegionElement.absent with n_x := 2, n_y := 2, n_z := 1, glo_num := fun v => ids.getD v 0 }

/-! ### Host smoothing (lines 19-83, 3477-3478 and 4028-4033) -/

/-- The fields of `amg::CSR_Matrix` that the host branches read. -/
structure AMG_Matrix (K : Type) where
  /-- The field `num_rows`. -/
  num_rows : Nat
  /-- The array `ptr`. -/
  ptr : Nat → Nat
  /-- The array `col`. -/
  col : Nat → Nat
  /-- The array `val`. -/
  val : Nat → K

/-- The inner loop of `scaled_residual` (lines 27-28): the product of row
`row` of `A` with `x`. -/
def AMG_Matrix.row_sum {K : Type} [CommRing K] (A : AMG_Matrix K) (x : Nat → K) (row : Nat) : K :=
  (List.range' (A.ptr row) (A.ptr (row + 1) - A.ptr row)).foldl
    (fun Ax idx => Ax + A.val idx * x (A.col idx)) 0

/-- The host branch of `scaled_residual(Sr, w, A, u, f, S, alpha, work_dev)`
(lines 23-32), giving `(Sr, w)`. -/
def scaled_residual {K : Type} [CommRing K] (A : AMG_Matrix K) (u f S : Nat → K) (alpha : K)
    (Sr w : Nat → K) : (Nat → K) × (Nat → K) :=
  (List.range A.num_rows).foldl
    (fun s row =>
      (vset s.1 row (S row * (f row - A.row_sum u row)),
        vset s.2 row (alpha * vset s.1 row (S row * (f row - A.row_sum u row)) row)))
    (Sr, w)

/-- The host branch of `polynomial_evaluation(w, v, A, r, D_val, alpha,
work_dev)` (lines 48-59), giving `(w, v)`. -/
def polynomial_evaluation {K : Type} [CommRing K] (A : AMG_Matrix K) (r D_val : Nat → K)
    (alpha : K) (w v : Nat → K) : (Nat → K) × (Nat → K) :=
  let v1 := (List.range A.num_rows).foldl
    (fun v2 row => vset v2 row (D_val row *
      (List.range' (A.ptr row) (A.ptr (row + 1) - A.ptr row)).foldl
        (fun tmp idx => tmp + A.val idx * D_val (A.col idx) * w (A.col idx)) 0))
    v
  ((List.range A.num_rows).foldl (fun w2 row => vset w2 row (alpha * r row + v1 row)) w, v1)

/-- The host branch of `update_field(u, w, D_val)` (lines 70-71); `size` is
`u.size`. -/
def update_field {K : Type} [CommRing K] (size : Nat) (u w D_val : Nat → K) : Nat → K :=
  (List.range size).foldl (fun u2 idx => vset u2 idx (u2 idx + D_val idx * w idx)) u

/-- The clamp of `cheby_order` (lines 3477-3478). -/
def clamp_cheby_order (cheby_order : Int) : Int :=
  if (if cheby_order < 1 then 1 else cheby_order) > 4 then 4
  else (if cheby_order < 1 then 1 else cheby_order)

/-- The vectors of one level used by the smoothing step. -/
structure Smoother_State (K : Type) where
  /-- The vector `u_fem[l]`. -/
  u : Nat → K
  /-- The vector `f_fem[l]`. -/
  f : Nat → K
  /-- The vector `r_fem[l]`. -/
  r : Nat → K
  /-- The vector `w_fem[l]`. -/
  w : Nat → K
  /-- The vector `v_fem[l]`. -/
  v : Nat → K
  /-- The vector `D_val_fem[l]`. -/
  D_val : Nat → K
  /-- The size `u_fem[l].size`. -/
  size : Nat

/-- One pass of the loop of lines 4030-4031. -/
def smoothing_pass {K : Type} [CommRing K] (A : AMG_Matrix K) (coefs : Nat → K)
    (s : Smoother_State K) (p : Nat) : Smoother_State K :=
  { s with w := (polynomial_evaluation A s.r s.D_val (coefs p) s.w s.v).1,
           v := (polynomial_evaluation A s.r s.D_val (coefs p) s.w s.v).2 }

/-- The smoothing step of lines 4028-4033 on host vectors: `scaled_residual`
with `coefs[cheby_order - 1]`, `polynomial_evaluation` for
`p = cheby_order - 2, ..., 0`, then `update_field`. -/
def host_smoothing {K : Type} [CommRing K] (A : AMG_Matrix K) (coefs : Nat → K)
    (cheby_order : Int) (s : Smoother_State K) : Smoother_State K :=
  let s1 : Smoother_State K :=
    { s with
      r := (scaled_residual A s.u s.f s.D_val (coefs (cheby_order - 1).toNat) s.r s.w).1,
      w := (scaled_residual A s.u s.f s.D_val (coefs (cheby_order - 1).toNat) s.r s.w).2 }
  let s2 := (List.range (cheby_order - 1).toNat).reverse.foldl (smoothing_pass A coefs) s1
  { s2 with u := update_field s2.size s2.u s2.w s2.D_val }

/-- The operator `D A D` of the statement: scaling by `D`, product with `A`,
scaling by `D`. -/
def spec_scaled_operator {K : Type} [CommRing K] (A : AMG_Matrix K) (D : Nat → K)
    (x : Nat → K) : Nat → K :=
  fun i => D i * A.row_sum (fun j => D j * x j) i

/-- The result of the statement: `u + D q(D A D) D (f - A u)` with
`q(x) = sum over p < k of c[p] x^p`. -/
def spec_smoothing {K : Type} [CommRing K] (A : AMG_Matrix K) (u f D : Nat → K)
    (c : Nat → K) (k : Nat) : Nat → K :=
  fun i => u i + D i * ∑ p in Finset.range k,
    c p * ((spec_scaled_operator A D)^[p] (fun j => D j * (f j - A.row_sum u j))) i

/-! ### Coarse element matrices (lines 1715-1846) -/

/-- The arrays `D[0], D[1], D[2]` filled from `D_hat[num_levels - 1].first`
(lines 1717-1748); `std::vector` starts them at zero and an entry that no loop
writes stays zero. -/
def tensor_D {K : Type} [Zero K] (dim : Nat) (D_hat : Nat → K) (m : Nat) : Nat → K :=
  if dim = 2 then
    if m = 0 then
      ((List.range 2).flatMap (fun k => (List.range 2).flatMap (fun i =>
          (List.range 2).map (fun j => (k, i, j))))).foldl
        (fun D t => vset D ((t.2.1 + t.1 * 2) * 4 + (t.2.2 + t.1 * 2))
          (D_hat (t.2.1 * 2 + t.2.2)))
        (fun _ => 0)
    else if m = 1 then
      ((List.range 2).flatMap (fun i => (List.range 2).flatMap (fun j =>
          (List.range 2).map (fun k => (i, j, k))))).foldl
        (fun D t => vset D ((t.1 * 2 + t.2.2) * 4 + (t.2.1 * 2 + t.2.2))
          (D_hat (t.1 * 2 + t.2.1)))
        (fun _ => 0)
    else fun _ => 0
  else
    if m = 0 then
      ((List.range 2).flatMap (fun p => (List.range 2).flatMap (fun q =>
          (List.range 2).flatMap (fun i => (List.range 2).map (fun j => (p, q, i, j)))))).foldl
        (fun D t => vset D
          ((t.2.2.1 + (t.1 * 2 + t.2.1) * 2) * 8 + (t.2.2.2 + (t.1 * 2 + t.2.1) * 2))
          (D_hat (t.2.2.1 * 2 + t.2.2.2)))
        (fun _ => 0)
    else if m = 1 then
      ((List.range 2).flatMap (fun p => (List.range 2).flatMap (fun q =>
          (List.range 2).flatMap (fun i => (List.range 2).map (fun j => (p, q, i, j)))))).foldl
        (fun D t => vset D
          ((t.2.2.1 * 8 + t.2.2.2) * 2 + ((t.1 + t.1 * 8) * (2 * 2) + (t.2.1 + t.2.1 * 8)))
          (D_hat (t.2.2.1 * 2 + t.2.2.2)))
        (fun _ => 0)
    else if m = 2 then
      ((List.range 2).flatMap (fun p => (List.range 2).flatMap (fun q =>
          (List.range 2).flatMap (fun i => (List.range 2).map (fun j => (p, q, i, j)))))).foldl
        (fun D t => vset D
          ((t.2.2.1 * 8 + t.2.2.2) * (2 * 2) + (t.1 + t.2.1 * 2) * (1 + 8))
          (D_hat (t.2.2.1 * 2 + t.2.2.2)))
        (fun _ => 0)
    else fun _ => 0

/-- The arrays `G[g]` for element `e` (lines 1764-1766 and 1795-1797): the
diagonal entries `G[g][v * n + v]` hold `geom_fact_coarse[g][e * n + v]`, with
`n = num_vertices`; the other entries are never written and are zero. -/
def G_factors {K : Type} [Zero K] (n : Nat) (geom_fact_coarse : Nat → Nat → K) (e : Nat)
    (g : Nat) : Nat → K :=
  (List.range n).foldl (fun G v => vset G (v * n + v) (geom_fact_coarse g (e * n + v)))
    (fun _ => 0)

/-- The arrays `GD[0], GD[1], GD[2]` (lines 1768-1783 and 1799-1817) at the
index `i * n + j`. -/
def GD {K : Type} [Ring K] (dim : Nat) (G D : Nat → Nat → K) (m : Nat) (idx : Nat) : K :=
  if dim = 2 then
    if m = 0 then
      (List.range 4).foldl (fun GD_1 k =>
        GD_1 + (G 0 (idx / 4 * 4 + k) * D 0 (k * 4 + idx % 4)
          + G 2 (idx / 4 * 4 + k) * D 1 (k * 4 + idx % 4))) 0
    else
      (List.range 4).foldl (fun GD_2 k =>
        GD_2 + (G 2 (idx / 4 * 4 + k) * D 0 (k * 4 + idx % 4)
          + G 1 (idx / 4 * 4 + k) * D 1 (k * 4 + idx % 4))) 0
  else
    if m = 0 then
      (List.range 8).foldl (fun GD_1 k =>
        GD_1 + (G 0 (idx / 8 * 8 + k) * D 0 (k * 8 + idx % 8)
          + G 3 (idx / 8 * 8 + k) * D 1 (k * 8 + idx % 8)
          + G 4 (idx / 8 * 8 + k) * D 2 (k * 8 + idx % 8))) 0
    else if m = 1 then
      (List.range 8).foldl (fun GD_2 k =>
        GD_2 + (G 3 (idx / 8 * 8 + k) * D 0 (k * 8 + idx % 8)
          + G 1 (idx / 8 * 8 + k) * D 1 (k * 8 + idx % 8)
          + G 5 (idx / 8 * 8 + k) * D 2 (k * 8 + idx % 8))) 0
    else
      (List.range 8).foldl (fun GD_3 k =>
        GD_3 + (G 4 (idx / 8 * 8 + k) * D 0 (k * 8 + idx % 8)
          + G 5 (idx / 8 * 8 + k) * D 1 (k * 8 + idx % 8)
          + G 2 (idx / 8 * 8 + k) * D 2 (k * 8 + idx % 8))) 0

/-- The array `A_e` (lines 1785-1790 and 1819-1824) at the index `i * n + j`. -/
def A_e {K : Type} [Ring K] (dim : Nat) (G D : Nat → Nat → K) (idx : Nat) : K :=
  if dim = 2 then
    (List.range 4).foldl (fun a k =>
      a + (D 0 (k * 4 + idx / 4) * GD dim G D 0 (k * 4 + idx % 4)
        + D 1 (k * 4 + idx / 4) * GD dim G D 1 (k * 4 + idx % 4))) 0
  else
    (List.range 8).foldl (fun a k =>
      a + (D 0 (k * 8 + idx / 8) * GD dim G D 0 (k * 8 + idx % 8)
        + D 1 (k * 8 + idx / 8) * GD dim G D 1 (k * 8 + idx % 8)
        + D 2 (k * 8 + idx / 8) * GD dim G D 2 (k * 8 + idx % 8))) 0

/-- The element matrix of element `e` as the constructor computes it. -/
def coarse_element_matrix {K : Type} [Ring K] (dim : Nat) (geom_fact_coarse : Nat → Nat → K)
    (D_hat : Nat → K) (e : Nat) : Nat → K :=
  A_e dim (G_factors (if dim = 2 then 4 else 8) geom_fact_coarse e) (tensor_D dim D_hat)

/-- The test of lines 1841-1842 for the pair `(i, j)` of element `e`: both
DOFs exist and the value exceeds `epsilon` in absolute value. -/
def kept {K : Type} [LinearOrderedField K] (dim : Nat) (geom_fact_coarse : Nat → Nat → K)
    (D_hat : Nat → K) (dof_num_coarse : Nat → Int) (epsilon : K) (e i j : Nat) : Bool :=
  decide (0 ≤ dof_num_coarse (e * (if dim = 2 then 4 else 8) + i) - 1 ∧
    0 ≤ dof_num_coarse (e * (if dim = 2 then 4 else 8) + j) - 1 ∧
    epsilon < |coarse_element_matrix dim geom_fact_coarse D_hat e
      (i * (if dim = 2 then 4 else 8) + j)|)

/-- Modelled from the spec: the low-order matrix `A_coarse` after the calls
`HYPRE_IJMatrixAddToValues(A_coarse, 1, &one, &row, &col, &val)` of lines
1833-1845 and the assembly, at position `(row, col)`: the sum of the values
added there. -/
def A_coarse {K : Type} [LinearOrderedField K] (dim num_total_elements : Nat)
    (geom_fact_coarse : Nat → Nat → K) (D_hat : Nat → K) (dof_num_coarse : Nat → Int)
    (epsilon : K) (row col : Int) : K :=
  ((List.range num_total_elements).map (fun e =>
    ((List.range (if dim = 2 then 4 else 8)).map (fun i =>
      ((List.range (if dim = 2 then 4 else 8)).map (fun j =>
        if dof_num_coarse (e * (if dim = 2 then 4 else 8) + i) - 1 = row ∧
            dof_num_coarse (e * (if dim = 2 then 4 else 8) + j) - 1 = col ∧
            kept dim geom_fact_coarse D_hat dof_num_coarse epsilon e i j = true then
          coarse_element_matrix dim geom_fact_coarse D_hat e
            (i * (if dim = 2 then 4 else 8) + j)
        else 0)).sum)).sum)).sum

/-! ### Geometric inverse of the low-order assembly (lines 2784-2813) -/

/-- The lambda `determinant` (lines 2784-2790) on a row-major matrix. -/
def determinant {K : Type} [Field K] (dim : Nat) (A : Nat → K) : K :=
  if dim = 2 then A 0 * A 3 - A 1 * A 2
  else A 0 * (A 4 * A 8 - A 5 * A 7) - A 1 * (A 3 * A 8 - A 5 * A 6)
    + A 2 * (A 3 * A 7 - A 4 * A 6)

/-- The array `inv_A` during a run of `inverse`, together with the divisors of
the divisions performed so far.  The list is a log kept for the statements;
the code has no such variable. -/
structure Inverse_State (K : Type) where
  /-- The array `inv_A`; entries that are not written read as the argument had
  them. -/
  inv_A : Nat → K
  /-- The divisors of the divisions performed so far, in order. -/
  divisors : List K

/-- One assignment `inv_A[k] = entry(1.0 / det_A)` of `inverse`: the quotient
`1.0 / det_A` is computed whatever `det_A` is, and its divisor is logged. -/
def assign_over {K : Type} [Field K] (det_A : K) (s : Inverse_State K) (k : Nat)
    (entry : K → K) : Inverse_State K :=
  { inv_A := vset s.inv_A k (entry (1 / det_A)), divisors := s.divisors ++ [det_A] }

/-- The lambda `inverse` (lines 2792-2813): `det_A = determinant(A)`, then the
four or nine assignments in the order of the source, each with its own
quotient `1.0 / det_A`.  No statement tests `det_A`. -/
def inverse {K : Type} [Field K] (dim : Nat) (inv_A A : Nat → K) : Inverse_State K :=
  let det_A := determinant dim A
  let s0 : Inverse_State K := { inv_A := inv_A, divisors := [] }
  if dim = 2 then
    let s1 := assign_over det_A s0 0 (fun q => q * A 3)
    let s2 := assign_over det_A s1 1 (fun q => - q * A 1)
    let s3 := assign_over det_A s2 2 (fun q => - q * A 2)
    assign_over det_A s3 3 (fun q => q * A 0)
  else
    let s1 := assign_over det_A s0 0 (fun q => q * (A 4 * A 8 - A 7 * A 5))
    let s2 := assign_over det_A s1 1 (fun q => q * (A 2 * A 7 - A 8 * A 1))
    let s3 := assign_over det_A s2 2 (fun q => q * (A 1 * A 5 - A 4 * A 2))
    let s4 := assign_over det_A s3 3 (fun q => q * (A 5 * A 6 - A 8 * A 3))
    let s5 := assign_over det_A s4 4 (fun q => q * (A 0 * A 8 - A 6 * A 2))
    let s6 := assign_over det_A s5 5 (fun q => q * (A 2 * A 3 - A 5 * A 0))
    let s7 := assign_over det_A s6 6 (fun q => q * (A 3 * A 7 - A 6 * A 4))
    let s8 := assign_over det_A s7 7 (fun q => q * (A 1 * A 6 - A 7 * A 0))
    assign_over det_A s8 8 (fun q => q * (A 0 * A 4 - A 3 * A 1))

/-- The row-major array `A` as a square matrix of size `n`. -/
def row_major {K : Type} (n : Nat) (A : Nat → K) : Matrix (Fin n) (Fin n) K :=
  Matrix.of (fun i j => A (i.val * n + j.val))

/-! ### Notions used to state the properties of the Krylov drivers -/

/-- The history lists one residual norm for each of the iterations
`1, ..., iter`, none of them below the tolerance. -/
def Reported {K : Type} [LinearOrderedField K] (cfg : Krylov_Settings K) (r_0_norm : K)
    (iter : Nat) (history : List (Nat × K)) : Prop :=
  history.map Prod.fst = List.range' 1 iter ∧
  ∀ e ∈ history, below_tolerance cfg r_0_norm e.2 = false

/-- The driver stopped at iteration `iter` on its residual norm: the history
lists one norm for each of the iterations `1, ..., iter`, the norms before the
last are not below the tolerance, and the last is below the tolerance or
`iter` is the iteration cap.  So `iter` is the least iteration whose norm is
below the tolerance when there is one up to the cap, and the cap otherwise. -/
def StoppedOn {K : Type} [LinearOrderedField K] (cfg : Krylov_Settings K) (r_0_norm : K)
    (iter : Nat) (history : List (Nat × K)) : Prop :=
  ∃ h n, history = h ++ [(iter, n)] ∧ Reported cfg r_0_norm (iter - 1) h ∧
    (below_tolerance cfg r_0_norm n = true ∨ iter = cfg.max_iterations)

/-- The state `t` has the control data of `s`: iteration counter, history,
flag `converged`, `u_l`, `num_iterations` and `alpha_j`. -/
def SameControl {K Vec : Type} (s t : GMRES_State K Vec) : Prop :=
  t.iter = s.iter ∧ t.history = s.history ∧ t.converged = s.converged ∧ t.u_l = s.u_l ∧
  t.num_iterations = s.num_iterations ∧ t.alpha_j = s.alpha_j

/-- The GMRES driver stopped on its residual estimate or on a new basis
vector of norm zero, for which no estimate is reported. -/
def GmresStopped {K Vec : Type} [LinearOrderedField K] (cfg : Krylov_Settings K) (r_0_norm : K)
    (t : GMRES_State K Vec) : Prop :=
  t.converged = true ∧ 1 ≤ t.iter ∧ t.iter ≤ cfg.max_iterations ∧
  (StoppedOn cfg r_0_norm t.iter t.history ∨
    (|t.alpha_j| = 0 ∧ Reported cfg r_0_norm (t.iter - 1) t.history))

/-! ### Notions used to state the properties of the region construction -/

/-- Position `(i, j)` is a stored position of the expander: some
`add_entry(i, j, 1.0)` call was made for it. -/
def Mesh.linked (m : Mesh) (i j : Nat) : Prop :=
  (i, j) ∈ ((List.range m.num_total_elements).flatMap m.expander_row).map
    (fun t => (t.1, t.2.1))

instance Mesh.linked_decidable (m : Mesh) (i j : Nat) : Decidable (m.linked i j) :=
  inferInstanceAs (Decidable ((i, j) ∈ _))

/-- Elements `e` and `e_j` have a corner vertex id in common. -/
def Mesh.share_corner (m : Mesh) (e e_j : Nat) : Prop :=
  ∃ vid, vid < m.num_vertices ∧ ∃ vjd, vjd < m.num_vertices ∧ m.corner e vid = m.corner e_j vjd

/-- The owned indicator written to `work_hst[0]` by lines 476-483. -/
def owned_indicator (offset num_local_elements : Nat) : Nat → Nat :=
  fun j => if offset ≤ j ∧ j < offset + num_local_elements then 1 else 0

/-- Number of expander applications made by the whole level loop (lines
487-510) for `num_levels` levels: `subdomain_overlap` at level `0`, and at each
later level `subdomain_overlap` again unless it was `0` and has been reset
to `1` by line 509. -/
def total_applications (subdomain_overlap : Int) (num_levels : Nat) : Nat :=
  if num_levels = 0 then 0
  else subdomain_overlap.toNat +
    (num_levels - 1) * (if subdomain_overlap = 0 then 1 else subdomain_overlap.toNat)

/-- Invariant of the level loop: the Subdomain list holds each marked element
once, the marked elements are the support of `work_dev[0]`, the two Subdomain
counters equal the list length, and the Superdomain is still empty. -/
structure Grown (m : Mesh) (s : Regions) : Prop where
  /-- No id occurs twice. -/
  nodup : (ids s.subdomain_region).Nodup
  /-- The listed ids are the marked ones. -/
  mem : ∀ e, e ∈ ids s.subdomain_region ↔ s.work_hst1 e ≠ 0
  /-- The marked ids are the support of `work_dev[0]`. -/
  marks : ∀ e, s.work_hst1 e ≠ 0 ↔ 0 < s.work_dev0 e
  /-- The support lies inside the mesh. -/
  bound : ∀ e, 0 < s.work_dev0 e → e < m.num_total_elements
  /-- Counter of non-extended elements. -/
  count : s.num_subdomain_elems = s.subdomain_region.length
  /-- Counter of extended elements. -/
  count_ext : s.num_subdomain_extended_elems = s.subdomain_region.length
  /-- The Superdomain list is empty. -/
  super_nil : s.superdomain_region = []
  /-- Its counter is zero. -/
  super_count : s.num_superdomain_elems = 0
  /-- Its extended counter is zero. -/
  super_count_ext : s.num_superdomain_extended_elems = 0

end Subdomain

/-! ## Theorems -/

namespace Subdomain

/-! ### Ranking -/

theorem below_eq_zero (S : Finset Int) (v : Int) (h : ∀ w ∈ S, v ≤ w) : below S v = 0 := by
  unfold below
  have : S.filter (fun w => w < v) = ∅ := by
    apply Finset.filter_eq_empty_iff.mpr
    intro w hw
    exact not_lt.mpr (h w hw)
  simp [this]

theorem below_insert_lt (S : Finset Int) (a v : Int) (ha : a ∉ S) (hav : a < v) :
    below (insert a S) v = below S v + 1 := by
  unfold below
  rw [Finset.filter_insert, if_pos hav, Finset.card_insert_of_not_mem]
  · push_cast; ring
  · intro h
    exact ha (Finset.mem_filter.mp h).1

theorem below_mono (S : Finset Int) (v w : Int) (h : v ≤ w) : below S v ≤ below S w := by
  unfold below
  have : S.filter (fun x => x < v) ⊆ S.filter (fun x => x < w) := by
    intro x hx
    rw [Finset.mem_filter] at hx ⊢
    exact ⟨hx.1, lt_of_lt_of_le hx.2 h⟩
  exact_mod_cast Finset.card_le_card this

theorem below_strict (S : Finset Int) (v w : Int) (hv : v ∈ S) (h : v < w) :
    below S v < below S w := by
  unfold below
  have : S.filter (fun x => x < v) ⊂ S.filter (fun x => x < w) := by
    rw [Finset.ssubset_iff_of_subset]
    · exact ⟨v, Finset.mem_filter.mpr ⟨hv, h⟩, fun hx => lt_irrefl _ (Finset.mem_filter.mp hx).2⟩
    · intro x hx
      rw [Finset.mem_filter] at hx ⊢
      exact ⟨hx.1, lt_trans hx.2 h⟩
  exact_mod_cast Finset.card_lt_card this

/-- The entries written by the ranking loop over a sorted tail: each value gets
`rank` plus the number of distinct values below it. -/
theorem rank_loop_fst (rest : List (Nat × Int)) :
    ∀ (value rank : Int), List.Sorted entry_le rest → (∀ x ∈ rest, value ≤ x.2) →
      (rank_loop value rank rest).1 =
        rest.map (fun x =>
          (x.1, rank + below (insert value (rest.map Prod.snd).toFinset) x.2)) := by
  induction rest with
  | nil => intro value rank _ _; rfl
  | cons x xs ih =>
    intro value rank hs hge
    have hxs : List.Sorted entry_le xs := hs.of_cons
    have hx : ∀ y ∈ xs, x.2 ≤ y.2 := fun y hy => List.rel_of_sorted_cons hs y hy
    have hvx : value ≤ x.2 := hge x (List.mem_cons_self _ _)
    by_cases hxv : x.2 = value
    · have hS : insert value ((x :: xs).map Prod.snd).toFinset
          = insert value (xs.map Prod.snd).toFinset := by
        simp [hxv]
      have h0 : below (insert value (xs.map Prod.snd).toFinset) x.2 = 0 := by
        apply below_eq_zero
        intro w hw
        rw [Finset.mem_insert, List.mem_toFinset, List.mem_map] at hw
        rcases hw with rfl | ⟨y, hy, rfl⟩
        · exact le_of_eq hxv
        · exact hx y hy
      rw [hS]
      simp only [rank_loop, if_pos hxv, List.map_cons]
      rw [ih value rank hxs (fun y hy => hge y (List.mem_cons_of_mem _ hy)), h0, add_zero]
    · have hlt : value < x.2 := lt_of_le_of_ne hvx (Ne.symm hxv)
      have hnot : value ∉ insert x.2 (xs.map Prod.snd).toFinset := by
        intro hmem
        rw [Finset.mem_insert, List.mem_toFinset, List.mem_map] at hmem
        rcases hmem with h | ⟨y, hy, h⟩
        · exact hxv h.symm
        · have := hx y hy
          omega
      have hS : insert value ((x :: xs).map Prod.snd).toFinset
          = insert value (insert x.2 (xs.map Prod.snd).toFinset) := by
        simp
      have h1 : below (insert value (insert x.2 (xs.map Prod.snd).toFinset)) x.2 = 1 := by
        rw [below_insert_lt _ _ _ hnot hlt, below_eq_zero, zero_add]
        intro w hw
        rw [Finset.mem_insert, List.mem_toFinset, List.mem_map] at hw
        rcases hw with rfl | ⟨y, hy, rfl⟩
        · exact le_refl _
        · exact hx y hy
      rw [hS]
      simp only [rank_loop, if_neg hxv, List.map_cons]
      rw [ih x.2 (rank + 1) hxs hx, h1]
      congr 1
      apply List.map_congr_left
      intro y hy
      have hy2 : value < y.2 := lt_of_lt_of_le hlt (hx y hy)
      rw [below_insert_lt _ _ _ hnot hy2]
      congr 1
      ring

/-- The final `rank` of the ranking loop over a sorted tail: `rank` plus the
number of distinct values other than `value`. -/
theorem rank_loop_snd (rest : List (Nat × Int)) :
    ∀ (value rank : Int), List.Sorted entry_le rest → (∀ x ∈ rest, value ≤ x.2) →
      (rank_loop value rank rest).2 =
        rank + (((insert value (rest.map Prod.snd).toFinset).erase value).card : Int) := by
  induction rest with
  | nil => intro value rank _ _; simp [rank_loop]
  | cons x xs ih =>
    intro value rank hs hge
    have hxs : List.Sorted entry_le xs := hs.of_cons
    have hx : ∀ y ∈ xs, x.2 ≤ y.2 := fun y hy => List.rel_of_sorted_cons hs y hy
    have hvx : value ≤ x.2 := hge x (List.mem_cons_self _ _)
    by_cases hxv : x.2 = value
    · have hS : insert value ((x :: xs).map Prod.snd).toFinset
          = insert value (xs.map Prod.snd).toFinset := by
        simp [hxv]
      rw [hS]
      simp only [rank_loop, if_pos hxv]
      exact ih value rank hxs (fun y hy => hge y (List.mem_cons_of_mem _ hy))
    · have hnot : value ∉ insert x.2 (xs.map Prod.snd).toFinset := by
        intro hmem
        rw [Finset.mem_insert, List.mem_toFinset, List.mem_map] at hmem
        rcases hmem with h | ⟨y, hy, h⟩
        · exact hxv h.symm
        · have := hx y hy
          omega
      have hS : insert value ((x :: xs).map Prod.snd).toFinset
          = insert value (insert x.2 (xs.map Prod.snd).toFinset) := by
        simp
      rw [hS]
      simp only [rank_loop, if_neg hxv]
      rw [ih x.2 (rank + 1) hxs hx, Finset.erase_insert hnot]
      have hc := Finset.card_erase_add_one
        (Finset.mem_insert_self x.2 (xs.map Prod.snd).toFinset)
      have hc2 : (((insert x.2 (xs.map Prod.snd).toFinset).erase x.2).card : Int) + 1
          = ((insert x.2 (xs.map Prod.snd).toFinset).card : Int) := by
        exact_mod_cast hc
      linarith

theorem entries_sorted_pair_le (f : Nat → Int) (n : Nat) :
    List.Sorted pair_le ((List.range n).map (fun i => (i, f i))) := by
  rw [List.Sorted, List.pairwise_map]
  exact (List.pairwise_lt_range n).imp (fun h => Or.inl h)

/-- Closed form of `ranking_entries` on a non-empty prefix: entry `i` holds
`rank_of` of its old value, and the final rank counts the distinct values
other than the smallest one. -/
theorem ranking_entries_eq (data : List Int) (size : Nat) (hpos : 0 < size) :
    ∃ value : Int,
      value ∈ (List.range size).map (fun i => data.getD i 0) ∧
      (∀ w ∈ (List.range size).map (fun i => data.getD i 0), value ≤ w) ∧
      (ranking_entries data size).1 =
        (List.range size).map (fun i =>
          (i, (if value = 0 then 0 else 1) +
            below ((List.range size).map (fun i => data.getD i 0)).toFinset (data.getD i 0))) ∧
      (ranking_entries data size).2 =
        (if value = 0 then 0 else 1) +
          (((((List.range size).map (fun i => data.getD i 0)).toFinset).erase value).card : Int) := by
  set entries := (List.range size).map (fun i => (i, data.getD i 0)) with hentries
  have hvals : (List.range size).map (fun i => data.getD i 0) = entries.map Prod.snd := by
    simp [hentries, List.map_map, Function.comp_def]
  have hperm : List.Perm (List.insertionSort entry_le entries) entries :=
    List.perm_insertionSort _ _
  have hsorted : List.Sorted entry_le (List.insertionSort entry_le entries) :=
    List.sorted_insertionSort _ _
  have hunf : ranking_entries data size =
      match List.insertionSort entry_le entries with
      | [] => ([], 0)
      | first :: rest =>
        (List.insertionSort pair_le
            ((first.1, if first.2 = 0 then 0 else 1) ::
              (rank_loop first.2 (if first.2 = 0 then 0 else 1) rest).1),
          (rank_loop first.2 (if first.2 = 0 then 0 else 1) rest).2) := rfl
  rw [hunf, hvals]
  cases hsort : List.insertionSort entry_le entries with
  | nil =>
    exfalso
    have hl := List.length_insertionSort entry_le entries
    rw [hsort] at hl
    simp [hentries] at hl
    omega
  | cons first rest =>
    rw [hsort] at hperm hsorted
    have hrest : List.Sorted entry_le rest := hsorted.of_cons
    have hmin : ∀ x ∈ rest, first.2 ≤ x.2 := fun x hx => List.rel_of_sorted_cons hsorted x hx
    have hS : (entries.map Prod.snd).toFinset
        = insert first.2 (rest.map Prod.snd).toFinset := by
      have := (hperm.map Prod.snd)
      rw [← List.toFinset_eq_of_perm _ _ this]
      simp
    refine ⟨first.2, ?_, ?_, ?_, ?_⟩
    · have : first.2 ∈ (first :: rest).map Prod.snd := by simp
      exact (hperm.map Prod.snd).mem_iff.mp this
    · intro w hw
      have hw2 : w ∈ (first :: rest).map Prod.snd := (hperm.map Prod.snd).mem_iff.mpr hw
      rw [List.map_cons, List.mem_cons, List.mem_map] at hw2
      rcases hw2 with rfl | ⟨x, hx, rfl⟩
      · exact le_refl _
      · exact hmin x hx
    · show List.insertionSort pair_le _ = _
      have hfirst0 : below (insert first.2 (rest.map Prod.snd).toFinset) first.2 = 0 := by
        apply below_eq_zero
        intro w hw
        rw [Finset.mem_insert, List.mem_toFinset, List.mem_map] at hw
        rcases hw with rfl | ⟨x, hx, rfl⟩
        · exact le_refl _
        · exact hmin x hx
      have hranked : ((first.1, if first.2 = 0 then (0 : Int) else 1) ::
            (rank_loop first.2 (if first.2 = 0 then 0 else 1) rest).1)
          = (first :: rest).map (fun x => (x.1, (if first.2 = 0 then (0 : Int) else 1) +
              below (entries.map Prod.snd).toFinset x.2)) := by
        rw [rank_loop_fst rest _ _ hrest hmin, hS, List.map_cons, hfirst0, add_zero]
      have htarget : (List.range size).map (fun i =>
            (i, (if first.2 = 0 then (0 : Int) else 1) +
              below (entries.map Prod.snd).toFinset (data.getD i 0)))
          = entries.map (fun x => (x.1, (if first.2 = 0 then (0 : Int) else 1) +
              below (entries.map Prod.snd).toFinset x.2)) := by
        simp [hentries, List.map_map, Function.comp_def]
      rw [hranked, htarget]
      apply List.eq_of_perm_of_sorted (r := pair_le)
      · exact (List.perm_insertionSort _ _).trans (hperm.map _)
      · exact List.sorted_insertionSort _ _
      · rw [← htarget]
        exact entries_sorted_pair_le _ size
    · show (rank_loop _ _ rest).2 = _
      rw [rank_loop_snd rest _ _ hrest hmin, hS]

theorem range_map_getD (data : List Int) (n : Nat) (hlen : n ≤ data.length) :
    (List.range n).map (fun i => data.getD i 0) = data.take n := by
  apply List.ext_getElem
  · simp [hlen]
  · intro i h1 h2
    simp only [List.length_map, List.length_range] at h1
    have hi : i < data.length := lt_of_lt_of_le h1 hlen
    simp [List.getElem?_eq_getElem hi]

theorem rank_base_eq (vals : List Int) (value : Int) (hmem : value ∈ vals)
    (hmin : ∀ w ∈ vals, value ≤ w) :
    (if value = 0 then (0 : Int) else 1) =
      (if (∀ w ∈ vals, 0 ≤ w) ∧ 0 ∈ vals then (0 : Int) else 1) := by
  by_cases hv : value = 0
  · subst hv
    rw [if_pos rfl, if_pos ⟨hmin, hmem⟩]
  · rw [if_neg hv, if_neg]
    rintro ⟨hnn, h0⟩
    have h1 := hmin 0 h0
    have h2 := hnn value hmem
    omega

/-- Closed form of `ranking`: on a non-empty prefix of length `n` every entry
is replaced, at its own index, by `rank_of` of its old value. -/
theorem ranking_eq (data : List Int) (n : Nat) (hpos : 0 < n) (hlen : n ≤ data.length) :
    ranking data n = (data.take n).map (rank_of (data.take n)) ++ data.drop n := by
  obtain ⟨value, hmem, hmin, h1, _⟩ := ranking_entries_eq data n hpos
  unfold ranking
  rw [if_neg (by omega), h1]
  congr 1
  rw [List.map_map]
  rw [range_map_getD data n hlen] at hmem hmin ⊢
  rw [← range_map_getD data n hlen, List.map_map]
  apply List.map_congr_left
  intro i _
  simp only [Function.comp, rank_of]
  rw [rank_base_eq _ value hmem hmin, range_map_getD data n hlen]

theorem ranking_getD (data : List Int) (n : Nat) (hlen : n ≤ data.length) (i : Nat)
    (hi : i < n) : (ranking data n).getD i 0 = rank_of (data.take n) (data.getD i 0) := by
  have hpos : 0 < n := by omega
  have hil : i < data.length := lt_of_lt_of_le hi hlen
  rw [ranking_eq data n hpos hlen, List.getD_append _ _ _ _ (by simp; omega)]
  rw [List.getD_eq_getElem _ _ (by simp; omega), List.getD_eq_getElem _ _ hil]
  simp

theorem getD_mem_take (data : List Int) (n : Nat) (hlen : n ≤ data.length) (i : Nat)
    (hi : i < n) : data.getD i 0 ∈ data.take n := by
  have hil : i < data.length := lt_of_lt_of_le hi hlen
  rw [List.getD_eq_getElem _ _ hil, List.mem_take_iff_getElem]
  exact ⟨i, by simp; omega, rfl⟩

theorem mem_take_getD (data : List Int) (n : Nat) (v : Int) (hv : v ∈ data.take n) :
    ∃ i, i < n ∧ i < data.length ∧ data.getD i 0 = v := by
  rw [List.mem_take_iff_getElem] at hv
  obtain ⟨i, hi, rfl⟩ := hv
  have h1 : i < n := lt_of_lt_of_le hi (min_le_left _ _)
  have h2 : i < data.length := lt_of_lt_of_le hi (min_le_right _ _)
  exact ⟨i, h1, h2, List.getD_eq_getElem _ _ h2⟩

theorem rank_of_mono (vals : List Int) (v w : Int) (h : v ≤ w) :
    rank_of vals v ≤ rank_of vals w := by
  unfold rank_of
  have := below_mono vals.toFinset v w h
  omega

theorem rank_of_strict (vals : List Int) (v w : Int) (hv : v ∈ vals) (h : v < w) :
    rank_of vals v < rank_of vals w := by
  unfold rank_of
  have := below_strict vals.toFinset v w (List.mem_toFinset.mpr hv) h
  omega

theorem rank_of_eq_zero_iff (vals : List Int) (v : Int) (hv : v ∈ vals) :
    rank_of vals v = 0 ↔ v = 0 ∧ ∀ w ∈ vals, 0 ≤ w := by
  unfold rank_of
  have hb : 0 ≤ below vals.toFinset v := by unfold below; positivity
  constructor
  · intro h
    by_cases hc : (∀ w ∈ vals, 0 ≤ w) ∧ 0 ∈ vals
    · rw [if_pos hc] at h
      have hv0 : 0 ≤ v := hc.1 v hv
      have hle : v ≤ 0 := by
        by_contra hlt
        have := below_strict vals.toFinset 0 v (List.mem_toFinset.mpr hc.2) (by omega)
        have h0 : 0 ≤ below vals.toFinset 0 := by unfold below; positivity
        omega
      exact ⟨by omega, hc.1⟩
    · rw [if_neg hc] at h
      omega
  · rintro ⟨rfl, hnn⟩
    rw [if_pos ⟨hnn, hv⟩, below_eq_zero]
    · rfl
    · intro w hw
      exact hnn w (List.mem_toFinset.mp hw)

theorem below_lt_card (T : Finset Int) (v : Int) (hv : v ∈ T) :
    below T v < (T.card : Int) := by
  unfold below
  have : T.filter (fun x => x < v) ⊂ T := by
    rw [Finset.ssubset_iff_of_subset (Finset.filter_subset _ _)]
    exact ⟨v, hv, fun hx => lt_irrefl _ (Finset.mem_filter.mp hx).2⟩
  exact_mod_cast Finset.card_lt_card this

theorem below_surj (T : Finset Int) (k : Nat) (hk : k < T.card) :
    ∃ v ∈ T, below T v = (k : Int) := by
  have key := Finset.surj_on_of_inj_on_of_card_le
    (s := T) (t := Finset.range T.card)
    (fun v _ => (T.filter (fun x => x < v)).card)
    (fun v hv => by
      rw [Finset.mem_range]
      have := below_lt_card T v hv
      unfold below at this
      exact_mod_cast this)
    (fun a b ha hb hab => by
      by_contra hne
      rcases lt_or_gt_of_ne hne with h | h
      · have := below_strict T a b ha h
        unfold below at this
        simp only at hab
        omega
      · have := below_strict T b a hb h
        unfold below at this
        simp only at hab
        omega)
    (by simp)
  obtain ⟨v, hv, hkv⟩ := key k (Finset.mem_range.mpr hk)
  refine ⟨v, hv, ?_⟩
  unfold below
  exact_mod_cast hkv.symm

theorem rank_of_pos (vals : List Int) (v : Int) (hnn : ∀ w ∈ vals, 0 ≤ w) (hv : 0 < v) :
    rank_of vals v = 1 + below (vals.toFinset.erase 0) v := by
  unfold rank_of
  by_cases h0 : 0 ∈ vals
  · rw [if_pos ⟨hnn, h0⟩]
    have hS : vals.toFinset = insert 0 (vals.toFinset.erase 0) :=
      (Finset.insert_erase (List.mem_toFinset.mpr h0)).symm
    have := below_insert_lt (vals.toFinset.erase 0) 0 v (Finset.not_mem_erase _ _) hv
    rw [← hS] at this
    omega
  · rw [if_neg (fun h => h0 h.2)]
    rw [Finset.erase_eq_of_not_mem (fun h => h0 (List.mem_toFinset.mp h))]

/-- C1: `ranking(data, n)` is order-preserving with shared ranks for ties.  The
array keeps its length, entries from index `n` on are untouched, every entry
`i < n` is replaced at its own index by the rank of its old value, a smaller
old value never gets a larger rank, and equal old values get equal ranks. -/
theorem ranking_order_preserving (data : List Int) (n : Nat) (hlen : n ≤ data.length) :
    (ranking data n).length = data.length ∧
    (∀ i, n ≤ i → (ranking data n).getD i 0 = data.getD i 0) ∧
    (∀ i, i < n → (ranking data n).getD i 0 = rank_of (data.take n) (data.getD i 0)) ∧
    ∀ i j, i < n → j < n →
      (data.getD i 0 < data.getD j 0 →
        (ranking data n).getD i 0 ≤ (ranking data n).getD j 0) ∧
      (data.getD i 0 = data.getD j 0 →
        (ranking data n).getD i 0 = (ranking data n).getD j 0) := by
  rcases Nat.eq_zero_or_pos n with h0 | hpos
  · subst h0
    simp [ranking]
  · refine ⟨?_, ?_, fun i hi => ranking_getD data n hlen i hi, ?_⟩
    · rw [ranking_eq data n hpos hlen]
      simp
      omega
    · intro i hi
      rw [ranking_eq data n hpos hlen]
      have hl : ((data.take n).map (rank_of (data.take n))).length = n := by simp; omega
      rw [List.getD_append_right _ _ _ _ (by omega), hl]
      simp only [List.getD_eq_getElem?_getD, List.getElem?_drop]
      congr 2
      omega
    · intro i j hi hj
      rw [ranking_getD data n hlen i hi, ranking_getD data n hlen j hj]
      exact ⟨fun h => rank_of_mono _ _ _ (le_of_lt h), fun h => by rw [h]⟩

/-- Witness for C1 on `[5, 0, 3, 5, 0]` ranked over its whole length. -/
theorem ranking_order_preserving_witness :
    (5 ≤ ([5, 0, 3, 5, 0] : List Int).length) ∧
    (ranking [5, 0, 3, 5, 0] 5 = [2, 0, 1, 2, 0]) ∧
    ((ranking [5, 0, 3, 5, 0] 5).length = ([5, 0, 3, 5, 0] : List Int).length) :=
  ⟨by decide, by decide, (ranking_order_preserving [5, 0, 3, 5, 0] 5 (by decide)).1⟩

/-- C2 as stated fails: in `[-1, 0]` the entry that was `0` gets rank `2`,
because the rank counter starts at `1` on the negative minimum. -/
theorem ranking_zero_counterexample :
    ¬ ((ranking [-1, 0] 2).getD 1 0 = 0 ↔ ([-1, 0] : List Int).getD 1 0 = 0) := by
  decide

/-- C2 (amended): after `ranking(data, n)` an entry among the first `n` is `0`
if and only if its old value was `0` and none of the first `n` old values is
negative.  So on non-negative input rank `0` marks exactly the zeros (and an
array without a zero gets no rank `0`), and an entry that ends as `0` was `0`
before in every case. -/
theorem ranking_zero_iff (data : List Int) (n : Nat) (hlen : n ≤ data.length)
    (i : Nat) (hi : i < n) :
    (ranking data n).getD i 0 = 0 ↔
      (data.getD i 0 = 0 ∧ ∀ j, j < n → 0 ≤ data.getD j 0) := by
  rw [ranking_getD data n hlen i hi,
    rank_of_eq_zero_iff _ _ (getD_mem_take data n hlen i hi)]
  constructor
  · rintro ⟨h0, hnn⟩
    exact ⟨h0, fun j hj => hnn _ (getD_mem_take data n hlen j hj)⟩
  · rintro ⟨h0, hnn⟩
    refine ⟨h0, fun w hw => ?_⟩
    obtain ⟨j, hj, _, rfl⟩ := mem_take_getD data n w hw
    exact hnn j hj

/-- Witness for the amended C2 on `[4, 0, 7]`: entry `1` is ranked `0`. -/
theorem ranking_zero_iff_witness :
    (3 ≤ ([4, 0, 7] : List Int).length) ∧ (1 < 3) ∧
    ((ranking [4, 0, 7] 3).getD 1 0 = 0 ↔
      (([4, 0, 7] : List Int).getD 1 0 = 0 ∧
        ∀ j, j < 3 → 0 ≤ ([4, 0, 7] : List Int).getD j 0)) :=
  ⟨by decide, by decide, ranking_zero_iff [4, 0, 7] 3 (by decide) 1 (by decide)⟩

theorem coarse_ranking_snd (vals : List Int) (hne : vals ≠ []) (hnn : ∀ w ∈ vals, 0 ≤ w) :
    (coarse_ranking vals).2 = ((vals.toFinset.erase 0).card : Int) := by
  have hpos : 0 < vals.length := List.length_pos.mpr hne
  obtain ⟨value, hmem, hmin, _, h2⟩ := ranking_entries_eq vals vals.length hpos
  rw [range_map_getD vals vals.length (le_refl _), List.take_length] at hmem hmin h2
  show (ranking_entries vals vals.length).2 = _
  rw [h2]
  by_cases hv : value = 0
  · subst hv
    simp
  · rw [if_neg hv]
    have h0 : (0 : Int) ∉ vals.toFinset := by
      intro h
      have h1 := hmin 0 (List.mem_toFinset.mp h)
      have h3 := hnn value hmem
      omega
    rw [Finset.erase_eq_of_not_mem h0]
    have hc := Finset.card_erase_add_one (List.mem_toFinset.mpr hmem)
    have hc2 : ((vals.toFinset.erase value).card : Int) + 1 = (vals.toFinset.card : Int) := by
      exact_mod_cast hc
    linarith

/-! ### Ranking with the counter in `DType` -/

theorem round_exact (T : DType) (x : Int) (h1 : -(2 ^ T.digits : Int) ≤ x)
    (h2 : x ≤ 2 ^ T.digits) : T.round x = x := by
  unfold DType.round
  rw [if_pos]
  have : (x.natAbs : Int) ≤ 2 ^ T.digits := by
    rw [Int.natCast_natAbs]
    exact abs_le.mpr ⟨h1, h2⟩
  exact_mod_cast this

theorem round_next (T : DType) : T.round (2 ^ T.digits + 1) = 2 ^ T.digits := by
  cases T <;> decide


theorem two_pow_digits_pos (T : DType) : (1 : Int) ≤ 2 ^ T.digits :=
  one_le_pow₀ (by norm_num)

theorem round_succ_min (T : DType) (r : Int) (hr : 0 ≤ r) :
    T.round (min r (2 ^ T.digits) + 1) = min (r + 1) (2 ^ T.digits) := by
  have hp := two_pow_digits_pos T
  by_cases h : r < 2 ^ T.digits
  · rw [min_eq_left (le_of_lt h), min_eq_left (by omega), round_exact T _ (by omega) (by omega)]
  · rw [min_eq_right (by omega), min_eq_right (by omega), round_next]

theorem rank_loop_DType_eq (T : DType) (rest : List (Nat × Int)) :
    ∀ (value rank : Int), 0 ≤ rank →
      rank_loop_DType T value (min rank (2 ^ T.digits)) rest =
        ((rank_loop value rank rest).1.map (fun e => (e.1, min e.2 (2 ^ T.digits))),
          min (rank_loop value rank rest).2 (2 ^ T.digits)) := by
  induction rest with
  | nil => intro value rank _; rfl
  | cons x xs ih =>
    intro value rank hr
    unfold rank_loop_DType rank_loop
    by_cases hx : x.2 = value
    · rw [if_pos hx, if_pos hx, ih value rank hr]
      rfl
    · rw [if_neg hx, if_neg hx, round_succ_min T rank hr, ih x.2 (rank + 1) (by omega)]
      rfl

theorem sorted_map_min (c : Int) (l : List (Nat × Int)) (h : List.Sorted pair_le l) :
    List.Sorted pair_le (l.map (fun e => (e.1, min e.2 c))) := by
  rw [List.Sorted, List.pairwise_map]
  apply h.imp
  intro a b hab
  rcases hab with hlt | ⟨heq, hle⟩
  · exact Or.inl hlt
  · exact Or.inr ⟨heq, min_le_min_right c hle⟩

theorem insertionSort_map_min (c : Int) (l : List (Nat × Int)) :
    List.insertionSort pair_le (l.map (fun e => (e.1, min e.2 c)))
      = (List.insertionSort pair_le l).map (fun e => (e.1, min e.2 c)) := by
  apply List.eq_of_perm_of_sorted (r := pair_le)
  · exact (List.perm_insertionSort _ _).trans ((List.perm_insertionSort _ _).map _).symm
  · exact List.sorted_insertionSort _ _
  · exact sorted_map_min c _ (List.sorted_insertionSort _ _)

/-- The `DType` counter saturates at `2 ^ T.digits`: the entries and the
final rank of `ranking` are those of the exact counter cut at that value. -/
theorem ranking_entries_DType_eq (T : DType) (data : List Int) (size : Nat) :
    ranking_entries_DType T data size =
      ((ranking_entries data size).1.map (fun e => (e.1, min e.2 (2 ^ T.digits))),
        min (ranking_entries data size).2 (2 ^ T.digits)) := by
  have hp := two_pow_digits_pos T
  unfold ranking_entries_DType ranking_entries
  cases List.insertionSort entry_le ((List.range size).map (fun i => (i, data.getD i 0))) with
  | nil =>
    simp only [List.map_nil]
    rw [min_eq_left (by omega)]
  | cons first rest =>
    simp only
    have hs : (if first.2 = 0 then (0 : Int) else 1)
        = min (if first.2 = 0 then (0 : Int) else 1) (2 ^ T.digits) := by
      split_ifs
      · rw [min_eq_left (by omega)]
      · rw [min_eq_left hp]
    have h0 : (0 : Int) ≤ (if first.2 = 0 then (0 : Int) else 1) := by
      split_ifs <;> omega
    have hloop := rank_loop_DType_eq T rest first.2 (if first.2 = 0 then (0 : Int) else 1) h0
    rw [← hs] at hloop
    rw [hloop]
    simp only
    rw [← insertionSort_map_min]
    congr 2
    rw [List.map_cons]
    congr 1
    exact Prod.ext rfl hs

theorem ranking_entries_values (data : List Int) (n : Nat) (hpos : 0 < n)
    (hlen : n ≤ data.length) :
    (ranking_entries data n).1.map Prod.snd = (data.take n).map (rank_of (data.take n)) := by
  have h := ranking_eq data n hpos hlen
  unfold ranking at h
  rw [if_neg (by omega)] at h
  exact List.append_cancel_right h

/-- Closed form of `ranking` with the counter in `DType`: on a non-empty
prefix of length `n` every entry is replaced by `rank_of` of its old value,
cut at `2 ^ T.digits`. -/
theorem ranking_DType_eq (T : DType) (data : List Int) (n : Nat) (hpos : 0 < n)
    (hlen : n ≤ data.length) :
    ranking_DType T data n
      = (data.take n).map (fun v => min (rank_of (data.take n) v) (2 ^ T.digits))
        ++ data.drop n := by
  unfold ranking_DType
  rw [if_neg (by omega), ranking_entries_DType_eq]
  congr 1
  simp only
  rw [List.map_map]
  have h := ranking_entries_values data n hpos hlen
  have h2 : (ranking_entries data n).1.map
        (Prod.snd ∘ fun e : Nat × Int => (e.1, min e.2 (2 ^ T.digits)))
      = ((ranking_entries data n).1.map Prod.snd).map (fun r => min r (2 ^ T.digits)) := by
    rw [List.map_map]
    rfl
  rw [h2, h, List.map_map]
  rfl

theorem ranking_DType_getD (T : DType) (data : List Int) (n : Nat) (hlen : n ≤ data.length)
    (i : Nat) (hi : i < n) :
    (ranking_DType T data n).getD i 0
      = min (rank_of (data.take n) (data.getD i 0)) (2 ^ T.digits) := by
  have hpos : 0 < n := by omega
  have hil : i < data.length := lt_of_lt_of_le hi hlen
  rw [ranking_DType_eq T data n hpos hlen, List.getD_append _ _ _ _ (by simp; omega)]
  rw [List.getD_eq_getElem _ _ (by simp; omega), List.getD_eq_getElem _ _ hil]
  simp

/-- With an exact counter (the integer variant, or `DType` below its
precision) the ranks given to the nonzero values of a non-negative array are
exactly `1, ..., K`. -/
theorem rank_of_dense (vals : List Int) (hnn : ∀ w ∈ vals, 0 ≤ w) (r : Int) :
    (∃ v ∈ vals, v ≠ 0 ∧ rank_of vals v = r) ↔
      (1 ≤ r ∧ r ≤ ((vals.toFinset.erase 0).card : Int)) := by
  constructor
  · rintro ⟨v, hv, hne, rfl⟩
    have hv0 : 0 < v := lt_of_le_of_ne (hnn v hv) (Ne.symm hne)
    rw [rank_of_pos _ _ hnn hv0]
    have hT : v ∈ vals.toFinset.erase 0 :=
      Finset.mem_erase.mpr ⟨hne, List.mem_toFinset.mpr hv⟩
    have h1 := below_lt_card _ _ hT
    have h2 : 0 ≤ below (vals.toFinset.erase 0) v := by
      unfold below; positivity
    omega
  · rintro ⟨h1, h2⟩
    have hk : (r - 1).toNat < (vals.toFinset.erase 0).card := by omega
    obtain ⟨v, hvT, hbv⟩ := below_surj _ _ hk
    have hv0 : v ≠ 0 := (Finset.mem_erase.mp hvT).1
    have hvm : v ∈ vals := List.mem_toFinset.mp (Finset.mem_erase.mp hvT).2
    have hv : 0 < v := lt_of_le_of_ne (hnn v hvm) (Ne.symm hv0)
    refine ⟨v, hvm, hv0, ?_⟩
    rw [rank_of_pos _ _ hnn hv, hbv]
    omega

/-- C3, amended: ranking compacts non-negative tags into dense ids up to the
precision of `DType`.  For an array whose first `n >= 1` entries are
non-negative, the ranks given to the nonzero ones are exactly the integers
`1, ..., min(K, 2^p)`, with `K` the number of distinct nonzero values among
them and `p` the number of significant digits of `DType` (24 for `float`, 53
for `double`): exactly `1, ..., K` when `K <= 2^p`.  The integer variant of
the coarse numbering, run on those same values, ends with
`num_coarse_dofs = K`. -/
theorem ranking_DType_dense (T : DType) (data : List Int) (n : Nat) (hpos : 1 ≤ n)
    (hlen : n ≤ data.length) (hnn : ∀ i, i < n → 0 ≤ data.getD i 0) :
    (∀ r : Int,
      (∃ i, i < n ∧ data.getD i 0 ≠ 0 ∧ (ranking_DType T data n).getD i 0 = r) ↔
        (1 ≤ r ∧ r ≤ min (((data.take n).toFinset.erase 0).card : Int) (2 ^ T.digits))) ∧
    ((((data.take n).toFinset.erase 0).card : Int) ≤ 2 ^ T.digits →
      ∀ r : Int,
        (∃ i, i < n ∧ data.getD i 0 ≠ 0 ∧ (ranking_DType T data n).getD i 0 = r) ↔
          (1 ≤ r ∧ r ≤ (((data.take n).toFinset.erase 0).card : Int))) ∧
    (coarse_ranking (data.take n)).2 = (((data.take n).toFinset.erase 0).card : Int) := by
  have hvals : ∀ w ∈ data.take n, 0 ≤ w := by
    intro w hw
    obtain ⟨j, hj, _, rfl⟩ := mem_take_getD data n w hw
    exact hnn j hj
  have hp := two_pow_digits_pos T
  have hmain : ∀ r : Int,
      (∃ i, i < n ∧ data.getD i 0 ≠ 0 ∧ (ranking_DType T data n).getD i 0 = r) ↔
        (1 ≤ r ∧ r ≤ min (((data.take n).toFinset.erase 0).card : Int) (2 ^ T.digits)) := by
    intro r
    constructor
    · rintro ⟨i, hi, hne, rfl⟩
      rw [ranking_DType_getD T data n hlen i hi]
      have hd := (rank_of_dense (data.take n) hvals
        (rank_of (data.take n) (data.getD i 0))).mp
        ⟨data.getD i 0, getD_mem_take data n hlen i hi, hne, rfl⟩
      refine ⟨le_min hd.1 hp, min_le_min_right _ hd.2⟩
    · rintro ⟨h1, h2⟩
      obtain ⟨v, hv, hne, hr⟩ := (rank_of_dense (data.take n) hvals r).mpr
        ⟨h1, h2.trans (min_le_left _ _)⟩
      obtain ⟨i, hi, _, rfl⟩ := mem_take_getD data n v hv
      refine ⟨i, hi, hne, ?_⟩
      rw [ranking_DType_getD T data n hlen i hi, hr]
      exact min_eq_left (h2.trans (min_le_right _ _))
  refine ⟨hmain, ?_, ?_⟩
  · intro hK r
    rw [hmain r, min_eq_left hK]
  · apply coarse_ranking_snd _ _ hvals
    intro h
    have hl := congrArg List.length h
    rw [List.length_take, List.length_nil] at hl
    omega

/-- Witness for C3 on `[40, 0, 7, 40]` in `float`: two distinct nonzero tags,
ranks `1, 2`. -/
theorem ranking_DType_dense_witness :
    (ranking_DType DType.float [40, 0, 7, 40] 4 = [2, 0, 1, 2]) ∧
    (coarse_ranking (([40, 0, 7, 40] : List Int).take 4)).2
      = (((([40, 0, 7, 40] : List Int).take 4).toFinset.erase 0).card : Int) :=
  ⟨by decide,
    (ranking_DType_dense DType.float [40, 0, 7, 40] 4 (by decide) (by decide) (by decide)).2.2⟩

theorem long_tags_length (N : Nat) : (long_tags N).length = N + 1 := by
  simp [long_tags]

theorem mem_long_tags (N : Nat) (v : Int) (hv : v ∈ long_tags N) :
    (1 ≤ v ∧ v ≤ N) ∨ v = (N : Int) + 2 := by
  unfold long_tags at hv
  rw [List.mem_append, List.mem_map, List.mem_singleton] at hv
  rcases hv with ⟨i, hi, rfl⟩ | rfl
  · have := List.mem_range.mp hi
    left
    omega
  · exact Or.inr rfl

theorem long_tags_nodup (N : Nat) : (long_tags N).Nodup := by
  unfold long_tags
  rw [List.nodup_append]
  refine ⟨?_, List.nodup_singleton _, ?_⟩
  · apply List.Nodup.map _ (List.nodup_range N)
    intro a b hab
    simp only at hab
    omega
  · intro v hv hv2
    rw [List.mem_map] at hv
    obtain ⟨i, hi, rfl⟩ := hv
    have := List.mem_range.mp hi
    rw [List.mem_singleton] at hv2
    omega

theorem long_tags_card (N : Nat) :
    (((long_tags N).take (N + 1)).toFinset.erase 0).card = N + 1 := by
  rw [List.take_of_length_le (by rw [long_tags_length])]
  rw [Finset.erase_eq_of_not_mem, List.toFinset_card_of_nodup (long_tags_nodup N),
    long_tags_length]
  intro h
  rcases mem_long_tags N 0 (List.mem_toFinset.mp h) with h1 | h1 <;> omega

theorem long_tags_ranks (T : DType) (N : Nat) (hN : 2 ^ T.digits ≤ N) :
    ¬ ∃ i, i < N + 1 ∧ (long_tags N).getD i 0 ≠ 0 ∧
      (ranking_DType T (long_tags N) (N + 1)).getD i 0 = (N : Int) + 1 := by
  rintro ⟨i, hi, _, hr⟩
  rw [ranking_DType_getD T _ _ (by rw [long_tags_length]) i hi] at hr
  have h1 := min_le_right (rank_of ((long_tags N).take (N + 1)) ((long_tags N).getD i 0))
    ((2 : Int) ^ T.digits)
  have h2 : ((2 : Int) ^ T.digits) ≤ N := by exact_mod_cast hN
  omega

theorem long_tags_float (N : Nat) (hN : N = 2 ^ DType.float.digits) :
    ∀ v ∈ long_tags N, DType.float.round v = v := by
  intro v hv
  rcases mem_long_tags N v hv with h | h
  · apply round_exact
    · have := two_pow_digits_pos DType.float
      omega
    · have : (N : Int) = 2 ^ DType.float.digits := by exact_mod_cast hN
      omega
  · subst hN
    rw [h]
    decide

/-- C3, counterexample: in `float` the tags `1, ..., 2^24, 2^24 + 2`, which
are `2^24 + 1` distinct positive `float` values, get the ranks `1, ..., 2^24`
only: the counter stays at `2^24` when `1.0` is added to it, and no entry
gets the rank `K = 2^24 + 1`. -/
theorem ranking_float_counterexample :
    (long_tags 16777216).length = 16777216 + 1 ∧
    (∀ v ∈ long_tags 16777216, DType.float.round v = v ∧ 0 ≤ v) ∧
    (((long_tags 16777216).take (16777216 + 1)).toFinset.erase 0).card = 16777216 + 1 ∧
    ¬ ∃ i, i < 16777216 + 1 ∧ (long_tags 16777216).getD i 0 ≠ 0 ∧
      (ranking_DType DType.float (long_tags 16777216) (16777216 + 1)).getD i 0
        = ((16777216 : Nat) : Int) + 1 :=
  ⟨long_tags_length 16777216,
    fun v hv => ⟨long_tags_float 16777216 (by decide) v hv, by
      rcases mem_long_tags 16777216 v hv with h | h <;> omega⟩,
    long_tags_card 16777216,
    long_tags_ranks DType.float 16777216 (by decide)⟩

/-! ### Expander -/

theorem list_sum_pos_iff (l : List Nat) : 0 < l.sum ↔ ∃ a ∈ l, 0 < a := by
  induction l with
  | nil => simp
  | cons b l ih =>
    rw [List.sum_cons]
    constructor
    · intro h
      by_cases hb : 0 < b
      · exact ⟨b, List.mem_cons_self _ _, hb⟩
      · have : 0 < l.sum := by omega
        obtain ⟨a, ha, hpos⟩ := ih.mp this
        exact ⟨a, List.mem_cons_of_mem _ ha, hpos⟩
    · rintro ⟨a, ha, hpos⟩
      rcases List.mem_cons.mp ha with rfl | ha
      · omega
      · have := ih.mpr ⟨a, ha, hpos⟩
        omega

/-- The expander result is positive at `i` exactly when some stored position
`(i, j)` of row `i` meets a positive entry of `x`. -/
theorem multiply_pos_iff (m : Mesh) (x : Nat → Nat) (i : Nat) :
    0 < m.expander.multiply x i ↔ ∃ j, m.linked i j ∧ 0 < x j := by
  unfold CSR_Matrix.multiply Mesh.expander CSR_Matrix.set_to_value CSR_Matrix.assemble
    Mesh.linked
  rw [list_sum_pos_iff]
  simp only [List.mem_map, List.mem_filter, List.mem_dedup, decide_eq_true_eq]
  constructor
  · rintro ⟨a, ⟨t, ⟨⟨u, ⟨p, ⟨w, hw, rfl⟩, rfl⟩, rfl⟩, rfl⟩, rfl⟩, ha⟩
    simp only [one_mul] at ha
    exact ⟨w.2.1, ⟨w, hw, rfl⟩, ha⟩
  · rintro ⟨j, ⟨w, hw, hwe⟩, hj⟩
    have h1 : w.1 = i := congrArg Prod.fst hwe
    have h2 : w.2.1 = j := congrArg Prod.snd hwe
    refine ⟨1 * x j, ⟨(i, j, 1), ⟨⟨(i, j, _), ⟨(i, j), ⟨w, hw, hwe⟩, rfl⟩, rfl⟩, rfl⟩, rfl⟩, ?_⟩
    simpa using hj

theorem linked_iff (m : Mesh) (i j : Nat) :
    m.linked i j ↔ i < m.num_total_elements ∧
      (j = i ∨ (∃ vid, vid < m.num_vertices ∧ j ∈ m.vert_conn i vid) ∨
        (∃ eid, eid < m.num_edges ∧ j ∈ m.edge_conn i eid) ∨
        (∃ fid, fid < m.num_faces ∧ j ∈ m.face_conn i fid)) := by
  unfold Mesh.linked Mesh.expander_row
  simp only [List.mem_map, List.mem_flatMap, List.mem_range, List.mem_cons, List.mem_append]
  constructor
  · rintro ⟨t, ⟨e, he, ht⟩, hte⟩
    rcases ht with rfl | (⟨vid, hv, e_j, hej, rfl⟩ | ⟨eid, hv, e_j, hej, rfl⟩) | ⟨fid, hv, e_j, hej, rfl⟩
    all_goals
      simp only [Prod.mk.injEq] at hte
      obtain ⟨rfl, rfl⟩ := hte
      refine ⟨he, ?_⟩
    · exact Or.inl rfl
    · exact Or.inr (Or.inl ⟨vid, hv, hej⟩)
    · exact Or.inr (Or.inr (Or.inl ⟨eid, hv, hej⟩))
    · exact Or.inr (Or.inr (Or.inr ⟨fid, hv, hej⟩))
  · rintro ⟨hi, h⟩
    rcases h with rfl | ⟨vid, hv, hj⟩ | ⟨eid, hv, hj⟩ | ⟨fid, hv, hj⟩
    · exact ⟨(j, j, 1), ⟨j, hi, Or.inl rfl⟩, rfl⟩
    · exact ⟨(i, j, 1), ⟨i, hi, Or.inr (Or.inl (Or.inl ⟨vid, hv, j, hj, rfl⟩))⟩, rfl⟩
    · exact ⟨(i, j, 1), ⟨i, hi, Or.inr (Or.inl (Or.inr ⟨eid, hv, j, hj, rfl⟩))⟩, rfl⟩
    · exact ⟨(i, j, 1), ⟨i, hi, Or.inr (Or.inr ⟨fid, hv, j, hj, rfl⟩)⟩, rfl⟩

theorem linked_self (m : Mesh) (i : Nat) (hi : i < m.num_total_elements) : m.linked i i :=
  (linked_iff m i i).mpr ⟨hi, Or.inl rfl⟩

theorem linked_lt (m : Mesh) (i j : Nat) (h : m.linked i j) :
    i < m.num_total_elements ∧ j < m.num_total_elements := by
  obtain ⟨hi, h⟩ := (linked_iff m i j).mp h
  refine ⟨hi, ?_⟩
  rcases h with rfl | ⟨vid, _, hj⟩ | ⟨eid, _, hj⟩ | ⟨fid, _, hj⟩
  · exact hi
  · unfold Mesh.vert_conn at hj
    split at hj
    · unfold Mesh.vertices at hj
      simp only [List.mem_filter, List.mem_range] at hj
      exact hj.1.1
    · simp at hj
  · unfold Mesh.edge_conn Mesh.edges at hj
    simp only [List.mem_filter, List.mem_range] at hj
    exact hj.1.1
  · unfold Mesh.face_conn at hj
    split at hj
    · unfold Mesh.faces at hj
      simp only [List.mem_filter, List.mem_range] at hj
      exact hj.1.1
    · simp at hj

theorem linked_of_share_corner (m : Mesh) (i j : Nat) (hdim : 1 ≤ m.dim)
    (hi : i < m.num_total_elements)
    (hj : j < m.num_total_elements) (h : m.share_corner i j) : m.linked i j := by
  rw [linked_iff]
  refine ⟨hi, ?_⟩
  by_cases hij : j = i
  · exact Or.inl hij
  · obtain ⟨vid, hv, vjd, hvj, hc⟩ := h
    refine Or.inr (Or.inl ⟨vid, hv, ?_⟩)
    unfold Mesh.vert_conn
    rw [if_pos hdim]
    unfold Mesh.vertices
    simp only [List.mem_filter, List.mem_range, List.any_eq_true, decide_eq_true_eq]
    exact ⟨⟨hj, vjd, hvj, hc.symm⟩, hij⟩

/-! ### Supports under repeated expansion -/

theorem multiply_pos_of_pos (m : Mesh) (x : Nat → Nat) (e : Nat)
    (he : e < m.num_total_elements) (h : 0 < x e) : 0 < m.expander.multiply x e :=
  (multiply_pos_iff m x e).mpr ⟨e, linked_self m e he, h⟩

theorem multiply_pos_lt (m : Mesh) (x : Nat → Nat) (e : Nat)
    (h : 0 < m.expander.multiply x e) : e < m.num_total_elements := by
  obtain ⟨j, hl, _⟩ := (multiply_pos_iff m x e).mp h
  exact (linked_lt m e j hl).1

theorem multiply_pos_mono (m : Mesh) (x y : Nat → Nat)
    (hxy : ∀ j, j < m.num_total_elements → 0 < x j → 0 < y j) (e : Nat)
    (h : 0 < m.expander.multiply x e) : 0 < m.expander.multiply y e := by
  obtain ⟨j, hl, hj⟩ := (multiply_pos_iff m x e).mp h
  exact (multiply_pos_iff m y e).mpr ⟨j, hl, hxy j (linked_lt m e j hl).2 hj⟩

theorem iterate_pos_lt (m : Mesh) (x : Nat → Nat)
    (hx : ∀ e, 0 < x e → e < m.num_total_elements) (k : Nat) (e : Nat)
    (h : 0 < (m.expander.multiply^[k] x) e) : e < m.num_total_elements := by
  cases k with
  | zero => exact hx e h
  | succ k =>
    rw [Function.iterate_succ_apply'] at h
    exact multiply_pos_lt m _ e h

theorem iterate_pos_step (m : Mesh) (x : Nat → Nat)
    (hx : ∀ e, 0 < x e → e < m.num_total_elements) (k : Nat) (e : Nat)
    (h : 0 < (m.expander.multiply^[k] x) e) : 0 < (m.expander.multiply^[k + 1] x) e := by
  rw [Function.iterate_succ_apply']
  exact multiply_pos_of_pos m _ e (iterate_pos_lt m x hx k e h) h

theorem iterate_pos_add (m : Mesh) (x : Nat → Nat)
    (hx : ∀ e, 0 < x e → e < m.num_total_elements) (k d : Nat) (e : Nat)
    (h : 0 < (m.expander.multiply^[k] x) e) : 0 < (m.expander.multiply^[k + d] x) e := by
  induction d with
  | zero => exact h
  | succ d ih => exact iterate_pos_step m x hx (k + d) e ih

theorem iterate_pos_le (m : Mesh) (x : Nat → Nat)
    (hx : ∀ e, 0 < x e → e < m.num_total_elements) (a b : Nat) (hab : a ≤ b) (e : Nat)
    (h : 0 < (m.expander.multiply^[a] x) e) : 0 < (m.expander.multiply^[b] x) e := by
  obtain ⟨d, rfl⟩ := Nat.exists_eq_add_of_le hab
  exact iterate_pos_add m x hx a d e h

theorem iterate_pos_source (m : Mesh) (x : Nat → Nat) (k : Nat) (e : Nat)
    (h : 0 < (m.expander.multiply^[k] x) e) : ∃ j, 0 < x j := by
  induction k generalizing e with
  | zero => exact ⟨e, h⟩
  | succ k ih =>
    rw [Function.iterate_succ_apply'] at h
    obtain ⟨j, _, hj⟩ := (multiply_pos_iff m _ e).mp h
    exact ih j hj

theorem owned_indicator_pos (offset nl j : Nat) :
    0 < owned_indicator offset nl j ↔ offset ≤ j ∧ j < offset + nl := by
  unfold owned_indicator
  split <;> simp_all

theorem total_applications_cons (k : Int) (len : Nat) :
    total_applications k (len + 1)
      = total_applications (if k = 0 then 1 else k) len + k.toNat := by
  unfold total_applications
  by_cases hk : k = 0
  · subst hk
    cases len <;> simp
    omega
  · simp only [if_neg hk, Nat.add_sub_cancel, Nat.succ_ne_zero, if_false]
    cases len with
    | zero => simp
    | succ len =>
      simp only [Nat.succ_ne_zero, if_false, Nat.add_sub_cancel]
      ring

theorem total_applications_mono (k : Nat) (L : Nat) :
    total_applications (k : Int) L ≤ total_applications ((k : Int) + 1) L := by
  unfold total_applications
  by_cases hL : L = 0
  · simp [hL]
  · simp only [if_neg hL]
    have h1 : ((k : Int) + 1).toNat = k + 1 := by omega
    have h2 : ((k : Int)).toNat = k := by omega
    have h3 : ¬ ((k : Int) + 1 = 0) := by omega
    rw [h1, h2, if_neg h3]
    by_cases hk : (k : Int) = 0
    · have hk0 : k = 0 := by omega
      subst hk0
      simp
    · rw [if_neg hk]
      have : (L - 1) * k ≤ (L - 1) * (k + 1) := Nat.mul_le_mul_left _ (by omega)
      omega

/-! ### The loops of the region construction in closed form -/

theorem owned_fold (poly_degree : List Int) (offset : Nat) (l : List Nat) :
    ∀ s : Regions, l.foldl (owned_step poly_degree offset) s =
      { s with
        subdomain_region :=
          s.subdomain_region ++ l.map (fun e => ⟨offset + e, poly_degree.getD 0 0⟩),
        subdomain_partition := (l.foldl (owned_step poly_degree offset) s).subdomain_partition,
        num_subdomain_elems := s.num_subdomain_elems + l.length,
        num_subdomain_extended_elems := s.num_subdomain_extended_elems + l.length } := by
  induction l with
  | nil => intro s; simp
  | cons e l ih =>
    intro s
    rw [List.foldl_cons, ih]
    simp [owned_step, Nat.add_assoc, Nat.add_comm 1]

theorem mark_fold (offset : Nat) (l : List Nat) :
    ∀ s : Regions,
      l.foldl (mark_step offset) s =
        { s with
          work_hst0 := (l.foldl (mark_step offset) s).work_hst0,
          work_hst1 := (l.foldl (mark_step offset) s).work_hst1 } ∧
      (∀ j, (l.foldl (mark_step offset) s).work_hst0 j =
        if (∃ e ∈ l, offset + e = j) then 1 else s.work_hst0 j) ∧
      (∀ j, (l.foldl (mark_step offset) s).work_hst1 j ≠ 0 ↔
        ((∃ e ∈ l, offset + e = j) ∨ s.work_hst1 j ≠ 0)) := by
  induction l with
  | nil => intro s; simp
  | cons e l ih =>
    intro s
    obtain ⟨h1, h2, h3⟩ := ih (mark_step offset s e)
    rw [List.foldl_cons]
    refine ⟨?_, ?_, ?_⟩
    · rw [h1]
      simp [mark_step]
    · intro j
      rw [h2 j]
      by_cases hl : ∃ e' ∈ l, offset + e' = j
      · obtain ⟨e', he', hj⟩ := hl
        rw [if_pos ⟨e', he', hj⟩, if_pos ⟨e', List.mem_cons_of_mem _ he', hj⟩]
      · rw [if_neg hl]
        by_cases he : offset + e = j
        · rw [if_pos ⟨e, List.mem_cons_self _ _, he⟩]
          simp [mark_step, vset, he.symm]
        · rw [if_neg]
          · simp [mark_step, vset, Ne.symm he]
          · rintro ⟨e', he', hj⟩
            rcases List.mem_cons.mp he' with rfl | he'
            · exact he hj
            · exact hl ⟨e', he', hj⟩
    · intro j
      rw [h3 j]
      simp only [mark_step, vset, List.mem_cons, exists_eq_or_imp]
      by_cases he : j = offset + e
      · simp [he]
      · have he2 : ¬ (offset + e = j) := fun h => he h.symm
        simp [he, he2, or_comm]

theorem expand_fold (m : Mesh) (l : List Nat) :
    ∀ s : Regions, l.foldl (expand_step m) s =
      { s with
        work_dev0 := m.expander.multiply^[l.length] s.work_dev0,
        work_dev1 := (l.foldl (expand_step m) s).work_dev1 } := by
  induction l with
  | nil => intro s; simp
  | cons e l ih =>
    intro s
    rw [List.foldl_cons, ih]
    simp [expand_step, Function.iterate_succ_apply]

theorem collect_fold (degree : Int) (l : List Nat) (hl : l.Nodup) :
    ∀ s : Regions,
      l.foldl (collect_step degree) s =
        { s with
          work_hst1 := (l.foldl (collect_step degree) s).work_hst1,
          subdomain_region := s.subdomain_region ++
            (l.filter (fun e => 0 < s.work_hst0 e ∧ s.work_hst1 e = 0)).map
              (fun e => ⟨e, degree⟩),
          subdomain_partition := (l.foldl (collect_step degree) s).subdomain_partition,
          num_subdomain_elems := s.num_subdomain_elems +
            (l.filter (fun e => 0 < s.work_hst0 e ∧ s.work_hst1 e = 0)).length,
          num_subdomain_extended_elems := s.num_subdomain_extended_elems +
            (l.filter (fun e => 0 < s.work_hst0 e ∧ s.work_hst1 e = 0)).length } ∧
      (∀ j, j ∉ l.filter (fun e => 0 < s.work_hst0 e ∧ s.work_hst1 e = 0) →
        (l.foldl (collect_step degree) s).work_hst1 j = s.work_hst1 j) ∧
      (∀ j, j ∈ l.filter (fun e => 0 < s.work_hst0 e ∧ s.work_hst1 e = 0) →
        s.num_subdomain_elems ≤ (l.foldl (collect_step degree) s).work_hst1 j) := by
  induction l with
  | nil => intro s; simp
  | cons e l ih =>
    intro s
    have hel : e ∉ l := (List.nodup_cons.mp hl).1
    have hl2 : l.Nodup := (List.nodup_cons.mp hl).2
    rw [List.foldl_cons]
    by_cases hc : 0 < s.work_hst0 e ∧ s.work_hst1 e = 0
    · have hstep : collect_step degree s e =
          { s with
            work_hst1 := vset s.work_hst1 e s.num_subdomain_elems,
            subdomain_region := s.subdomain_region ++ [⟨e, degree⟩],
            subdomain_partition := vset s.subdomain_partition e (s.num_subdomain_elems + 1),
            num_subdomain_elems := s.num_subdomain_elems + 1,
            num_subdomain_extended_elems := s.num_subdomain_extended_elems + 1 } := by
        unfold collect_step
        rw [if_pos hc]
      have hfil : l.filter (fun e' => 0 < (collect_step degree s e).work_hst0 e' ∧
            (collect_step degree s e).work_hst1 e' = 0)
          = l.filter (fun e' => 0 < s.work_hst0 e' ∧ s.work_hst1 e' = 0) := by
        apply List.filter_congr
        intro x hx
        have hxe : x ≠ e := fun h => hel (h ▸ hx)
        rw [hstep]
        simp [vset, hxe]
      have hcons : (e :: l).filter (fun e' => 0 < s.work_hst0 e' ∧ s.work_hst1 e' = 0)
          = e :: l.filter (fun e' => 0 < s.work_hst0 e' ∧ s.work_hst1 e' = 0) := by
        rw [List.filter_cons_of_pos]
        simpa using hc
      obtain ⟨h1, h2, h3⟩ := ih hl2 (collect_step degree s e)
      rw [hfil] at h1 h2 h3
      rw [hcons]
      have henot : e ∉ l.filter (fun e' => 0 < s.work_hst0 e' ∧ s.work_hst1 e' = 0) :=
        fun h => hel (List.mem_of_mem_filter h)
      refine ⟨?_, ?_, ?_⟩
      · rw [h1, hstep]
        simp [Nat.add_assoc, Nat.add_comm 1]
      · intro j hj
        rw [List.mem_cons, not_or] at hj
        rw [h2 j hj.2, hstep]
        simp [vset, hj.1]
      · intro j hj
        rcases List.mem_cons.mp hj with rfl | hj
        · rw [h2 j henot, hstep]
          simp [vset]
        · have h4 := h3 j hj
          have hnum : (collect_step degree s e).num_subdomain_elems
              = s.num_subdomain_elems + 1 := by rw [hstep]
          omega
    · have hstep : collect_step degree s e = s := by
        unfold collect_step
        rw [if_neg hc]
      have hcons : (e :: l).filter (fun e' => 0 < s.work_hst0 e' ∧ s.work_hst1 e' = 0)
          = l.filter (fun e' => 0 < s.work_hst0 e' ∧ s.work_hst1 e' = 0) := by
        rw [List.filter_cons_of_neg]
        simpa using hc
      rw [hstep, hcons]
      exact ih hl2 s

theorem ids_append (a b : List Element) : ids (a ++ b) = ids a ++ ids b := by
  simp [ids]

theorem ids_map (l : List Nat) (degree : Int) :
    ids (l.map (fun e => (⟨e, degree⟩ : Element))) = l := by
  simp [ids, List.map_map, Function.comp_def]

/-- One level of the level loop, before the reset of line 509: the expansions
followed by the collection of the newly reached elements. -/
theorem level_core (m : Mesh) (degree : Int) (k : Nat) (s : Regions) (h : Grown m s) :
    Grown m ((List.range m.num_total_elements).foldl (collect_step degree)
      { (List.range k).foldl (expand_step m) s with
        work_hst0 := ((List.range k).foldl (expand_step m) s).work_dev0 }) ∧
    ((List.range m.num_total_elements).foldl (collect_step degree)
      { (List.range k).foldl (expand_step m) s with
        work_hst0 := ((List.range k).foldl (expand_step m) s).work_dev0 }).work_dev0
      = m.expander.multiply^[k] s.work_dev0 ∧
    ((List.range m.num_total_elements).foldl (collect_step degree)
      { (List.range k).foldl (expand_step m) s with
        work_hst0 := ((List.range k).foldl (expand_step m) s).work_dev0 }).subdomain_overlap
      = s.subdomain_overlap := by
  have hexp := expand_fold m (List.range k) s
  rw [List.length_range] at hexp
  set s1 := (List.range k).foldl (expand_step m) s with hs1
  set s2 : Regions := { s1 with work_hst0 := s1.work_dev0 } with hs2
  obtain ⟨h1, h2, h3⟩ := collect_fold degree (List.range m.num_total_elements)
    (List.nodup_range _) s2
  set s3 := (List.range m.num_total_elements).foldl (collect_step degree) s2 with hs3
  have e_dev0 : s1.work_dev0 = m.expander.multiply^[k] s.work_dev0 := by rw [hexp]
  have e_h0 : s2.work_hst0 = m.expander.multiply^[k] s.work_dev0 := by rw [hs2, hexp]
  have e_h1 : s2.work_hst1 = s.work_hst1 := by rw [hs2, hexp]
  have e_reg : s2.subdomain_region = s.subdomain_region := by rw [hs2, hexp]
  have e_num : s2.num_subdomain_elems = s.num_subdomain_elems := by rw [hs2, hexp]
  have e_ext : s2.num_subdomain_extended_elems = s.num_subdomain_extended_elems := by
    rw [hs2, hexp]
  rw [e_h0, e_h1] at h1 h2 h3
  rw [e_reg, e_num, e_ext] at h1
  rw [e_num] at h3
  set C := (List.range m.num_total_elements).filter
    (fun e => 0 < (m.expander.multiply^[k] s.work_dev0) e ∧ s.work_hst1 e = 0) with hC
  have r_reg : s3.subdomain_region = s.subdomain_region ++ C.map (fun e => ⟨e, degree⟩) := by
    rw [h1]
  have r_num : s3.num_subdomain_elems = s.num_subdomain_elems + C.length := by rw [h1]
  have r_ext : s3.num_subdomain_extended_elems = s.num_subdomain_extended_elems + C.length := by
    rw [h1]
  have r_dev0 : s3.work_dev0 = m.expander.multiply^[k] s.work_dev0 := by
    rw [h1]; exact e_dev0
  have r_sup : s3.superdomain_region = s.superdomain_region := by rw [h1, hs2, hexp]
  have r_sn : s3.num_superdomain_elems = s.num_superdomain_elems := by rw [h1, hs2, hexp]
  have r_se : s3.num_superdomain_extended_elems = s.num_superdomain_extended_elems := by
    rw [h1, hs2, hexp]
  have r_ov : s3.subdomain_overlap = s.subdomain_overlap := by rw [h1, hs2, hexp]
  have memC : ∀ e, e ∈ C ↔ (e < m.num_total_elements ∧
      0 < (m.expander.multiply^[k] s.work_dev0) e ∧ s.work_hst1 e = 0) := by
    intro e
    simp [hC]
  have hpos : ∀ e, e ∈ C → 0 < s.num_subdomain_elems := by
    intro e he
    obtain ⟨j, hj⟩ := iterate_pos_source m s.work_dev0 k e ((memC e).mp he).2.1
    have hmem : j ∈ ids s.subdomain_region := (h.mem j).mpr ((h.marks j).mpr hj)
    rw [h.count]
    exact List.length_pos_of_mem (List.mem_map.mp hmem).choose_spec.1
  have hmark : ∀ e, s3.work_hst1 e ≠ 0 ↔ (s.work_hst1 e ≠ 0 ∨ e ∈ C) := by
    intro e
    by_cases heC : e ∈ C
    · have := h3 e heC
      have := hpos e heC
      constructor
      · intro _; exact Or.inr heC
      · intro _; omega
    · rw [h2 e heC]
      simp [heC]
  refine ⟨⟨?_, ?_, ?_, ?_, ?_, ?_, ?_, ?_, ?_⟩, r_dev0, r_ov⟩
  · rw [r_reg, ids_append, ids_map]
    apply List.Nodup.append h.nodup ((List.nodup_range _).filter _)
    intro e he1 he2
    exact ((h.mem e).mp he1) ((memC e).mp he2).2.2
  · intro e
    rw [r_reg, ids_append, ids_map, List.mem_append, hmark e, h.mem e]
  · intro e
    rw [hmark e, r_dev0]
    constructor
    · rintro (he | he)
      · have h0 : 0 < s.work_dev0 e := (h.marks e).mp he
        have := iterate_pos_le m s.work_dev0 h.bound 0 k (Nat.zero_le _) e h0
        exact this
      · exact ((memC e).mp he).2.1
    · intro he
      by_cases hw : s.work_hst1 e = 0
      · exact Or.inr ((memC e).mpr ⟨iterate_pos_lt m s.work_dev0 h.bound k e he, he, hw⟩)
      · exact Or.inl hw
  · intro e he
    rw [r_dev0] at he
    exact iterate_pos_lt m s.work_dev0 h.bound k e he
  · rw [r_num, r_reg, h.count]
    simp
  · rw [r_ext, r_reg, h.count_ext]
    simp
  · rw [r_sup, h.super_nil]
  · rw [r_sn, h.super_count]
  · rw [r_se, h.super_count_ext]

theorem level_step_grown (m : Mesh) (poly_degree : List Int) (s : Regions) (l : Nat)
    (h : Grown m s) :
    Grown m (level_step m poly_degree s l) ∧
    (level_step m poly_degree s l).work_dev0
      = m.expander.multiply^[s.subdomain_overlap.toNat] s.work_dev0 ∧
    (level_step m poly_degree s l).subdomain_overlap
      = (if s.subdomain_overlap = 0 then 1 else s.subdomain_overlap) := by
  obtain ⟨hg, hd, ho⟩ := level_core m (poly_degree.getD l 0) s.subdomain_overlap.toNat s h
  unfold level_step
  simp only
  rw [ho]
  by_cases hz : s.subdomain_overlap = 0
  · rw [if_pos hz, if_pos hz]
    refine ⟨?_, hd, rfl⟩
    exact
      { nodup := hg.nodup, mem := hg.mem, marks := hg.marks, bound := hg.bound,
        count := hg.count, count_ext := hg.count_ext, super_nil := hg.super_nil,
        super_count := hg.super_count, super_count_ext := hg.super_count_ext }
  · rw [if_neg hz, if_neg hz]
    exact ⟨hg, hd, ho⟩

theorem levels_grown (m : Mesh) (poly_degree : List Int) (ls : List Nat) :
    ∀ s : Regions, Grown m s →
      Grown m (ls.foldl (level_step m poly_degree) s) ∧
      (ls.foldl (level_step m poly_degree) s).work_dev0
        = m.expander.multiply^[total_applications s.subdomain_overlap ls.length] s.work_dev0 := by
  induction ls with
  | nil =>
    intro s h
    exact ⟨h, by simp [total_applications]⟩
  | cons l ls ih =>
    intro s h
    obtain ⟨hg, hd, ho⟩ := level_step_grown m poly_degree s l h
    obtain ⟨hg2, hd2⟩ := ih (level_step m poly_degree s l) hg
    rw [List.foldl_cons]
    refine ⟨hg2, ?_⟩
    rw [hd2, hd, ho, List.length_cons, total_applications_cons, Function.iterate_add_apply]

theorem owned_state_grown (m : Mesh) (offset nl : Nat) (poly_degree : List Int) (k : Int)
    (hwf : offset + nl ≤ m.num_total_elements) :
    Grown m
      { (List.range nl).foldl (mark_step offset)
          { (List.range nl).foldl (owned_step poly_degree offset) (Regions.start k) with
            work_hst0 := fun _ => 0, work_hst1 := fun _ => 0 } with
        work_dev0 := ((List.range nl).foldl (mark_step offset)
          { (List.range nl).foldl (owned_step poly_degree offset) (Regions.start k) with
            work_hst0 := fun _ => 0, work_hst1 := fun _ => 0 }).work_hst0 } ∧
    ((List.range nl).foldl (mark_step offset)
      { (List.range nl).foldl (owned_step poly_degree offset) (Regions.start k) with
        work_hst0 := fun _ => 0, work_hst1 := fun _ => 0 }).work_hst0
      = owned_indicator offset nl ∧
    ((List.range nl).foldl (mark_step offset)
      { (List.range nl).foldl (owned_step poly_degree offset) (Regions.start k) with
        work_hst0 := fun _ => 0, work_hst1 := fun _ => 0 }).subdomain_overlap = k := by
  have hown := owned_fold poly_degree offset (List.range nl) (Regions.start k)
  set s0 := (List.range nl).foldl (owned_step poly_degree offset) (Regions.start k) with hs0
  obtain ⟨h1, h2, h3⟩ := mark_fold offset (List.range nl)
    { s0 with work_hst0 := fun _ => 0, work_hst1 := fun _ => 0 }
  set s1 := (List.range nl).foldl (mark_step offset)
    { s0 with work_hst0 := fun _ => 0, work_hst1 := fun _ => 0 } with hs1
  have hin : ∀ j, (∃ e ∈ List.range nl, offset + e = j) ↔ (offset ≤ j ∧ j < offset + nl) := by
    intro j
    constructor
    · rintro ⟨e, he, rfl⟩
      have := List.mem_range.mp he
      omega
    · rintro ⟨ha, hb⟩
      exact ⟨j - offset, List.mem_range.mpr (by omega), by omega⟩
  have e_h0 : s1.work_hst0 = owned_indicator offset nl := by
    funext j
    rw [h2 j]
    unfold owned_indicator
    by_cases hj : offset ≤ j ∧ j < offset + nl
    · rw [if_pos ((hin j).mpr hj), if_pos hj]
    · rw [if_neg (fun hx => hj ((hin j).mp hx)), if_neg hj]
  have e_h1 : ∀ j, s1.work_hst1 j ≠ 0 ↔ (offset ≤ j ∧ j < offset + nl) := by
    intro j
    rw [h3 j, hin j]
    simp
  have e_reg : s1.subdomain_region
      = (List.range nl).map (fun e => ⟨offset + e, poly_degree.getD 0 0⟩) := by
    rw [h1, hown]
    simp [Regions.start]
  have e_ids : ids s1.subdomain_region = (List.range nl).map (fun e => offset + e) := by
    rw [e_reg]
    simp [ids, List.map_map, Function.comp_def]
  have e_num : s1.num_subdomain_elems = nl := by
    rw [h1, hown]
    simp [Regions.start]
  have e_ext : s1.num_subdomain_extended_elems = nl := by
    rw [h1, hown]
    simp [Regions.start]
  have e_sup : s1.superdomain_region = [] := by
    rw [h1, hown]
    simp [Regions.start]
  have e_sn : s1.num_superdomain_elems = 0 := by
    rw [h1, hown]
    simp [Regions.start]
  have e_se : s1.num_superdomain_extended_elems = 0 := by
    rw [h1, hown]
    simp [Regions.start]
  have e_ov : s1.subdomain_overlap = k := by
    rw [h1, hown]
    simp [Regions.start]
  refine ⟨⟨?_, ?_, ?_, ?_, ?_, ?_, e_sup, e_sn, e_se⟩, e_h0, e_ov⟩
  · show (ids s1.subdomain_region).Nodup
    rw [e_ids]
    exact (List.nodup_range nl).map (fun a b hab => by simpa using hab)
  · intro e
    show e ∈ ids s1.subdomain_region ↔ s1.work_hst1 e ≠ 0
    rw [e_ids, e_h1 e, List.mem_map]
    constructor
    · rintro ⟨a, ha, rfl⟩
      have := List.mem_range.mp ha
      omega
    · rintro ⟨ha, hb⟩
      exact ⟨e - offset, List.mem_range.mpr (by omega), by omega⟩
  · intro e
    show s1.work_hst1 e ≠ 0 ↔ 0 < s1.work_hst0 e
    rw [e_h1 e, e_h0, owned_indicator_pos]
  · intro e he
    have he2 : 0 < s1.work_hst0 e := he
    rw [e_h0, owned_indicator_pos] at he2
    omega
  · show s1.num_subdomain_elems = s1.subdomain_region.length
    rw [e_num, e_reg]
    simp
  · show s1.num_subdomain_extended_elems = s1.subdomain_region.length
    rw [e_ext, e_reg]
    simp

/-- State after the level loop: the invariant holds and `work_dev[0]` is the
owned indicator expanded `total_applications` times. -/
theorem grow_regions_grown (m : Mesh) (offset nl : Nat) (poly_degree : List Int) (k : Int)
    (hwf : offset + nl ≤ m.num_total_elements) :
    Grown m (grow_regions m offset nl poly_degree k) ∧
    (grow_regions m offset nl poly_degree k).work_dev0
      = m.expander.multiply^[total_applications k poly_degree.length]
          (owned_indicator offset nl) := by
  obtain ⟨hg, hind, hov⟩ := owned_state_grown m offset nl poly_degree k hwf
  obtain ⟨hg2, hd2⟩ := levels_grown m poly_degree (List.range poly_degree.length) _ hg
  unfold grow_regions
  simp only
  refine ⟨hg2, ?_⟩
  rw [hd2, List.length_range]
  simp only
  rw [hind, hov]

theorem remainder_fold (degree : Int) (l : List Nat) :
    ∀ s : Regions, l.foldl (remainder_step degree) s =
      { s with
        subdomain_region := s.subdomain_region ++
          (l.filter (fun e => s.work_hst1 e = 0 ∧ 0 < s.work_hst0 e)).map
            (fun e => ⟨e, degree⟩),
        subdomain_partition := (l.foldl (remainder_step degree) s).subdomain_partition,
        num_subdomain_extended_elems := s.num_subdomain_extended_elems +
          (l.filter (fun e => s.work_hst1 e = 0 ∧ 0 < s.work_hst0 e)).length,
        superdomain_region := s.superdomain_region ++
          (l.filter (fun e => s.work_hst1 e = 0)).map (fun e => ⟨e, degree⟩),
        superdomain_partition := (l.foldl (remainder_step degree) s).superdomain_partition,
        num_superdomain_elems := s.num_superdomain_elems +
          (l.filter (fun e => s.work_hst1 e = 0)).length,
        num_superdomain_extended_elems := s.num_superdomain_extended_elems +
          (l.filter (fun e => s.work_hst1 e = 0)).length } := by
  induction l with
  | nil => intro s; simp
  | cons e l ih =>
    intro s
    rw [List.foldl_cons, ih]
    by_cases h1 : s.work_hst1 e = 0
    · by_cases h0 : 0 < s.work_hst0 e
      · simp [remainder_step, h1, h0, Nat.add_assoc, Nat.add_comm 1]
      · simp [remainder_step, h1, h0, Nat.add_assoc, Nat.add_comm 1]
    · simp [remainder_step, h1]

theorem indicator_fold (l : List Nat) :
    ∀ s : Regions,
      l.foldl indicator_step s =
        { s with work_hst0 := (l.foldl indicator_step s).work_hst0 } ∧
      (∀ j, (l.foldl indicator_step s).work_hst0 j =
        if j ∈ l then (if s.work_hst1 j = 0 then 1 else 0) else s.work_hst0 j) := by
  induction l with
  | nil => intro s; simp
  | cons e l ih =>
    intro s
    obtain ⟨h1, h2⟩ := ih (indicator_step s e)
    rw [List.foldl_cons]
    refine ⟨?_, ?_⟩
    · rw [h1]
      simp [indicator_step]
    · intro j
      rw [h2 j]
      by_cases hj : j ∈ l
      · rw [if_pos hj, if_pos (List.mem_cons_of_mem _ hj)]
        simp [indicator_step]
      · rw [if_neg hj]
        by_cases hje : j = e
        · subst hje
          simp [indicator_step, vset]
        · rw [if_neg (by simp [hje, hj])]
          simp [indicator_step, vset, hje]

theorem overlap_fold (degree : Int) (l : List Nat) :
    ∀ s : Regions, l.foldl (overlap_step degree) s =
      { s with
        superdomain_region := s.superdomain_region ++
          (l.filter (fun e => 0 < s.work_hst0 e ∧ 0 < s.work_hst1 e)).map
            (fun e => ⟨e, degree⟩),
        superdomain_partition := (l.foldl (overlap_step degree) s).superdomain_partition,
        num_superdomain_extended_elems := s.num_superdomain_extended_elems +
          (l.filter (fun e => 0 < s.work_hst0 e ∧ 0 < s.work_hst1 e)).length } := by
  induction l with
  | nil => intro s; simp
  | cons e l ih =>
    intro s
    rw [List.foldl_cons, ih]
    by_cases h : 0 < s.work_hst0 e ∧ 0 < s.work_hst1 e
    · simp [overlap_step, h, Nat.add_assoc, Nat.add_comm 1]
    · simp only [overlap_step, if_neg h]
      rw [List.filter_cons_of_neg (by simpa using h)]

/-- The final state of the region construction in terms of the state after
the level loop. -/
theorem build_regions_closed (m : Mesh) (offset nl : Nat) (poly_degree : List Int) (k : Int) :
    ∃ I : Nat → Nat,
      (∀ j, j < m.num_total_elements →
        I j = if (grow_regions m offset nl poly_degree k).work_hst1 j = 0 then 1 else 0) ∧
      (build_regions m offset nl poly_degree k).subdomain_region =
        (grow_regions m offset nl poly_degree k).subdomain_region ++
          ((List.range m.num_total_elements).filter (fun e =>
            (grow_regions m offset nl poly_degree k).work_hst1 e = 0 ∧
            0 < m.expander.multiply (grow_regions m offset nl poly_degree k).work_dev0 e)).map
            (fun e => ⟨e, poly_degree.getD (poly_degree.length - 1) 0⟩) ∧
      (build_regions m offset nl poly_degree k).num_subdomain_elems =
        (grow_regions m offset nl poly_degree k).num_subdomain_elems ∧
      (build_regions m offset nl poly_degree k).num_subdomain_extended_elems =
        (grow_regions m offset nl poly_degree k).num_subdomain_extended_elems +
          ((List.range m.num_total_elements).filter (fun e =>
            (grow_regions m offset nl poly_degree k).work_hst1 e = 0 ∧
            0 < m.expander.multiply
              (grow_regions m offset nl poly_degree k).work_dev0 e)).length ∧
      (build_regions m offset nl poly_degree k).superdomain_region =
        ((grow_regions m offset nl poly_degree k).superdomain_region ++
          ((List.range m.num_total_elements).filter (fun e =>
            (grow_regions m offset nl poly_degree k).work_hst1 e = 0)).map
            (fun e => ⟨e, poly_degree.getD (poly_degree.length - 1) 0⟩)) ++
          ((List.range m.num_total_elements).filter (fun e =>
            0 < m.expander.multiply I e ∧
            0 < (grow_regions m offset nl poly_degree k).work_hst1 e)).map
            (fun e => ⟨e, poly_degree.getD (poly_degree.length - 1) 0⟩) ∧
      (build_regions m offset nl poly_degree k).num_superdomain_elems =
        (grow_regions m offset nl poly_degree k).num_superdomain_elems +
          ((List.range m.num_total_elements).filter (fun e =>
            (grow_regions m offset nl poly_degree k).work_hst1 e = 0)).length ∧
      (build_regions m offset nl poly_degree k).num_superdomain_extended_elems =
        ((grow_regions m offset nl poly_degree k).num_superdomain_extended_elems +
          ((List.range m.num_total_elements).filter (fun e =>
            (grow_regions m offset nl poly_degree k).work_hst1 e = 0)).length) +
          ((List.range m.num_total_elements).filter (fun e =>
            0 < m.expander.multiply I e ∧
            0 < (grow_regions m offset nl poly_degree k).work_hst1 e)).length := by
  set G := grow_regions m offset nl poly_degree k with hG
  set d := poly_degree.getD (poly_degree.length - 1) 0 with hd
  set s4 : Regions := { G with
    work_dev1 := m.expander.multiply G.work_dev0,
    work_hst0 := m.expander.multiply G.work_dev0 } with hs4
  have hrem := remainder_fold d (List.range m.num_total_elements) s4
  set s5 := (List.range m.num_total_elements).foldl (remainder_step d) s4 with hs5
  obtain ⟨hi1, hi2⟩ := indicator_fold (List.range m.num_total_elements) s5
  set s6 := (List.range m.num_total_elements).foldl indicator_step s5 with hs6
  set s7 : Regions := { s6 with
    work_dev0 := s6.work_hst0,
    work_dev1 := m.expander.multiply s6.work_hst0,
    work_hst0 := m.expander.multiply s6.work_hst0 } with hs7
  have hov := overlap_fold d (List.range m.num_total_elements) s7
  have hR : build_regions m offset nl poly_degree k
      = (List.range m.num_total_elements).foldl (overlap_step d) s7 := rfl
  have e5 : s5.work_hst1 = G.work_hst1 := by rw [hrem]
  have e7h1 : s7.work_hst1 = G.work_hst1 := by rw [hs7]; simp only; rw [hi1]; exact e5
  have e7h0 : s7.work_hst0 = m.expander.multiply s6.work_hst0 := rfl
  refine ⟨s6.work_hst0, ?_, ?_, ?_, ?_, ?_, ?_, ?_⟩
  · intro j hj
    rw [hi2 j, if_pos (List.mem_range.mpr hj), e5]
  · rw [hR, hov]
    show s6.subdomain_region = _
    rw [hi1]
    show s5.subdomain_region = _
    rw [hrem]
  · rw [hR, hov]
    show s6.num_subdomain_elems = _
    rw [hi1]
    show s5.num_subdomain_elems = _
    rw [hrem]
  · rw [hR, hov]
    show s6.num_subdomain_extended_elems = _
    rw [hi1]
    show s5.num_subdomain_extended_elems = _
    rw [hrem]
  · rw [hR, hov]
    show s6.superdomain_region ++ _ = _
    rw [e7h1, e7h0]
    congr 1
    rw [hi1]
    show s5.superdomain_region = _
    rw [hrem]
  · rw [hR, hov]
    show s6.num_superdomain_elems = _
    rw [hi1]
    show s5.num_superdomain_elems = _
    rw [hrem]
  · rw [hR, hov]
    show s6.num_superdomain_extended_elems + _ = _
    rw [e7h1, e7h0]
    congr 1
    rw [hi1]
    show s5.num_superdomain_extended_elems = _
    rw [hrem]

/-- The two regions as sets, in terms of `X`, the owned indicator expanded
`total_applications` times: the non-extended Subdomain is the support of `X`,
its extended ring is the rest of the support of `E X`, the Superdomain owns
the complement of the support of `X`, and its overlap ring is the part of
the support of `X` linked to that complement. -/
theorem build_regions_sets (m : Mesh) (offset nl : Nat) (poly_degree : List Int) (k : Int)
    (hwf : offset + nl ≤ m.num_total_elements) :
    (ids (build_regions m offset nl poly_degree k).subdomain_region).Nodup ∧
    (ids (build_regions m offset nl poly_degree k).superdomain_region).Nodup ∧
    (build_regions m offset nl poly_degree k).subdomain_region.length
      = (build_regions m offset nl poly_degree k).num_subdomain_extended_elems ∧
    (build_regions m offset nl poly_degree k).superdomain_region.length
      = (build_regions m offset nl poly_degree k).num_superdomain_extended_elems ∧
    (∀ e, e ∈ ids ((build_regions m offset nl poly_degree k).subdomain_region.take
          (build_regions m offset nl poly_degree k).num_subdomain_elems) ↔
        0 < (m.expander.multiply^[total_applications k poly_degree.length]
          (owned_indicator offset nl)) e) ∧
    (∀ e, e ∈ ids ((build_regions m offset nl poly_degree k).subdomain_region.drop
          (build_regions m offset nl poly_degree k).num_subdomain_elems) ↔
        (¬ 0 < (m.expander.multiply^[total_applications k poly_degree.length]
          (owned_indicator offset nl)) e ∧
         0 < (m.expander.multiply^[total_applications k poly_degree.length + 1]
          (owned_indicator offset nl)) e)) ∧
    (∀ e, e ∈ ids ((build_regions m offset nl poly_degree k).superdomain_region.take
          (build_regions m offset nl poly_degree k).num_superdomain_elems) ↔
        (e < m.num_total_elements ∧
         ¬ 0 < (m.expander.multiply^[total_applications k poly_degree.length]
          (owned_indicator offset nl)) e)) ∧
    (∀ e, e ∈ ids ((build_regions m offset nl poly_degree k).superdomain_region.drop
          (build_regions m offset nl poly_degree k).num_superdomain_elems) ↔
        (0 < (m.expander.multiply^[total_applications k poly_degree.length]
          (owned_indicator offset nl)) e ∧
         ∃ j, m.linked e j ∧
           ¬ 0 < (m.expander.multiply^[total_applications k poly_degree.length]
            (owned_indicator offset nl)) j)) ∧
    (build_regions m offset nl poly_degree k).num_subdomain_elems
      + (build_regions m offset nl poly_degree k).num_superdomain_elems
      = m.num_total_elements ∧
    (build_regions m offset nl poly_degree k).num_subdomain_elems
      ≤ (build_regions m offset nl poly_degree k).num_subdomain_extended_elems ∧
    (build_regions m offset nl poly_degree k).num_superdomain_elems
      ≤ (build_regions m offset nl poly_degree k).num_superdomain_extended_elems := by
  obtain ⟨hg, hX⟩ := grow_regions_grown m offset nl poly_degree k hwf
  obtain ⟨I, hI, c1, c2, c3, c4, c5, c6⟩ := build_regions_closed m offset nl poly_degree k
  set G := grow_regions m offset nl poly_degree k with hG
  set R := build_regions m offset nl poly_degree k with hR
  set d := poly_degree.getD (poly_degree.length - 1) 0 with hd
  set X := m.expander.multiply^[total_applications k poly_degree.length]
    (owned_indicator offset nl) with hXdef
  have hEX : m.expander.multiply^[total_applications k poly_degree.length + 1]
      (owned_indicator offset nl) = m.expander.multiply X := by
    rw [Function.iterate_succ_apply']
  rw [hEX]
  rw [hX] at c1 c3
  have hmark : ∀ e, G.work_hst1 e = 0 ↔ ¬ 0 < X e := by
    intro e
    have := hg.marks e
    rw [hX] at this
    constructor
    · intro h1 h2
      exact (this.mpr h2) h1
    · intro h1
      by_contra h2
      exact h1 (this.mp h2)
  have hbound : ∀ e, 0 < X e → e < m.num_total_elements := by
    intro e he
    apply hg.bound e
    rw [hX]
    exact he
  have hmemG : ∀ e, e ∈ ids G.subdomain_region ↔ 0 < X e := by
    intro e
    rw [hg.mem e, ← hX]
    exact hg.marks e
  set ext := (List.range m.num_total_elements).filter (fun e =>
    G.work_hst1 e = 0 ∧ 0 < m.expander.multiply X e) with hext
  set rem := (List.range m.num_total_elements).filter (fun e => G.work_hst1 e = 0) with hrem
  set ring := (List.range m.num_total_elements).filter (fun e =>
    0 < m.expander.multiply I e ∧ 0 < G.work_hst1 e) with hring
  have mem_ext : ∀ e, e ∈ ext ↔ (¬ 0 < X e ∧ 0 < m.expander.multiply X e) := by
    intro e
    simp only [hext, List.mem_filter, List.mem_range, decide_eq_true_eq]
    rw [hmark e]
    constructor
    · rintro ⟨_, h1, h2⟩; exact ⟨h1, h2⟩
    · rintro ⟨h1, h2⟩; exact ⟨multiply_pos_lt m X e h2, h1, h2⟩
  have mem_rem : ∀ e, e ∈ rem ↔ (e < m.num_total_elements ∧ ¬ 0 < X e) := by
    intro e
    simp only [hrem, List.mem_filter, List.mem_range, decide_eq_true_eq]
    rw [hmark e]
  have hIpos : ∀ e, 0 < m.expander.multiply I e ↔ ∃ j, m.linked e j ∧ ¬ 0 < X j := by
    intro e
    rw [multiply_pos_iff]
    constructor
    · rintro ⟨j, hl, hj⟩
      refine ⟨j, hl, ?_⟩
      rw [hI j (linked_lt m e j hl).2] at hj
      rw [← hmark j]
      by_contra hne
      rw [if_neg hne] at hj
      exact lt_irrefl _ hj
    · rintro ⟨j, hl, hj⟩
      refine ⟨j, hl, ?_⟩
      rw [hI j (linked_lt m e j hl).2, if_pos ((hmark j).mpr hj)]
      exact Nat.one_pos
  have mem_ring : ∀ e, e ∈ ring ↔ (0 < X e ∧ ∃ j, m.linked e j ∧ ¬ 0 < X j) := by
    intro e
    simp only [hring, List.mem_filter, List.mem_range, decide_eq_true_eq]
    rw [hIpos e]
    constructor
    · rintro ⟨_, h1, h2⟩
      refine ⟨?_, h1⟩
      by_contra hne
      have := (hmark e).mpr hne
      omega
    · rintro ⟨h1, h2⟩
      refine ⟨hbound e h1, h2, ?_⟩
      have : ¬ G.work_hst1 e = 0 := fun h0 => ((hmark e).mp h0) h1
      omega
  have hsub_ids : ids R.subdomain_region = ids G.subdomain_region ++ ext := by
    rw [c1, ids_append, ids_map]
  have hsup_ids : ids R.superdomain_region = rem ++ ring := by
    rw [c4, hg.super_nil, List.nil_append, ids_append, ids_map, ids_map]
  have htake_sub : R.subdomain_region.take R.num_subdomain_elems = G.subdomain_region := by
    rw [c1, c2, hg.count, List.take_left']
    rfl
  have hdrop_sub : ids (R.subdomain_region.drop R.num_subdomain_elems) = ext := by
    rw [c1, c2, hg.count, List.drop_left', ids_map]
    rfl
  have hlen_rem : R.num_superdomain_elems = rem.length := by
    rw [c5, hg.super_count, Nat.zero_add]
  have htake_sup : ids (R.superdomain_region.take R.num_superdomain_elems) = rem := by
    rw [c4, hg.super_nil, List.nil_append, hlen_rem, List.take_left', ids_map]
    simp
  have hdrop_sup : ids (R.superdomain_region.drop R.num_superdomain_elems) = ring := by
    rw [c4, hg.super_nil, List.nil_append, hlen_rem, List.drop_left', ids_map]
    simp
  have hperm : List.Perm (ids G.subdomain_region ++ rem) (List.range m.num_total_elements) := by
    apply (List.perm_ext_iff_of_nodup _ (List.nodup_range _)).mpr
    · intro e
      rw [List.mem_append, hmemG e, mem_rem e, List.mem_range]
      constructor
      · rintro (h | h)
        · exact hbound e h
        · exact h.1
      · intro h
        by_cases hx : 0 < X e
        · exact Or.inl hx
        · exact Or.inr ⟨h, hx⟩
    · apply List.Nodup.append hg.nodup ((List.nodup_range _).filter _)
      intro e h1 h2
      exact ((mem_rem e).mp h2).2 ((hmemG e).mp h1)
  refine ⟨?_, ?_, ?_, ?_, ?_, ?_, ?_, ?_, ?_, ?_, ?_⟩
  · rw [hsub_ids]
    apply List.Nodup.append hg.nodup ((List.nodup_range _).filter _)
    intro e h1 h2
    exact ((mem_ext e).mp h2).1 ((hmemG e).mp h1)
  · rw [hsup_ids]
    apply List.Nodup.append ((List.nodup_range _).filter _) ((List.nodup_range _).filter _)
    intro e h1 h2
    exact ((mem_rem e).mp h1).2 ((mem_ring e).mp h2).1
  · rw [c3, c1, hg.count_ext]
    simp
  · rw [c6, c4, hg.super_nil, hg.super_count_ext]
    simp
  · intro e
    rw [htake_sub, hmemG e]
  · intro e
    rw [hdrop_sub, mem_ext e]
  · intro e
    rw [htake_sup, mem_rem e]
  · intro e
    rw [hdrop_sup, mem_ring e]
  · rw [c2, hg.count, hlen_rem]
    have := hperm.length_eq
    rw [List.length_append, List.length_range] at this
    rw [← this]
    simp [ids]
  · rw [c2, c3, hg.count, hg.count_ext]
    exact Nat.le_add_right _ _
  · rw [c5, c6, hg.super_count, hg.super_count_ext]
    exact Nat.le_add_right _ _

theorem mem_ids_take_drop (l : List Element) (n e : Nat) :
    e ∈ ids l ↔ (e ∈ ids (l.take n) ∨ e ∈ ids (l.drop n)) := by
  rw [← List.mem_append, ← ids_append, List.take_append_drop]

theorem owned_indicator_bound (m : Mesh) (offset nl : Nat)
    (hwf : offset + nl ≤ m.num_total_elements) :
    ∀ e, 0 < owned_indicator offset nl e → e < m.num_total_elements := by
  intro e he
  rw [owned_indicator_pos] at he
  omega

/-- The Subdomain's extended list, as a set, is the support of the owned
indicator expanded `total_applications + 1` times. -/
theorem mem_subdomain_region (m : Mesh) (offset nl : Nat) (poly_degree : List Int) (k : Int)
    (hwf : offset + nl ≤ m.num_total_elements) (e : Nat) :
    e ∈ ids (build_regions m offset nl poly_degree k).subdomain_region ↔
      0 < (m.expander.multiply^[total_applications k poly_degree.length + 1]
        (owned_indicator offset nl)) e := by
  obtain ⟨_, _, _, _, h5, h6, _⟩ := build_regions_sets m offset nl poly_degree k hwf
  rw [mem_ids_take_drop _ (build_regions m offset nl poly_degree k).num_subdomain_elems,
    h5 e, h6 e]
  constructor
  · rintro (h | h)
    · exact iterate_pos_step m _ (owned_indicator_bound m offset nl hwf) _ e h
    · exact h.2
  · intro h
    by_cases hx : 0 < (m.expander.multiply^[total_applications k poly_degree.length]
        (owned_indicator offset nl)) e
    · exact Or.inl hx
    · exact Or.inr ⟨hx, h⟩

/-- The Superdomain's extended list, as a set, is the set of elements linked
to an element outside the non-extended Subdomain. -/
theorem mem_superdomain_region (m : Mesh) (offset nl : Nat) (poly_degree : List Int) (k : Int)
    (hwf : offset + nl ≤ m.num_total_elements) (e : Nat) :
    e ∈ ids (build_regions m offset nl poly_degree k).superdomain_region ↔
      ∃ j, m.linked e j ∧
        ¬ 0 < (m.expander.multiply^[total_applications k poly_degree.length]
          (owned_indicator offset nl)) j := by
  obtain ⟨_, _, _, _, _, _, h7, h8, _⟩ := build_regions_sets m offset nl poly_degree k hwf
  rw [mem_ids_take_drop _ (build_regions m offset nl poly_degree k).num_superdomain_elems,
    h7 e, h8 e]
  constructor
  · rintro (h | h)
    · exact ⟨e, linked_self m e h.1, h.2⟩
    · exact h.2
  · rintro ⟨j, hl, hj⟩
    by_cases hx : 0 < (m.expander.multiply^[total_applications k poly_degree.length]
        (owned_indicator offset nl)) e
    · exact Or.inr ⟨hx, j, hl, hj⟩
    · exact Or.inl ⟨(linked_lt m e j hl).1, hx⟩

/-! ### Properties of the regions -/

/-- C4: Subdomain overlap growth is monotone.  Applying the expander to an
indicator never shrinks its support, and for every mesh, owned range inside
the mesh, degree ladder and `k >= 0` the set of element ids in the Subdomain's
extended list built with `subdomain_overlap = k` is a subset of the set built
with `subdomain_overlap = k + 1`. -/
theorem subdomain_overlap_monotone (m : Mesh) (offset nl : Nat) (poly_degree : List Int)
    (k : Nat) (hwf : offset + nl ≤ m.num_total_elements) :
    (∀ (x : Nat → Nat) (e : Nat), e < m.num_total_elements → 0 < x e →
      0 < m.expander.multiply x e) ∧
    ∀ e, e ∈ ids (build_regions m offset nl poly_degree (k : Int)).subdomain_region →
      e ∈ ids (build_regions m offset nl poly_degree ((k : Int) + 1)).subdomain_region := by
  refine ⟨fun x e he hx => multiply_pos_of_pos m x e he hx, ?_⟩
  intro e he
  rw [mem_subdomain_region m offset nl poly_degree _ hwf] at he ⊢
  exact iterate_pos_le m _ (owned_indicator_bound m offset nl hwf) _ _
    (Nat.add_le_add_right (total_applications_mono k poly_degree.length) 1) e he

/-- Witness for C4 on the strip of five elements, rank owning element `0`,
ladder `[2, 1]`, overlaps `1` and `2`. -/
theorem subdomain_overlap_monotone_witness :
    (0 + 1 ≤ mesh_strip.num_total_elements) ∧
    ∀ e, e ∈ ids (build_regions mesh_strip 0 1 [2, 1] ((1 : Nat) : Int)).subdomain_region →
      e ∈ ids (build_regions mesh_strip 0 1 [2, 1] (((1 : Nat) : Int) + 1)).subdomain_region :=
  ⟨by decide, (subdomain_overlap_monotone mesh_strip 0 1 [2, 1] 1 (by decide)).2⟩

/-- C5 as stated fails: on the strip of five elements with element `0` owned
and ladder `[1]`, element `1` is in the Superdomain's extended list for
`subdomain_overlap = 1` and not for `subdomain_overlap = 2`. -/
theorem superdomain_growth_counterexample :
    ¬ (∀ e, e ∈ ids (build_regions mesh_strip 0 1 [1] 1).superdomain_region →
        e ∈ ids (build_regions mesh_strip 0 1 [1] (1 + 1)).superdomain_region) := by
  intro h
  have h1 : 1 ∈ ids (build_regions mesh_strip 0 1 [1] 1).superdomain_region := by decide
  have h2 : 1 ∉ ids (build_regions mesh_strip 0 1 [1] (1 + 1)).superdomain_region := by decide
  exact h2 (h 1 h1)

/-- C5 (amended): the Superdomain shrinks as the Subdomain grows.  For every
mesh, owned range inside the mesh, ladder and `k >= 1`, the set of element ids
in the Superdomain's extended list built with `subdomain_overlap = k + 1` is a
subset of the set built with `subdomain_overlap = k`. -/
theorem superdomain_overlap_antitone (m : Mesh) (offset nl : Nat) (poly_degree : List Int)
    (k : Nat) (_hk : 1 ≤ k) (hwf : offset + nl ≤ m.num_total_elements) :
    ∀ e, e ∈ ids (build_regions m offset nl poly_degree ((k : Int) + 1)).superdomain_region →
      e ∈ ids (build_regions m offset nl poly_degree (k : Int)).superdomain_region := by
  intro e he
  rw [mem_superdomain_region m offset nl poly_degree _ hwf] at he ⊢
  obtain ⟨j, hl, hj⟩ := he
  refine ⟨j, hl, fun hpos => hj ?_⟩
  exact iterate_pos_le m _ (owned_indicator_bound m offset nl hwf) _ _
    (total_applications_mono k poly_degree.length) j hpos

/-- Witness for the amended C5 on the strip of five elements. -/
theorem superdomain_overlap_antitone_witness :
    (1 ≤ 1) ∧ (0 + 1 ≤ mesh_strip.num_total_elements) ∧
    ∀ e, e ∈ ids (build_regions mesh_strip 0 1 [1] (((1 : Nat) : Int) + 1)).superdomain_region →
      e ∈ ids (build_regions mesh_strip 0 1 [1] ((1 : Nat) : Int)).superdomain_region :=
  ⟨by decide, by decide,
    superdomain_overlap_antitone mesh_strip 0 1 [1] 1 (by decide) (by decide)⟩

/-- C6: idempotent insertion.  For every mesh, owned range inside the mesh,
ladder and `subdomain_overlap`, no element id occurs twice in the Subdomain's
extended list, none occurs twice in the Superdomain's extended list, and each
list's length equals its `num_*_extended_elems` counter. -/
theorem regions_nodup (m : Mesh) (offset nl : Nat) (poly_degree : List Int) (k : Int)
    (hwf : offset + nl ≤ m.num_total_elements) :
    (ids (build_regions m offset nl poly_degree k).subdomain_region).Nodup ∧
    (ids (build_regions m offset nl poly_degree k).superdomain_region).Nodup ∧
    (build_regions m offset nl poly_degree k).subdomain_region.length
      = (build_regions m offset nl poly_degree k).num_subdomain_extended_elems ∧
    (build_regions m offset nl poly_degree k).superdomain_region.length
      = (build_regions m offset nl poly_degree k).num_superdomain_extended_elems := by
  obtain ⟨h1, h2, h3, h4, _⟩ := build_regions_sets m offset nl poly_degree k hwf
  exact ⟨h1, h2, h3, h4⟩

/-- Witness for C6 on the strip of five elements, two ranks of the ladder. -/
theorem regions_nodup_witness :
    (0 + 1 ≤ mesh_strip.num_total_elements) ∧
    (ids (build_regions mesh_strip 0 1 [2, 1] 1).subdomain_region).Nodup ∧
    (ids (build_regions mesh_strip 0 1 [2, 1] 1).superdomain_region).Nodup :=
  ⟨by decide, (regions_nodup mesh_strip 0 1 [2, 1] 1 (by decide)).1,
    (regions_nodup mesh_strip 0 1 [2, 1] 1 (by decide)).2.1⟩

theorem ids_eq_nil (l : List Element) (h : ∀ e, e ∉ ids l) : l = [] := by
  cases l with
  | nil => rfl
  | cons a l => exact absurd (List.mem_cons_self _ _) (h a.id)

theorem share_corner_symm (m : Mesh) (e e_j : Nat) (h : m.share_corner e e_j) :
    m.share_corner e_j e := by
  obtain ⟨vid, hv, vjd, hvj, hc⟩ := h
  exact ⟨vjd, hvj, vid, hv, hc.symm⟩

/-- C7: when one process owns every element (`offset = 0`,
`num_local_elements = num_total_elements`), for every ladder and every
`subdomain_overlap` the region construction gives
`num_subdomain_elems = num_subdomain_extended_elems = num_total_elements` and
`num_superdomain_elems = num_superdomain_extended_elems = 0`; on the `2 x 2`
mesh with degree `4`, `poly_reduction = 1` (ladder `[4, 3, 2, 1]`) and
`subdomain_overlap = 1` this is `4` and `0`. -/
theorem single_process_regions (m : Mesh) (poly_degree : List Int) (k : Int) :
    ((build_regions m 0 m.num_total_elements poly_degree k).num_subdomain_elems
        = m.num_total_elements ∧
     (build_regions m 0 m.num_total_elements poly_degree k).num_subdomain_extended_elems
        = m.num_total_elements ∧
     (build_regions m 0 m.num_total_elements poly_degree k).num_superdomain_elems = 0 ∧
     (build_regions m 0 m.num_total_elements poly_degree k).num_superdomain_extended_elems
        = 0) ∧
    (ladder 8 4 1 = some [4, 3, 2, 1] ∧
     (build_regions mesh_2x2 0 4 [4, 3, 2, 1] 1).num_subdomain_elems = 4 ∧
     (build_regions mesh_2x2 0 4 [4, 3, 2, 1] 1).num_superdomain_elems = 0) := by
  have key : ∀ (m : Mesh) (poly_degree : List Int) (k : Int),
      (build_regions m 0 m.num_total_elements poly_degree k).num_subdomain_elems
          = m.num_total_elements ∧
      (build_regions m 0 m.num_total_elements poly_degree k).num_subdomain_extended_elems
          = m.num_total_elements ∧
      (build_regions m 0 m.num_total_elements poly_degree k).num_superdomain_elems = 0 ∧
      (build_regions m 0 m.num_total_elements poly_degree k).num_superdomain_extended_elems
          = 0 := by
    intro m poly_degree k
    have hwf : 0 + m.num_total_elements ≤ m.num_total_elements := by omega
    obtain ⟨_, _, h3, h4, _, h6, h7, h8, h9, h10, h11⟩ :=
      build_regions_sets m 0 m.num_total_elements poly_degree k hwf
    have hall : ∀ e, e < m.num_total_elements →
        0 < (m.expander.multiply^[total_applications k poly_degree.length]
          (owned_indicator 0 m.num_total_elements)) e := by
      intro e he
      apply iterate_pos_le m _ (owned_indicator_bound m 0 _ hwf) 0 _ (Nat.zero_le _) e
      show 0 < owned_indicator 0 m.num_total_elements e
      rw [owned_indicator_pos]
      omega
    have hdrop_sub := ids_eq_nil _ (fun e he => by
      obtain ⟨hn, hp⟩ := (h6 e).mp he
      rw [Function.iterate_succ_apply'] at hp
      exact hn (hall e (multiply_pos_lt m _ e hp)))
    have htake_sup := ids_eq_nil _ (fun e he => by
      obtain ⟨hlt, hn⟩ := (h7 e).mp he
      exact hn (hall e hlt))
    have hdrop_sup := ids_eq_nil _ (fun e he => by
      obtain ⟨_, j, hl, hn⟩ := (h8 e).mp he
      exact hn (hall j (linked_lt m e j hl).2))
    have l1 := congrArg List.length hdrop_sub
    have l2 := congrArg List.length htake_sup
    have l3 := congrArg List.length hdrop_sup
    rw [List.length_drop, List.length_nil] at l1 l3
    rw [List.length_take, List.length_nil] at l2
    omega
  refine ⟨key m poly_degree k, by decide, (key mesh_2x2 [4, 3, 2, 1] 1).1,
    (key mesh_2x2 [4, 3, 2, 1] 1).2.2.1⟩

/-- C8: for every mesh of dimension at least one, owned range inside the mesh,
ladder and `subdomain_overlap`, the Subdomain's extended list contains every
owned element
and every element of the mesh that shares a corner vertex id with an owned
element; on the `2 x 2` mesh split two and two with overlap `1`, the list of
rank `0` contains its elements `0, 1` and the adjacent elements `2, 3` of
rank `1`. -/
theorem subdomain_contains_adjacent (m : Mesh) (offset nl : Nat) (poly_degree : List Int)
    (k : Int) (hdim : 1 ≤ m.dim) (hwf : offset + nl ≤ m.num_total_elements) :
    (∀ e, offset ≤ e → e < offset + nl →
      e ∈ ids (build_regions m offset nl poly_degree k).subdomain_region ∧
      ∀ e_j, e_j < m.num_total_elements → m.share_corner e e_j →
        e_j ∈ ids (build_regions m offset nl poly_degree k).subdomain_region) ∧
    (mesh_2x2.share_corner 0 2 ∧ mesh_2x2.share_corner 0 3 ∧
      ∀ e, e < 4 → e ∈ ids (build_regions mesh_2x2 0 2 poly_degree 1).subdomain_region) := by
  have key : ∀ (m : Mesh) (offset nl : Nat) (k : Int), 1 ≤ m.dim →
      offset + nl ≤ m.num_total_elements → ∀ e, offset ≤ e → e < offset + nl →
      e ∈ ids (build_regions m offset nl poly_degree k).subdomain_region ∧
      ∀ e_j, e_j < m.num_total_elements → m.share_corner e e_j →
        e_j ∈ ids (build_regions m offset nl poly_degree k).subdomain_region := by
    intro m offset nl k hdim hwf e h1 h2
    have hx0 : 0 < owned_indicator offset nl e := (owned_indicator_pos offset nl e).mpr ⟨h1, h2⟩
    have hX := iterate_pos_le m _ (owned_indicator_bound m offset nl hwf) 0
      (total_applications k poly_degree.length) (Nat.zero_le _) e hx0
    refine ⟨?_, ?_⟩
    · rw [mem_subdomain_region m offset nl poly_degree k hwf]
      exact iterate_pos_step m _ (owned_indicator_bound m offset nl hwf) _ e hX
    · intro e_j hj hs
      rw [mem_subdomain_region m offset nl poly_degree k hwf, Function.iterate_succ_apply']
      have he : e < m.num_total_elements := by omega
      exact (multiply_pos_iff m _ e_j).mpr
        ⟨e, linked_of_share_corner m e_j e hdim hj he (share_corner_symm m e e_j hs), hX⟩
  have s02 : mesh_2x2.share_corner 0 2 := ⟨3, by decide, 1, by decide, by decide⟩
  have s03 : mesh_2x2.share_corner 0 3 := ⟨3, by decide, 0, by decide, by decide⟩
  refine ⟨key m offset nl k hdim hwf, s02, s03, ?_⟩
  intro e he
  have h0 := key mesh_2x2 0 2 1 (by decide) (by decide) 0 (by decide) (by decide)
  have h1 := key mesh_2x2 0 2 1 (by decide) (by decide) 1 (by decide) (by decide)
  have he4 : e = 0 ∨ e = 1 ∨ e = 2 ∨ e = 3 := by omega
  rcases he4 with rfl | rfl | rfl | rfl
  · exact h0.1
  · exact h1.1
  · exact h0.2 2 (by decide) s02
  · exact h0.2 3 (by decide) s03

/-- Witness for C8 on the strip of five elements with elements `1, 2` owned:
element `3` shares corners `4` and `10` with the owned element `2`. -/
theorem subdomain_contains_adjacent_witness :
    (1 ≤ mesh_strip.dim ∧ 1 + 2 ≤ mesh_strip.num_total_elements) ∧ mesh_strip.share_corner 2 3 ∧
    3 ∈ ids (build_regions mesh_strip 1 2 [1] 0).subdomain_region :=
  ⟨⟨by decide, by decide⟩, ⟨1, by decide, 0, by decide, by decide⟩,
    ((subdomain_contains_adjacent mesh_strip 1 2 [1] 0 (by decide) (by decide)).1 2
      (by decide) (by decide)).2 3 (by decide) ⟨1, by decide, 0, by decide, by decide⟩⟩

/-- C9: the never-reached elements form the Superdomain's owned set.  The ids
of the first `num_subdomain_elems` Subdomain elements and of the first
`num_superdomain_elems` Superdomain elements are disjoint and together are
exactly the global elements, `num_subdomain_elems + num_superdomain_elems =
num_total_elements`, every element of the Subdomain's extended ring is a
Superdomain owned element, and every element of the Superdomain's overlap
ring is a non-extended Subdomain element. -/
theorem regions_partition (m : Mesh) (offset nl : Nat) (poly_degree : List Int) (k : Int)
    (hwf : offset + nl ≤ m.num_total_elements) :
    (∀ e, ¬ (e ∈ ids ((build_regions m offset nl poly_degree k).subdomain_region.take
            (build_regions m offset nl poly_degree k).num_subdomain_elems) ∧
          e ∈ ids ((build_regions m offset nl poly_degree k).superdomain_region.take
            (build_regions m offset nl poly_degree k).num_superdomain_elems))) ∧
    (∀ e, (e ∈ ids ((build_regions m offset nl poly_degree k).subdomain_region.take
            (build_regions m offset nl poly_degree k).num_subdomain_elems) ∨
          e ∈ ids ((build_regions m offset nl poly_degree k).superdomain_region.take
            (build_regions m offset nl poly_degree k).num_superdomain_elems)) ↔
        e < m.num_total_elements) ∧
    (build_regions m offset nl poly_degree k).num_subdomain_elems
      + (build_regions m offset nl poly_degree k).num_superdomain_elems
      = m.num_total_elements ∧
    (∀ e, e ∈ ids ((build_regions m offset nl poly_degree k).subdomain_region.drop
          (build_regions m offset nl poly_degree k).num_subdomain_elems) →
        e ∈ ids ((build_regions m offset nl poly_degree k).superdomain_region.take
          (build_regions m offset nl poly_degree k).num_superdomain_elems)) ∧
    (∀ e, e ∈ ids ((build_regions m offset nl poly_degree k).superdomain_region.drop
          (build_regions m offset nl poly_degree k).num_superdomain_elems) →
        e ∈ ids ((build_regions m offset nl poly_degree k).subdomain_region.take
          (build_regions m offset nl poly_degree k).num_subdomain_elems)) := by
  obtain ⟨_, _, _, _, h5, h6, h7, h8, h9, _, _⟩ :=
    build_regions_sets m offset nl poly_degree k hwf
  refine ⟨?_, ?_, h9, ?_, ?_⟩
  · rintro e ⟨h1, h2⟩
    exact ((h7 e).mp h2).2 ((h5 e).mp h1)
  · intro e
    rw [h5 e, h7 e]
    constructor
    · rintro (h | h)
      · exact iterate_pos_lt m _ (owned_indicator_bound m offset nl hwf) _ e h
      · exact h.1
    · intro h
      by_cases hx : 0 < (m.expander.multiply^[total_applications k poly_degree.length]
          (owned_indicator offset nl)) e
      · exact Or.inl hx
      · exact Or.inr ⟨h, hx⟩
  · intro e he
    obtain ⟨hn, hp⟩ := (h6 e).mp he
    rw [Function.iterate_succ_apply'] at hp
    exact (h7 e).mpr ⟨multiply_pos_lt m _ e hp, hn⟩
  · intro e he
    exact (h5 e).mpr ((h8 e).mp he).1

/-- Witness for C9 on the strip of five elements with element `0` owned. -/
theorem regions_partition_witness :
    (0 + 1 ≤ mesh_strip.num_total_elements) ∧
    (build_regions mesh_strip 0 1 [2, 1] 1).num_subdomain_elems
      + (build_regions mesh_strip 0 1 [2, 1] 1).num_superdomain_elems
      = mesh_strip.num_total_elements :=
  ⟨by decide, (regions_partition mesh_strip 0 1 [2, 1] 1 (by decide)).2.2.1⟩

/-! ### Direct stiffness summation -/

theorem transpose_row_sum {α : Type} [Semiring α] (Q : CSR_Matrix α) (d : Nat) :
    Q.transpose.multiply (fun _ => (1 : α)) d
      = ((Q.entries.filter (fun t => t.2.1 = d)).map (fun t => t.2.2)).sum := by
  unfold CSR_Matrix.multiply CSR_Matrix.transpose
  simp only [List.filter_map, List.map_map, mul_one]
  rfl

/-- C10 as stated fails: for two bilinear elements sharing an edge on one
process, the summation of the all-ones vector is `2`, not `1`, at point `1`,
whose DOF is also carried by point `4`. -/
theorem dss_ones_counterexample :
    ¬ (∀ i, i < 8 →
      direct_stiffness_summation (assemble_Q two_elements [])
        (assemble_Q two_elements []).transpose (assemble_QQt_int two_elements_composite)
        8 6 0 (fun _ => (1 : Int)) i = 1) := by
  intro h
  have h1 := h 1 (by decide)
  revert h1
  decide

/-- C10 (amended): `direct_stiffness_summation` applied to the all-ones vector
returns, at every Subdomain point `p` whose row of `Q` is a single unit entry
in a column `d` of the Subdomain whose row of `QQt_int` is the unit diagonal
entry, the sum of column `d` of `Q` (`Qt` being the transpose of `Q`): the
number of points that carry DOF `d` when these entries are units.  The value
is `1` only where a single point carries the DOF. -/
theorem dss_ones_multiplicity {α : Type} [Semiring α] (Q QQt_int : CSR_Matrix α)
    (num_points sub_ned sup_ned p d : Nat) (hp : p < num_points) (hd : d < sub_ned)
    (hQ : Q.entries.filter (fun t => t.1 = p) = [(p, d, 1)])
    (hQQt : QQt_int.entries.filter (fun t => t.1 = d) = [(d, d, 1)]) :
    direct_stiffness_summation Q Q.transpose QQt_int num_points sub_ned sup_ned
        (fun _ => (1 : α)) p
      = ((Q.entries.filter (fun t => t.2.1 = d)).map (fun t => t.2.2)).sum ∧
    ((∀ t ∈ Q.entries, t.2.1 = d → t.2.2 = 1) →
      direct_stiffness_summation Q Q.transpose QQt_int num_points sub_ned sup_ned
          (fun _ => (1 : α)) p
        = ((Q.entries.filter (fun t => t.2.1 = d)).length : α)) := by
  have hnot : ¬ (sub_ned ≤ d ∧ d < sub_ned + sup_ned) := by omega
  have main : direct_stiffness_summation Q Q.transpose QQt_int num_points sub_ned sup_ned
        (fun _ => (1 : α)) p
      = ((Q.entries.filter (fun t => t.2.1 = d)).map (fun t => t.2.2)).sum := by
    unfold direct_stiffness_summation
    simp only [if_pos hp]
    rw [← transpose_row_sum Q d]
    conv_lhs => unfold CSR_Matrix.multiply
    simp only [hQ, List.map_cons, List.map_nil, List.sum_cons, List.sum_nil, add_zero, one_mul]
    conv_lhs => unfold CSR_Matrix.multiply
    simp only [hQQt, List.map_cons, List.map_nil, List.sum_cons, List.sum_nil, add_zero, one_mul,
      if_neg hnot]
    rfl
  refine ⟨main, fun hunit => ?_⟩
  rw [main]
  have hmap : (Q.entries.filter (fun t => t.2.1 = d)).map (fun t => t.2.2)
      = (Q.entries.filter (fun t => t.2.1 = d)).map (fun _ => (1 : α)) := by
    apply List.map_congr_left
    intro t ht
    rw [List.mem_filter] at ht
    exact hunit t ht.1 (by simpa using ht.2)
  rw [hmap, List.map_const', List.sum_replicate, nsmul_eq_mul, mul_one]

/-- Witness for the amended C10 on the two elements sharing an edge: point
`1` carries DOF `2` (column `1`), also carried by point `4`. -/
theorem dss_ones_multiplicity_witness :
    direct_stiffness_summation (assemble_Q two_elements [])
        (assemble_Q two_elements []).transpose (assemble_QQt_int two_elements_composite)
        8 6 0 (fun _ => (1 : Int)) 1
      = ((((assemble_Q two_elements [] : CSR_Matrix Int).entries.filter
          (fun t => t.2.1 = 1)).length : Nat) : Int) :=
  (dss_ones_multiplicity (assemble_Q two_elements [] : CSR_Matrix Int)
    (assemble_QQt_int two_elements_composite) 8 6 0 1 1 (by decide) (by decide)
    (by decide) (by decide)).2 (by decide)

/-! ### Coarsening ladder -/

theorem ceil_div_eq (a r : Int) (hr : 1 ≤ r) :
    ⌈((a : Int) : ℚ) / ((r : Int) : ℚ)⌉ = (a + r - 1) / r := by
  have hr0 : (0 : ℚ) < (r : ℚ) := by exact_mod_cast (by omega : (0 : Int) < r)
  rw [Int.ceil_eq_iff]
  have h1 : r * ((a + r - 1) / r) ≤ a + r - 1 := Int.mul_ediv_self_le (by omega)
  have h2 : a + r - 1 < r * ((a + r - 1) / r) + r := Int.lt_mul_ediv_self_add (by omega)
  constructor
  · rw [lt_div_iff₀ hr0]
    have : ((a + r - 1) / r - 1) * r < a := by nlinarith
    exact_mod_cast this
  · rw [div_le_iff₀ hr0]
    have : a ≤ ((a + r - 1) / r) * r := by nlinarith
    exact_mod_cast this

theorem ladder_loop_spec (r : Int) (hr : 1 ≤ r) :
    ∀ (fuel : Nat) (init : List Int) (x : Int), 1 ≤ x → x.toNat ≤ fuel →
      ∃ tail : List Int,
        ladder_loop fuel r (init ++ [x]) = some (init ++ x :: tail) ∧
        (∀ l, l + 1 < (x :: tail).length →
          (x :: tail).getD (l + 1) 0 = max ((x :: tail).getD l 0 - r) 1 ∧
          (x :: tail).getD (l + 1) 0 < (x :: tail).getD l 0) ∧
        (x :: tail).getLast? = some 1 ∧
        (tail.length : Int) = (x - 1 + r - 1) / r := by
  intro fuel
  induction fuel with
  | zero =>
    intro init x hx hf
    omega
  | succ fuel ih =>
    intro init x hx hf
    have hlast : (init ++ [x]).getLastD 0 = x := by simp
    unfold ladder_loop
    rw [hlast]
    by_cases hx1 : x > 1
    · rw [if_pos hx1]
      set y : Int := if x - r ≥ 1 then x - r else 1 with hy
      have hy1 : 1 ≤ y := by
        rw [hy]; split <;> omega
      have hyx : y < x := by
        rw [hy]; split <;> omega
      have hymax : y = max (x - r) 1 := by
        rw [hy]
        split
        · rw [max_eq_left]; omega
        · rw [max_eq_right]; omega
      obtain ⟨tail, h1, h2, h3, h4⟩ := ih (init ++ [x]) y hy1 (by omega)
      refine ⟨y :: tail, ?_, ?_, ?_, ?_⟩
      · rw [h1]
        simp
      · intro l hl
        cases l with
        | zero =>
          simp only [List.getD_cons_succ, List.getD_cons_zero]
          exact ⟨hymax, hyx⟩
        | succ l =>
          have := h2 l (by simpa using hl)
          simpa only [List.getD_cons_succ] using this
      · rw [List.getLast?_cons_cons]
        exact h3
      · rw [List.length_cons]
        push_cast
        rw [h4]
        have hsum : x - 1 + r - 1 = (x - 2) + 1 * r := by ring
        rw [hsum, Int.add_mul_ediv_right _ _ (by omega : r ≠ 0)]
        congr 1
        rw [hy]
        split
        · congr 1
          ring
        · rw [Int.ediv_eq_zero_of_lt (by omega) (by omega),
            Int.ediv_eq_zero_of_lt (by omega) (by omega)]
    · rw [if_neg hx1]
      have hx' : x = 1 := by omega
      subst hx'
      refine ⟨[], by simp, ?_, by simp, ?_⟩
      · intro l hl
        simp at hl
      · simp only [List.length_nil]
        rw [Int.ediv_eq_zero_of_lt (by omega) (by omega)]
        rfl

/-- C16: the coarsening ladder is a strictly decreasing degree sequence ending
at `1`.  For `poly_degree_ >= 1` and `poly_reduction >= 1` the loop returns
with any fuel of at least `poly_degree_` iterations, the ladder starts at
`poly_degree_`, each next entry is `max(previous - poly_reduction, 1)` and is
smaller than the previous one, the last entry is `1`, and
`num_levels = ceil((poly_degree_ - 1) / poly_reduction) + 1`. -/
theorem ladder_strictly_decreasing (poly_degree_ poly_reduction : Int)
    (hp : 1 ≤ poly_degree_) (hr : 1 ≤ poly_reduction) (fuel : Nat)
    (hfuel : poly_degree_.toNat ≤ fuel) :
    ∃ poly_degree : List Int,
      ladder fuel poly_degree_ poly_reduction = some poly_degree ∧
      poly_degree.getD 0 0 = poly_degree_ ∧
      (∀ l, l + 1 < poly_degree.length →
        poly_degree.getD (l + 1) 0 = max (poly_degree.getD l 0 - poly_reduction) 1 ∧
        poly_degree.getD (l + 1) 0 < poly_degree.getD l 0) ∧
      poly_degree.getLast? = some 1 ∧
      (poly_degree.length : Int)
        = ⌈((poly_degree_ - 1 : Int) : ℚ) / ((poly_reduction : Int) : ℚ)⌉ + 1 := by
  obtain ⟨tail, h1, h2, h3, h4⟩ :=
    ladder_loop_spec poly_reduction hr fuel [] poly_degree_ hp hfuel
  refine ⟨poly_degree_ :: tail, ?_, by simp, h2, h3, ?_⟩
  · unfold ladder
    simpa using h1
  · rw [ceil_div_eq _ _ hr, List.length_cons]
    push_cast
    rw [h4]

/-- Witness for C16: degree `5`, reduction `2` gives the ladder `[5, 3, 1]`
of `ceil(4 / 2) + 1 = 3` levels. -/
theorem ladder_strictly_decreasing_witness :
    ladder 5 5 2 = some [5, 3, 1] ∧
    ∃ poly_degree : List Int,
      ladder 5 5 2 = some poly_degree ∧
      poly_degree.getD 0 0 = 5 ∧
      (∀ l, l + 1 < poly_degree.length →
        poly_degree.getD (l + 1) 0 = max (poly_degree.getD l 0 - 2) 1 ∧
        poly_degree.getD (l + 1) 0 < poly_degree.getD l 0) ∧
      poly_degree.getLast? = some 1 ∧
      (poly_degree.length : Int) = ⌈(((5 : Int) - 1 : Int) : ℚ) / (((2 : Int)) : ℚ)⌉ + 1 :=
  ⟨by decide, ladder_strictly_decreasing 5 2 (by decide) (by decide) 5 (by decide)⟩

/-! ### Norm weighting -/

theorem vset_fold {α : Type} (f : Nat → Nat) (a : α) (l : List Nat) :
    ∀ (w : Nat → α) (j : Nat),
      (l.foldl (fun w i => vset w (f i) a) w) j = if (∃ i ∈ l, f i = j) then a else w j := by
  induction l with
  | nil => intro w j; simp
  | cons i l ih =>
    intro w j
    rw [List.foldl_cons, ih]
    by_cases hl : ∃ i' ∈ l, f i' = j
    · obtain ⟨i', hi', hj⟩ := hl
      rw [if_pos ⟨i', hi', hj⟩, if_pos ⟨i', List.mem_cons_of_mem _ hi', hj⟩]
    · rw [if_neg hl]
      by_cases hi : f i = j
      · rw [if_pos ⟨i, List.mem_cons_self _ _, hi⟩]
        simp [vset, hi.symm]
      · rw [if_neg]
        · simp [vset, Ne.symm hi]
        · rintro ⟨i', hi', hj⟩
          rcases List.mem_cons.mp hi' with rfl | hi'
          · exact hi hj
          · exact hl ⟨i', hi', hj⟩

theorem norm_weight_eq (c : Composite) (work_hst0 : Nat → Int) (i : Nat)
    (hi : i < c.sub_num_extended_dofs + c.sup_num_extended_dofs)
    (h1 : c.num_interface_dofs ≤ c.sup_num_dofs)
    (h2 : c.sup_num_dofs ≤ c.sup_num_extended_dofs)
    (h3 : c.sub_num_dofs ≤ c.sub_num_extended_dofs) :
    norm_weight c work_hst0 i =
      if i < c.sub_num_dofs ∨
          (c.sub_num_extended_dofs + c.num_interface_dofs ≤ i ∧
            i < c.sub_num_extended_dofs + c.sup_num_dofs) then 1 else 0 := by
  unfold norm_weight
  rw [vset_fold (fun i => c.sub_num_extended_dofs + i),
    vset_fold (fun i => c.sub_num_extended_dofs + i), vset_fold (fun i => i),
    vset_fold (fun i => i)]
  have e4 : (∃ k ∈ List.range' c.sup_num_dofs (c.sup_num_extended_dofs - c.sup_num_dofs),
      c.sub_num_extended_dofs + k = i) ↔ c.sub_num_extended_dofs + c.sup_num_dofs ≤ i := by
    constructor
    · rintro ⟨k, hk, rfl⟩
      rw [List.mem_range'_1] at hk
      omega
    · intro h
      exact ⟨i - c.sub_num_extended_dofs, by rw [List.mem_range'_1]; omega, by omega⟩
  have e3 : (∃ k ∈ List.range c.num_interface_dofs, c.sub_num_extended_dofs + k = i) ↔
      (c.sub_num_extended_dofs ≤ i ∧ i < c.sub_num_extended_dofs + c.num_interface_dofs) := by
    clear e4
    constructor
    · rintro ⟨k, hk, rfl⟩
      rw [List.mem_range] at hk
      omega
    · intro h
      exact ⟨i - c.sub_num_extended_dofs, by rw [List.mem_range]; omega, by omega⟩
  have e2 : (∃ k ∈ List.range' c.sub_num_dofs (c.sub_num_extended_dofs - c.sub_num_dofs),
      k = i) ↔ (c.sub_num_dofs ≤ i ∧ i < c.sub_num_extended_dofs) := by
    clear e4 e3
    constructor
    · rintro ⟨k, hk, rfl⟩
      rw [List.mem_range'_1] at hk
      omega
    · intro h
      exact ⟨i, by rw [List.mem_range'_1]; omega, rfl⟩
  have e1 : (∃ k ∈ List.range (c.sub_num_extended_dofs + c.sup_num_extended_dofs), k = i) :=
    ⟨i, List.mem_range.mpr hi, rfl⟩
  simp only [e4, e3, e2, if_pos e1]
  by_cases c4 : c.sub_num_extended_dofs + c.sup_num_dofs ≤ i
  · rw [if_pos c4, if_neg (by omega)]
  · rw [if_neg c4]
    by_cases c3 : c.sub_num_extended_dofs ≤ i ∧
        i < c.sub_num_extended_dofs + c.num_interface_dofs
    · rw [if_pos c3, if_neg (by omega)]
    · rw [if_neg c3]
      by_cases c2 : c.sub_num_dofs ≤ i ∧ i < c.sub_num_extended_dofs
      · rw [if_pos c2, if_neg (by omega)]
      · rw [if_neg c2, if_pos (by omega)]

/-- C12: `norm_weight` is a 0/1 ownership weight.  Given
`num_interface_dofs <= superdomain num_dofs <= superdomain num_extended_dofs`
and `subdomain num_dofs <= subdomain num_extended_dofs`, entry `i` is `1`
exactly when `i < subdomain num_dofs` or `i = subdomain num_extended_dofs + k`
with `num_interface_dofs <= k < superdomain num_dofs`, and `0` otherwise; the
number of unit entries is the composite size
`num_dofs = subdomain num_dofs + superdomain num_dofs - num_interface_dofs`. -/
theorem norm_weight_ownership (c : Composite) (work_hst0 : Nat → Int)
    (h1 : c.num_interface_dofs ≤ c.sup_num_dofs)
    (h2 : c.sup_num_dofs ≤ c.sup_num_extended_dofs)
    (h3 : c.sub_num_dofs ≤ c.sub_num_extended_dofs) :
    (∀ i, i < c.sub_num_extended_dofs + c.sup_num_extended_dofs →
      (norm_weight c work_hst0 i = 1 ∨ norm_weight c work_hst0 i = 0) ∧
      (norm_weight c work_hst0 i = 1 ↔
        (i < c.sub_num_dofs ∨
          ∃ k, i = c.sub_num_extended_dofs + k ∧ c.num_interface_dofs ≤ k ∧
            k < c.sup_num_dofs))) ∧
    ((((List.range (c.sub_num_extended_dofs + c.sup_num_extended_dofs)).filter
        (fun i => norm_weight c work_hst0 i = 1)).length : Int) = composite_num_dofs c) := by
  have hchar : ∀ i, i < c.sub_num_extended_dofs + c.sup_num_extended_dofs →
      (norm_weight c work_hst0 i = 1 ↔
        (i < c.sub_num_dofs ∨
          (c.sub_num_extended_dofs + c.num_interface_dofs ≤ i ∧
            i < c.sub_num_extended_dofs + c.sup_num_dofs))) := by
    intro i hi
    rw [norm_weight_eq c work_hst0 i hi h1 h2 h3]
    split <;> simp_all
  constructor
  · intro i hi
    constructor
    · rw [norm_weight_eq c work_hst0 i hi h1 h2 h3]
      split <;> simp
    · rw [hchar i hi]
      constructor
      · rintro (h | h)
        · exact Or.inl h
        · exact Or.inr ⟨i - c.sub_num_extended_dofs, by omega, by omega, by omega⟩
      · rintro (h | ⟨k, rfl, hk1, hk2⟩)
        · exact Or.inl h
        · exact Or.inr ⟨by omega, by omega⟩
  · have hperm : List.Perm
        ((List.range (c.sub_num_extended_dofs + c.sup_num_extended_dofs)).filter
          (fun i => norm_weight c work_hst0 i = 1))
        (List.range c.sub_num_dofs ++
          List.range' (c.sub_num_extended_dofs + c.num_interface_dofs)
            (c.sup_num_dofs - c.num_interface_dofs)) := by
      apply (List.perm_ext_iff_of_nodup ((List.nodup_range _).filter _) _).mpr
      · intro i
        simp only [List.mem_filter, List.mem_range, decide_eq_true_eq, List.mem_append,
          List.mem_range'_1]
        constructor
        · rintro ⟨hi, hw⟩
          rcases (hchar i hi).mp hw with h | h
          · exact Or.inl h
          · exact Or.inr ⟨h.1, by omega⟩
        · rintro (h | h)
          · have hi : i < c.sub_num_extended_dofs + c.sup_num_extended_dofs := by omega
            exact ⟨hi, (hchar i hi).mpr (Or.inl h)⟩
          · have hi : i < c.sub_num_extended_dofs + c.sup_num_extended_dofs := by omega
            exact ⟨hi, (hchar i hi).mpr (Or.inr ⟨h.1, by omega⟩)⟩
      · apply List.Nodup.append (List.nodup_range _) (List.nodup_range' _ _)
        intro i hi1 hi2
        rw [List.mem_range] at hi1
        rw [List.mem_range'_1] at hi2
        omega
    rw [hperm.length_eq, List.length_append, List.length_range, List.length_range']
    unfold composite_num_dofs
    omega

/-- Witness for C12 on the composite data of the two elements sharing an
edge: six owned DOFs, empty Superdomain. -/
theorem norm_weight_ownership_witness :
    (((List.range (two_elements_composite.sub_num_extended_dofs
        + two_elements_composite.sup_num_extended_dofs)).filter
        (fun i => norm_weight two_elements_composite (fun _ => 7) i = 1)).length : Int)
      = composite_num_dofs two_elements_composite :=
  (norm_weight_ownership two_elements_composite (fun _ => 7)
    (by decide) (by decide) (by decide)).2

/-! ### Multigrid level placement -/

/-- For a hierarchy of at least two levels the clamp of line 3499 does what
it is meant to do: the cutoff lies in `0 .. num_levels_fem - 2`, the levels up
to the cutoff are on the device, the coarsest level is on the host and
`R_fem[level_cutoff]` exists. -/
theorem level_cutoff_clamp_two_levels (num_levels_fem level_cutoff : Int)
    (hn : 2 ≤ num_levels_fem) :
    0 ≤ clamp_level_cutoff num_levels_fem level_cutoff ∧
    clamp_level_cutoff num_levels_fem level_cutoff ≤ num_levels_fem - 2 ∧
    (∀ l, level_mem_loc (clamp_level_cutoff num_levels_fem level_cutoff) l = MemLoc.device ↔
      l ≤ clamp_level_cutoff num_levels_fem level_cutoff) ∧
    level_mem_loc (clamp_level_cutoff num_levels_fem level_cutoff) (num_levels_fem - 1)
      = MemLoc.host ∧
    clamp_level_cutoff num_levels_fem level_cutoff < R_fem_size num_levels_fem := by
  unfold clamp_level_cutoff R_fem_size level_mem_loc
  refine ⟨le_max_left _ _, ?_, ?_, ?_, ?_⟩
  · exact max_le (by omega) (min_le_left _ _)
  · intro l
    split <;> simp_all
  · have : max 0 (min (num_levels_fem - 2) level_cutoff) ≤ num_levels_fem - 2 :=
      max_le (by omega) (min_le_left _ _)
    rw [if_neg (by omega)]
  · have : max 0 (min (num_levels_fem - 2) level_cutoff) ≤ num_levels_fem - 2 :=
      max_le (by omega) (min_le_left _ _)
    omega

/-- C20 at the failing input `num_levels_fem = 1`: for every requested
`level_cutoff` the clamp returns `0`, which is above `num_levels_fem - 2 = -1`;
the only level, which is the coarsest one, is placed on the device, and
`R_fem`, of size `0`, has no entry `R_fem[level_cutoff]`. -/
theorem level_cutoff_single_level (level_cutoff : Int) :
    clamp_level_cutoff 1 level_cutoff = 0 ∧
    ¬ (clamp_level_cutoff 1 level_cutoff ≤ 1 - 2) ∧
    level_mem_loc (clamp_level_cutoff 1 level_cutoff) (1 - 1) = MemLoc.device ∧
    ¬ (clamp_level_cutoff 1 level_cutoff < R_fem_size 1) := by
  have h : clamp_level_cutoff 1 level_cutoff = 0 := by
    unfold clamp_level_cutoff
    apply max_eq_left
    exact le_trans (min_le_left _ _) (by omega)
  rw [h]
  refine ⟨rfl, by omega, by decide, by decide⟩

/-! ### Per-degree offsets of the global ids -/

theorem update_points_apply {α : Type} (c : Nat → Bool) (f : Nat → α → α) (n : Nat) :
    ∀ (a : Nat → α) (v : Nat),
      update_points n c f a v = if v < n ∧ c v = true then f v (a v) else a v := by
  induction n with
  | zero => intro a v; simp [update_points]
  | succ n ih =>
    intro a v
    have hstep : update_points (n + 1) c f a =
        (if c n then vset (update_points n c f a) n (f n (update_points n c f a n))
          else update_points n c f a) := by
      unfold update_points
      rw [List.range_succ, List.foldl_append]
      rfl
    rw [hstep]
    by_cases hc : c n = true
    · rw [if_pos hc]
      by_cases hv : v = n
      · subst hv
        simp [vset, ih, hc]
      · have : (v < n + 1) ↔ (v < n) := by omega
        simp [vset, hv, ih, this]
    · rw [if_neg hc, ih]
      by_cases hv : v = n
      · subst hv
        simp [hc]
      · have : (v < n + 1) ↔ (v < n) := by omega
        simp [this]

theorem restore_fold {α : Type} (f : Nat → α) (l : List Nat) :
    ∀ (g : Nat → α) (v : Nat),
      ((l.zip (l.map f)).foldl (fun g p => vset g p.1 p.2) g) v
        = if v ∈ l then f v else g v := by
  induction l with
  | nil => intro g v; simp
  | cons i l ih =>
    intro g v
    rw [List.map_cons, List.zip_cons_cons, List.foldl_cons, ih]
    by_cases hl : v ∈ l
    · rw [if_pos hl, if_pos (List.mem_cons_of_mem _ hl)]
    · rw [if_neg hl]
      by_cases hi : v = i
      · subst hi
        simp [vset]
      · rw [if_neg]
        · simp [vset, hi]
        · intro h
          rcases List.mem_cons.mp h with h | h
          · exact hi h
          · exact hl h

theorem offset_step_glo (dim : Nat) (go : Int → Int) (elem : RegionElement) (v : Nat) :
    (offset_step dim go elem).glo_num v =
      if v ∈ corner_indices dim elem then elem.glo_num v
      else if v < elem.num_points then elem.glo_num v + go elem.poly_degree
      else elem.glo_num v := by
  unfold offset_step
  simp only
  rw [restore_fold, update_points_apply]
  simp

theorem ladder_getD_lt (poly_degree : List Int)
    (hdec : ∀ l, l + 1 < poly_degree.length →
      poly_degree.getD (l + 1) 0 < poly_degree.getD l 0) :
    ∀ (d l : Nat), l + (d + 1) < poly_degree.length →
      poly_degree.getD (l + (d + 1)) 0 < poly_degree.getD l 0 := by
  intro d
  induction d with
  | zero => intro l hl; exact hdec l hl
  | succ d ih =>
    intro l hl
    have h1 := ih l (by omega)
    have h2 := hdec (l + (d + 1)) (by omega)
    have : l + (d + 1 + 1) = l + (d + 1) + 1 := by omega
    rw [this]
    omega

theorem global_offset_fold (num_total_elements : Int) (dim : Nat) (poly_degree : List Int)
    (hdec : ∀ l, l + 1 < poly_degree.length →
      poly_degree.getD (l + 1) 0 < poly_degree.getD l 0) :
    ∀ m, m + 1 ≤ poly_degree.length → ∀ l, l ≤ m →
      ((List.range' 1 m).foldl
        (fun g l => kset g (poly_degree.getD l 0)
          (g (poly_degree.getD (l - 1) 0)
            + num_total_elements * (poly_degree.getD (l - 1) 0 + 1) ^ dim))
        (kset (fun _ => 0) (poly_degree.getD 0 0) 0)) (poly_degree.getD l 0)
        = offset_sum num_total_elements dim poly_degree l := by
  intro m
  induction m with
  | zero =>
    intro _ l hl
    have : l = 0 := by omega
    subst this
    simp [kset, offset_sum]
  | succ m ih =>
    intro hm l hl
    rw [List.range'_concat, List.foldl_append]
    simp only [List.foldl_cons, List.foldl_nil, Nat.one_mul]
    have e1 : 1 + m - 1 = m := by omega
    rw [e1]
    by_cases hlm : l = m + 1
    · subst hlm
      have e2 : 1 + m = m + 1 := by omega
      rw [e2]
      simp only [kset, if_true]
      rw [ih (by omega) m (le_refl _)]
      rfl
    · have hne : poly_degree.getD l 0 ≠ poly_degree.getD (1 + m) 0 := by
        have hlt := ladder_getD_lt poly_degree hdec (m - l) l (by omega)
        have e3 : l + (m - l + 1) = 1 + m := by omega
        rw [e3] at hlt
        omega
      simp only [kset, if_neg hne]
      exact ih (by omega) l (by omega)

/-- C19: the per-degree offset step keeps the corner ids.  For every element
the `glo_num` at each of its 4 (2-D) or 8 (3-D) corner nodes is the value
before the step, the `glo_num` of every other node is the previous value plus
`global_offset[poly_degree of the element]`, and along a strictly decreasing
ladder of non-negative degrees with at least one element in the mesh
`global_offset` is `0` for the finest degree and strictly larger at each next
degree of the ladder. -/
theorem offset_step_preserves_corners (dim : Nat) (num_total_elements : Int)
    (poly_degree : List Int) (elem : RegionElement)
    (hne : 1 ≤ poly_degree.length) (hN : 1 ≤ num_total_elements)
    (hnn : ∀ l, l < poly_degree.length → 0 ≤ poly_degree.getD l 0)
    (hdec : ∀ l, l + 1 < poly_degree.length →
      poly_degree.getD (l + 1) 0 < poly_degree.getD l 0) :
    (∀ v, v ∈ corner_indices dim elem →
      (offset_step dim (global_offset num_total_elements dim poly_degree) elem).glo_num v
        = elem.glo_num v) ∧
    (∀ v, v < elem.num_points → v ∉ corner_indices dim elem →
      (offset_step dim (global_offset num_total_elements dim poly_degree) elem).glo_num v
        = elem.glo_num v
          + global_offset num_total_elements dim poly_degree elem.poly_degree) ∧
    global_offset num_total_elements dim poly_degree (poly_degree.getD 0 0) = 0 ∧
    (∀ l, l + 1 < poly_degree.length →
      global_offset num_total_elements dim poly_degree (poly_degree.getD l 0)
        < global_offset num_total_elements dim poly_degree (poly_degree.getD (l + 1) 0)) := by
  have hg : ∀ l, l < poly_degree.length →
      global_offset num_total_elements dim poly_degree (poly_degree.getD l 0)
        = offset_sum num_total_elements dim poly_degree l := by
    intro l hl
    unfold global_offset
    exact global_offset_fold num_total_elements dim poly_degree hdec
      (poly_degree.length - 1) (by omega) l (by omega)
  refine ⟨?_, ?_, ?_, ?_⟩
  · intro v hv
    rw [offset_step_glo, if_pos hv]
  · intro v hv hc
    rw [offset_step_glo, if_neg hc, if_pos hv]
  · rw [hg 0 (by omega)]
    rfl
  · intro l hl
    rw [hg l (by omega), hg (l + 1) hl]
    show _ < offset_sum num_total_elements dim poly_degree l
      + num_total_elements * (poly_degree.getD l 0 + 1) ^ dim
    have h1 : 0 < poly_degree.getD l 0 + 1 := by
      have := hnn l (by omega)
      omega
    have h2 : 0 < (poly_degree.getD l 0 + 1) ^ dim := pow_pos h1 dim
    have h3 : 0 < num_total_elements * (poly_degree.getD l 0 + 1) ^ dim :=
      mul_pos (by omega) h2
    omega

/-- Witness for C19 on the biquadratic element with the ladder `[2, 1]` in a
mesh of 4 elements: the corners are the points `0, 2, 6, 8` and the offset of
degree `1` is `4 * 3^2 = 36`. -/
theorem offset_step_preserves_corners_witness :
    corner_indices 2 quadratic_element = [0, 2, 6, 8] ∧
    global_offset 4 2 [2, 1] 1 = 36 ∧
    ((∀ v, v ∈ corner_indices 2 quadratic_element →
      (offset_step 2 (global_offset 4 2 [2, 1]) quadratic_element).glo_num v
        = quadratic_element.glo_num v) ∧
    (∀ v, v < quadratic_element.num_points → v ∉ corner_indices 2 quadratic_element →
      (offset_step 2 (global_offset 4 2 [2, 1]) quadratic_element).glo_num v
        = quadratic_element.glo_num v
          + global_offset 4 2 [2, 1] quadratic_element.poly_degree) ∧
    global_offset 4 2 [2, 1] (([2, 1] : List Int).getD 0 0) = 0 ∧
    (∀ l, l + 1 < ([2, 1] : List Int).length →
      global_offset 4 2 [2, 1] (([2, 1] : List Int).getD l 0)
        < global_offset 4 2 [2, 1] (([2, 1] : List Int).getD (l + 1) 0))) :=
  ⟨by decide, by decide,
    offset_step_preserves_corners 2 4 [2, 1] quadratic_element (by decide) (by decide)
      (by decide)
      (by
        intro l hl
        have h0 : l = 0 := by
          simp only [List.length_cons, List.length_nil] at hl
          omega
        subst h0
        decide)⟩

/-! ### Zeroing of the hanging nodes -/

theorem node_inj (n_x n_y i j k i' j' k' : Nat) (hi : i < n_x) (hi' : i' < n_x)
    (hj : j < n_y) (hj' : j' < n_y)
    (h : i + j * n_x + k * (n_x * n_y) = i' + j' * n_x + k' * (n_x * n_y)) :
    i = i' ∧ j = j' ∧ k = k' := by
  have e1 : ∀ a b c : Nat, a + b * n_x + c * (n_x * n_y) = a + (b + c * n_y) * n_x := by
    intro a b c; ring
  rw [e1, e1] at h
  have hx : 0 < n_x := by omega
  have hy : 0 < n_y := by omega
  have hmod := congrArg (fun t => t % n_x) h
  simp only [Nat.add_mul_mod_self_right, Nat.mod_eq_of_lt hi, Nat.mod_eq_of_lt hi'] at hmod
  have hdiv := congrArg (fun t => t / n_x) h
  simp only [Nat.add_mul_div_right _ _ hx, Nat.div_eq_of_lt hi, Nat.div_eq_of_lt hi',
    Nat.zero_add] at hdiv
  have hmod2 := congrArg (fun t => t % n_y) hdiv
  simp only [Nat.add_mul_mod_self_right, Nat.mod_eq_of_lt hj, Nat.mod_eq_of_lt hj'] at hmod2
  have hdiv2 := congrArg (fun t => t / n_y) hdiv
  simp only [Nat.add_mul_div_right _ _ hy, Nat.div_eq_of_lt hj, Nat.div_eq_of_lt hj',
    Nat.zero_add] at hdiv2
  exact ⟨hmod, hmod2, hdiv2⟩

theorem node_lt (n_x n_y n_z i j k : Nat) (hi : i < n_x) (hj : j < n_y) (hk : k < n_z) :
    i + j * n_x + k * (n_x * n_y) < n_x * n_y * n_z := by
  have h1 : i + j * n_x < n_x * n_y := by
    have : (j + 1) * n_x ≤ n_y * n_x := Nat.mul_le_mul_right _ (by omega)
    have e : (j + 1) * n_x = j * n_x + n_x := by ring
    have e2 : n_y * n_x = n_x * n_y := by ring
    omega
  have h2 : (k + 1) * (n_x * n_y) ≤ n_z * (n_x * n_y) := Nat.mul_le_mul_right _ (by omega)
  have e3 : (k + 1) * (n_x * n_y) = k * (n_x * n_y) + n_x * n_y := by ring
  have e4 : n_z * (n_x * n_y) = n_x * n_y * n_z := by ring
  omega

theorem mem_edge_interior (dim : Nat) (elem : RegionElement) (eid v : Nat)
    (hx : 1 ≤ elem.n_x) (hy : 1 ≤ elem.n_y) (hz : 1 ≤ elem.n_z)
    (h : v ∈ edge_interior dim elem eid) :
    ∃ i j k, v = i + j * elem.n_x + k * (elem.n_x * elem.n_y) ∧
      i < elem.n_x ∧ j < elem.n_y ∧ k < elem.n_z ∧ (dim = 2 → k = 0) ∧
      ((1 ≤ i ∧ i + 1 < elem.n_x) ∨ (1 ≤ j ∧ j + 1 < elem.n_y) ∨
        (1 ≤ k ∧ k + 1 < elem.n_z)) := by
  unfold edge_interior at h
  by_cases hdim : dim = 2
  · rw [if_pos hdim] at h
    by_cases h0 : eid = 0
    · rw [if_pos h0] at h
      simp only [List.mem_map, List.mem_range'_1] at h
      obtain ⟨i, hi, rfl⟩ := h
      exact ⟨i, 0, 0, by omega, by omega, by omega, by omega, fun _ => rfl, by omega⟩
    rw [if_neg h0] at h
    by_cases h1 : eid = 1
    · rw [if_pos h1] at h
      simp only [List.mem_map, List.mem_range'_1] at h
      obtain ⟨i, hi, rfl⟩ := h
      exact ⟨i, elem.n_y - 1, 0, by omega, by omega, by omega, by omega, fun _ => rfl, by omega⟩
    rw [if_neg h1] at h
    by_cases h2 : eid = 2
    · rw [if_pos h2] at h
      simp only [List.mem_map, List.mem_range'_1] at h
      obtain ⟨i, hi, rfl⟩ := h
      exact ⟨0, i, 0, by omega, by omega, by omega, by omega, fun _ => rfl, by omega⟩
    rw [if_neg h2] at h
    by_cases h3 : eid = 3
    · rw [if_pos h3] at h
      simp only [List.mem_map, List.mem_range'_1] at h
      obtain ⟨i, hi, rfl⟩ := h
      exact ⟨elem.n_x - 1, i, 0, by omega, by omega, by omega, by omega, fun _ => rfl, by omega⟩
    rw [if_neg h3] at h
    exact absurd h (List.not_mem_nil _)
  · rw [if_neg hdim] at h
    by_cases h0 : eid = 0
    · rw [if_pos h0] at h
      simp only [List.mem_map, List.mem_range'_1] at h
      obtain ⟨i, hi, rfl⟩ := h
      exact ⟨_, _, _, rfl, by omega, by omega, by omega, by omega, by omega⟩
    rw [if_neg h0] at h
    by_cases h1 : eid = 1
    · rw [if_pos h1] at h
      simp only [List.mem_map, List.mem_range'_1] at h
      obtain ⟨i, hi, rfl⟩ := h
      exact ⟨_, _, _, rfl, by omega, by omega, by omega, by omega, by omega⟩
    rw [if_neg h1] at h
    by_cases h2 : eid = 2
    · rw [if_pos h2] at h
      simp only [List.mem_map, List.mem_range'_1] at h
      obtain ⟨i, hi, rfl⟩ := h
      exact ⟨_, _, _, rfl, by omega, by omega, by omega, by omega, by omega⟩
    rw [if_neg h2] at h
    by_cases h3 : eid = 3
    · rw [if_pos h3] at h
      simp only [List.mem_map, List.mem_range'_1] at h
      obtain ⟨i, hi, rfl⟩ := h
      exact ⟨_, _, _, rfl, by omega, by omega, by omega, by omega, by omega⟩
    rw [if_neg h3] at h
    by_cases h4 : eid = 4
    · rw [if_pos h4] at h
      simp only [List.mem_map, List.mem_range'_1] at h
      obtain ⟨i, hi, rfl⟩ := h
      exact ⟨_, _, _, rfl, by omega, by omega, by omega, by omega, by omega⟩
    rw [if_neg h4] at h
    by_cases h5 : eid = 5
    · rw [if_pos h5] at h
      simp only [List.mem_map, List.mem_range'_1] at h
      obtain ⟨i, hi, rfl⟩ := h
      exact ⟨_, _, _, rfl, by omega, by omega, by omega, by omega, by omega⟩
    rw [if_neg h5] at h
    by_cases h6 : eid = 6
    · rw [if_pos h6] at h
      simp only [List.mem_map, List.mem_range'_1] at h
      obtain ⟨i, hi, rfl⟩ := h
      exact ⟨_, _, _, rfl, by omega, by omega, by omega, by omega, by omega⟩
    rw [if_neg h6] at h
    by_cases h7 : eid = 7
    · rw [if_pos h7] at h
      simp only [List.mem_map, List.mem_range'_1] at h
      obtain ⟨i, hi, rfl⟩ := h
      exact ⟨_, _, _, rfl, by omega, by omega, by omega, by omega, by omega⟩
    rw [if_neg h7] at h
    by_cases h8 : eid = 8
    · rw [if_pos h8] at h
      simp only [List.mem_map, List.mem_range'_1] at h
      obtain ⟨i, hi, rfl⟩ := h
      exact ⟨_, _, _, rfl, by omega, by omega, by omega, by omega, by omega⟩
    rw [if_neg h8] at h
    by_cases h9 : eid = 9
    · rw [if_pos h9] at h
      simp only [List.mem_map, List.mem_range'_1] at h
      obtain ⟨i, hi, rfl⟩ := h
      exact ⟨_, _, _, rfl, by omega, by omega, by omega, by omega, by omega⟩
    rw [if_neg h9] at h
    by_cases h10 : eid = 10
    · rw [if_pos h10] at h
      simp only [List.mem_map, List.mem_range'_1] at h
      obtain ⟨i, hi, rfl⟩ := h
      exact ⟨_, _, _, rfl, by omega, by omega, by omega, by omega, by omega⟩
    rw [if_neg h10] at h
    by_cases h11 : eid = 11
    · rw [if_pos h11] at h
      simp only [List.mem_map, List.mem_range'_1] at h
      obtain ⟨i, hi, rfl⟩ := h
      exact ⟨_, _, _, rfl, by omega, by omega, by omega, by omega, by omega⟩
    rw [if_neg h11] at h
    exact absurd h (List.not_mem_nil _)

theorem mem_face_interior (elem : RegionElement) (fid v : Nat)
    (hx : 1 ≤ elem.n_x) (hy : 1 ≤ elem.n_y) (hz : 1 ≤ elem.n_z)
    (h : v ∈ face_interior elem fid) :
    ∃ i j k, v = i + j * elem.n_x + k * (elem.n_x * elem.n_y) ∧
      i < elem.n_x ∧ j < elem.n_y ∧ k < elem.n_z ∧
      ((1 ≤ i ∧ i + 1 < elem.n_x) ∨ (1 ≤ j ∧ j + 1 < elem.n_y) ∨
        (1 ≤ k ∧ k + 1 < elem.n_z)) := by
  unfold face_interior at h
  by_cases h0 : fid = 0
  · rw [if_pos h0] at h
    simp only [List.mem_flatMap, List.mem_map, List.mem_range'_1] at h
    obtain ⟨a, ha, b, hb, rfl⟩ := h
    exact ⟨_, _, _, rfl, by omega, by omega, by omega, by omega⟩
  rw [if_neg h0] at h
  by_cases h1 : fid = 1
  · rw [if_pos h1] at h
    simp only [List.mem_flatMap, List.mem_map, List.mem_range'_1] at h
    obtain ⟨a, ha, b, hb, rfl⟩ := h
    exact ⟨_, _, _, rfl, by omega, by omega, by omega, by omega⟩
  rw [if_neg h1] at h
  by_cases h2 : fid = 2
  · rw [if_pos h2] at h
    simp only [List.mem_flatMap, List.mem_map, List.mem_range'_1] at h
    obtain ⟨a, ha, b, hb, rfl⟩ := h
    exact ⟨_, _, _, rfl, by omega, by omega, by omega, by omega⟩
  rw [if_neg h2] at h
  by_cases h3 : fid = 3
  · rw [if_pos h3] at h
    simp only [List.mem_flatMap, List.mem_map, List.mem_range'_1] at h
    obtain ⟨a, ha, b, hb, rfl⟩ := h
    exact ⟨_, _, _, rfl, by omega, by omega, by omega, by omega⟩
  rw [if_neg h3] at h
  by_cases h4 : fid = 4
  · rw [if_pos h4] at h
    simp only [List.mem_flatMap, List.mem_map, List.mem_range'_1] at h
    obtain ⟨a, ha, b, hb, rfl⟩ := h
    exact ⟨_, _, _, rfl, by omega, by omega, by omega, by omega⟩
  rw [if_neg h4] at h
  by_cases h5 : fid = 5
  · rw [if_pos h5] at h
    simp only [List.mem_flatMap, List.mem_map, List.mem_range'_1] at h
    obtain ⟨a, ha, b, hb, rfl⟩ := h
    exact ⟨_, _, _, rfl, by omega, by omega, by omega, by omega⟩
  rw [if_neg h5] at h
  exact absurd h (List.not_mem_nil _)

theorem mem_corner_indices (dim : Nat) (elem : RegionElement) (v : Nat)
    (hx : 1 ≤ elem.n_x) (hy : 1 ≤ elem.n_y)
    (h : v ∈ corner_indices dim elem) :
    ∃ i j k, v = i + j * elem.n_x + k * (elem.n_x * elem.n_y) ∧
      i < elem.n_x ∧ j < elem.n_y ∧ (dim = 2 → k = 0) ∧
      (i = 0 ∨ i + 1 = elem.n_x) ∧ (j = 0 ∨ j + 1 = elem.n_y) ∧
      (k = 0 ∨ k + 1 = elem.n_z) := by
  unfold corner_indices at h
  by_cases hdim : dim = 2
  · rw [if_pos hdim] at h
    simp only [List.mem_cons, List.mem_singleton, List.not_mem_nil, or_false] at h
    rcases h with rfl | rfl | rfl | rfl
    · exact ⟨0, 0, 0, by omega, by omega, by omega, fun _ => rfl, by omega, by omega,
        by omega⟩
    · exact ⟨elem.n_x - 1, 0, 0, by omega, by omega, by omega, fun _ => rfl, by omega,
        by omega, by omega⟩
    · exact ⟨0, elem.n_y - 1, 0, by omega, by omega, by omega, fun _ => rfl, by omega,
        by omega, by omega⟩
    · exact ⟨elem.n_x - 1, elem.n_y - 1, 0, by omega, by omega, by omega, fun _ => rfl,
        by omega, by omega, by omega⟩
  · rw [if_neg hdim] at h
    simp only [List.mem_cons, List.mem_singleton, List.not_mem_nil, or_false] at h
    have e : ∀ a b c : Nat, a + b * elem.n_x + c * elem.n_x * elem.n_y
        = a + b * elem.n_x + c * (elem.n_x * elem.n_y) := by
      intro a b c; ring
    simp only [e] at h
    rcases h with rfl | rfl | rfl | rfl | rfl | rfl | rfl | rfl
    all_goals
      exact ⟨_, _, _, rfl, by omega, by omega, by omega, by omega, by omega, by omega⟩

theorem zero_fold {β : Type} (Q : β → Nat → Prop) (step : β → (Nat → Int) → (Nat → Int))
    (h0 : ∀ b g v, Q b v → step b g v = 0)
    (h1 : ∀ b g v, ¬ Q b v → step b g v = g v) :
    ∀ (l : List β) (g : Nat → Int) (v : Nat),
      ((∃ b ∈ l, Q b v) → (l.foldl (fun g b => step b g) g) v = 0) ∧
      ((¬ ∃ b ∈ l, Q b v) → (l.foldl (fun g b => step b g) g) v = g v) := by
  intro l
  induction l with
  | nil =>
    intro g v
    exact ⟨fun ⟨b, hb, _⟩ => absurd hb (List.not_mem_nil _), fun _ => rfl⟩
  | cons b l ih =>
    intro g v
    rw [List.foldl_cons]
    constructor
    · rintro ⟨b', hb', hq⟩
      by_cases hl : ∃ b ∈ l, Q b v
      · exact (ih (step b g) v).1 hl
      · rw [(ih (step b g) v).2 hl]
        rcases List.mem_cons.mp hb' with rfl | hb'
        · exact h0 _ g v hq
        · exact absurd ⟨b', hb', hq⟩ hl
    · intro hn
      have hl : ¬ ∃ b ∈ l, Q b v := fun ⟨b', hb', hq⟩ =>
        hn ⟨b', List.mem_cons_of_mem _ hb', hq⟩
      rw [(ih (step b g) v).2 hl]
      exact h1 b g v (fun hq => hn ⟨b, List.mem_cons_self _ _, hq⟩)

theorem zero_loop_spec (region : List RegionElement) (elem_i : RegionElement)
    (interior conn : Nat → List Nat) (count : Nat) (g : Nat → Int) (v : Nat) :
    ((∃ id, id < count ∧ ∃ e_j ∈ conn id,
        (region.getD e_j RegionElement.absent).poly_degree < elem_i.poly_degree ∧
        v ∈ interior id) →
      zero_loop region elem_i interior conn count g v = 0) ∧
    ((¬ ∃ id, id < count ∧ ∃ e_j ∈ conn id,
        (region.getD e_j RegionElement.absent).poly_degree < elem_i.poly_degree ∧
        v ∈ interior id) →
      zero_loop region elem_i interior conn count g v = g v) := by
  have inner : ∀ (S : List Nat) (g : Nat → Int) (v : Nat),
      (S.foldl (fun g v => vset g v 0) g) v = if v ∈ S then 0 else g v := by
    intro S g v
    have := vset_fold (fun i => i) (0 : Int) S g v
    simp only [exists_eq_right] at this
    exact this
  have middle : ∀ (id : Nat) (g : Nat → Int) (v : Nat),
      ((∃ e_j ∈ conn id,
          (region.getD e_j RegionElement.absent).poly_degree < elem_i.poly_degree ∧
          v ∈ interior id) →
        ((conn id).foldl (fun g e_j =>
          if (region.getD e_j RegionElement.absent).poly_degree < elem_i.poly_degree then
            (interior id).foldl (fun g v => vset g v 0) g
          else g) g) v = 0) ∧
      ((¬ ∃ e_j ∈ conn id,
          (region.getD e_j RegionElement.absent).poly_degree < elem_i.poly_degree ∧
          v ∈ interior id) →
        ((conn id).foldl (fun g e_j =>
          if (region.getD e_j RegionElement.absent).poly_degree < elem_i.poly_degree then
            (interior id).foldl (fun g v => vset g v 0) g
          else g) g) v = g v) := by
    intro id g v
    exact zero_fold
      (fun e_j v => (region.getD e_j RegionElement.absent).poly_degree < elem_i.poly_degree ∧
        v ∈ interior id)
      (fun e_j g =>
        if (region.getD e_j RegionElement.absent).poly_degree < elem_i.poly_degree then
          (interior id).foldl (fun g v => vset g v 0) g
        else g)
      (fun e_j g v hq => by
        simp only
        rw [if_pos hq.1, inner, if_pos hq.2])
      (fun e_j g v hq => by
        simp only
        by_cases hp :
            (region.getD e_j RegionElement.absent).poly_degree < elem_i.poly_degree
        · rw [if_pos hp, inner, if_neg (fun hv => hq ⟨hp, hv⟩)]
        · rw [if_neg hp])
      (conn id) g v
  have outer := zero_fold
    (fun id v => ∃ e_j ∈ conn id,
      (region.getD e_j RegionElement.absent).poly_degree < elem_i.poly_degree ∧
      v ∈ interior id)
    (fun id g => (conn id).foldl (fun g e_j =>
      if (region.getD e_j RegionElement.absent).poly_degree < elem_i.poly_degree then
        (interior id).foldl (fun g v => vset g v 0) g
      else g) g)
    (fun id g v hq => (middle id g v).1 hq)
    (fun id g v hq => (middle id g v).2 hq)
    (List.range count) g v
  unfold zero_loop
  constructor
  · rintro ⟨id, hid, hq⟩
    exact outer.1 ⟨id, List.mem_range.mpr hid, hq⟩
  · intro hn
    exact outer.2 (fun ⟨id, hid, hq⟩ => hn ⟨id, List.mem_range.mp hid, hq⟩)

theorem zero_step_hanging (dim : Nat) (region : List RegionElement) (elem_i : RegionElement)
    (v : Nat) (h : Hanging dim region elem_i v) :
    (zero_step dim region elem_i).glo_num v = 0 := by
  unfold zero_step
  unfold Hanging at h
  by_cases hdim : dim = 2
  · rw [if_pos hdim]
    rw [if_pos hdim] at h
    rcases h with h | h
    · exact (zero_loop_spec region elem_i _ _ 4 _ v).1 h
    · exact absurd hdim h.1
  · rw [if_neg hdim]
    rw [if_neg hdim] at h
    show zero_loop region elem_i (face_interior elem_i) elem_i.face_conn 6 _ v = 0
    by_cases hf : ∃ fid, fid < 6 ∧ ∃ e_j ∈ elem_i.face_conn fid,
        (region.getD e_j RegionElement.absent).poly_degree < elem_i.poly_degree ∧
        v ∈ face_interior elem_i fid
    · exact (zero_loop_spec region elem_i _ _ 6 _ v).1 hf
    · rw [(zero_loop_spec region elem_i _ _ 6 _ v).2 hf]
      rcases h with h | h
      · exact (zero_loop_spec region elem_i _ _ 12 _ v).1 h
      · exact absurd h.2 hf

theorem zero_step_other (dim : Nat) (region : List RegionElement) (elem_i : RegionElement)
    (v : Nat) (h : ¬ Hanging dim region elem_i v) :
    (zero_step dim region elem_i).glo_num v = elem_i.glo_num v := by
  unfold zero_step
  unfold Hanging at h
  by_cases hdim : dim = 2
  · rw [if_pos hdim]
    rw [if_pos hdim] at h
    exact (zero_loop_spec region elem_i _ _ 4 _ v).2 (fun hq => h (Or.inl hq))
  · rw [if_neg hdim]
    rw [if_neg hdim] at h
    show zero_loop region elem_i (face_interior elem_i) elem_i.face_conn 6 _ v = _
    rw [(zero_loop_spec region elem_i _ _ 6 _ v).2 (fun hq => h (Or.inr ⟨hdim, hq⟩))]
    exact (zero_loop_spec region elem_i _ _ 12 _ v).2 (fun hq => h (Or.inl hq))

theorem corner_not_hanging (dim : Nat) (region : List RegionElement) (elem : RegionElement)
    (v : Nat) (hx : 1 ≤ elem.n_x) (hy : 1 ≤ elem.n_y) (hz : 1 ≤ elem.n_z)
    (hc : v ∈ corner_indices dim elem) : ¬ Hanging dim region elem v := by
  obtain ⟨i, j, k, hv, hi, hj, hk2, ci, cj, ck⟩ := mem_corner_indices dim elem v hx hy hc
  rintro (⟨eid, _, e_j, _, _, hm⟩ | ⟨_, fid, _, e_j, _, _, hm⟩)
  · obtain ⟨i', j', k', hv', hi', hj', _, hk2', hint⟩ :=
      mem_edge_interior dim elem eid v hx hy hz hm
    obtain ⟨e1, e2, e3⟩ := node_inj _ _ i j k i' j' k' hi hi' hj hj' (hv.symm.trans hv')
    omega
  · obtain ⟨i', j', k', hv', hi', hj', _, hint⟩ :=
      mem_face_interior elem fid v hx hy hz hm
    obtain ⟨e1, e2, e3⟩ := node_inj _ _ i j k i' j' k' hi hi' hj hj' (hv.symm.trans hv')
    omega

/-! ### Final ranking of a region -/

theorem scatter_elem (off : Nat) (f : Nat → Int) (n : Nat) :
    ∀ (w : Nat → Int) (j : Nat),
      ((List.range n).foldl (fun w v => vset w (off + v) (f v)) w) j
        = if off ≤ j ∧ j < off + n then f (j - off) else w j := by
  induction n with
  | zero => intro w j; simp; omega
  | succ n ih =>
    intro w j
    rw [List.range_succ, List.foldl_append]
    simp only [List.foldl_cons, List.foldl_nil, vset]
    by_cases hj : j = off + n
    · subst hj
      rw [if_pos rfl, if_pos (by omega)]
      congr 1
      omega
    · rw [if_neg hj, ih]
      by_cases hc : off ≤ j ∧ j < off + n
      · rw [if_pos hc, if_pos (by omega)]
      · rw [if_neg hc, if_neg (by omega)]

theorem scatter_cons (elem : RegionElement) (rest : List RegionElement)
    (val : RegionElement → Nat → Int) (w : Nat → Int) :
    scatter (elem :: rest) val w =
      scatter rest val
        ((List.range elem.num_points).foldl
          (fun w v => vset w (elem.offset + v) (val elem v)) w) := rfl

theorem scatter_below (val : RegionElement → Nat → Int) (region : List RegionElement) :
    ∀ (start : Nat) (w : Nat → Int) (j : Nat), Tiled start region → j < start →
      scatter region val w j = w j := by
  induction region with
  | nil => intro start w j _ _; rfl
  | cons elem rest ih =>
    intro start w j hT hj
    rw [scatter_cons, ih (start + elem.num_points) _ j hT.2 (by omega), scatter_elem,
      if_neg (by have := hT.1; omega)]

theorem total_points_cons (elem : RegionElement) (rest : List RegionElement) :
    total_points (elem :: rest) = elem.num_points + total_points rest := by
  simp [total_points]

theorem scatter_at (val : RegionElement → Nat → Int) (region : List RegionElement) :
    ∀ (start : Nat) (w : Nat → Int), Tiled start region →
      ∀ elem ∈ region, ∀ v, v < elem.num_points →
        scatter region val w (elem.offset + v) = val elem v ∧
        start ≤ elem.offset ∧ elem.offset + v < start + total_points region := by
  induction region with
  | nil => intro start w _ elem he; exact absurd he (List.not_mem_nil _)
  | cons head rest ih =>
    intro start w hT elem he v hv
    rw [scatter_cons, total_points_cons]
    rcases List.mem_cons.mp he with rfl | he
    · refine ⟨?_, by have := hT.1; omega, by have := hT.1; omega⟩
      rw [scatter_below val rest (start + elem.num_points) _ _ hT.2 (by have := hT.1; omega),
        scatter_elem, if_pos (by omega)]
      congr 1
      omega
    · obtain ⟨h1, h2, h3⟩ := ih (start + head.num_points) _ hT.2 elem he v hv
      exact ⟨h1, by omega, by omega⟩

theorem scatter_list (val : RegionElement → Nat → Int) (region : List RegionElement) :
    ∀ (start : Nat) (w : Nat → Int), Tiled start region →
      (List.range' start (total_points region)).map (scatter region val w)
        = node_values region val := by
  induction region with
  | nil => intro start w _; rfl
  | cons head rest ih =>
    intro start w hT
    have hsplit : List.range' start (head.num_points + total_points rest)
        = List.range' start head.num_points
          ++ List.range' (start + head.num_points) (total_points rest) := by
      rw [List.range'_append_1, Nat.add_comm]
    rw [total_points_cons, hsplit, List.map_append, scatter_cons,
      ih (start + head.num_points) _ hT.2]
    show _ = (List.range head.num_points).map (val head) ++ node_values rest val
    congr 1
    rw [List.range'_eq_map_range, List.map_map]
    apply List.map_congr_left
    intro v hv
    have hv' : v < head.num_points := List.mem_range.mp hv
    simp only [Function.comp]
    rw [scatter_below val rest (start + head.num_points) _ _ hT.2 (by omega),
      scatter_elem, if_pos (by have := hT.1; omega)]
    congr 1
    have := hT.1
    omega

theorem rank_pass (val : RegionElement → Nat → Int) (region : List RegionElement)
    (num_points : Nat) (w : Nat → Int) (hT : Tiled 0 region)
    (hN : num_points = total_points region) (elem : RegionElement) (he : elem ∈ region)
    (v : Nat) (hv : v < elem.num_points) :
    ranked (rank_work (scatter region val w) num_points) num_points (scatter region val w)
        (elem.offset + v)
      = rank_of (node_values region val) (val elem v) := by
  obtain ⟨h1, _, h3⟩ := scatter_at val region 0 w hT elem he v hv
  have hi : elem.offset + v < num_points := by omega
  have hdata : (List.range num_points).map (scatter region val w) = node_values region val := by
    rw [hN, List.range_eq_range']
    exact scatter_list val region 0 w hT
  have hlen : (node_values region val).length = num_points := by
    rw [← hdata]; simp
  unfold ranked rank_work
  rw [if_pos hi, hdata, ranking_getD _ _ (le_of_eq hlen.symm) _ hi,
    List.take_of_length_le (le_of_eq hlen)]
  congr 1
  rw [← hdata, List.getD_eq_getElem _ _ (by simp; exact hi)]
  simp [h1]

theorem tiled_map (F : RegionElement → RegionElement)
    (hoff : ∀ elem, (F elem).offset = elem.offset)
    (hnp : ∀ elem, (F elem).num_points = elem.num_points) (region : List RegionElement) :
    ∀ start, Tiled start region → Tiled start (region.map F) := by
  induction region with
  | nil => intro _ _; trivial
  | cons head rest ih =>
    intro start hT
    refine ⟨(hoff head).trans hT.1, ?_⟩
    rw [hnp head]
    exact ih _ hT.2

theorem total_points_map (F : RegionElement → RegionElement)
    (hnp : ∀ elem, (F elem).num_points = elem.num_points) (region : List RegionElement) :
    total_points (region.map F) = total_points region := by
  unfold total_points
  rw [List.map_map]
  congr 1
  apply List.map_congr_left
  intro elem _
  exact hnp elem

theorem node_values_map (F : RegionElement → RegionElement)
    (val val' : RegionElement → Nat → Int)
    (hnp : ∀ elem, (F elem).num_points = elem.num_points) (region : List RegionElement)
    (hval : ∀ elem ∈ region, ∀ v, v < elem.num_points → val (F elem) v = val' elem v) :
    node_values (region.map F) val = node_values region val' := by
  unfold node_values
  rw [List.flatMap_map]
  apply List.flatMap_congr
  intro elem he
  rw [hnp elem]
  apply List.map_congr_left
  intro v hv
  exact hval elem he v (List.mem_range.mp hv)

theorem final_ranking_eq (region : List RegionElement) (num_points : Nat)
    (work_hst0 : Nat → Int) (hT : Tiled 0 region) (hN : num_points = total_points region) :
    final_ranking region num_points work_hst0
      = region.map (ranked_element (pass1_values region) (pass2_values region)) := by
  unfold final_ranking
  simp only
  have hT1 := tiled_map
    (fun elem : RegionElement =>
      { elem with
        glo_num := update_points elem.num_points (fun _ => true)
          (fun v _ => ranked
            (rank_work (scatter region (fun elem v => elem.glo_num v) work_hst0) num_points)
            num_points (scatter region (fun elem v => elem.glo_num v) work_hst0)
            (elem.offset + v)) elem.glo_num })
    (fun _ => rfl) (fun _ => rfl) region 0 hT
  have hN1 := (total_points_map
    (fun elem : RegionElement =>
      { elem with
        glo_num := update_points elem.num_points (fun _ => true)
          (fun v _ => ranked
            (rank_work (scatter region (fun elem v => elem.glo_num v) work_hst0) num_points)
            num_points (scatter region (fun elem v => elem.glo_num v) work_hst0)
            (elem.offset + v)) elem.glo_num })
    (fun _ => rfl) region)
  have hV2 := node_values_map
    (fun elem : RegionElement =>
      { elem with
        glo_num := update_points elem.num_points (fun _ => true)
          (fun v _ => ranked
            (rank_work (scatter region (fun elem v => elem.glo_num v) work_hst0) num_points)
            num_points (scatter region (fun elem v => elem.glo_num v) work_hst0)
            (elem.offset + v)) elem.glo_num })
    (fun elem v => elem.glo_num v * elem.dirichlet_mask v)
    (fun elem v => rank_of (pass1_values region) (elem.glo_num v) * elem.dirichlet_mask v)
    (fun _ => rfl) region
    (fun elem he v hv => by
      simp only
      rw [update_points_apply, if_pos ⟨hv, rfl⟩,
        rank_pass (fun elem v => elem.glo_num v) region num_points work_hst0 hT hN elem he v hv]
      rfl)
  rw [List.map_map]
  apply List.map_congr_left
  intro elem he
  simp only [Function.comp]
  unfold ranked_element
  congr 1
  · congr 1
    funext v
    rw [update_points_apply]
    by_cases hv : v < elem.num_points
    · rw [if_pos ⟨hv, rfl⟩, if_pos hv]
      have hmem := List.mem_map_of_mem
        (fun elem : RegionElement =>
          { elem with
            glo_num := update_points elem.num_points (fun _ => true)
              (fun v _ => ranked
                (rank_work (scatter region (fun elem v => elem.glo_num v) work_hst0)
                  num_points)
                num_points (scatter region (fun elem v => elem.glo_num v) work_hst0)
                (elem.offset + v)) elem.glo_num }) he
      have := rank_pass (fun elem v => elem.glo_num v * elem.dirichlet_mask v) _ num_points
        (ranked
          (rank_work (scatter region (fun elem v => elem.glo_num v) work_hst0) num_points)
          num_points (scatter region (fun elem v => elem.glo_num v) work_hst0))
        hT1 (hN.trans hN1.symm) _ hmem v hv
      simp only at this
      rw [this, hV2]
      unfold pass2_values
      congr 1
      rw [update_points_apply, if_pos ⟨hv, rfl⟩,
        rank_pass (fun elem v => elem.glo_num v) region num_points work_hst0 hT hN elem he v hv]
      rfl
    · rw [if_neg (fun h => hv h.1), if_neg hv]
  · funext v
    rw [update_points_apply]
    by_cases hv : v < elem.num_points
    · rw [if_pos ⟨hv, rfl⟩, if_pos hv,
        rank_pass (fun elem v => elem.glo_num v) region num_points work_hst0 hT hN elem he v hv]
      rfl
    · rw [if_neg (fun h => hv h.1), if_neg hv]

/-! ### Marking of the interface and extended nodes -/

theorem shift_marked_glo (a : Int) (elem : RegionElement) (v : Nat) :
    (shift_marked a elem).glo_num v =
      if elem.poly_degree = 1 ∧ v < elem.num_points ∧ 0 < elem.dof_num v
      then elem.glo_num v + a else elem.glo_num v := by
  unfold shift_marked
  by_cases hd : elem.poly_degree = 1
  · rw [if_pos hd]
    unfold shift_glo
    simp only
    rw [update_points_apply]
    simp [hd]
  · rw [if_neg hd, if_neg (fun h => hd h.1)]

theorem shift_unmarked_glo (a : Int) (elem : RegionElement) (v : Nat) :
    (shift_unmarked a elem).glo_num v =
      if v < elem.num_points ∧ 0 < elem.dirichlet_mask v ∧ elem.dof_num v = 0
      then elem.glo_num v + a else elem.glo_num v := by
  unfold shift_unmarked shift_glo
  simp only
  rw [update_points_apply]
  simp

theorem shift_marked_frame (a : Int) (elem : RegionElement) :
    (shift_marked a elem).num_points = elem.num_points ∧
    (shift_marked a elem).offset = elem.offset ∧
    (shift_marked a elem).poly_degree = elem.poly_degree ∧
    (shift_marked a elem).dof_num = elem.dof_num ∧
    (shift_marked a elem).dirichlet_mask = elem.dirichlet_mask ∧
    (shift_marked a elem).loc_num = elem.loc_num := by
  unfold shift_marked
  split <;> exact ⟨rfl, rfl, rfl, rfl, rfl, rfl⟩

theorem shift_unmarked_frame (a : Int) (elem : RegionElement) :
    (shift_unmarked a elem).num_points = elem.num_points ∧
    (shift_unmarked a elem).offset = elem.offset ∧
    (shift_unmarked a elem).poly_degree = elem.poly_degree ∧
    (shift_unmarked a elem).dof_num = elem.dof_num ∧
    (shift_unmarked a elem).dirichlet_mask = elem.dirichlet_mask ∧
    (shift_unmarked a elem).loc_num = elem.loc_num :=
  ⟨rfl, rfl, rfl, rfl, rfl, rfl⟩

theorem zero_step_frame (dim : Nat) (region : List RegionElement) (elem : RegionElement) :
    (zero_step dim region elem).num_points = elem.num_points ∧
    (zero_step dim region elem).offset = elem.offset ∧
    (zero_step dim region elem).poly_degree = elem.poly_degree ∧
    (zero_step dim region elem).dof_num = elem.dof_num ∧
    (zero_step dim region elem).dirichlet_mask = elem.dirichlet_mask ∧
    (zero_step dim region elem).loc_num = elem.loc_num := by
  unfold zero_step
  split <;> exact ⟨rfl, rfl, rfl, rfl, rfl, rfl⟩

theorem max_glo_inner_ge (elem : RegionElement) (n : Nat) :
    ∀ m : Int, m ≤ (List.range n).foldl (fun m v => max m (elem.glo_num v)) m ∧
      ∀ v, v < n → elem.glo_num v ≤ (List.range n).foldl (fun m v => max m (elem.glo_num v)) m := by
  induction n with
  | zero => intro m; exact ⟨le_refl _, fun v hv => absurd hv (Nat.not_lt_zero _)⟩
  | succ n ih =>
    intro m
    rw [List.range_succ, List.foldl_append]
    simp only [List.foldl_cons, List.foldl_nil]
    obtain ⟨h1, h2⟩ := ih m
    refine ⟨le_trans h1 (le_max_left _ _), ?_⟩
    intro v hv
    by_cases hvn : v = n
    · subst hvn; exact le_max_right _ _
    · exact le_trans (h2 v (by omega)) (le_max_left _ _)

theorem max_glo_ge (region : List RegionElement) :
    ∀ init : Int, init ≤ max_glo init region ∧
      ∀ elem ∈ region, ∀ v, v < elem.num_points → elem.glo_num v ≤ max_glo init region := by
  induction region with
  | nil => intro init; exact ⟨le_refl _, fun elem he => absurd he (List.not_mem_nil _)⟩
  | cons head rest ih =>
    intro init
    have hstep : max_glo init (head :: rest) =
        max_glo ((List.range head.num_points).foldl (fun m v => max m (head.glo_num v)) init)
          rest := rfl
    rw [hstep]
    obtain ⟨h1, h2⟩ := max_glo_inner_ge head head.num_points init
    obtain ⟨h3, h4⟩ := ih
      ((List.range head.num_points).foldl (fun m v => max m (head.glo_num v)) init)
    refine ⟨le_trans h1 h3, ?_⟩
    intro elem he v hv
    rcases List.mem_cons.mp he with rfl | he
    · exact le_trans (h2 v hv) h3
    · exact h4 elem he v hv

theorem getD_map_lt (F : RegionElement → RegionElement) (l : List RegionElement) (e : Nat)
    (he : e < l.length) :
    (l.map F).getD e RegionElement.absent = F (l.getD e RegionElement.absent) := by
  rw [List.getD_eq_getElem _ _ (by simpa using he), List.getD_eq_getElem _ _ he,
    List.getElem_map]

theorem getD_mem (l : List RegionElement) (e : Nat) (he : e < l.length) :
    l.getD e RegionElement.absent ∈ l := by
  rw [List.getD_eq_getElem _ _ he]
  exact List.getElem_mem he

theorem tail_map_getD (B : RegionElement → RegionElement) :
    ∀ (l : List RegionElement) (n e : Nat), e < l.length →
      (l.take n ++ (l.drop n).map B).getD e RegionElement.absent
        = if e < n then l.getD e RegionElement.absent
          else B (l.getD e RegionElement.absent) := by
  intro l
  induction l with
  | nil => intro n e he; exact absurd he (Nat.not_lt_zero _)
  | cons head rest ih =>
    intro n e he
    cases n with
    | zero =>
      rw [List.take_zero, List.drop_zero, List.nil_append, if_neg (Nat.not_lt_zero _)]
      exact getD_map_lt B _ e he
    | succ n =>
      rw [List.take_succ_cons, List.drop_succ_cons, List.cons_append]
      cases e with
      | zero => simp
      | succ e =>
        rw [List.getD_cons_succ, List.getD_cons_succ, ih n e (by simpa using he)]
        simp

theorem tail_map_mem (B : RegionElement → RegionElement) (l : List RegionElement) (n : Nat)
    (x : RegionElement) (hx : x ∈ l.take n ++ (l.drop n).map B) :
    ∃ y ∈ l, x = y ∨ x = B y := by
  rcases List.mem_append.mp hx with h | h
  · exact ⟨x, List.mem_of_mem_take h, Or.inl rfl⟩
  · obtain ⟨y, hy, rfl⟩ := List.mem_map.mp h
    exact ⟨y, List.mem_of_mem_drop hy, Or.inr rfl⟩

theorem tail_map_tiled (B : RegionElement → RegionElement)
    (hoff : ∀ elem, (B elem).offset = elem.offset)
    (hnp : ∀ elem, (B elem).num_points = elem.num_points) :
    ∀ (l : List RegionElement) (n start : Nat), Tiled start l →
      Tiled start (l.take n ++ (l.drop n).map B) := by
  intro l
  induction l with
  | nil => intro n start _; simp [Tiled]
  | cons head rest ih =>
    intro n start hT
    cases n with
    | zero =>
      rw [List.take_zero, List.drop_zero, List.nil_append]
      exact tiled_map B hoff hnp _ start hT
    | succ n =>
      rw [List.take_succ_cons, List.drop_succ_cons, List.cons_append]
      exact ⟨hT.1, ih n _ hT.2⟩

theorem tail_map_total (B : RegionElement → RegionElement)
    (hnp : ∀ elem, (B elem).num_points = elem.num_points) (l : List RegionElement) (n : Nat) :
    total_points (l.take n ++ (l.drop n).map B) = total_points l := by
  have h := total_points_map B hnp (l.drop n)
  unfold total_points at h ⊢
  rw [List.map_append, List.sum_append, h, ← List.sum_append, ← List.map_append,
    List.take_append_drop]

theorem mem_node_values (region : List RegionElement) (val : RegionElement → Nat → Int)
    (x : Int) :
    x ∈ node_values region val ↔
      ∃ elem ∈ region, ∃ v, v < elem.num_points ∧ val elem v = x := by
  unfold node_values
  simp only [List.mem_flatMap, List.mem_map, List.mem_range]

theorem rank_of_nonneg (vals : List Int) (v : Int) : 0 ≤ rank_of vals v := by
  unfold rank_of
  have hb : 0 ≤ below vals.toFinset v := by unfold below; positivity
  split <;> omega

theorem final_dof (region : List RegionElement) (num_points : Nat) (work_hst0 : Nat → Int)
    (hT : Tiled 0 region) (hN : num_points = total_points region) (e : Nat)
    (he : e < region.length) (v : Nat)
    (hv : v < (region.getD e RegionElement.absent).num_points) :
    ((final_ranking region num_points work_hst0).getD e RegionElement.absent).dof_num v
      = rank_of (pass2_values region)
          (rank_of (pass1_values region) ((region.getD e RegionElement.absent).glo_num v)
            * (region.getD e RegionElement.absent).dirichlet_mask v) := by
  rw [final_ranking_eq region num_points work_hst0 hT hN, getD_map_lt _ _ e he]
  unfold ranked_element
  simp only
  rw [if_pos hv]

theorem final_dof_zero (region : List RegionElement) (num_points : Nat)
    (work_hst0 : Nat → Int) (hT : Tiled 0 region) (hN : num_points = total_points region)
    (hglo : ∀ elem ∈ region, ∀ v, v < elem.num_points → 0 ≤ elem.glo_num v)
    (hmask : ∀ elem ∈ region, ∀ v, v < elem.num_points → 0 ≤ elem.dirichlet_mask v)
    (e : Nat) (he : e < region.length) (v : Nat)
    (hv : v < (region.getD e RegionElement.absent).num_points)
    (h0 : (region.getD e RegionElement.absent).glo_num v = 0 ∨
      (region.getD e RegionElement.absent).dirichlet_mask v = 0) :
    ((final_ranking region num_points work_hst0).getD e RegionElement.absent).dof_num v = 0 := by
  rw [final_dof region num_points work_hst0 hT hN e he v hv]
  have hmem := getD_mem region e he
  have hV1 : ∀ w ∈ pass1_values region, 0 ≤ w := by
    intro w hw
    obtain ⟨elem, hel, u, hu, rfl⟩ := (mem_node_values _ _ _).mp hw
    exact hglo elem hel u hu
  have hV2 : ∀ w ∈ pass2_values region, 0 ≤ w := by
    intro w hw
    obtain ⟨elem, hel, u, hu, rfl⟩ := (mem_node_values _ _ _).mp hw
    exact mul_nonneg (rank_of_nonneg _ _) (hmask elem hel u hu)
  have hin2 : rank_of (pass1_values region) ((region.getD e RegionElement.absent).glo_num v)
      * (region.getD e RegionElement.absent).dirichlet_mask v ∈ pass2_values region :=
    (mem_node_values _ _ _).mpr ⟨_, hmem, v, hv, rfl⟩
  have hz : rank_of (pass1_values region) ((region.getD e RegionElement.absent).glo_num v)
      * (region.getD e RegionElement.absent).dirichlet_mask v = 0 := by
    rcases h0 with h0 | h0
    · have hin1 : (region.getD e RegionElement.absent).glo_num v ∈ pass1_values region :=
        (mem_node_values _ _ _).mpr ⟨_, hmem, v, hv, rfl⟩
      rw [(rank_of_eq_zero_iff _ _ hin1).mpr ⟨h0, hV1⟩, zero_mul]
    · rw [h0, mul_zero]
  rw [hz] at hin2 ⊢
  exact (rank_of_eq_zero_iff _ _ hin2).mpr ⟨rfl, hV2⟩

theorem mark_subdomain_getD (n : Nat) (region : List RegionElement) (e : Nat)
    (he : e < region.length) :
    (mark_subdomain n region).getD e RegionElement.absent =
      if e < n then shift_marked (max_glo 0 region) (region.getD e RegionElement.absent)
      else shift_unmarked
        (max_glo (max_glo 0 region) (region.map (shift_marked (max_glo 0 region))))
        (shift_marked (max_glo 0 region) (region.getD e RegionElement.absent)) := by
  unfold mark_subdomain
  simp only
  rw [tail_map_getD _ _ n e (by simpa using he), getD_map_lt _ _ e he]

theorem mark_subdomain_mem (n : Nat) (region : List RegionElement) (x : RegionElement)
    (hx : x ∈ mark_subdomain n region) :
    ∃ elem ∈ region, x = shift_marked (max_glo 0 region) elem ∨
      x = shift_unmarked
        (max_glo (max_glo 0 region) (region.map (shift_marked (max_glo 0 region))))
        (shift_marked (max_glo 0 region) elem) := by
  unfold mark_subdomain at hx
  simp only at hx
  obtain ⟨y, hy, hxy⟩ := tail_map_mem _ _ n x hx
  obtain ⟨elem, hel, rfl⟩ := List.mem_map.mp hy
  exact ⟨elem, hel, hxy⟩

theorem mark_subdomain_tiled (n : Nat) (region : List RegionElement) (start : Nat)
    (hT : Tiled start region) :
    Tiled start (mark_subdomain n region) ∧
    total_points (mark_subdomain n region) = total_points region ∧
    (mark_subdomain n region).length = region.length := by
  unfold mark_subdomain
  simp only
  refine ⟨?_, ?_, ?_⟩
  · apply tail_map_tiled _ (fun el => (shift_unmarked_frame _ el).2.1)
      (fun el => (shift_unmarked_frame _ el).1)
    exact tiled_map _ (fun el => (shift_marked_frame _ el).2.1)
      (fun el => (shift_marked_frame _ el).1) region start hT
  · rw [tail_map_total _ (fun el => (shift_unmarked_frame _ el).1)]
    exact total_points_map _ (fun el => (shift_marked_frame _ el).1) region
  · simp only [List.length_append, List.length_take, List.length_map, List.length_drop]
    omega

theorem mark_subdomain_nonneg (n : Nat) (region : List RegionElement)
    (hglo : ∀ elem ∈ region, ∀ v, v < elem.num_points → 0 ≤ elem.glo_num v) :
    ∀ elem ∈ mark_subdomain n region, ∀ v, v < elem.num_points → 0 ≤ elem.glo_num v := by
  intro x hx v hv
  have h1 : 0 ≤ max_glo 0 region := (max_glo_ge region 0).1
  have h2 : 0 ≤ max_glo (max_glo 0 region) (region.map (shift_marked (max_glo 0 region))) :=
    le_trans h1 (max_glo_ge _ _).1
  have hA : ∀ elem ∈ region, ∀ v, v < elem.num_points →
      0 ≤ (shift_marked (max_glo 0 region) elem).glo_num v := by
    intro elem hel v hv
    have := hglo elem hel v hv
    rw [shift_marked_glo]
    split <;> omega
  obtain ⟨elem, hel, rfl | rfl⟩ := mark_subdomain_mem n region x hx
  · exact hA elem hel v (by rw [(shift_marked_frame _ _).1] at hv; exact hv)
  · have hv' : v < elem.num_points := by
      rw [(shift_unmarked_frame _ _).1, (shift_marked_frame _ _).1] at hv; exact hv
    have := hA elem hel v hv'
    rw [shift_unmarked_glo]
    split <;> omega

theorem zero_stage_getD (dim : Nat) (region : List RegionElement) (e : Nat)
    (he : e < region.length) :
    (zero_stage dim region).getD e RegionElement.absent
      = zero_step dim region (region.getD e RegionElement.absent) :=
  getD_map_lt _ _ e he

theorem hanging_lt (dim : Nat) (region : List RegionElement) (elem : RegionElement) (v : Nat)
    (hx : 1 ≤ elem.n_x) (hy : 1 ≤ elem.n_y) (hz : 1 ≤ elem.n_z)
    (hnp : elem.num_points
      = if dim = 2 then elem.n_x * elem.n_y else elem.n_x * elem.n_y * elem.n_z)
    (h : Hanging dim region elem v) : v < elem.num_points := by
  rw [hnp]
  rcases h with ⟨eid, _, e_j, _, _, hm⟩ | ⟨hdim, fid, _, e_j, _, _, hm⟩
  · obtain ⟨i, j, k, rfl, hi, hj, hk, hk2, _⟩ := mem_edge_interior dim elem eid v hx hy hz hm
    by_cases hdim : dim = 2
    · rw [if_pos hdim, hk2 hdim]
      have := node_lt elem.n_x elem.n_y 1 i j 0 hi hj (by omega)
      simpa using this
    · rw [if_neg hdim]
      exact node_lt _ _ _ i j k hi hj hk
  · obtain ⟨i, j, k, rfl, hi, hj, hk, _⟩ := mem_face_interior elem fid v hx hy hz hm
    rw [if_neg hdim]
    exact node_lt _ _ _ i j k hi hj hk

theorem zero_stage_props (dim : Nat) (region : List RegionElement)
    (hT : Tiled 0 region)
    (hglo : ∀ elem ∈ region, ∀ v, v < elem.num_points → 0 ≤ elem.glo_num v)
    (hmask : ∀ elem ∈ region, ∀ v, v < elem.num_points → 0 ≤ elem.dirichlet_mask v) :
    Tiled 0 (zero_stage dim region) ∧
    total_points (zero_stage dim region) = total_points region ∧
    (zero_stage dim region).length = region.length ∧
    (∀ elem ∈ zero_stage dim region, ∀ v, v < elem.num_points → 0 ≤ elem.glo_num v) ∧
    (∀ elem ∈ zero_stage dim region, ∀ v, v < elem.num_points →
      0 ≤ elem.dirichlet_mask v) := by
  refine ⟨?_, ?_, ?_, ?_, ?_⟩
  · exact tiled_map _ (fun el => (zero_step_frame dim region el).2.1)
      (fun el => (zero_step_frame dim region el).1) region 0 hT
  · exact total_points_map _ (fun el => (zero_step_frame dim region el).1) region
  · simp [zero_stage]
  · intro x hx v hv
    obtain ⟨elem, hel, rfl⟩ := List.mem_map.mp hx
    rw [(zero_step_frame dim region elem).1] at hv
    by_cases hh : Hanging dim region elem v
    · rw [zero_step_hanging dim region elem v hh]
    · rw [zero_step_other dim region elem v hh]
      exact hglo elem hel v hv
  · intro x hx v hv
    obtain ⟨elem, hel, rfl⟩ := List.mem_map.mp hx
    rw [(zero_step_frame dim region elem).1] at hv
    rw [(zero_step_frame dim region elem).2.2.2.2.1]
    exact hmask elem hel v hv

theorem mark_subdomain_mask (n : Nat) (region : List RegionElement)
    (hmask : ∀ elem ∈ region, ∀ v, v < elem.num_points → 0 ≤ elem.dirichlet_mask v) :
    ∀ elem ∈ mark_subdomain n region, ∀ v, v < elem.num_points →
      0 ≤ elem.dirichlet_mask v := by
  intro x hx v hv
  obtain ⟨elem, hel, rfl | rfl⟩ := mark_subdomain_mem n region x hx
  · rw [(shift_marked_frame _ _).1] at hv
    rw [(shift_marked_frame _ _).2.2.2.2.1]
    exact hmask elem hel v hv
  · rw [(shift_unmarked_frame _ _).1, (shift_marked_frame _ _).1] at hv
    rw [(shift_unmarked_frame _ _).2.2.2.2.1, (shift_marked_frame _ _).2.2.2.2.1]
    exact hmask elem hel v hv

theorem hanging_zero_core (dim num_subdomain_elems : Nat) (region : List RegionElement)
    (num_points : Nat) (work_hst0 : Nat → Int)
    (hT : Tiled 0 region) (hN : num_points = total_points region)
    (hshape : ∀ elem ∈ region, 1 ≤ elem.n_x ∧ 1 ≤ elem.n_y ∧ 1 ≤ elem.n_z ∧
      elem.num_points
        = if dim = 2 then elem.n_x * elem.n_y else elem.n_x * elem.n_y * elem.n_z)
    (hglo : ∀ elem ∈ region, ∀ v, v < elem.num_points → 0 ≤ elem.glo_num v)
    (hmask : ∀ elem ∈ region, ∀ v, v < elem.num_points → 0 ≤ elem.dirichlet_mask v)
    (hdeg : ∀ elem ∈ region, 1 ≤ elem.poly_degree)
    (hext : ∀ e, num_subdomain_elems ≤ e → e < region.length → ∀ j, j < region.length →
      (region.getD e RegionElement.absent).poly_degree
        ≤ (region.getD j RegionElement.absent).poly_degree)
    (hconn : ∀ elem ∈ region,
      (∀ eid, eid < 12 → ∀ e_j ∈ elem.edge_conn eid, e_j < region.length) ∧
      (∀ fid, fid < 6 → ∀ e_j ∈ elem.face_conn fid, e_j < region.length))
    (e_i : Nat) (he : e_i < region.length) (v : Nat) :
    (Hanging dim region (region.getD e_i RegionElement.absent) v →
      ((zero_stage dim region).getD e_i RegionElement.absent).glo_num v = 0 ∧
      ((final_ranking (mark_subdomain num_subdomain_elems (zero_stage dim region))
        num_points work_hst0).getD e_i RegionElement.absent).dof_num v = 0) ∧
    ((¬ Hanging dim region (region.getD e_i RegionElement.absent) v ∨
        v ∈ corner_indices dim (region.getD e_i RegionElement.absent)) →
      ((zero_stage dim region).getD e_i RegionElement.absent).glo_num v
        = (region.getD e_i RegionElement.absent).glo_num v) := by
  have hmem := getD_mem region e_i he
  obtain ⟨hx, hy, hz, hnp⟩ := hshape _ hmem
  obtain ⟨hTZ, hNZ, hlZ, hgZ, hmZ⟩ := zero_stage_props dim region hT hglo hmask
  rw [zero_stage_getD dim region e_i he]
  constructor
  · intro hh
    have hzero := zero_step_hanging dim region _ v hh
    refine ⟨hzero, ?_⟩
    obtain ⟨hTM, hNM, hlM⟩ :=
      mark_subdomain_tiled num_subdomain_elems (zero_stage dim region) 0 hTZ
    have hvlt : v < (region.getD e_i RegionElement.absent).num_points :=
      hanging_lt dim region _ v hx hy hz hnp hh
    obtain ⟨e_j, hej, hlow⟩ : ∃ e_j, e_j < region.length ∧
        (region.getD e_j RegionElement.absent).poly_degree
          < (region.getD e_i RegionElement.absent).poly_degree := by
      rcases hh with ⟨eid, heid, e_j, hc, hlow, _⟩ | ⟨_, fid, hfid, e_j, hc, hlow, _⟩
      · refine ⟨e_j, (hconn _ hmem).1 eid ?_ e_j hc, hlow⟩
        split at heid <;> omega
      · exact ⟨e_j, (hconn _ hmem).2 fid hfid e_j hc, hlow⟩
    have hnon : e_i < num_subdomain_elems := by
      by_contra hge
      have := hext e_i (by omega) he e_j hej
      omega
    have hd1 : (region.getD e_i RegionElement.absent).poly_degree ≠ 1 := by
      have := hdeg _ (getD_mem region e_j hej)
      omega
    have hnode : (mark_subdomain num_subdomain_elems (zero_stage dim region)).getD e_i
        RegionElement.absent
        = shift_marked (max_glo 0 (zero_stage dim region))
            (zero_step dim region (region.getD e_i RegionElement.absent)) := by
      rw [mark_subdomain_getD _ _ e_i (by rw [hlZ]; exact he), if_pos hnon,
        zero_stage_getD dim region e_i he]
    apply final_dof_zero _ num_points work_hst0 hTM (by rw [hNM, hNZ]; exact hN)
      (mark_subdomain_nonneg _ _ hgZ) (mark_subdomain_mask _ _ hmZ) e_i
      (by rw [hlM, hlZ]; exact he) v
    · rw [hnode, (shift_marked_frame _ _).1, (zero_step_frame dim region _).1]
      exact hvlt
    · left
      rw [hnode, shift_marked_glo, if_neg, hzero]
      rw [(zero_step_frame dim region _).2.2.1]
      exact fun h => hd1 h.1
  · rintro (hh | hc)
    · exact zero_step_other dim region _ v hh
    · exact zero_step_other dim region _ v (corner_not_hanging dim region _ v hx hy hz hc)

/-- C18: hanging nodes are never independent DOFs.  For every element `e_i`
of the Subdomain region and every node `v` inside one of its edges (or, in
3-D, faces) that has a neighbour of strictly lower degree in the region, the
zeroing step sets `glo_num[v] = 0` and after the marking and the two ranking
passes `dof_num[v] == 0`; the corner nodes and all nodes that are not inside
such an edge or face keep their `glo_num`.  The region has prefix-sum
offsets, tensor point counts, non-negative ids and masks, degrees at least 1,
extended elements of the lowest degree, and neighbour indices inside the
region. -/
theorem hanging_nodes_zeroed (dim num_subdomain_elems : Nat) (region : List RegionElement)
    (num_points : Nat) (work_hst0 : Nat → Int)
    (hT : Tiled 0 region) (hN : num_points = total_points region)
    (hshape : ∀ elem ∈ region, 1 ≤ elem.n_x ∧ 1 ≤ elem.n_y ∧ 1 ≤ elem.n_z ∧
      elem.num_points
        = if dim = 2 then elem.n_x * elem.n_y else elem.n_x * elem.n_y * elem.n_z)
    (hglo : ∀ elem ∈ region, ∀ v, v < elem.num_points → 0 ≤ elem.glo_num v)
    (hmask : ∀ elem ∈ region, ∀ v, v < elem.num_points → 0 ≤ elem.dirichlet_mask v)
    (hdeg : ∀ elem ∈ region, 1 ≤ elem.poly_degree)
    (hext : ∀ e, num_subdomain_elems ≤ e → e < region.length → ∀ j, j < region.length →
      (region.getD e RegionElement.absent).poly_degree
        ≤ (region.getD j RegionElement.absent).poly_degree)
    (hconn : ∀ elem ∈ region,
      (∀ eid, eid < 12 → ∀ e_j ∈ elem.edge_conn eid, e_j < region.length) ∧
      (∀ fid, fid < 6 → ∀ e_j ∈ elem.face_conn fid, e_j < region.length))
    (e_i : Nat) (he : e_i < region.length) (v : Nat) :
    (Hanging dim region (region.getD e_i RegionElement.absent) v →
      ((zero_stage dim region).getD e_i RegionElement.absent).glo_num v = 0 ∧
      ((final_ranking (mark_subdomain num_subdomain_elems (zero_stage dim region))
        num_points work_hst0).getD e_i RegionElement.absent).dof_num v = 0) ∧
    ((¬ Hanging dim region (region.getD e_i RegionElement.absent) v ∨
        v ∈ corner_indices dim (region.getD e_i RegionElement.absent)) →
      ((zero_stage dim region).getD e_i RegionElement.absent).glo_num v
        = (region.getD e_i RegionElement.absent).glo_num v) :=
  hanging_zero_core dim num_subdomain_elems region num_points work_hst0 hT hN hshape hglo
    hmask hdeg hext hconn e_i he v

/-- Witness for C18 on the region of a biquadratic element next to a
bilinear one: the middle node 5 of the shared edge of the biquadratic element
is hanging. -/
theorem hanging_nodes_zeroed_witness :
    Hanging 2 hanging_region (hanging_region.getD 0 RegionElement.absent) 5 ∧
    ((Hanging 2 hanging_region (hanging_region.getD 0 RegionElement.absent) 5 →
      ((zero_stage 2 hanging_region).getD 0 RegionElement.absent).glo_num 5 = 0 ∧
      ((final_ranking (mark_subdomain 2 (zero_stage 2 hanging_region))
        13 (fun _ => 0)).getD 0 RegionElement.absent).dof_num 5 = 0) ∧
    ((¬ Hanging 2 hanging_region (hanging_region.getD 0 RegionElement.absent) 5 ∨
        5 ∈ corner_indices 2 (hanging_region.getD 0 RegionElement.absent)) →
      ((zero_stage 2 hanging_region).getD 0 RegionElement.absent).glo_num 5
        = (hanging_region.getD 0 RegionElement.absent).glo_num 5)) :=
  ⟨Or.inl ⟨3, by decide, 1, by decide, by decide, by decide⟩,
    hanging_nodes_zeroed 2 2 hanging_region 13 (fun _ => 0)
      ⟨rfl, rfl, trivial⟩ (by decide) (by decide) (by decide) (by decide) (by decide)
      (by
        intro e h1 h2
        simp only [hanging_region, List.length_cons, List.length_nil] at h2
        omega)
      (by decide) 0 (by decide) 5⟩

/-! ### Order of the final DOF numbers -/

theorem final_dof_order (region : List RegionElement) (num_points : Nat)
    (work_hst0 : Nat → Int) (hT : Tiled 0 region) (hN : num_points = total_points region)
    (hglo : ∀ elem ∈ region, ∀ v, v < elem.num_points → 0 ≤ elem.glo_num v)
    (hmask : ∀ elem ∈ region, ∀ v, v < elem.num_points →
      elem.dirichlet_mask v = 0 ∨ elem.dirichlet_mask v = 1)
    (e1 : Nat) (he1 : e1 < region.length) (v1 : Nat)
    (hv1 : v1 < (region.getD e1 RegionElement.absent).num_points)
    (hm1 : 0 < (region.getD e1 RegionElement.absent).dirichlet_mask v1) :
    (0 < (region.getD e1 RegionElement.absent).glo_num v1 →
      0 < ((final_ranking region num_points work_hst0).getD e1
        RegionElement.absent).dof_num v1) ∧
    ∀ (e2 : Nat), e2 < region.length → ∀ (v2 : Nat),
      v2 < (region.getD e2 RegionElement.absent).num_points →
      0 < (region.getD e2 RegionElement.absent).dirichlet_mask v2 →
      ((region.getD e1 RegionElement.absent).glo_num v1
          < (region.getD e2 RegionElement.absent).glo_num v2 →
        ((final_ranking region num_points work_hst0).getD e1 RegionElement.absent).dof_num v1
          < ((final_ranking region num_points work_hst0).getD e2
            RegionElement.absent).dof_num v2) ∧
      ((region.getD e1 RegionElement.absent).glo_num v1
          = (region.getD e2 RegionElement.absent).glo_num v2 →
        ((final_ranking region num_points work_hst0).getD e1 RegionElement.absent).dof_num v1
          = ((final_ranking region num_points work_hst0).getD e2
            RegionElement.absent).dof_num v2) := by
  have hmem1 := getD_mem region e1 he1
  have hV1 : ∀ w ∈ pass1_values region, 0 ≤ w := by
    intro w hw
    obtain ⟨elem, hel, u, hu, rfl⟩ := (mem_node_values _ _ _).mp hw
    exact hglo elem hel u hu
  have hV2 : ∀ w ∈ pass2_values region, 0 ≤ w := by
    intro w hw
    obtain ⟨elem, hel, u, hu, rfl⟩ := (mem_node_values _ _ _).mp hw
    rcases hmask elem hel u hu with h | h <;> rw [h]
    · simp
    · simpa using rank_of_nonneg _ _
  have one : ∀ e, e < region.length → ∀ v,
      v < (region.getD e RegionElement.absent).num_points →
      0 < (region.getD e RegionElement.absent).dirichlet_mask v →
      ((final_ranking region num_points work_hst0).getD e RegionElement.absent).dof_num v
        = rank_of (pass2_values region)
            (rank_of (pass1_values region) ((region.getD e RegionElement.absent).glo_num v)) ∧
      (region.getD e RegionElement.absent).glo_num v ∈ pass1_values region ∧
      rank_of (pass1_values region) ((region.getD e RegionElement.absent).glo_num v)
        ∈ pass2_values region := by
    intro e he v hv hm
    have hmem := getD_mem region e he
    have hm1 : (region.getD e RegionElement.absent).dirichlet_mask v = 1 := by
      rcases hmask _ hmem v hv with h | h
      · omega
      · exact h
    refine ⟨?_, (mem_node_values _ _ _).mpr ⟨_, hmem, v, hv, rfl⟩,
      (mem_node_values _ _ _).mpr ⟨_, hmem, v, hv, by rw [hm1, mul_one]⟩⟩
    rw [final_dof region num_points work_hst0 hT hN e he v hv, hm1, mul_one]
  obtain ⟨hd1, hin1, hin1'⟩ := one e1 he1 v1 hv1 hm1
  constructor
  · intro hpos
    rw [hd1]
    have hr : 0 < rank_of (pass1_values region)
        ((region.getD e1 RegionElement.absent).glo_num v1) := by
      have h0 := rank_of_nonneg (pass1_values region)
        ((region.getD e1 RegionElement.absent).glo_num v1)
      have hne : rank_of (pass1_values region)
          ((region.getD e1 RegionElement.absent).glo_num v1) ≠ 0 := by
        intro h
        have := ((rank_of_eq_zero_iff _ _ hin1).mp h).1
        omega
      omega
    have h0 := rank_of_nonneg (pass2_values region)
      (rank_of (pass1_values region) ((region.getD e1 RegionElement.absent).glo_num v1))
    have hne : rank_of (pass2_values region)
        (rank_of (pass1_values region) ((region.getD e1 RegionElement.absent).glo_num v1))
        ≠ 0 := by
      intro h
      have := ((rank_of_eq_zero_iff _ _ hin1').mp h).1
      omega
    omega
  · intro e2 he2 v2 hv2 hm2
    obtain ⟨hd2, hin2, hin2'⟩ := one e2 he2 v2 hv2 hm2
    rw [hd1, hd2]
    constructor
    · intro hlt
      exact rank_of_strict _ _ _ hin1' (rank_of_strict _ _ _ hin1 hlt)
    · intro heq
      rw [heq]

theorem mark_subdomain_glo (n : Nat) (region : List RegionElement) (e : Nat)
    (he : e < region.length) (v : Nat) :
    ((mark_subdomain n region).getD e RegionElement.absent).glo_num v
      = (region.getD e RegionElement.absent).glo_num v + sub_shift n region e v := by
  rw [mark_subdomain_getD n region e he]
  unfold sub_shift
  by_cases hn : e < n
  · rw [if_pos hn, shift_marked_glo]
    by_cases h1 : (region.getD e RegionElement.absent).poly_degree = 1 ∧
        v < (region.getD e RegionElement.absent).num_points ∧
        0 < (region.getD e RegionElement.absent).dof_num v
    · rw [if_pos h1, if_pos h1]
    · rw [if_neg h1, if_neg h1, if_neg (by omega)]
      omega
  · rw [if_neg hn, shift_unmarked_glo, shift_marked_glo]
    simp only [(shift_marked_frame _ _).1, (shift_marked_frame _ _).2.2.2.1,
      (shift_marked_frame _ _).2.2.2.2.1]
    by_cases h1 : (region.getD e RegionElement.absent).poly_degree = 1 ∧
        v < (region.getD e RegionElement.absent).num_points ∧
        0 < (region.getD e RegionElement.absent).dof_num v
    · rw [if_pos h1, if_pos h1, if_neg (by omega)]
    · rw [if_neg h1, if_neg h1]
      by_cases h2 : v < (region.getD e RegionElement.absent).num_points ∧
          0 < (region.getD e RegionElement.absent).dirichlet_mask v ∧
          (region.getD e RegionElement.absent).dof_num v = 0
      · rw [if_pos h2, if_pos ⟨by omega, h2⟩]
      · rw [if_neg h2, if_neg (fun h => h2 h.2)]
        omega

theorem mark_subdomain_frame (n : Nat) (region : List RegionElement) (e : Nat)
    (he : e < region.length) :
    ((mark_subdomain n region).getD e RegionElement.absent).num_points
      = (region.getD e RegionElement.absent).num_points ∧
    ((mark_subdomain n region).getD e RegionElement.absent).offset
      = (region.getD e RegionElement.absent).offset ∧
    ((mark_subdomain n region).getD e RegionElement.absent).poly_degree
      = (region.getD e RegionElement.absent).poly_degree ∧
    ((mark_subdomain n region).getD e RegionElement.absent).dof_num
      = (region.getD e RegionElement.absent).dof_num ∧
    ((mark_subdomain n region).getD e RegionElement.absent).dirichlet_mask
      = (region.getD e RegionElement.absent).dirichlet_mask ∧
    ((mark_subdomain n region).getD e RegionElement.absent).loc_num
      = (region.getD e RegionElement.absent).loc_num := by
  rw [mark_subdomain_getD n region e he]
  split
  · exact shift_marked_frame _ _
  · obtain ⟨a1, a2, a3, a4, a5, a6⟩ := shift_unmarked_frame
      (max_glo (max_glo 0 region) (region.map (shift_marked (max_glo 0 region))))
      (shift_marked (max_glo 0 region) (region.getD e RegionElement.absent))
    obtain ⟨b1, b2, b3, b4, b5, b6⟩ :=
      shift_marked_frame (max_glo 0 region) (region.getD e RegionElement.absent)
    exact ⟨a1.trans b1, a2.trans b2, a3.trans b3, a4.trans b4, a5.trans b5, a6.trans b6⟩

theorem mark_superdomain_getD (n : Nat) (region : List RegionElement) (e : Nat)
    (he : e < region.length) :
    (mark_superdomain n region).getD e RegionElement.absent =
      if e < n then shift_unmarked (max_glo 0 region) (region.getD e RegionElement.absent)
      else shift_unmarked
        (max_glo (max_glo 0 region) (region.map (shift_unmarked (max_glo 0 region))))
        (shift_unmarked (max_glo 0 region) (region.getD e RegionElement.absent)) := by
  unfold mark_superdomain
  simp only
  rw [tail_map_getD _ _ n e (by simpa using he), getD_map_lt _ _ e he]

theorem mark_superdomain_glo (n : Nat) (region : List RegionElement) (e : Nat)
    (he : e < region.length) (v : Nat) :
    ((mark_superdomain n region).getD e RegionElement.absent).glo_num v
      = (region.getD e RegionElement.absent).glo_num v + sup_shift n region e v := by
  rw [mark_superdomain_getD n region e he]
  unfold sup_shift
  by_cases hn : e < n
  · rw [if_pos hn, shift_unmarked_glo]
    by_cases h2 : v < (region.getD e RegionElement.absent).num_points ∧
        0 < (region.getD e RegionElement.absent).dirichlet_mask v ∧
        (region.getD e RegionElement.absent).dof_num v = 0
    · rw [if_pos h2, if_pos h2, if_neg (by omega)]
    · rw [if_neg h2, if_neg h2]
      omega
  · rw [if_neg hn, shift_unmarked_glo, shift_unmarked_glo]
    simp only [(shift_unmarked_frame _ _).1, (shift_unmarked_frame _ _).2.2.2.1,
      (shift_unmarked_frame _ _).2.2.2.2.1]
    by_cases h2 : v < (region.getD e RegionElement.absent).num_points ∧
        0 < (region.getD e RegionElement.absent).dirichlet_mask v ∧
        (region.getD e RegionElement.absent).dof_num v = 0
    · rw [if_pos h2, if_pos h2, if_pos h2, if_pos (by omega)]
      omega
    · rw [if_neg h2, if_neg h2, if_neg h2]
      omega

theorem mark_superdomain_frame (n : Nat) (region : List RegionElement) (e : Nat)
    (he : e < region.length) :
    ((mark_superdomain n region).getD e RegionElement.absent).num_points
      = (region.getD e RegionElement.absent).num_points ∧
    ((mark_superdomain n region).getD e RegionElement.absent).offset
      = (region.getD e RegionElement.absent).offset ∧
    ((mark_superdomain n region).getD e RegionElement.absent).poly_degree
      = (region.getD e RegionElement.absent).poly_degree ∧
    ((mark_superdomain n region).getD e RegionElement.absent).dof_num
      = (region.getD e RegionElement.absent).dof_num ∧
    ((mark_superdomain n region).getD e RegionElement.absent).dirichlet_mask
      = (region.getD e RegionElement.absent).dirichlet_mask ∧
    ((mark_superdomain n region).getD e RegionElement.absent).loc_num
      = (region.getD e RegionElement.absent).loc_num := by
  rw [mark_superdomain_getD n region e he]
  split <;> exact ⟨rfl, rfl, rfl, rfl, rfl, rfl⟩

theorem mark_superdomain_tiled (n : Nat) (region : List RegionElement) (start : Nat)
    (hT : Tiled start region) :
    Tiled start (mark_superdomain n region) ∧
    total_points (mark_superdomain n region) = total_points region ∧
    (mark_superdomain n region).length = region.length := by
  unfold mark_superdomain
  simp only
  refine ⟨?_, ?_, ?_⟩
  · apply tail_map_tiled _ (fun el => (shift_unmarked_frame _ el).2.1)
      (fun el => (shift_unmarked_frame _ el).1)
    exact tiled_map _ (fun el => (shift_unmarked_frame _ el).2.1)
      (fun el => (shift_unmarked_frame _ el).1) region start hT
  · rw [tail_map_total _ (fun el => (shift_unmarked_frame _ el).1)]
    exact total_points_map _ (fun el => (shift_unmarked_frame _ el).1) region
  · simp only [List.length_append, List.length_take, List.length_map, List.length_drop]
    omega

theorem sub_bounds (region : List RegionElement) :
    0 ≤ max_glo 0 region ∧
    max_glo 0 region
      ≤ max_glo (max_glo 0 region) (region.map (shift_marked (max_glo 0 region))) ∧
    ∀ e, e < region.length → ∀ v, v < (region.getD e RegionElement.absent).num_points →
      (region.getD e RegionElement.absent).glo_num v ≤ max_glo 0 region ∧
      (shift_marked (max_glo 0 region) (region.getD e RegionElement.absent)).glo_num v
        ≤ max_glo (max_glo 0 region) (region.map (shift_marked (max_glo 0 region))) := by
  refine ⟨(max_glo_ge region 0).1, (max_glo_ge _ _).1, ?_⟩
  intro e he v hv
  have hmem := getD_mem region e he
  refine ⟨(max_glo_ge region 0).2 _ hmem v hv, ?_⟩
  exact (max_glo_ge _ _).2 _ (List.mem_map_of_mem _ hmem) v
    (by rw [(shift_marked_frame _ _).1]; exact hv)

theorem sup_bounds (region : List RegionElement) :
    0 ≤ max_glo 0 region ∧
    max_glo 0 region
      ≤ max_glo (max_glo 0 region) (region.map (shift_unmarked (max_glo 0 region))) ∧
    ∀ e, e < region.length → ∀ v, v < (region.getD e RegionElement.absent).num_points →
      (region.getD e RegionElement.absent).glo_num v ≤ max_glo 0 region ∧
      (shift_unmarked (max_glo 0 region) (region.getD e RegionElement.absent)).glo_num v
        ≤ max_glo (max_glo 0 region) (region.map (shift_unmarked (max_glo 0 region))) := by
  refine ⟨(max_glo_ge region 0).1, (max_glo_ge _ _).1, ?_⟩
  intro e he v hv
  have hmem := getD_mem region e he
  refine ⟨(max_glo_ge region 0).2 _ hmem v hv, ?_⟩
  exact (max_glo_ge _ _).2 _ (List.mem_map_of_mem _ hmem) v
    (by rw [(shift_unmarked_frame _ _).1]; exact hv)

theorem sub_post_ne (n : Nat) (region : List RegionElement) (interface : List Int)
    (hglo : ∀ elem ∈ region, ∀ v, v < elem.num_points → 0 ≤ elem.glo_num v)
    (hmark : ∀ elem ∈ region, elem.poly_degree = 1 → ∀ v, v < elem.num_points →
      elem.dof_num v = if elem.glo_num v ∈ interface then elem.glo_num v else 0)
    (hpos : ∀ e, n ≤ e → e < region.length → ∀ v,
      v < (region.getD e RegionElement.absent).num_points →
      0 < (region.getD e RegionElement.absent).dirichlet_mask v →
      0 < (region.getD e RegionElement.absent).glo_num v)
    (e1 : Nat) (he1 : e1 < region.length) (v1 : Nat)
    (hv1 : v1 < (region.getD e1 RegionElement.absent).num_points)
    (e2 : Nat) (he2 : e2 < region.length) (v2 : Nat)
    (hv2 : v2 < (region.getD e2 RegionElement.absent).num_points)
    (hne : (region.getD e1 RegionElement.absent).glo_num v1
      ≠ (region.getD e2 RegionElement.absent).glo_num v2) :
    (region.getD e1 RegionElement.absent).glo_num v1 + sub_shift n region e1 v1
      ≠ (region.getD e2 RegionElement.absent).glo_num v2 + sub_shift n region e2 v2 := by
  obtain ⟨b1, b3, hb⟩ := sub_bounds region
  have facts : ∀ e, e < region.length → ∀ v,
      v < (region.getD e RegionElement.absent).num_points →
      0 ≤ (region.getD e RegionElement.absent).glo_num v ∧
      (region.getD e RegionElement.absent).glo_num v ≤ max_glo 0 region ∧
      (sub_shift n region e v = 0 ∨
        (sub_shift n region e v = max_glo 0 region ∧
          0 < (region.getD e RegionElement.absent).glo_num v ∧
          (region.getD e RegionElement.absent).glo_num v + max_glo 0 region
            ≤ max_glo (max_glo 0 region) (region.map (shift_marked (max_glo 0 region)))) ∨
        (sub_shift n region e v
            = max_glo (max_glo 0 region) (region.map (shift_marked (max_glo 0 region))) ∧
          0 < (region.getD e RegionElement.absent).glo_num v)) := by
    intro e he v hv
    have hmem := getD_mem region e he
    obtain ⟨hle, hle2⟩ := hb e he v hv
    refine ⟨hglo _ hmem v hv, hle, ?_⟩
    unfold sub_shift
    by_cases h1 : (region.getD e RegionElement.absent).poly_degree = 1 ∧
        v < (region.getD e RegionElement.absent).num_points ∧
        0 < (region.getD e RegionElement.absent).dof_num v
    · rw [if_pos h1]
      right; left
      have hm := hmark _ hmem h1.1 v hv
      have hg : 0 < (region.getD e RegionElement.absent).glo_num v := by
        have := h1.2.2
        rw [hm] at this
        split at this <;> omega
      rw [shift_marked_glo, if_pos h1] at hle2
      exact ⟨rfl, hg, hle2⟩
    · rw [if_neg h1]
      by_cases h2 : n ≤ e ∧ v < (region.getD e RegionElement.absent).num_points ∧
          0 < (region.getD e RegionElement.absent).dirichlet_mask v ∧
          (region.getD e RegionElement.absent).dof_num v = 0
      · rw [if_pos h2]
        right; right
        exact ⟨rfl, hpos e h2.1 he v hv h2.2.2.1⟩
      · rw [if_neg h2]
        left; rfl
  obtain ⟨f1, f2, f3⟩ := facts e1 he1 v1 hv1
  obtain ⟨g1, g2, g3⟩ := facts e2 he2 v2 hv2
  rcases f3 with f3 | ⟨f3, f4, f5⟩ | ⟨f3, f4⟩ <;>
    rcases g3 with g3 | ⟨g3, g4, g5⟩ | ⟨g3, g4⟩ <;> rw [f3, g3] <;> omega

theorem sub_post_eq (n : Nat) (region : List RegionElement) (interface : List Int)
    (hmark : ∀ elem ∈ region, elem.poly_degree = 1 → ∀ v, v < elem.num_points →
      elem.dof_num v = if elem.glo_num v ∈ interface then elem.glo_num v else 0)
    (hext : ∀ e, n ≤ e → e < region.length →
      (region.getD e RegionElement.absent).poly_degree = 1)
    (hcover : ∀ e1 e2 v1 v2, e1 < n → n ≤ e2 → e2 < region.length →
      v1 < (region.getD e1 RegionElement.absent).num_points →
      v2 < (region.getD e2 RegionElement.absent).num_points →
      (region.getD e1 RegionElement.absent).poly_degree = 1 →
      0 < (region.getD e1 RegionElement.absent).dirichlet_mask v1 →
      0 < (region.getD e2 RegionElement.absent).dirichlet_mask v2 →
      (region.getD e1 RegionElement.absent).glo_num v1
        = (region.getD e2 RegionElement.absent).glo_num v2 →
      (region.getD e1 RegionElement.absent).glo_num v1 ∈ interface)
    (e1 : Nat) (he1 : e1 < region.length) (v1 : Nat)
    (hv1 : v1 < (region.getD e1 RegionElement.absent).num_points)
    (hm1 : 0 < (region.getD e1 RegionElement.absent).dirichlet_mask v1)
    (e2 : Nat) (he2 : e2 < region.length) (v2 : Nat)
    (hv2 : v2 < (region.getD e2 RegionElement.absent).num_points)
    (hm2 : 0 < (region.getD e2 RegionElement.absent).dirichlet_mask v2)
    (hdeg : (region.getD e1 RegionElement.absent).poly_degree
      = (region.getD e2 RegionElement.absent).poly_degree)
    (hpos : 0 < (region.getD e1 RegionElement.absent).glo_num v1)
    (heq : (region.getD e1 RegionElement.absent).glo_num v1
      = (region.getD e2 RegionElement.absent).glo_num v2) :
    sub_shift n region e1 v1 = sub_shift n region e2 v2 := by
  have hmem1 := getD_mem region e1 he1
  have hmem2 := getD_mem region e2 he2
  unfold sub_shift
  by_cases hd : (region.getD e1 RegionElement.absent).poly_degree = 1
  · have hd2 : (region.getD e2 RegionElement.absent).poly_degree = 1 := hdeg ▸ hd
    have k1 := hmark _ hmem1 hd v1 hv1
    have k2 := hmark _ hmem2 hd2 v2 hv2
    rw [← heq] at k2
    by_cases hin : (region.getD e1 RegionElement.absent).glo_num v1 ∈ interface
    · rw [if_pos hin] at k1 k2
      have i1 : 0 < (region.getD e1 RegionElement.absent).dof_num v1 := by omega
      have i2 : 0 < (region.getD e2 RegionElement.absent).dof_num v2 := by omega
      rw [if_pos ⟨hd, hv1, i1⟩, if_pos ⟨hd2, hv2, i2⟩]
    · rw [if_neg hin] at k1 k2
      have i1 : ¬ ((region.getD e1 RegionElement.absent).poly_degree = 1 ∧
          v1 < (region.getD e1 RegionElement.absent).num_points ∧
          0 < (region.getD e1 RegionElement.absent).dof_num v1) := by omega
      have i2 : ¬ ((region.getD e2 RegionElement.absent).poly_degree = 1 ∧
          v2 < (region.getD e2 RegionElement.absent).num_points ∧
          0 < (region.getD e2 RegionElement.absent).dof_num v2) := by omega
      rw [if_neg i1, if_neg i2]
      by_cases c1 : n ≤ e1
      · by_cases c2 : n ≤ e2
        · rw [if_pos ⟨c1, hv1, hm1, k1⟩, if_pos ⟨c2, hv2, hm2, k2⟩]
        · exact absurd (hcover e2 e1 v2 v1 (by omega) c1 he1 hv2 hv1 hd2 hm2 hm1 heq.symm)
            (heq ▸ hin)
      · by_cases c2 : n ≤ e2
        · exact absurd (hcover e1 e2 v1 v2 (by omega) c2 he2 hv1 hv2 hd hm1 hm2 heq) hin
        · have j1 : ¬ (n ≤ e1 ∧ v1 < (region.getD e1 RegionElement.absent).num_points ∧
              0 < (region.getD e1 RegionElement.absent).dirichlet_mask v1 ∧
              (region.getD e1 RegionElement.absent).dof_num v1 = 0) := fun h => c1 h.1
          have j2 : ¬ (n ≤ e2 ∧ v2 < (region.getD e2 RegionElement.absent).num_points ∧
              0 < (region.getD e2 RegionElement.absent).dirichlet_mask v2 ∧
              (region.getD e2 RegionElement.absent).dof_num v2 = 0) := fun h => c2 h.1
          rw [if_neg j1, if_neg j2]
  · have hd2 : ¬ (region.getD e2 RegionElement.absent).poly_degree = 1 := hdeg ▸ hd
    have c1 : ¬ n ≤ e1 := fun h => hd (hext e1 h he1)
    have c2 : ¬ n ≤ e2 := fun h => hd2 (hext e2 h he2)
    have i1 : ¬ ((region.getD e1 RegionElement.absent).poly_degree = 1 ∧
        v1 < (region.getD e1 RegionElement.absent).num_points ∧
        0 < (region.getD e1 RegionElement.absent).dof_num v1) := fun h => hd h.1
    have i2 : ¬ ((region.getD e2 RegionElement.absent).poly_degree = 1 ∧
        v2 < (region.getD e2 RegionElement.absent).num_points ∧
        0 < (region.getD e2 RegionElement.absent).dof_num v2) := fun h => hd2 h.1
    have j1 : ¬ (n ≤ e1 ∧ v1 < (region.getD e1 RegionElement.absent).num_points ∧
        0 < (region.getD e1 RegionElement.absent).dirichlet_mask v1 ∧
        (region.getD e1 RegionElement.absent).dof_num v1 = 0) := fun h => c1 h.1
    have j2 : ¬ (n ≤ e2 ∧ v2 < (region.getD e2 RegionElement.absent).num_points ∧
        0 < (region.getD e2 RegionElement.absent).dirichlet_mask v2 ∧
        (region.getD e2 RegionElement.absent).dof_num v2 = 0) := fun h => c2 h.1
    rw [if_neg i1, if_neg i2, if_neg j1, if_neg j2]

theorem sup_post_ne (n : Nat) (region : List RegionElement)
    (hglo : ∀ elem ∈ region, ∀ v, v < elem.num_points → 0 ≤ elem.glo_num v)
    (hpos : ∀ elem ∈ region, ∀ v, v < elem.num_points → 0 < elem.dirichlet_mask v →
      0 < elem.glo_num v)
    (e1 : Nat) (he1 : e1 < region.length) (v1 : Nat)
    (hv1 : v1 < (region.getD e1 RegionElement.absent).num_points)
    (e2 : Nat) (he2 : e2 < region.length) (v2 : Nat)
    (hv2 : v2 < (region.getD e2 RegionElement.absent).num_points)
    (hne : (region.getD e1 RegionElement.absent).glo_num v1
      ≠ (region.getD e2 RegionElement.absent).glo_num v2) :
    (region.getD e1 RegionElement.absent).glo_num v1 + sup_shift n region e1 v1
      ≠ (region.getD e2 RegionElement.absent).glo_num v2 + sup_shift n region e2 v2 := by
  obtain ⟨b1, b3, hb⟩ := sup_bounds region
  have facts : ∀ e, e < region.length → ∀ v,
      v < (region.getD e RegionElement.absent).num_points →
      0 ≤ (region.getD e RegionElement.absent).glo_num v ∧
      (region.getD e RegionElement.absent).glo_num v ≤ max_glo 0 region ∧
      (sup_shift n region e v = 0 ∨
        (sup_shift n region e v = max_glo 0 region ∧
          0 < (region.getD e RegionElement.absent).glo_num v ∧
          (region.getD e RegionElement.absent).glo_num v + max_glo 0 region
            ≤ max_glo (max_glo 0 region) (region.map (shift_unmarked (max_glo 0 region)))) ∨
        (sup_shift n region e v
            = max_glo 0 region
              + max_glo (max_glo 0 region) (region.map (shift_unmarked (max_glo 0 region))) ∧
          0 < (region.getD e RegionElement.absent).glo_num v)) := by
    intro e he v hv
    have hmem := getD_mem region e he
    obtain ⟨hle, hle2⟩ := hb e he v hv
    refine ⟨hglo _ hmem v hv, hle, ?_⟩
    unfold sup_shift
    by_cases h2 : v < (region.getD e RegionElement.absent).num_points ∧
        0 < (region.getD e RegionElement.absent).dirichlet_mask v ∧
        (region.getD e RegionElement.absent).dof_num v = 0
    · rw [if_pos h2]
      have hg := hpos _ hmem v hv h2.2.1
      by_cases hn : n ≤ e
      · rw [if_pos hn]
        right; right
        exact ⟨rfl, hg⟩
      · rw [if_neg hn]
        right; left
        rw [shift_unmarked_glo, if_pos h2] at hle2
        exact ⟨rfl, hg, hle2⟩
    · rw [if_neg h2]
      left; rfl
  obtain ⟨f1, f2, f3⟩ := facts e1 he1 v1 hv1
  obtain ⟨g1, g2, g3⟩ := facts e2 he2 v2 hv2
  rcases f3 with f3 | ⟨f3, f4, f5⟩ | ⟨f3, f4⟩ <;>
    rcases g3 with g3 | ⟨g3, g4, g5⟩ | ⟨g3, g4⟩ <;> rw [f3, g3] <;> omega

theorem sup_post_eq (n : Nat) (region : List RegionElement) (interface : List Int)
    (hmark : ∀ elem ∈ region, ∀ v, v < elem.num_points →
      elem.dof_num v = if elem.glo_num v ∈ interface then elem.glo_num v else 0)
    (hpos : ∀ elem ∈ region, ∀ v, v < elem.num_points → 0 < elem.dirichlet_mask v →
      0 < elem.glo_num v)
    (hcover : ∀ e1 e2 v1 v2, e1 < n → n ≤ e2 → e2 < region.length →
      v1 < (region.getD e1 RegionElement.absent).num_points →
      v2 < (region.getD e2 RegionElement.absent).num_points →
      0 < (region.getD e1 RegionElement.absent).dirichlet_mask v1 →
      0 < (region.getD e2 RegionElement.absent).dirichlet_mask v2 →
      (region.getD e1 RegionElement.absent).glo_num v1
        = (region.getD e2 RegionElement.absent).glo_num v2 →
      (region.getD e1 RegionElement.absent).glo_num v1 ∈ interface)
    (e1 : Nat) (he1 : e1 < region.length) (v1 : Nat)
    (hv1 : v1 < (region.getD e1 RegionElement.absent).num_points)
    (hm1 : 0 < (region.getD e1 RegionElement.absent).dirichlet_mask v1)
    (e2 : Nat) (he2 : e2 < region.length) (v2 : Nat)
    (hv2 : v2 < (region.getD e2 RegionElement.absent).num_points)
    (hm2 : 0 < (region.getD e2 RegionElement.absent).dirichlet_mask v2)
    (heq : (region.getD e1 RegionElement.absent).glo_num v1
      = (region.getD e2 RegionElement.absent).glo_num v2) :
    sup_shift n region e1 v1 = sup_shift n region e2 v2 := by
  have hmem1 := getD_mem region e1 he1
  have hmem2 := getD_mem region e2 he2
  have hg1 := hpos _ hmem1 v1 hv1 hm1
  have k1 := hmark _ hmem1 v1 hv1
  have k2 := hmark _ hmem2 v2 hv2
  rw [← heq] at k2
  unfold sup_shift
  by_cases hin : (region.getD e1 RegionElement.absent).glo_num v1 ∈ interface
  · rw [if_pos hin] at k1 k2
    have i1 : ¬ (v1 < (region.getD e1 RegionElement.absent).num_points ∧
        0 < (region.getD e1 RegionElement.absent).dirichlet_mask v1 ∧
        (region.getD e1 RegionElement.absent).dof_num v1 = 0) := by omega
    have i2 : ¬ (v2 < (region.getD e2 RegionElement.absent).num_points ∧
        0 < (region.getD e2 RegionElement.absent).dirichlet_mask v2 ∧
        (region.getD e2 RegionElement.absent).dof_num v2 = 0) := by omega
    rw [if_neg i1, if_neg i2]
  · rw [if_neg hin] at k1 k2
    have i1 : v1 < (region.getD e1 RegionElement.absent).num_points ∧
        0 < (region.getD e1 RegionElement.absent).dirichlet_mask v1 ∧
        (region.getD e1 RegionElement.absent).dof_num v1 = 0 := ⟨hv1, hm1, k1⟩
    have i2 : v2 < (region.getD e2 RegionElement.absent).num_points ∧
        0 < (region.getD e2 RegionElement.absent).dirichlet_mask v2 ∧
        (region.getD e2 RegionElement.absent).dof_num v2 = 0 := ⟨hv2, hm2, k2⟩
    rw [if_pos i1, if_pos i2]
    by_cases c1 : n ≤ e1
    · by_cases c2 : n ≤ e2
      · rw [if_pos c1, if_pos c2]
      · exact absurd (hcover e2 e1 v2 v1 (by omega) c1 he1 hv2 hv1 hm2 hm1 heq.symm)
          (heq ▸ hin)
    · by_cases c2 : n ≤ e2
      · exact absurd (hcover e1 e2 v1 v2 (by omega) c2 he2 hv1 hv2 hm1 hm2 heq) hin
      · rw [if_neg c1, if_neg c2]

/-! ### Rows of an assembled matrix -/

theorem eq_singleton_of_nodup {β : Type} (l : List β) (x : β) (hnd : l.Nodup) (hx : x ∈ l)
    (hall : ∀ y ∈ l, y = x) : l = [x] := by
  cases l with
  | nil => exact absurd hx (List.not_mem_nil _)
  | cons a t =>
    have ha : a = x := hall a (List.mem_cons_self _ _)
    subst ha
    cases t with
    | nil => rfl
    | cons b t =>
      have hb : b = a := hall b (List.mem_cons_of_mem _ (List.mem_cons_self _ _))
      subst hb
      exact absurd (List.mem_cons_self _ _) (List.nodup_cons.mp hnd).1

theorem assemble_row_single {α : Type} [Semiring α] (M : CSR_Matrix α) (r c : Nat) (a : α)
    (h : M.entries.filter (fun t => t.1 = r) = [(r, c, a)]) :
    M.assemble.entries.filter (fun t => t.1 = r) = [(r, c, a)] ∧
    ∀ x : Nat → α, M.assemble.multiply x r = a * x c := by
  have hmem : ∀ t ∈ M.entries, t.1 = r → t = (r, c, a) := by
    intro t ht htr
    have : t ∈ M.entries.filter (fun t => t.1 = r) :=
      List.mem_filter.mpr ⟨ht, by simpa using htr⟩
    rw [h] at this
    exact List.mem_singleton.mp this
  have hin : (r, c, a) ∈ M.entries := by
    have : (r, c, a) ∈ M.entries.filter (fun t => t.1 = r) := by rw [h]; simp
    exact (List.mem_filter.mp this).1
  have hkeys : ((M.entries.map (fun t => (t.1, t.2.1))).dedup).filter (fun p => p.1 = r)
      = [(r, c)] := by
    apply eq_singleton_of_nodup
    · exact (List.nodup_dedup _).filter _
    · rw [List.mem_filter, List.mem_dedup]
      exact ⟨List.mem_map.mpr ⟨(r, c, a), hin, rfl⟩, by simp⟩
    · intro p hp
      rw [List.mem_filter, List.mem_dedup] at hp
      obtain ⟨t, ht, rfl⟩ := List.mem_map.mp hp.1
      have htr : t.1 = r := by simpa using hp.2
      rw [hmem t ht htr]
  have hval : ((M.entries.filter (fun t => t.1 = r ∧ t.2.1 = c)).map (fun t => t.2.2)).sum
      = a := by
    have e : M.entries.filter (fun t => t.1 = r ∧ t.2.1 = c)
        = (M.entries.filter (fun t => t.1 = r)).filter (fun t => t.2.1 = c) := by
      rw [List.filter_filter]
      apply List.filter_congr
      intro t _
      simp only [Bool.decide_and]
      exact Bool.and_comm _ _
    rw [e, h]
    simp
  have hrow : M.assemble.entries.filter (fun t => t.1 = r) = [(r, c, a)] := by
    unfold CSR_Matrix.assemble
    simp only
    rw [List.filter_map]
    have e : (fun t : Nat × Nat × α => decide (t.1 = r)) ∘
        (fun p : Nat × Nat =>
          (p.1, p.2,
            ((M.entries.filter (fun t => t.1 = p.1 ∧ t.2.1 = p.2)).map (fun t => t.2.2)).sum))
        = fun p : Nat × Nat => decide (p.1 = r) := rfl
    rw [e, hkeys]
    simp only [List.map_cons, List.map_nil]
    rw [hval]
  refine ⟨hrow, ?_⟩
  intro x
  unfold CSR_Matrix.multiply
  rw [hrow]
  simp

theorem unit_entries_row {α : Type} [Semiring α] (elem : NodalElement)
    (hloc : ∀ v, v < elem.num_points → elem.loc_num v = elem.offset + v) (r : Nat) :
    (∀ v, v < elem.num_points → 0 < elem.dof_num v → r = elem.offset + v →
      (unit_entries elem : List (Nat × Nat × α)).filter (fun t => t.1 = r)
        = [(r, (elem.dof_num v - 1).toNat, 1)]) ∧
    ((r < elem.offset ∨ elem.offset + elem.num_points ≤ r) →
      (unit_entries elem : List (Nat × Nat × α)).filter (fun t => t.1 = r) = []) := by
  constructor
  · intro v hv hd hr
    apply eq_singleton_of_nodup
    · apply List.Nodup.filter
      unfold unit_entries
      apply List.Nodup.map_on _ ((List.nodup_range _).filter _)
      intro x hx y hy hxy
      have hx' : x < elem.num_points := List.mem_range.mp (List.mem_filter.mp hx).1
      have hy' : y < elem.num_points := List.mem_range.mp (List.mem_filter.mp hy).1
      have h1 : elem.loc_num x = elem.loc_num y := congrArg Prod.fst hxy
      rw [hloc x hx', hloc y hy'] at h1
      omega
    · rw [List.mem_filter]
      refine ⟨?_, by simp⟩
      unfold unit_entries
      refine List.mem_map.mpr ⟨v, List.mem_filter.mpr ⟨List.mem_range.mpr hv, by simpa using hd⟩,
        ?_⟩
      rw [hloc v hv, hr]
    · intro t ht
      rw [List.mem_filter] at ht
      unfold unit_entries at ht
      obtain ⟨w, hw, rfl⟩ := List.mem_map.mp ht.1
      have hw' : w < elem.num_points := List.mem_range.mp (List.mem_filter.mp hw).1
      have h1 : elem.loc_num w = r := by simpa using ht.2
      rw [hloc w hw'] at h1
      have : w = v := by omega
      subst this
      rw [hloc w hw', hr]
  · intro hr
    rw [List.filter_eq_nil_iff]
    intro t ht
    unfold unit_entries at ht
    obtain ⟨w, hw, rfl⟩ := List.mem_map.mp ht
    have hw' : w < elem.num_points := List.mem_range.mp (List.mem_filter.mp hw).1
    simp only [decide_eq_true_eq]
    rw [hloc w hw']
    omega

theorem unit_rows {α : Type} [Semiring α] (region : List RegionElement) :
    ∀ (start : Nat), Tiled start region →
      (∀ elem ∈ region, ∀ v, v < elem.num_points → elem.loc_num v = elem.offset + v) →
      (∀ r, r < start →
        (region.flatMap (fun el => (unit_entries el.toNodalElement : List (Nat × Nat × α)))).filter
          (fun t => t.1 = r) = []) ∧
      (∀ elem ∈ region, ∀ v, v < elem.num_points → 0 < elem.dof_num v →
        (region.flatMap (fun el => (unit_entries el.toNodalElement : List (Nat × Nat × α)))).filter
          (fun t => t.1 = elem.offset + v)
          = [(elem.offset + v, (elem.dof_num v - 1).toNat, 1)]) := by
  induction region with
  | nil =>
    intro start _ _
    exact ⟨fun r _ => rfl, fun elem he => absurd he (List.not_mem_nil _)⟩
  | cons head rest ih =>
    intro start hT hloc
    obtain ⟨ihA, ihB⟩ := ih (start + head.num_points) hT.2
      (fun elem he => hloc elem (List.mem_cons_of_mem _ he))
    have hS := fun r => unit_entries_row (α := α) head.toNodalElement
      (hloc head (List.mem_cons_self _ _)) r
    have hoff : head.offset = start := hT.1
    constructor
    · intro r hr
      rw [List.flatMap_cons, List.filter_append, ihA r (by omega),
        (hS r).2 (Or.inl (by show r < head.offset; omega))]
      rfl
    · intro elem he v hv hd
      rw [List.flatMap_cons, List.filter_append]
      rcases List.mem_cons.mp he with rfl | he
      · rw [ihA _ (by omega), (hS _).1 v hv hd rfl]
        rfl
      · have hb := (scatter_at (fun _ _ => 0) rest (start + head.num_points) (fun _ => 0)
          hT.2 elem he v hv).2.1
        rw [ihB elem he v hv hd,
          (hS _).2 (Or.inr (by show head.offset + head.num_points ≤ _; omega))]
        rfl

theorem assemble_Q_row {α : Type} [Semiring α] (region : List RegionElement)
    (hanging_entries : List (Nat × Nat × α)) (hT : Tiled 0 region)
    (hloc : ∀ elem ∈ region, ∀ v, v < elem.num_points → elem.loc_num v = elem.offset + v)
    (elem : RegionElement) (he : elem ∈ region) (v : Nat) (hv : v < elem.num_points)
    (hd : 0 < elem.dof_num v) (hh : ∀ t ∈ hanging_entries, t.1 ≠ elem.loc_num v) :
    (assemble_Q (region.map (fun el => el.toNodalElement)) hanging_entries).entries.filter
        (fun t => t.1 = elem.loc_num v)
      = [(elem.loc_num v, (elem.dof_num v - 1).toNat, 1)] ∧
    ∀ u : Nat → α,
      (assemble_Q (region.map (fun el => el.toNodalElement)) hanging_entries).multiply u
        (elem.loc_num v) = u (elem.dof_num v - 1).toNat := by
  have hraw : (region.map (fun el => el.toNodalElement)).flatMap (fun elem_i =>
        ((List.range elem_i.num_points).filter (fun vid => 0 < elem_i.dof_num vid)).map
          (fun vid => (elem_i.loc_num vid, (elem_i.dof_num vid - 1).toNat, (1 : α))))
      = region.flatMap (fun el => (unit_entries el.toNodalElement : List (Nat × Nat × α))) := by
    rw [List.flatMap_map]
    rfl
  have hfil : ((region.map (fun el => el.toNodalElement)).flatMap (fun elem_i =>
        ((List.range elem_i.num_points).filter (fun vid => 0 < elem_i.dof_num vid)).map
          (fun vid => (elem_i.loc_num vid, (elem_i.dof_num vid - 1).toNat, (1 : α))))
        ++ hanging_entries).filter (fun t => t.1 = elem.loc_num v)
      = [(elem.loc_num v, (elem.dof_num v - 1).toNat, 1)] := by
    rw [List.filter_append, hraw, hloc elem he v hv, (unit_rows region 0 hT hloc).2 elem he v hv hd]
    have : hanging_entries.filter (fun t => t.1 = elem.offset + v) = [] := by
      rw [List.filter_eq_nil_iff]
      intro t ht
      have := hh t ht
      rw [hloc elem he v hv] at this
      simpa using this
    rw [this]
    rfl
  obtain ⟨h1, h2⟩ := assemble_row_single
    (⟨(match (region.map (fun el => el.toNodalElement)).getLast? with
        | some elem => elem.offset + elem.num_points
        | none => 0),
      (max_dof (region.map (fun el => el.toNodalElement))).toNat,
      (region.map (fun el => el.toNodalElement)).flatMap (fun elem_i =>
        ((List.range elem_i.num_points).filter (fun vid => 0 < elem_i.dof_num vid)).map
          (fun vid => (elem_i.loc_num vid, (elem_i.dof_num vid - 1).toNat, (1 : α))))
        ++ hanging_entries⟩ : CSR_Matrix α)
    (elem.loc_num v) (elem.dof_num v - 1).toNat 1 hfil
  refine ⟨h1, ?_⟩
  intro u
  have := h2 u
  rw [one_mul] at this
  exact this

theorem final_ranking_frame (region : List RegionElement) (num_points : Nat)
    (work_hst0 : Nat → Int) (hT : Tiled 0 region) (hN : num_points = total_points region)
    (hloc : ∀ elem ∈ region, ∀ v, v < elem.num_points → elem.loc_num v = elem.offset + v) :
    Tiled 0 (final_ranking region num_points work_hst0) ∧
    (final_ranking region num_points work_hst0).length = region.length ∧
    (∀ elem ∈ final_ranking region num_points work_hst0, ∀ v, v < elem.num_points →
      elem.loc_num v = elem.offset + v) ∧
    (∀ e, e < region.length →
      ((final_ranking region num_points work_hst0).getD e RegionElement.absent).num_points
        = (region.getD e RegionElement.absent).num_points ∧
      ((final_ranking region num_points work_hst0).getD e RegionElement.absent).loc_num
        = (region.getD e RegionElement.absent).loc_num) := by
  rw [final_ranking_eq region num_points work_hst0 hT hN]
  refine ⟨tiled_map (ranked_element (pass1_values region) (pass2_values region))
    (fun _ => rfl) (fun _ => rfl) region 0 hT, by simp, ?_, ?_⟩
  · intro x hx v hv
    obtain ⟨elem, hel, rfl⟩ := List.mem_map.mp hx
    exact hloc elem hel v hv
  · intro e he
    rw [getD_map_lt _ _ e he]
    exact ⟨rfl, rfl⟩

theorem identified_core {α : Type} [Semiring α] (region : List RegionElement)
    (num_points : Nat) (work_hst0 : Nat → Int) (hanging_entries : List (Nat × Nat × α))
    (hT : Tiled 0 region) (hN : num_points = total_points region)
    (hglo : ∀ elem ∈ region, ∀ v, v < elem.num_points → 0 ≤ elem.glo_num v)
    (hmask : ∀ elem ∈ region, ∀ v, v < elem.num_points →
      elem.dirichlet_mask v = 0 ∨ elem.dirichlet_mask v = 1)
    (hloc : ∀ elem ∈ region, ∀ v, v < elem.num_points → elem.loc_num v = elem.offset + v)
    (e1 : Nat) (he1 : e1 < region.length) (v1 : Nat)
    (hv1 : v1 < (region.getD e1 RegionElement.absent).num_points)
    (hm1 : 0 < (region.getD e1 RegionElement.absent).dirichlet_mask v1)
    (e2 : Nat) (he2 : e2 < region.length) (v2 : Nat)
    (hv2 : v2 < (region.getD e2 RegionElement.absent).num_points)
    (hm2 : 0 < (region.getD e2 RegionElement.absent).dirichlet_mask v2) :
    (0 < (region.getD e1 RegionElement.absent).glo_num v1 →
      (region.getD e1 RegionElement.absent).glo_num v1
        = (region.getD e2 RegionElement.absent).glo_num v2 →
      0 < ((final_ranking region num_points work_hst0).getD e1 RegionElement.absent).dof_num v1 ∧
      ((final_ranking region num_points work_hst0).getD e1 RegionElement.absent).dof_num v1
        = ((final_ranking region num_points work_hst0).getD e2
          RegionElement.absent).dof_num v2 ∧
      ((∀ t ∈ hanging_entries,
          t.1 ≠ ((final_ranking region num_points work_hst0).getD e1
            RegionElement.absent).loc_num v1 ∧
          t.1 ≠ ((final_ranking region num_points work_hst0).getD e2
            RegionElement.absent).loc_num v2) →
        (assemble_Q ((final_ranking region num_points work_hst0).map
            (fun el => el.toNodalElement)) hanging_entries).entries.filter
          (fun t => t.1 = ((final_ranking region num_points work_hst0).getD e1
            RegionElement.absent).loc_num v1)
          = [(((final_ranking region num_points work_hst0).getD e1
              RegionElement.absent).loc_num v1,
            (((final_ranking region num_points work_hst0).getD e1
              RegionElement.absent).dof_num v1 - 1).toNat, 1)] ∧
        (assemble_Q ((final_ranking region num_points work_hst0).map
            (fun el => el.toNodalElement)) hanging_entries).entries.filter
          (fun t => t.1 = ((final_ranking region num_points work_hst0).getD e2
            RegionElement.absent).loc_num v2)
          = [(((final_ranking region num_points work_hst0).getD e2
              RegionElement.absent).loc_num v2,
            (((final_ranking region num_points work_hst0).getD e1
              RegionElement.absent).dof_num v1 - 1).toNat, 1)] ∧
        ∀ u : Nat → α,
          (assemble_Q ((final_ranking region num_points work_hst0).map
              (fun el => el.toNodalElement)) hanging_entries).multiply u
            (((final_ranking region num_points work_hst0).getD e1
              RegionElement.absent).loc_num v1)
          = (assemble_Q ((final_ranking region num_points work_hst0).map
              (fun el => el.toNodalElement)) hanging_entries).multiply u
            (((final_ranking region num_points work_hst0).getD e2
              RegionElement.absent).loc_num v2))) ∧
    ((region.getD e1 RegionElement.absent).glo_num v1
        ≠ (region.getD e2 RegionElement.absent).glo_num v2 →
      ((final_ranking region num_points work_hst0).getD e1 RegionElement.absent).dof_num v1
        ≠ ((final_ranking region num_points work_hst0).getD e2
          RegionElement.absent).dof_num v2) := by
  obtain ⟨o1, o2⟩ := final_dof_order region num_points work_hst0 hT hN hglo hmask
    e1 he1 v1 hv1 hm1
  obtain ⟨o3, o4⟩ := final_dof_order region num_points work_hst0 hT hN hglo hmask
    e2 he2 v2 hv2 hm2
  obtain ⟨fT, fl, floc, ffr⟩ := final_ranking_frame region num_points work_hst0 hT hN hloc
  constructor
  · intro hpos heq
    have hd1 := o1 hpos
    have hd12 := (o2 e2 he2 v2 hv2 hm2).2 heq
    refine ⟨hd1, hd12, ?_⟩
    intro hh
    have m1 := getD_mem (final_ranking region num_points work_hst0) e1 (by rw [fl]; exact he1)
    have m2 := getD_mem (final_ranking region num_points work_hst0) e2 (by rw [fl]; exact he2)
    obtain ⟨r1, u1⟩ := assemble_Q_row (final_ranking region num_points work_hst0)
      hanging_entries fT floc _ m1 v1 (by rw [(ffr e1 he1).1]; exact hv1) hd1
      (fun t ht => (hh t ht).1)
    obtain ⟨r2, u2⟩ := assemble_Q_row (final_ranking region num_points work_hst0)
      hanging_entries fT floc _ m2 v2 (by rw [(ffr e2 he2).1]; exact hv2)
      (by rw [← hd12]; exact hd1) (fun t ht => (hh t ht).2)
    refine ⟨r1, ?_, ?_⟩
    · rw [r2, hd12]
    · intro u
      rw [u1 u, u2 u, hd12]
  · intro hne
    rcases lt_or_gt_of_ne hne with h | h
    · exact ne_of_lt ((o2 e2 he2 v2 hv2 hm2).1 h)
    · exact ne_of_gt ((o4 e1 he1 v1 hv1 hm1).1 h)

/-! ### Identification of the conforming shared nodes -/

theorem mark_subdomain_mem_frame (n : Nat) (region : List RegionElement) (x : RegionElement)
    (hx : x ∈ mark_subdomain n region) :
    ∃ elem ∈ region, x.num_points = elem.num_points ∧ x.offset = elem.offset ∧
      x.dirichlet_mask = elem.dirichlet_mask ∧ x.loc_num = elem.loc_num := by
  obtain ⟨elem, hel, rfl | rfl⟩ := mark_subdomain_mem n region x hx
  · obtain ⟨a1, a2, _, _, a5, a6⟩ := shift_marked_frame (max_glo 0 region) elem
    exact ⟨elem, hel, a1, a2, a5, a6⟩
  · obtain ⟨a1, a2, _, _, a5, a6⟩ := shift_marked_frame (max_glo 0 region) elem
    exact ⟨elem, hel, a1, a2, a5, a6⟩

theorem mark_superdomain_mem (n : Nat) (region : List RegionElement) (x : RegionElement)
    (hx : x ∈ mark_superdomain n region) :
    ∃ elem ∈ region, x = shift_unmarked (max_glo 0 region) elem ∨
      x = shift_unmarked
        (max_glo (max_glo 0 region) (region.map (shift_unmarked (max_glo 0 region))))
        (shift_unmarked (max_glo 0 region) elem) := by
  unfold mark_superdomain at hx
  simp only at hx
  obtain ⟨y, hy, hxy⟩ := tail_map_mem _ _ n x hx
  obtain ⟨elem, hel, rfl⟩ := List.mem_map.mp hy
  exact ⟨elem, hel, hxy⟩

theorem mark_superdomain_mem_frame (n : Nat) (region : List RegionElement) (x : RegionElement)
    (hx : x ∈ mark_superdomain n region) :
    ∃ elem ∈ region, x.num_points = elem.num_points ∧ x.offset = elem.offset ∧
      x.dirichlet_mask = elem.dirichlet_mask ∧ x.loc_num = elem.loc_num := by
  obtain ⟨elem, hel, rfl | rfl⟩ := mark_superdomain_mem n region x hx
  · exact ⟨elem, hel, rfl, rfl, rfl, rfl⟩
  · exact ⟨elem, hel, rfl, rfl, rfl, rfl⟩

theorem mark_superdomain_nonneg (n : Nat) (region : List RegionElement)
    (hglo : ∀ elem ∈ region, ∀ v, v < elem.num_points → 0 ≤ elem.glo_num v) :
    ∀ elem ∈ mark_superdomain n region, ∀ v, v < elem.num_points → 0 ≤ elem.glo_num v := by
  intro x hx v hv
  have h1 : 0 ≤ max_glo 0 region := (max_glo_ge region 0).1
  have h2 : 0 ≤ max_glo (max_glo 0 region) (region.map (shift_unmarked (max_glo 0 region))) :=
    le_trans h1 (max_glo_ge _ _).1
  have hA : ∀ elem ∈ region, ∀ v, v < elem.num_points →
      0 ≤ (shift_unmarked (max_glo 0 region) elem).glo_num v := by
    intro elem hel v hv
    have := hglo elem hel v hv
    rw [shift_unmarked_glo]
    split <;> omega
  obtain ⟨elem, hel, rfl | rfl⟩ := mark_superdomain_mem n region x hx
  · exact hA elem hel v hv
  · have := hA elem hel v hv
    rw [shift_unmarked_glo]
    split <;> omega

theorem sub_identified {α : Type} [Semiring α] (interface : List Int) (n : Nat)
    (sub : List RegionElement) (num_points : Nat) (work_hst0 : Nat → Int)
    (hanging_entries : List (Nat × Nat × α))
    (hT : Tiled 0 sub) (hN : num_points = total_points sub)
    (hglo : ∀ elem ∈ sub, ∀ v, v < elem.num_points → 0 ≤ elem.glo_num v)
    (hmask : ∀ elem ∈ sub, ∀ v, v < elem.num_points →
      elem.dirichlet_mask v = 0 ∨ elem.dirichlet_mask v = 1)
    (hloc : ∀ elem ∈ sub, ∀ v, v < elem.num_points → elem.loc_num v = elem.offset + v)
    (hmark : ∀ elem ∈ sub, elem.poly_degree = 1 → ∀ v, v < elem.num_points →
      elem.dof_num v = if elem.glo_num v ∈ interface then elem.glo_num v else 0)
    (hext : ∀ e, e < sub.length → n ≤ e → (sub.getD e RegionElement.absent).poly_degree = 1)
    (hpos : ∀ e, e < sub.length → n ≤ e → ∀ v,
      v < (sub.getD e RegionElement.absent).num_points →
      0 < (sub.getD e RegionElement.absent).dirichlet_mask v →
      0 < (sub.getD e RegionElement.absent).glo_num v)
    (hcover : ∀ e1, e1 < n → ∀ e2, e2 < sub.length → n ≤ e2 →
      ∀ v1, v1 < (sub.getD e1 RegionElement.absent).num_points →
      ∀ v2, v2 < (sub.getD e2 RegionElement.absent).num_points →
      (sub.getD e1 RegionElement.absent).poly_degree = 1 →
      0 < (sub.getD e1 RegionElement.absent).dirichlet_mask v1 →
      0 < (sub.getD e2 RegionElement.absent).dirichlet_mask v2 →
      (sub.getD e1 RegionElement.absent).glo_num v1
        = (sub.getD e2 RegionElement.absent).glo_num v2 →
      (sub.getD e1 RegionElement.absent).glo_num v1 ∈ interface)
    (e1 : Nat) (he1 : e1 < sub.length) (v1 : Nat)
    (hv1 : v1 < (sub.getD e1 RegionElement.absent).num_points)
    (hm1 : 0 < (sub.getD e1 RegionElement.absent).dirichlet_mask v1)
    (e2 : Nat) (he2 : e2 < sub.length) (v2 : Nat)
    (hv2 : v2 < (sub.getD e2 RegionElement.absent).num_points)
    (hm2 : 0 < (sub.getD e2 RegionElement.absent).dirichlet_mask v2) :
    ((sub.getD e1 RegionElement.absent).poly_degree
        = (sub.getD e2 RegionElement.absent).poly_degree →
      0 < (sub.getD e1 RegionElement.absent).glo_num v1 →
      (sub.getD e1 RegionElement.absent).glo_num v1
        = (sub.getD e2 RegionElement.absent).glo_num v2 →
      Identified (number_subdomain n sub num_points work_hst0) hanging_entries e1 v1 e2 v2) ∧
    ((sub.getD e1 RegionElement.absent).glo_num v1
        ≠ (sub.getD e2 RegionElement.absent).glo_num v2 →
      ((number_subdomain n sub num_points work_hst0).getD e1 RegionElement.absent).dof_num v1
        ≠ ((number_subdomain n sub num_points work_hst0).getD e2
          RegionElement.absent).dof_num v2) := by
  obtain ⟨hTM, hNM, hlM⟩ := mark_subdomain_tiled n sub 0 hT
  have hmaskM : ∀ elem ∈ mark_subdomain n sub, ∀ v, v < elem.num_points →
      elem.dirichlet_mask v = 0 ∨ elem.dirichlet_mask v = 1 := by
    intro x hx v hv
    obtain ⟨elem, hel, a1, _, a3, _⟩ := mark_subdomain_mem_frame n sub x hx
    rw [a1] at hv
    rw [a3]
    exact hmask elem hel v hv
  have hlocM : ∀ elem ∈ mark_subdomain n sub, ∀ v, v < elem.num_points →
      elem.loc_num v = elem.offset + v := by
    intro x hx v hv
    obtain ⟨elem, hel, a1, a2, _, a4⟩ := mark_subdomain_mem_frame n sub x hx
    rw [a1] at hv
    rw [a4, a2]
    exact hloc elem hel v hv
  obtain ⟨f1, _, _, _, f5, _⟩ := mark_subdomain_frame n sub e1 he1
  obtain ⟨g1, _, _, _, g5, _⟩ := mark_subdomain_frame n sub e2 he2
  obtain ⟨c1, c2⟩ := identified_core (mark_subdomain n sub) num_points work_hst0
    hanging_entries hTM (hN.trans hNM.symm) (mark_subdomain_nonneg n sub hglo) hmaskM hlocM
    e1 (by rw [hlM]; exact he1) v1 (by rw [f1]; exact hv1) (by rw [f5]; exact hm1)
    e2 (by rw [hlM]; exact he2) v2 (by rw [g1]; exact hv2) (by rw [g5]; exact hm2)
  rw [mark_subdomain_glo n sub e1 he1, mark_subdomain_glo n sub e2 he2] at c1 c2
  have hs1 : 0 ≤ sub_shift n sub e1 v1 := by
    obtain ⟨b1, b2, _⟩ := sub_bounds sub
    unfold sub_shift
    split
    · exact b1
    · split
      · exact le_trans b1 b2
      · exact le_refl _
  constructor
  · intro hdeg hp heq
    have hshift := sub_post_eq n sub interface hmark
      (fun e h1 h2 => hext e h2 h1)
      (fun a b va vb h1 h2 h3 h4 h5 h6 h7 h8 h9 => hcover a h1 b h3 h2 va h4 vb h5 h6 h7 h8 h9)
      e1 he1 v1 hv1 hm1 e2 he2 v2 hv2 hm2 hdeg hp heq
    exact c1 (by omega) (by rw [hshift, heq])
  · intro hne
    exact c2 (sub_post_ne n sub interface hglo hmark
      (fun e h1 h2 => hpos e h2 h1) e1 he1 v1 hv1 e2 he2 v2 hv2 hne)

theorem sup_identified {α : Type} [Semiring α] (interface : List Int) (n : Nat)
    (sup : List RegionElement) (num_points : Nat) (work_hst0 : Nat → Int)
    (hanging_entries : List (Nat × Nat × α))
    (hT : Tiled 0 sup) (hN : num_points = total_points sup)
    (hglo : ∀ elem ∈ sup, ∀ v, v < elem.num_points → 0 ≤ elem.glo_num v)
    (hmask : ∀ elem ∈ sup, ∀ v, v < elem.num_points →
      elem.dirichlet_mask v = 0 ∨ elem.dirichlet_mask v = 1)
    (hloc : ∀ elem ∈ sup, ∀ v, v < elem.num_points → elem.loc_num v = elem.offset + v)
    (hmark : ∀ elem ∈ sup, ∀ v, v < elem.num_points →
      elem.dof_num v = if elem.glo_num v ∈ interface then elem.glo_num v else 0)
    (hpos : ∀ elem ∈ sup, ∀ v, v < elem.num_points → 0 < elem.dirichlet_mask v →
      0 < elem.glo_num v)
    (hcover : ∀ e1, e1 < n → ∀ e2, e2 < sup.length → n ≤ e2 →
      ∀ v1, v1 < (sup.getD e1 RegionElement.absent).num_points →
      ∀ v2, v2 < (sup.getD e2 RegionElement.absent).num_points →
      0 < (sup.getD e1 RegionElement.absent).dirichlet_mask v1 →
      0 < (sup.getD e2 RegionElement.absent).dirichlet_mask v2 →
      (sup.getD e1 RegionElement.absent).glo_num v1
        = (sup.getD e2 RegionElement.absent).glo_num v2 →
      (sup.getD e1 RegionElement.absent).glo_num v1 ∈ interface)
    (e1 : Nat) (he1 : e1 < sup.length) (v1 : Nat)
    (hv1 : v1 < (sup.getD e1 RegionElement.absent).num_points)
    (hm1 : 0 < (sup.getD e1 RegionElement.absent).dirichlet_mask v1)
    (e2 : Nat) (he2 : e2 < sup.length) (v2 : Nat)
    (hv2 : v2 < (sup.getD e2 RegionElement.absent).num_points)
    (hm2 : 0 < (sup.getD e2 RegionElement.absent).dirichlet_mask v2) :
    ((sup.getD e1 RegionElement.absent).glo_num v1
        = (sup.getD e2 RegionElement.absent).glo_num v2 →
      Identified (number_superdomain n sup num_points work_hst0) hanging_entries
        e1 v1 e2 v2) ∧
    ((sup.getD e1 RegionElement.absent).glo_num v1
        ≠ (sup.getD e2 RegionElement.absent).glo_num v2 →
      ((number_superdomain n sup num_points work_hst0).getD e1 RegionElement.absent).dof_num v1
        ≠ ((number_superdomain n sup num_points work_hst0).getD e2
          RegionElement.absent).dof_num v2) := by
  obtain ⟨hTM, hNM, hlM⟩ := mark_superdomain_tiled n sup 0 hT
  have hmaskM : ∀ elem ∈ mark_superdomain n sup, ∀ v, v < elem.num_points →
      elem.dirichlet_mask v = 0 ∨ elem.dirichlet_mask v = 1 := by
    intro x hx v hv
    obtain ⟨elem, hel, a1, _, a3, _⟩ := mark_superdomain_mem_frame n sup x hx
    rw [a1] at hv
    rw [a3]
    exact hmask elem hel v hv
  have hlocM : ∀ elem ∈ mark_superdomain n sup, ∀ v, v < elem.num_points →
      elem.loc_num v = elem.offset + v := by
    intro x hx v hv
    obtain ⟨elem, hel, a1, a2, _, a4⟩ := mark_superdomain_mem_frame n sup x hx
    rw [a1] at hv
    rw [a4, a2]
    exact hloc elem hel v hv
  obtain ⟨f1, _, _, _, f5, _⟩ := mark_superdomain_frame n sup e1 he1
  obtain ⟨g1, _, _, _, g5, _⟩ := mark_superdomain_frame n sup e2 he2
  obtain ⟨c1, c2⟩ := identified_core (mark_superdomain n sup) num_points work_hst0
    hanging_entries hTM (hN.trans hNM.symm) (mark_superdomain_nonneg n sup hglo) hmaskM hlocM
    e1 (by rw [hlM]; exact he1) v1 (by rw [f1]; exact hv1) (by rw [f5]; exact hm1)
    e2 (by rw [hlM]; exact he2) v2 (by rw [g1]; exact hv2) (by rw [g5]; exact hm2)
  rw [mark_superdomain_glo n sup e1 he1, mark_superdomain_glo n sup e2 he2] at c1 c2
  have hp := hpos _ (getD_mem sup e1 he1) v1 hv1 hm1
  have hs1 : 0 ≤ sup_shift n sup e1 v1 := by
    obtain ⟨b1, b2, _⟩ := sup_bounds sup
    unfold sup_shift
    split
    · split
      · exact add_nonneg b1 (le_trans b1 b2)
      · exact b1
    · exact le_refl _
  constructor
  · intro heq
    have hshift := sup_post_eq n sup interface hmark hpos
      (fun a b va vb h1 h2 h3 h4 h5 h6 h7 h8 => hcover a h1 b h3 h2 va h4 vb h5 h6 h7 h8)
      e1 he1 v1 hv1 hm1 e2 he2 v2 hv2 hm2 heq
    exact c1 (by omega) (by rw [hshift, heq])
  · intro hne
    exact c2 (sup_post_ne n sup hglo hpos e1 he1 v1 hv1 e2 he2 v2 hv2 hne)

/-! ### Counting the DOFs below a node -/

theorem mem_live_ids (region : List RegionElement) (u : Int) :
    u ∈ live_ids region ↔
      u ≠ 0 ∧ ∃ elem ∈ region, ∃ v, v < elem.num_points ∧ 0 < elem.dirichlet_mask v ∧
        elem.glo_num v = u := by
  unfold live_ids
  rw [Finset.mem_erase, List.mem_toFinset, mem_node_values]
  constructor
  · rintro ⟨hne, elem, hel, v, hv, hval⟩
    refine ⟨hne, elem, hel, v, hv, ?_⟩
    by_cases hm : 0 < elem.dirichlet_mask v
    · rw [if_pos hm] at hval
      exact ⟨hm, hval⟩
    · rw [if_neg hm] at hval
      exact absurd hval.symm hne
  · rintro ⟨hne, elem, hel, v, hv, hm, hval⟩
    exact ⟨hne, elem, hel, v, hv, by rw [if_pos hm]; exact hval⟩

theorem final_dof_count (region : List RegionElement) (num_points : Nat)
    (work_hst0 : Nat → Int) (hT : Tiled 0 region) (hN : num_points = total_points region)
    (hglo : ∀ elem ∈ region, ∀ v, v < elem.num_points → 0 ≤ elem.glo_num v)
    (hmask : ∀ elem ∈ region, ∀ v, v < elem.num_points →
      elem.dirichlet_mask v = 0 ∨ elem.dirichlet_mask v = 1)
    (e : Nat) (he : e < region.length) (v : Nat)
    (hv : v < (region.getD e RegionElement.absent).num_points)
    (hm : 0 < (region.getD e RegionElement.absent).dirichlet_mask v)
    (hp : 0 < (region.getD e RegionElement.absent).glo_num v) :
    ((final_ranking region num_points work_hst0).getD e RegionElement.absent).dof_num v
      = 1 + below (live_ids region) ((region.getD e RegionElement.absent).glo_num v) := by
  have hmem := getD_mem region e he
  have hm1 : (region.getD e RegionElement.absent).dirichlet_mask v = 1 := by
    rcases hmask _ hmem v hv with h | h
    · omega
    · exact h
  have hV1 : ∀ w ∈ pass1_values region, 0 ≤ w := by
    intro w hw
    obtain ⟨elem, hel, u, hu, rfl⟩ := (mem_node_values _ _ _).mp hw
    exact hglo elem hel u hu
  have hV2 : ∀ w ∈ pass2_values region, 0 ≤ w := by
    intro w hw
    obtain ⟨elem, hel, u, hu, rfl⟩ := (mem_node_values _ _ _).mp hw
    rcases hmask elem hel u hu with h | h <;> rw [h]
    · simp
    · simpa using rank_of_nonneg _ _
  have hr0 : ∀ x ∈ pass1_values region, 0 < x → 0 < rank_of (pass1_values region) x := by
    intro x hx hx0
    have h0 := rank_of_nonneg (pass1_values region) x
    have hne : rank_of (pass1_values region) x ≠ 0 := by
      intro h
      have := ((rank_of_eq_zero_iff _ _ hx).mp h).1
      omega
    omega
  have hin1 : ∀ u ∈ live_ids region, u ∈ pass1_values region ∧ 0 < u := by
    intro u hu
    obtain ⟨hne, elem, hel, w, hw, _, rfl⟩ := (mem_live_ids region u).mp hu
    have := hglo elem hel w hw
    exact ⟨(mem_node_values _ _ _).mpr ⟨elem, hel, w, hw, rfl⟩, by omega⟩
  have hpin : (region.getD e RegionElement.absent).glo_num v ∈ pass1_values region :=
    (mem_node_values _ _ _).mpr ⟨_, hmem, v, hv, rfl⟩
  have himage : (pass2_values region).toFinset.erase 0
      = (live_ids region).image (rank_of (pass1_values region)) := by
    ext x
    rw [Finset.mem_erase, List.mem_toFinset, Finset.mem_image]
    constructor
    · rintro ⟨hne, hx⟩
      obtain ⟨elem, hel, w, hw, rfl⟩ := (mem_node_values _ _ _).mp hx
      rcases hmask elem hel w hw with h | h
      · rw [h, mul_zero] at hne
        exact absurd rfl hne
      · rw [h, mul_one] at hne ⊢
        refine ⟨elem.glo_num w, ?_, rfl⟩
        rw [mem_live_ids]
        refine ⟨?_, elem, hel, w, hw, by omega, rfl⟩
        intro h0
        apply hne
        rw [h0]
        exact (rank_of_eq_zero_iff _ _
          ((mem_node_values _ _ _).mpr ⟨elem, hel, w, hw, h0⟩)).mpr ⟨rfl, hV1⟩
    · rintro ⟨u, hu, rfl⟩
      obtain ⟨hne, elem, hel, w, hw, hmw, rfl⟩ := (mem_live_ids region _).mp hu
      have hpos := (hin1 _ hu).2
      refine ⟨ne_of_gt (hr0 _ (hin1 _ hu).1 hpos), ?_⟩
      apply (mem_node_values _ _ _).mpr
      refine ⟨elem, hel, w, hw, ?_⟩
      rcases hmask elem hel w hw with h | h
      · omega
      · rw [h, mul_one]
  rw [final_dof region num_points work_hst0 hT hN e he v hv, hm1, mul_one,
    rank_of_pos _ _ hV2 (hr0 _ hpin hp), himage]
  congr 1
  unfold below
  rw [Finset.filter_image]
  have hfil : (live_ids region).filter
        (fun u => rank_of (pass1_values region) u
          < rank_of (pass1_values region) ((region.getD e RegionElement.absent).glo_num v))
      = (live_ids region).filter
        (fun u => u < (region.getD e RegionElement.absent).glo_num v) := by
    apply Finset.filter_congr
    intro u hu
    constructor
    · intro hlt
      by_contra hge
      have := rank_of_mono (pass1_values region) _ u (not_lt.mp hge)
      omega
    · intro hlt
      exact rank_of_strict _ _ _ (hin1 u hu).1 hlt
  rw [hfil, Finset.card_image_of_injOn]
  intro a ha b hb hab
  have ha' := (hin1 a (Finset.mem_coe.mp ((Finset.mem_filter.mp ha).1))).1
  have hb' := (hin1 b (Finset.mem_coe.mp ((Finset.mem_filter.mp hb).1))).1
  by_contra hne
  rcases lt_or_gt_of_ne hne with h | h
  · have := rank_of_strict _ _ _ ha' h
    omega
  · have := rank_of_strict _ _ _ hb' h
    omega

/-! ### The interface ids -/

theorem mark_interface_marks (interface : List Int) (elem : RegionElement)
    (h0 : ∀ v, v < elem.num_points → elem.dof_num v = 0) :
    (mark_interface interface elem).glo_num = elem.glo_num ∧
    (mark_interface interface elem).dirichlet_mask = elem.dirichlet_mask ∧
    ∀ v, v < elem.num_points →
      (mark_interface interface elem).dof_num v
        = if elem.glo_num v ∈ interface then elem.glo_num v else 0 := by
  refine ⟨rfl, rfl, ?_⟩
  intro v hv
  show update_points elem.num_points (fun v => elem.glo_num v ∈ interface)
    (fun v _ => elem.glo_num v) elem.dof_num v = _
  rw [update_points_apply]
  by_cases hin : elem.glo_num v ∈ interface
  · rw [if_pos ⟨hv, by simpa using hin⟩, if_pos hin]
  · rw [if_neg (fun h => hin (by simpa using h.2)), if_neg hin]
    exact h0 v hv

theorem mem_take_getD_region (l : List RegionElement) (n : Nat) (x : RegionElement)
    (hx : x ∈ l.take n) :
    ∃ e, e < n ∧ e < l.length ∧ l.getD e RegionElement.absent = x := by
  rw [List.mem_take_iff_getElem] at hx
  obtain ⟨i, hi, rfl⟩ := hx
  have h1 : i < n := lt_of_lt_of_le hi (min_le_left _ _)
  have h2 : i < l.length := lt_of_lt_of_le hi (min_le_right _ _)
  exact ⟨i, h1, h2, List.getD_eq_getElem _ _ h2⟩

theorem getD_mem_take_region (l : List RegionElement) (n e : Nat) (h1 : e < n)
    (h2 : e < l.length) : l.getD e RegionElement.absent ∈ l.take n := by
  rw [List.getD_eq_getElem _ _ h2, List.mem_take_iff_getElem]
  exact ⟨e, lt_min h1 h2, rfl⟩

theorem below_split (U : Finset Int) (a p : Int) (hap : a < p) :
    below U p = below U (a + 1) + ((U.filter (fun u => a < u ∧ u < p)).card : Int) := by
  unfold below
  have h := Finset.filter_card_add_filter_neg_card_eq_card
    (s := U.filter (fun u => u < p)) (fun u => u < a + 1)
  rw [Finset.filter_filter, Finset.filter_filter] at h
  have e1 : U.filter (fun u => u < p ∧ u < a + 1) = U.filter (fun u => u < a + 1) := by
    apply Finset.filter_congr
    intro u _
    constructor
    · exact fun h => h.2
    · exact fun h => ⟨by omega, h⟩
  have e2 : U.filter (fun u => u < p ∧ ¬ u < a + 1) = U.filter (fun u => a < u ∧ u < p) := by
    apply Finset.filter_congr
    intro u _
    constructor
    · exact fun h => ⟨by omega, h.1⟩
    · exact fun h => ⟨h.2, by omega⟩
  rw [e1, e2] at h
  omega

theorem mem_iff_getD_region (l : List RegionElement) (x : RegionElement) :
    x ∈ l ↔ ∃ e, e < l.length ∧ l.getD e RegionElement.absent = x := by
  constructor
  · intro hx
    obtain ⟨e, he, rfl⟩ := List.mem_iff_getElem.mp hx
    exact ⟨e, he, List.getD_eq_getElem _ _ he⟩
  · rintro ⟨e, he, rfl⟩
    exact getD_mem l e he

theorem mem_live_sub (n : Nat) (sub : List RegionElement) (u : Int) :
    u ∈ live_ids (mark_subdomain n sub) ↔
      u ≠ 0 ∧ ∃ e, e < sub.length ∧ ∃ v,
        v < (sub.getD e RegionElement.absent).num_points ∧
        0 < (sub.getD e RegionElement.absent).dirichlet_mask v ∧
        (sub.getD e RegionElement.absent).glo_num v + sub_shift n sub e v = u := by
  have hl : (mark_subdomain n sub).length = sub.length := by
    unfold mark_subdomain
    simp only [List.length_append, List.length_take, List.length_map, List.length_drop]
    omega
  rw [mem_live_ids]
  constructor
  · rintro ⟨hne, elem, hel, v, hv, hm, hval⟩
    obtain ⟨e, he, rfl⟩ := (mem_iff_getD_region _ _).mp hel
    rw [hl] at he
    obtain ⟨f1, _, _, _, f5, _⟩ := mark_subdomain_frame n sub e he
    rw [f1] at hv
    rw [f5] at hm
    rw [mark_subdomain_glo n sub e he] at hval
    exact ⟨hne, e, he, v, hv, hm, hval⟩
  · rintro ⟨hne, e, he, v, hv, hm, hval⟩
    obtain ⟨f1, _, _, _, f5, _⟩ := mark_subdomain_frame n sub e he
    refine ⟨hne, _, getD_mem _ e (by rw [hl]; exact he), v, by rw [f1]; exact hv,
      by rw [f5]; exact hm, ?_⟩
    rw [mark_subdomain_glo n sub e he]
    exact hval

theorem sub_classes (interface : List Int) (n : Nat) (sub : List RegionElement)
    (num_points : Nat) (hsub : SubdomainReady interface n sub num_points)
    (e : Nat) (he : e < sub.length) (v : Nat)
    (hv : v < (sub.getD e RegionElement.absent).num_points) :
    0 ≤ (sub.getD e RegionElement.absent).glo_num v ∧
    (sub.getD e RegionElement.absent).glo_num v ≤ max_glo 0 sub ∧
    ((sub_shift n sub e v = 0 ∧
        ¬ ((sub.getD e RegionElement.absent).poly_degree = 1 ∧
          0 < (sub.getD e RegionElement.absent).dof_num v) ∧
        ¬ (n ≤ e ∧ 0 < (sub.getD e RegionElement.absent).dirichlet_mask v ∧
          (sub.getD e RegionElement.absent).dof_num v = 0)) ∨
      (sub_shift n sub e v = max_glo 0 sub ∧
        (sub.getD e RegionElement.absent).poly_degree = 1 ∧
        0 < (sub.getD e RegionElement.absent).glo_num v ∧
        (sub.getD e RegionElement.absent).glo_num v ∈ interface ∧
        (sub.getD e RegionElement.absent).glo_num v + max_glo 0 sub
          ≤ max_glo (max_glo 0 sub) (sub.map (shift_marked (max_glo 0 sub)))) ∨
      (sub_shift n sub e v
          = max_glo (max_glo 0 sub) (sub.map (shift_marked (max_glo 0 sub))) ∧
        n ≤ e ∧ 0 < (sub.getD e RegionElement.absent).dirichlet_mask v ∧
        (sub.getD e RegionElement.absent).dof_num v = 0 ∧
        0 < (sub.getD e RegionElement.absent).glo_num v)) := by
  obtain ⟨b1, b3, hb⟩ := sub_bounds sub
  have hmem := getD_mem sub e he
  obtain ⟨hle, hle2⟩ := hb e he v hv
  refine ⟨hsub.glo_nonneg _ hmem v hv, hle, ?_⟩
  unfold sub_shift
  by_cases h1 : (sub.getD e RegionElement.absent).poly_degree = 1 ∧
      v < (sub.getD e RegionElement.absent).num_points ∧
      0 < (sub.getD e RegionElement.absent).dof_num v
  · rw [if_pos h1]
    right; left
    have hm := hsub.marks _ hmem h1.1 v hv
    have hg : 0 < (sub.getD e RegionElement.absent).glo_num v ∧
        (sub.getD e RegionElement.absent).glo_num v ∈ interface := by
      have := h1.2.2
      rw [hm] at this
      by_cases hin : (sub.getD e RegionElement.absent).glo_num v ∈ interface
      · rw [if_pos hin] at this
        exact ⟨this, hin⟩
      · rw [if_neg hin] at this
        omega
    rw [shift_marked_glo, if_pos h1] at hle2
    exact ⟨rfl, h1.1, hg.1, hg.2, hle2⟩
  · rw [if_neg h1]
    by_cases h2 : n ≤ e ∧ v < (sub.getD e RegionElement.absent).num_points ∧
        0 < (sub.getD e RegionElement.absent).dirichlet_mask v ∧
        (sub.getD e RegionElement.absent).dof_num v = 0
    · rw [if_pos h2]
      right; right
      exact ⟨rfl, h2.1, h2.2.2.1, h2.2.2.2, hsub.extended_pos e he h2.1 v hv h2.2.2.1⟩
    · rw [if_neg h2]
      left
      exact ⟨rfl, fun h => h1 ⟨h.1, hv, h.2⟩, fun h => h2 ⟨h.1, hv, h.2⟩⟩

theorem sub_band (interface : List Int) (n : Nat) (sub : List RegionElement)
    (num_points : Nat) (hsub : SubdomainReady interface n sub num_points)
    (hpos : ∀ i ∈ interface, 0 < i)
    (hcarried : ∀ i ∈ interface, ∃ e, e < n ∧ e < sub.length ∧ ∃ v,
      v < (sub.getD e RegionElement.absent).num_points ∧
      (sub.getD e RegionElement.absent).poly_degree = 1 ∧
      0 < (sub.getD e RegionElement.absent).dirichlet_mask v ∧
      (sub.getD e RegionElement.absent).glo_num v = i) (u : Int) :
    (u ∈ live_ids (mark_subdomain n sub) ∧ max_glo 0 sub < u ∧
        u ≤ max_glo (max_glo 0 sub) (sub.map (shift_marked (max_glo 0 sub)))) ↔
      ∃ i ∈ interface, u = i + max_glo 0 sub := by
  obtain ⟨b1, b3, _⟩ := sub_bounds sub
  constructor
  · rintro ⟨hu, h1, h2⟩
    obtain ⟨_, e, he, v, hv, hm, rfl⟩ := (mem_live_sub n sub u).mp hu
    obtain ⟨c1, c2, c3 | c3 | c3⟩ := sub_classes interface n sub num_points hsub e he v hv
    · rw [c3.1] at h1
      omega
    · exact ⟨_, c3.2.2.2.1, by rw [c3.1]⟩
    · rw [c3.1] at h2
      omega
  · rintro ⟨i, hi, rfl⟩
    obtain ⟨e, he1, he2, v, hv, hd, hm, hg⟩ := hcarried i hi
    have hi0 := hpos i hi
    have hmark := hsub.marks _ (getD_mem sub e he2) hd v hv
    rw [hg, if_pos hi] at hmark
    obtain ⟨c1, c2, c3 | c3 | c3⟩ := sub_classes interface n sub num_points hsub e he2 v hv
    · exact absurd ⟨hd, by omega⟩ c3.2.1
    · rw [hg] at c3
      refine ⟨(mem_live_sub n sub _).mpr ⟨by omega, e, he2, v, hv, hm, by rw [hg, c3.1]⟩,
        by omega, c3.2.2.2.2⟩
    · omega

theorem sub_below (interface : List Int) (n : Nat) (sub : List RegionElement)
    (num_points : Nat) (hsub : SubdomainReady interface n sub num_points)
    (hpos : ∀ i ∈ interface, 0 < i)
    (hcarried : ∀ i ∈ interface, ∃ e, e < n ∧ e < sub.length ∧ ∃ v,
      v < (sub.getD e RegionElement.absent).num_points ∧
      (sub.getD e RegionElement.absent).poly_degree = 1 ∧
      0 < (sub.getD e RegionElement.absent).dirichlet_mask v ∧
      (sub.getD e RegionElement.absent).glo_num v = i)
    (p : Int) (h1 : max_glo 0 sub < p)
    (h2 : p ≤ max_glo (max_glo 0 sub) (sub.map (shift_marked (max_glo 0 sub))) + 1) :
    below (live_ids (mark_subdomain n sub)) p
      = below (live_ids (mark_subdomain n sub)) (max_glo 0 sub + 1)
        + ((interface.toFinset.filter (fun i => i + max_glo 0 sub < p)).card : Int) := by
  rw [below_split _ (max_glo 0 sub) p h1]
  congr 2
  have himg : (live_ids (mark_subdomain n sub)).filter (fun u => max_glo 0 sub < u ∧ u < p)
      = (interface.toFinset.filter (fun i => i + max_glo 0 sub < p)).image
          (fun i => i + max_glo 0 sub) := by
    ext u
    rw [Finset.mem_filter, Finset.mem_image]
    constructor
    · rintro ⟨hu, h3, h4⟩
      obtain ⟨i, hi, rfl⟩ := (sub_band interface n sub num_points hsub hpos hcarried u).mp
        ⟨hu, h3, by omega⟩
      exact ⟨i, Finset.mem_filter.mpr ⟨List.mem_toFinset.mpr hi, h4⟩, rfl⟩
    · rintro ⟨i, hi, rfl⟩
      rw [Finset.mem_filter, List.mem_toFinset] at hi
      obtain ⟨hu, h3, _⟩ := (sub_band interface n sub num_points hsub hpos hcarried _).mpr
        ⟨i, hi.1, rfl⟩
      exact ⟨hu, h3, hi.2⟩
  rw [himg, Finset.card_image_of_injective]
  intro a b hab
  simpa using hab

theorem sub_interface_dof (interface : List Int) (n : Nat) (sub : List RegionElement)
    (num_points : Nat) (work_hst0 : Nat → Int)
    (hsub : SubdomainReady interface n sub num_points)
    (hpos : ∀ i ∈ interface, 0 < i)
    (hcarried : ∀ i ∈ interface, ∃ e, e < n ∧ e < sub.length ∧ ∃ v,
      v < (sub.getD e RegionElement.absent).num_points ∧
      (sub.getD e RegionElement.absent).poly_degree = 1 ∧
      0 < (sub.getD e RegionElement.absent).dirichlet_mask v ∧
      (sub.getD e RegionElement.absent).glo_num v = i)
    (e : Nat) (he : e < sub.length) (v : Nat)
    (hv : v < (sub.getD e RegionElement.absent).num_points)
    (hd : (sub.getD e RegionElement.absent).poly_degree = 1)
    (hm : 0 < (sub.getD e RegionElement.absent).dirichlet_mask v)
    (hi : (sub.getD e RegionElement.absent).glo_num v ∈ interface) :
    ((number_subdomain n sub num_points work_hst0).getD e RegionElement.absent).dof_num v
      = 1 + below (live_ids (mark_subdomain n sub)) (max_glo 0 sub + 1)
        + below interface.toFinset ((sub.getD e RegionElement.absent).glo_num v) := by
  obtain ⟨hTM, hNM, hlM⟩ := mark_subdomain_tiled n sub 0 hsub.tiled
  have hmaskM : ∀ elem ∈ mark_subdomain n sub, ∀ v, v < elem.num_points →
      elem.dirichlet_mask v = 0 ∨ elem.dirichlet_mask v = 1 := by
    intro x hx v hv
    obtain ⟨elem, hel, a1, _, a3, _⟩ := mark_subdomain_mem_frame n sub x hx
    rw [a1] at hv
    rw [a3]
    exact hsub.mask_01 elem hel v hv
  obtain ⟨f1, _, _, _, f5, _⟩ := mark_subdomain_frame n sub e he
  have hi0 := hpos _ hi
  have hmark := hsub.marks _ (getD_mem sub e he) hd v hv
  rw [if_pos hi] at hmark
  obtain ⟨c1, c2, c3 | c3 | c3⟩ := sub_classes interface n sub num_points hsub e he v hv
  · exact absurd ⟨hd, by omega⟩ c3.2.1
  · have hcount := final_dof_count (mark_subdomain n sub) num_points work_hst0 hTM
      (hsub.total.trans hNM.symm) (mark_subdomain_nonneg n sub hsub.glo_nonneg) hmaskM
      e (by rw [hlM]; exact he) v (by rw [f1]; exact hv) (by rw [f5]; exact hm)
      (by rw [mark_subdomain_glo n sub e he, c3.1]; omega)
    unfold number_subdomain
    rw [hcount, mark_subdomain_glo n sub e he, c3.1,
      sub_below interface n sub num_points hsub hpos hcarried _ (by omega) (by omega)]
    have : (interface.toFinset.filter
          (fun i => i + max_glo 0 sub
            < (sub.getD e RegionElement.absent).glo_num v + max_glo 0 sub))
        = interface.toFinset.filter
          (fun i => i < (sub.getD e RegionElement.absent).glo_num v) := by
      apply Finset.filter_congr
      intro i _
      constructor <;> intro h <;> omega
    rw [this]
    unfold below
    ring
  · omega

theorem sub_dof_cases (interface : List Int) (n : Nat) (sub : List RegionElement)
    (num_points : Nat) (work_hst0 : Nat → Int)
    (hsub : SubdomainReady interface n sub num_points)
    (hpos : ∀ i ∈ interface, 0 < i)
    (hcarried : ∀ i ∈ interface, ∃ e, e < n ∧ e < sub.length ∧ ∃ v,
      v < (sub.getD e RegionElement.absent).num_points ∧
      (sub.getD e RegionElement.absent).poly_degree = 1 ∧
      0 < (sub.getD e RegionElement.absent).dirichlet_mask v ∧
      (sub.getD e RegionElement.absent).glo_num v = i)
    (e : Nat) (he : e < sub.length) (v : Nat)
    (hv : v < (sub.getD e RegionElement.absent).num_points) :
    ((number_subdomain n sub num_points work_hst0).getD e RegionElement.absent).dof_num v = 0 ∨
    (¬ ((sub.getD e RegionElement.absent).poly_degree = 1 ∧
        (sub.getD e RegionElement.absent).glo_num v ∈ interface) ∧ e < n ∧
      1 ≤ ((number_subdomain n sub num_points work_hst0).getD e
        RegionElement.absent).dof_num v ∧
      ((number_subdomain n sub num_points work_hst0).getD e RegionElement.absent).dof_num v
        ≤ below (live_ids (mark_subdomain n sub)) (max_glo 0 sub + 1)) ∨
    ((sub.getD e RegionElement.absent).poly_degree = 1 ∧
      0 < (sub.getD e RegionElement.absent).dirichlet_mask v ∧
      (sub.getD e RegionElement.absent).glo_num v ∈ interface ∧
      ((number_subdomain n sub num_points work_hst0).getD e RegionElement.absent).dof_num v
        = 1 + below (live_ids (mark_subdomain n sub)) (max_glo 0 sub + 1)
          + below interface.toFinset ((sub.getD e RegionElement.absent).glo_num v)) ∨
    (n ≤ e ∧ (sub.getD e RegionElement.absent).glo_num v ∉ interface ∧
      below (live_ids (mark_subdomain n sub)) (max_glo 0 sub + 1)
          + (interface.toFinset.card : Int)
        < ((number_subdomain n sub num_points work_hst0).getD e
          RegionElement.absent).dof_num v) := by
  obtain ⟨hTM, hNM, hlM⟩ := mark_subdomain_tiled n sub 0 hsub.tiled
  have hmaskM : ∀ elem ∈ mark_subdomain n sub, ∀ v, v < elem.num_points →
      elem.dirichlet_mask v = 0 ∨ elem.dirichlet_mask v = 1 := by
    intro x hx v hv
    obtain ⟨elem, hel, a1, _, a3, _⟩ := mark_subdomain_mem_frame n sub x hx
    rw [a1] at hv
    rw [a3]
    exact hsub.mask_01 elem hel v hv
  have hmaskM' : ∀ elem ∈ mark_subdomain n sub, ∀ v, v < elem.num_points →
      0 ≤ elem.dirichlet_mask v := by
    intro x hx v hv
    rcases hmaskM x hx v hv with h | h <;> omega
  obtain ⟨f1, _, _, _, f5, _⟩ := mark_subdomain_frame n sub e he
  obtain ⟨b1, b3, _⟩ := sub_bounds sub
  have hmem := getD_mem sub e he
  by_cases hm : 0 < (sub.getD e RegionElement.absent).dirichlet_mask v
  swap
  · left
    unfold number_subdomain
    apply final_dof_zero _ num_points work_hst0 hTM (hsub.total.trans hNM.symm)
      (mark_subdomain_nonneg n sub hsub.glo_nonneg) hmaskM' e (by rw [hlM]; exact he) v
      (by rw [f1]; exact hv)
    right
    rw [f5]
    rcases hsub.mask_01 _ hmem v hv with h | h
    · exact h
    · omega
  obtain ⟨c1, c2, c3 | c3 | c3⟩ := sub_classes interface n sub num_points hsub e he v hv
  · by_cases hg : (sub.getD e RegionElement.absent).glo_num v = 0
    · left
      unfold number_subdomain
      apply final_dof_zero _ num_points work_hst0 hTM (hsub.total.trans hNM.symm)
        (mark_subdomain_nonneg n sub hsub.glo_nonneg) hmaskM' e (by rw [hlM]; exact he) v
        (by rw [f1]; exact hv)
      left
      rw [mark_subdomain_glo n sub e he, c3.1, hg]
      rfl
    · right; left
      have hg0 : 0 < (sub.getD e RegionElement.absent).glo_num v := by omega
      have hcount := final_dof_count (mark_subdomain n sub) num_points work_hst0 hTM
        (hsub.total.trans hNM.symm) (mark_subdomain_nonneg n sub hsub.glo_nonneg) hmaskM
        e (by rw [hlM]; exact he) v (by rw [f1]; exact hv) (by rw [f5]; exact hm)
        (by rw [mark_subdomain_glo n sub e he, c3.1]; omega)
      rw [mark_subdomain_glo n sub e he, c3.1, add_zero] at hcount
      have hlive : (sub.getD e RegionElement.absent).glo_num v
          ∈ live_ids (mark_subdomain n sub) :=
        (mem_live_sub n sub _).mpr ⟨hg, e, he, v, hv, hm, by rw [c3.1, add_zero]⟩
      have hstrict := below_strict (live_ids (mark_subdomain n sub)) _ (max_glo 0 sub + 1)
        hlive (by omega)
      have hb0 : 0 ≤ below (live_ids (mark_subdomain n sub))
          ((sub.getD e RegionElement.absent).glo_num v) := by unfold below; positivity
      have hnonext : e < n := by
        by_contra hge
        have hd := hsub.extended_degree e he (by omega)
        have hmark := hsub.marks _ hmem hd v hv
        by_cases hin : (sub.getD e RegionElement.absent).glo_num v ∈ interface
        · rw [if_pos hin] at hmark
          exact c3.2.1 ⟨hd, by omega⟩
        · rw [if_neg hin] at hmark
          exact c3.2.2 ⟨by omega, hm, hmark⟩
      have hnot : ¬ ((sub.getD e RegionElement.absent).poly_degree = 1 ∧
          (sub.getD e RegionElement.absent).glo_num v ∈ interface) := by
        rintro ⟨hd, hin⟩
        have hmark := hsub.marks _ hmem hd v hv
        rw [if_pos hin] at hmark
        exact c3.2.1 ⟨hd, by omega⟩
      unfold number_subdomain
      rw [hcount]
      exact ⟨hnot, hnonext, by omega, by omega⟩
  · right; right; left
    exact ⟨c3.2.1, hm, c3.2.2.2.1,
      sub_interface_dof interface n sub num_points work_hst0 hsub hpos hcarried e he v hv
        c3.2.1 hm c3.2.2.2.1⟩
  · right; right; right
    have hnin : (sub.getD e RegionElement.absent).glo_num v ∉ interface := by
      intro hin
      have hd := hsub.extended_degree e he c3.2.1
      have hmark := hsub.marks _ hmem hd v hv
      rw [if_pos hin] at hmark
      omega
    refine ⟨c3.2.1, hnin, ?_⟩
    have hcount := final_dof_count (mark_subdomain n sub) num_points work_hst0 hTM
      (hsub.total.trans hNM.symm) (mark_subdomain_nonneg n sub hsub.glo_nonneg) hmaskM
      e (by rw [hlM]; exact he) v (by rw [f1]; exact hv) (by rw [f5]; exact hm)
      (by rw [mark_subdomain_glo n sub e he, c3.1]; omega)
    unfold number_subdomain
    rw [hcount, mark_subdomain_glo n sub e he, c3.1]
    have hmono := below_mono (live_ids (mark_subdomain n sub))
      (max_glo (max_glo 0 sub) (sub.map (shift_marked (max_glo 0 sub))) + 1)
      ((sub.getD e RegionElement.absent).glo_num v
        + max_glo (max_glo 0 sub) (sub.map (shift_marked (max_glo 0 sub)))) (by omega)
    rw [sub_below interface n sub num_points hsub hpos hcarried _ (by omega) (le_refl _)]
      at hmono
    have hall : interface.toFinset.filter
          (fun i => i + max_glo 0 sub
            < max_glo (max_glo 0 sub) (sub.map (shift_marked (max_glo 0 sub))) + 1)
        = interface.toFinset := by
      apply Finset.filter_true_of_mem
      intro i hi
      obtain ⟨_, _, h3⟩ := (sub_band interface n sub num_points hsub hpos hcarried _).mpr
        ⟨i, List.mem_toFinset.mp hi, rfl⟩
      omega
    rw [hall] at hmono
    omega

theorem max_dof_inner (elem : NodalElement) (n : Nat) :
    ∀ m : Int,
      m ≤ (List.range n).foldl (fun a v => max a (elem.dof_num v)) m ∧
      (∀ v, v < n → elem.dof_num v ≤ (List.range n).foldl (fun a v => max a (elem.dof_num v)) m) ∧
      ((List.range n).foldl (fun a v => max a (elem.dof_num v)) m = m ∨
        ∃ v, v < n ∧
          elem.dof_num v = (List.range n).foldl (fun a v => max a (elem.dof_num v)) m) := by
  induction n with
  | zero => intro m; exact ⟨le_refl _, fun v hv => absurd hv (Nat.not_lt_zero _), Or.inl rfl⟩
  | succ n ih =>
    intro m
    rw [List.range_succ, List.foldl_append]
    simp only [List.foldl_cons, List.foldl_nil]
    obtain ⟨h1, h2, h3⟩ := ih m
    refine ⟨le_trans h1 (le_max_left _ _), ?_, ?_⟩
    · intro v hv
      by_cases hvn : v = n
      · subst hvn; exact le_max_right _ _
      · exact le_trans (h2 v (by omega)) (le_max_left _ _)
    · rcases le_total (elem.dof_num n)
          ((List.range n).foldl (fun a v => max a (elem.dof_num v)) m) with hle | hle
      · rw [max_eq_left hle]
        rcases h3 with h3 | ⟨v, hv, h3⟩
        · exact Or.inl h3
        · exact Or.inr ⟨v, by omega, h3⟩
      · rw [max_eq_right hle]
        exact Or.inr ⟨n, by omega, rfl⟩

theorem max_dof_fold (elements : List NodalElement) :
    ∀ init : Int,
      init ≤ elements.foldl (fun acc elem =>
        (List.range elem.num_points).foldl (fun a v => max a (elem.dof_num v)) acc) init ∧
      (∀ elem ∈ elements, ∀ v, v < elem.num_points →
        elem.dof_num v ≤ elements.foldl (fun acc elem =>
          (List.range elem.num_points).foldl (fun a v => max a (elem.dof_num v)) acc) init) ∧
      (elements.foldl (fun acc elem =>
          (List.range elem.num_points).foldl (fun a v => max a (elem.dof_num v)) acc) init
          = init ∨
        ∃ elem ∈ elements, ∃ v, v < elem.num_points ∧
          elem.dof_num v = elements.foldl (fun acc elem =>
            (List.range elem.num_points).foldl (fun a v => max a (elem.dof_num v)) acc)
            init) := by
  induction elements with
  | nil =>
    intro init
    exact ⟨le_refl _, fun elem he => absurd he (List.not_mem_nil _), Or.inl rfl⟩
  | cons head rest ih =>
    intro init
    rw [List.foldl_cons]
    obtain ⟨a1, a2, a3⟩ := max_dof_inner head head.num_points init
    obtain ⟨b1, b2, b3⟩ := ih
      ((List.range head.num_points).foldl (fun a v => max a (head.dof_num v)) init)
    refine ⟨le_trans a1 b1, ?_, ?_⟩
    · intro elem he v hv
      rcases List.mem_cons.mp he with rfl | he
      · exact le_trans (a2 v hv) b1
      · exact b2 elem he v hv
    · rcases b3 with b3 | ⟨elem, he, v, hv, b3⟩
      · rcases a3 with a3 | ⟨v, hv, a3⟩
        · left; rw [b3, a3]
        · right
          exact ⟨head, List.mem_cons_self _ _, v, hv, by rw [b3, a3]⟩
      · right
        exact ⟨elem, List.mem_cons_of_mem _ he, v, hv, b3⟩

theorem max_dof_eq (elements : List NodalElement) (bound : Int) (h0 : 0 ≤ bound)
    (hle : ∀ elem ∈ elements, ∀ v, v < elem.num_points → elem.dof_num v ≤ bound)
    (hat : bound = 0 ∨ ∃ elem ∈ elements, ∃ v, v < elem.num_points ∧ elem.dof_num v = bound) :
    max_dof elements = bound := by
  obtain ⟨a1, a2, a3⟩ := max_dof_fold elements 0
  unfold max_dof
  apply le_antisymm
  · rcases a3 with a3 | ⟨elem, he, v, hv, a3⟩
    · rw [a3]; exact h0
    · rw [← a3]; exact hle elem he v hv
  · rcases hat with hat | ⟨elem, he, v, hv, hat⟩
    · rw [hat]; exact a1
    · rw [← hat]; exact a2 elem he v hv

theorem number_subdomain_frame (n : Nat) (sub : List RegionElement) (num_points : Nat)
    (work_hst0 : Nat → Int) (hT : Tiled 0 sub) (hN : num_points = total_points sub) :
    (number_subdomain n sub num_points work_hst0).length = sub.length ∧
    ∀ e, e < sub.length →
      ((number_subdomain n sub num_points work_hst0).getD e RegionElement.absent).num_points
        = (sub.getD e RegionElement.absent).num_points := by
  obtain ⟨hTM, hNM, hlM⟩ := mark_subdomain_tiled n sub 0 hT
  unfold number_subdomain
  rw [final_ranking_eq _ num_points work_hst0 hTM (hN.trans hNM.symm)]
  refine ⟨by rw [List.length_map, hlM], ?_⟩
  intro e he
  rw [getD_map_lt _ _ e (by rw [hlM]; exact he)]
  exact (mark_subdomain_frame n sub e he).1

theorem sub_num_dofs (interface : List Int) (n : Nat) (sub : List RegionElement)
    (num_points : Nat) (work_hst0 : Nat → Int)
    (hsub : SubdomainReady interface n sub num_points)
    (hpos : ∀ i ∈ interface, 0 < i)
    (hcarried : ∀ i ∈ interface, ∃ e, e < n ∧ e < sub.length ∧ ∃ v,
      v < (sub.getD e RegionElement.absent).num_points ∧
      (sub.getD e RegionElement.absent).poly_degree = 1 ∧
      0 < (sub.getD e RegionElement.absent).dirichlet_mask v ∧
      (sub.getD e RegionElement.absent).glo_num v = i) :
    max_dof (((number_subdomain n sub num_points work_hst0).take n).map
        (fun el => el.toNodalElement))
      = below (live_ids (mark_subdomain n sub)) (max_glo 0 sub + 1)
        + (interface.toFinset.card : Int) := by
  obtain ⟨hlD, hnpD⟩ := number_subdomain_frame n sub num_points work_hst0 hsub.tiled hsub.total
  obtain ⟨hTM, hNM, hlM⟩ := mark_subdomain_tiled n sub 0 hsub.tiled
  have hK0 : 0 ≤ below (live_ids (mark_subdomain n sub)) (max_glo 0 sub + 1) := by
    unfold below; positivity
  have hmaskM : ∀ elem ∈ mark_subdomain n sub, ∀ v, v < elem.num_points →
      elem.dirichlet_mask v = 0 ∨ elem.dirichlet_mask v = 1 := by
    intro x hx v hv
    obtain ⟨elem, hel, a1, _, a3, _⟩ := mark_subdomain_mem_frame n sub x hx
    rw [a1] at hv
    rw [a3]
    exact hsub.mask_01 elem hel v hv
  apply max_dof_eq
  · omega
  · intro elem' hel' v hv
    obtain ⟨x, hx, rfl⟩ := List.mem_map.mp hel'
    obtain ⟨e, he1, he2, rfl⟩ := mem_take_getD_region _ n x hx
    rw [hlD] at he2
    have hv' : v < (sub.getD e RegionElement.absent).num_points := by
      rw [← hnpD e he2]; exact hv
    rcases sub_dof_cases interface n sub num_points work_hst0 hsub hpos hcarried e he2 v hv'
      with h | h | h | h
    · show ((number_subdomain n sub num_points work_hst0).getD e
        RegionElement.absent).dof_num v ≤ _
      rw [h]
      omega
    · show ((number_subdomain n sub num_points work_hst0).getD e
        RegionElement.absent).dof_num v ≤ _
      omega
    · show ((number_subdomain n sub num_points work_hst0).getD e
        RegionElement.absent).dof_num v ≤ _
      have := below_lt_card interface.toFinset _ (List.mem_toFinset.mpr h.2.2.1)
      omega
    · omega
  · by_cases hI : 0 < interface.toFinset.card
    · right
      obtain ⟨i, hi, hbi⟩ := below_surj interface.toFinset (interface.toFinset.card - 1)
        (by omega)
      obtain ⟨e, he1, he2, v, hv, hd, hm, hg⟩ := hcarried i (List.mem_toFinset.mp hi)
      refine ⟨_, List.mem_map_of_mem _
        (getD_mem_take_region _ n e he1 (by rw [hlD]; exact he2)), v,
        by show v < _; rw [hnpD e he2]; exact hv, ?_⟩
      show ((number_subdomain n sub num_points work_hst0).getD e
        RegionElement.absent).dof_num v = _
      rw [sub_interface_dof interface n sub num_points work_hst0 hsub hpos hcarried e he2 v hv
        hd hm (by rw [hg]; exact List.mem_toFinset.mp hi), hg, hbi]
      omega
    · have hI0 : interface.toFinset.card = 0 := by omega
      rw [hI0]
      by_cases hK : 0 < below (live_ids (mark_subdomain n sub)) (max_glo 0 sub + 1)
      swap
      · left
        push_cast
        omega
      right
      have hcard : 0 < ((live_ids (mark_subdomain n sub)).filter
          (fun u => u < max_glo 0 sub + 1)).card := by
        unfold below at hK
        exact_mod_cast hK
      obtain ⟨u, hu, hbu⟩ := below_surj
        ((live_ids (mark_subdomain n sub)).filter (fun u => u < max_glo 0 sub + 1))
        (((live_ids (mark_subdomain n sub)).filter (fun u => u < max_glo 0 sub + 1)).card - 1)
        (by omega)
      rw [Finset.mem_filter] at hu
      have hbelow : below (live_ids (mark_subdomain n sub)) u
          = below ((live_ids (mark_subdomain n sub)).filter
              (fun u => u < max_glo 0 sub + 1)) u := by
        unfold below
        rw [Finset.filter_filter]
        congr 2
        apply Finset.filter_congr
        intro w _
        constructor
        · intro h; exact ⟨by omega, h⟩
        · intro h; exact h.2
      obtain ⟨hne, e, he, v, hv, hm, hval⟩ := (mem_live_sub n sub u).mp hu.1
      obtain ⟨f1, _, _, _, f5, _⟩ := mark_subdomain_frame n sub e he
      have hM0 := mark_subdomain_nonneg n sub hsub.glo_nonneg _
        (getD_mem _ e (by rw [hlM]; exact he)) v (by rw [f1]; exact hv)
      rw [mark_subdomain_glo n sub e he, hval] at hM0
      have hcount := final_dof_count (mark_subdomain n sub) num_points work_hst0 hTM
        (hsub.total.trans hNM.symm) (mark_subdomain_nonneg n sub hsub.glo_nonneg) hmaskM
        e (by rw [hlM]; exact he) v (by rw [f1]; exact hv) (by rw [f5]; exact hm)
        (by rw [mark_subdomain_glo n sub e he, hval]; omega)
      rw [mark_subdomain_glo n sub e he, hval, hbelow, hbu] at hcount
      have hdof : ((number_subdomain n sub num_points work_hst0).getD e
          RegionElement.absent).dof_num v
          = below (live_ids (mark_subdomain n sub)) (max_glo 0 sub + 1) := by
        unfold number_subdomain
        rw [hcount]
        unfold below
        omega
      have hnonext : e < n := by
        rcases sub_dof_cases interface n sub num_points work_hst0 hsub hpos hcarried e he v hv
          with h | h | h | h
        · omega
        · exact h.2.1
        · have := List.mem_toFinset.mpr h.2.2.1
          rw [Finset.card_eq_zero.mp hI0] at this
          exact absurd this (Finset.not_mem_empty _)
        · rw [hI0] at h
          push_cast at h
          omega
      refine ⟨_, List.mem_map_of_mem _
        (getD_mem_take_region _ n e hnonext (by rw [hlD]; exact he)), v,
        by show v < _; rw [hnpD e he]; exact hv, ?_⟩
      show ((number_subdomain n sub num_points work_hst0).getD e
        RegionElement.absent).dof_num v = _
      rw [hdof]
      push_cast
      omega

theorem rows_flagged_add {α : Type} [Semiring α] (s : QQtState α) (row col : Nat)
    (hs : RowsFlagged s) (h0 : s.work_hst0 row = 0) :
    RowsFlagged (⟨s.QQt_int.add_entry row col 1, vset s.work_hst0 row 1⟩ : QQtState α) := by
  intro r
  have hent : (s.QQt_int.add_entry row col (1 : α)).entries
      = s.QQt_int.entries ++ [(row, col, 1)] := rfl
  simp only [hent, List.filter_append]
  by_cases hr : r = row
  · subst hr
    right
    rcases hs r with ⟨_, h2⟩ | ⟨h1, _⟩
    · refine ⟨by simp [vset], col, ?_⟩
      rw [h2]
      simp
    · omega
  · have hf : ([(row, col, (1 : α))] : List (Nat × Nat × α)).filter (fun t => t.1 = r) = [] := by
      rw [List.filter_eq_nil_iff]
      intro t ht
      rw [List.mem_singleton] at ht
      subst ht
      simpa using Ne.symm hr
    rw [hf, List.append_nil]
    have hv : vset s.work_hst0 row 1 r = s.work_hst0 r := by simp [vset, hr]
    rw [hv]
    exact hs r

theorem guarded_fold {α β : Type} [Semiring α] (row col : β → Nat) (ok : β → Prop)
    (step : QQtState α → β → QQtState α)
    (h1 : ∀ s x, ok x → s.work_hst0 (row x) = 0 →
      step s x = ⟨s.QQt_int.add_entry (row x) (col x) 1, vset s.work_hst0 (row x) 1⟩)
    (h2 : ∀ s x, ¬ (ok x ∧ s.work_hst0 (row x) = 0) → step s x = s) :
    ∀ (l : List β) (s : QQtState α), RowsFlagged s →
      RowsFlagged (l.foldl step s) ∧
      (∀ r, s.work_hst0 r = 1 → (l.foldl step s).work_hst0 r = 1) ∧
      (∀ x ∈ l, ok x → (l.foldl step s).work_hst0 (row x) = 1) ∧
      (∀ r, (l.foldl step s).work_hst0 r = 1 →
        s.work_hst0 r = 1 ∨ ∃ x ∈ l, ok x ∧ row x = r) := by
  intro l
  induction l with
  | nil =>
    intro s hs
    exact ⟨hs, fun r h => h, fun x hx => absurd hx (List.not_mem_nil _), fun r h => Or.inl h⟩
  | cons x l ih =>
    intro s hs
    rw [List.foldl_cons]
    have hone : RowsFlagged (step s x) ∧
        (∀ r, s.work_hst0 r = 1 → (step s x).work_hst0 r = 1) ∧
        (ok x → (step s x).work_hst0 (row x) = 1) ∧
        (∀ r, (step s x).work_hst0 r = 1 → s.work_hst0 r = 1 ∨ (ok x ∧ row x = r)) := by
      by_cases hc : ok x ∧ s.work_hst0 (row x) = 0
      · rw [h1 s x hc.1 hc.2]
        refine ⟨rows_flagged_add s _ _ hs hc.2, ?_, ?_, ?_⟩
        · intro r hr
          by_cases hrr : r = row x
          · simp [vset, hrr]
          · simp [vset, hrr, hr]
        · intro _
          simp [vset]
        · intro r hr
          by_cases hrr : r = row x
          · exact Or.inr ⟨hc.1, hrr.symm⟩
          · left
            simpa [vset, hrr] using hr
      · rw [h2 s x hc]
        refine ⟨hs, fun r h => h, ?_, fun r h => Or.inl h⟩
        intro hok
        rcases hs (row x) with ⟨h0, _⟩ | ⟨h1', _⟩
        · exact absurd ⟨hok, h0⟩ hc
        · exact h1'
    obtain ⟨a1, a2, a3, a4⟩ := hone
    obtain ⟨b1, b2, b3, b4⟩ := ih (step s x) a1
    refine ⟨b1, fun r h => b2 r (a2 r h), ?_, ?_⟩
    · intro y hy hok
      rcases List.mem_cons.mp hy with rfl | hy
      · exact b2 _ (a3 hok)
      · exact b3 y hy hok
    · intro r hr
      rcases b4 r hr with h | ⟨y, hy, hok, hrow⟩
      · rcases a4 r h with h | ⟨hok, hrow⟩
        · exact Or.inl h
        · exact Or.inr ⟨x, List.mem_cons_self _ _, hok, hrow⟩
      · exact Or.inr ⟨y, List.mem_cons_of_mem _ hy, hok, hrow⟩

theorem guarded_fold_nested {α β γ : Type} [Semiring α] (inner : γ → List β)
    (row col : γ → β → Nat) (ok : γ → β → Prop)
    (step : γ → QQtState α → β → QQtState α)
    (h1 : ∀ g s x, ok g x → s.work_hst0 (row g x) = 0 →
      step g s x = ⟨s.QQt_int.add_entry (row g x) (col g x) 1, vset s.work_hst0 (row g x) 1⟩)
    (h2 : ∀ g s x, ¬ (ok g x ∧ s.work_hst0 (row g x) = 0) → step g s x = s) :
    ∀ (l : List γ) (s : QQtState α), RowsFlagged s →
      RowsFlagged (l.foldl (fun s g => (inner g).foldl (step g) s) s) ∧
      (∀ r, s.work_hst0 r = 1 →
        (l.foldl (fun s g => (inner g).foldl (step g) s) s).work_hst0 r = 1) ∧
      (∀ g ∈ l, ∀ x ∈ inner g, ok g x →
        (l.foldl (fun s g => (inner g).foldl (step g) s) s).work_hst0 (row g x) = 1) ∧
      (∀ r, (l.foldl (fun s g => (inner g).foldl (step g) s) s).work_hst0 r = 1 →
        s.work_hst0 r = 1 ∨ ∃ g ∈ l, ∃ x ∈ inner g, ok g x ∧ row g x = r) := by
  intro l
  induction l with
  | nil =>
    intro s hs
    exact ⟨hs, fun r h => h, fun g hg => absurd hg (List.not_mem_nil _), fun r h => Or.inl h⟩
  | cons g l ih =>
    intro s hs
    rw [List.foldl_cons]
    obtain ⟨a1, a2, a3, a4⟩ := guarded_fold (row g) (col g) (ok g) (step g) (h1 g) (h2 g)
      (inner g) s hs
    obtain ⟨b1, b2, b3, b4⟩ := ih ((inner g).foldl (step g) s) a1
    refine ⟨b1, fun r h => b2 r (a2 r h), ?_, ?_⟩
    · intro g' hg' x hx hok
      rcases List.mem_cons.mp hg' with rfl | hg'
      · exact b2 _ (a3 x hx hok)
      · exact b3 g' hg' x hx hok
    · intro r hr
      rcases b4 r hr with h | ⟨g', hg', x, hx, hok, hrow⟩
      · rcases a4 r h with h | ⟨x, hx, hok, hrow⟩
        · exact Or.inl h
        · exact Or.inr ⟨g, List.mem_cons_self _ _, x, hx, hok, hrow⟩
      · exact Or.inr ⟨g', List.mem_cons_of_mem _ hg', x, hx, hok, hrow⟩

theorem unguarded_fold {α : Type} [Semiring α] (base : Nat) (col : Nat → Nat)
    (step : QQtState α → Nat → QQtState α)
    (h1 : ∀ s i, step s i = ⟨s.QQt_int.add_entry (base + i) (col i) 1,
      vset s.work_hst0 (base + i) 1⟩) :
    ∀ (l : List Nat) (s : QQtState α), l.Nodup → RowsFlagged s →
      (∀ i ∈ l, s.work_hst0 (base + i) = 0) →
      RowsFlagged (l.foldl step s) ∧
      (∀ r, (l.foldl step s).work_hst0 r = 1 ↔
        (s.work_hst0 r = 1 ∨ ∃ i ∈ l, base + i = r)) := by
  intro l
  induction l with
  | nil =>
    intro s _ hs _
    refine ⟨hs, fun r => ⟨fun h => Or.inl h, fun h => ?_⟩⟩
    rcases h with h | ⟨i, hi, _⟩
    · exact h
    · exact absurd hi (List.not_mem_nil _)
  | cons i l ih =>
    intro s hnd hs h0
    rw [List.foldl_cons, h1]
    have hnd' := List.nodup_cons.mp hnd
    obtain ⟨b1, b2⟩ := ih ⟨s.QQt_int.add_entry (base + i) (col i) 1,
        vset s.work_hst0 (base + i) 1⟩ hnd'.2
      (rows_flagged_add s _ _ hs (h0 i (List.mem_cons_self _ _)))
      (by
        intro j hj
        have hne : j ≠ i := fun h => hnd'.1 (h ▸ hj)
        have : base + j ≠ base + i := by omega
        simp only [vset, if_neg this]
        exact h0 j (List.mem_cons_of_mem _ hj))
    refine ⟨b1, ?_⟩
    intro r
    rw [b2 r]
    constructor
    · rintro (h | ⟨j, hj, hr⟩)
      · by_cases hrr : r = base + i
        · exact Or.inr ⟨i, List.mem_cons_self _ _, hrr.symm⟩
        · left
          simpa [vset, hrr] using h
      · exact Or.inr ⟨j, List.mem_cons_of_mem _ hj, hr⟩
    · rintro (h | ⟨j, hj, hr⟩)
      · left
        by_cases hrr : r = base + i
        · simp [vset, hrr]
        · simp [vset, hrr, h]
      · rcases List.mem_cons.mp hj with rfl | hj
        · left
          simp [vset, hr.symm]
        · exact Or.inr ⟨j, hj, hr⟩

theorem qqt_rows_single {α : Type} [Semiring α] (c : Composite) (hc : QQtCovered c)
    (r : Nat) (hr : r < c.sub_num_extended_dofs + c.sup_num_extended_dofs) :
    ∃ col, (assemble_QQt_int c : CSR_Matrix α).entries.filter (fun t => t.1 = r)
        = [(r, col, 1)] ∧
      ∀ x : Nat → α, (assemble_QQt_int c : CSR_Matrix α).multiply x r = x col := by
  obtain ⟨H1, H3, H2, H5⟩ := hc
  -- the five loops
  have g0 : RowsFlagged (⟨CSR_Matrix.empty (c.sub_num_extended_dofs + c.sup_num_extended_dofs)
      (c.sub_num_extended_dofs + c.sup_num_extended_dofs), fun _ => 0⟩ : QQtState α) := by
    intro r
    left
    exact ⟨rfl, rfl⟩
  obtain ⟨g1, f1⟩ := unguarded_fold 0 (fun i => i) qqt_owned_step
    (by intro s i; simp [qqt_owned_step]) (List.range c.sub_num_dofs) _
    (List.nodup_range _) g0 (by intro i _; rfl)
  obtain ⟨g2, m2, p2, o2⟩ := guarded_fold_nested (α := α)
    (fun e => List.range (c.subdomain_region.getD e NodalElement.absent).num_points)
    (fun e v => ((c.subdomain_region.getD e NodalElement.absent).dof_num v - 1).toNat)
    (fun e v => ((c.sub_num_extended_dofs : Int) +
          c.dof_sup (c.dof_num_coarse ((c.subdomain_region.getD e NodalElement.absent).id
            * c.num_vertices + v) - 1).toNat - 1).toNat)
    (fun e v => 0 < (c.subdomain_region.getD e NodalElement.absent).dof_num v)
    (fun e => qqt_extended_step c (c.subdomain_region.getD e NodalElement.absent))
    (by
      intro e s v h1 h2
      simp only [qqt_extended_step]
      rw [if_pos ⟨h1, h2⟩])
    (by
      intro e s v h
      simp only [qqt_extended_step]
      rw [if_neg h])
    (List.range' c.num_subdomain_elems
      (c.num_subdomain_extended_elems - c.num_subdomain_elems)) _ g1
  have z2 : ∀ i, (((List.range' c.num_subdomain_elems
      (c.num_subdomain_extended_elems - c.num_subdomain_elems)).foldl
      (fun s e =>
        (List.range (c.subdomain_region.getD e NodalElement.absent).num_points).foldl
          (qqt_extended_step c (c.subdomain_region.getD e NodalElement.absent)) s)
        ((List.range c.sub_num_dofs).foldl qqt_owned_step
          (⟨CSR_Matrix.empty (c.sub_num_extended_dofs + c.sup_num_extended_dofs)
            (c.sub_num_extended_dofs + c.sup_num_extended_dofs), fun _ => 0⟩ : QQtState α))
      ).work_hst0 (c.sub_num_extended_dofs + i)) = 0 := by
    intro i
    rcases g2 (c.sub_num_extended_dofs + i) with ⟨h, _⟩ | ⟨h, _⟩
    · exact h
    · exfalso
      rcases o2 _ h with h | ⟨e, he, v, hv, hok, hrow⟩
      · rcases (f1 _).mp h with h | ⟨j, hj, hjr⟩
        · have h0 : (0 : Nat) = 1 := h
          omega
        · have := List.mem_range.mp hj
          omega
      · rw [List.mem_range'_1] at he
        have hv := List.mem_range.mp hv
        have := H3 e v (by omega) (by omega) hv
        omega
  obtain ⟨g3, f3⟩ := unguarded_fold c.sub_num_extended_dofs
    (fun i => ((c.sub_num_dofs : Int) - c.num_interface_dofs + i).toNat)
    (qqt_interface_step c) (by intro s i; rfl) (List.range c.num_interface_dofs) _
    (List.nodup_range _) g2 (fun i _ => z2 i)
  obtain ⟨g4, f4⟩ := unguarded_fold c.sub_num_extended_dofs
    (fun i => c.sub_num_extended_dofs + i)
    (qqt_remainder_step c) (by intro s i; rfl)
    (List.range' c.num_interface_dofs (c.sup_num_dofs - c.num_interface_dofs)) _
    (List.nodup_range' _ _) g3 (by
      intro i hi
      rw [List.mem_range'_1] at hi
      rcases g3 (c.sub_num_extended_dofs + i) with ⟨h, _⟩ | ⟨h, _⟩
      · exact h
      · exfalso
        rcases (f3 _).mp h with h | ⟨j, hj, hjr⟩
        · rw [z2 i] at h
          exact absurd h (by decide)
        · have := List.mem_range.mp hj
          omega)
  obtain ⟨g5, m5, p5, _⟩ := guarded_fold_nested (α := α)
    (fun e => List.range (c.superdomain_region.getD e NodalElement.absent).num_points)
    (fun e v => ((c.sub_num_extended_dofs : Int) +
        c.dof_sup (c.dof_num_coarse ((c.superdomain_region.getD e NodalElement.absent).id
          * c.num_vertices + v) - 1).toNat - 1).toNat)
    (fun e v => ((c.subdomain_region.getD
            (c.subdomain_partition (c.superdomain_region.getD e NodalElement.absent).id - 1)
            NodalElement.absent).dof_num v - 1).toNat)
    (fun e v => 0 < c.dof_num_coarse ((c.superdomain_region.getD e NodalElement.absent).id
          * c.num_vertices + v))
    (fun e => qqt_ring_step c (c.superdomain_region.getD e NodalElement.absent)
          (c.subdomain_region.getD
            (c.subdomain_partition (c.superdomain_region.getD e NodalElement.absent).id - 1)
            NodalElement.absent))
    (by
      intro e s v h1 h2
      simp only [qqt_ring_step]
      rw [if_pos h1, if_pos h2])
    (by
      intro e s v h
      simp only [qqt_ring_step]
      by_cases h1 : 0 < c.dof_num_coarse
          ((c.superdomain_region.getD e NodalElement.absent).id * c.num_vertices + v)
      · rw [if_pos h1, if_neg (fun h2 => h ⟨h1, h2⟩)]
      · rw [if_neg h1])
    (List.range' c.num_superdomain_elems
      (c.num_superdomain_extended_elems - c.num_superdomain_elems)) _ g4
  rcases g5 r with ⟨h, _⟩ | ⟨_, col, hcol⟩
  · exfalso
    refine (by omega : ∀ n : Nat, n = 0 → n = 1 → False) _ h ?_
    by_cases ha : r < c.sub_num_dofs
    · apply m5
      apply (f4 _).mpr
      left
      apply (f3 _).mpr
      left
      apply m2
      apply (f1 _).mpr
      right
      exact ⟨r, List.mem_range.mpr ha, by omega⟩
    by_cases hb : r < c.sub_num_extended_dofs
    · apply m5
      apply (f4 _).mpr
      left
      apply (f3 _).mpr
      left
      obtain ⟨e, v, he1, he2, hv, hd⟩ := H2 r (by omega) hb
      have := p2 e (List.mem_range'_1.mpr ⟨he1, by omega⟩) v (List.mem_range.mpr hv)
        (by rw [hd]; omega)
      rw [hd] at this
      simpa using this
    by_cases hd : r - c.sub_num_extended_dofs < c.num_interface_dofs
    · apply m5
      apply (f4 _).mpr
      left
      apply (f3 _).mpr
      right
      exact ⟨r - c.sub_num_extended_dofs, List.mem_range.mpr hd, by omega⟩
    by_cases he : r - c.sub_num_extended_dofs < c.sup_num_dofs
    · apply m5
      apply (f4 _).mpr
      right
      exact ⟨r - c.sub_num_extended_dofs, List.mem_range'_1.mpr ⟨by omega, by omega⟩, by omega⟩
    · obtain ⟨e, v, he1, he2, hv, hpos, hk⟩ := H5 (r - c.sub_num_extended_dofs)
        (by omega) (by omega)
      have := p5 e (List.mem_range'_1.mpr ⟨he1, by omega⟩) v (List.mem_range.mpr hv) hpos
      rw [hk] at this
      have e2 : ((c.sub_num_extended_dofs : Int) + ((r - c.sub_num_extended_dofs : Nat) + 1 : Int)
          - 1).toNat = r := by omega
      rw [e2] at this
      exact this
  · obtain ⟨a1, a2⟩ := assemble_row_single _ r col (1 : α) hcol
    refine ⟨col, a1, ?_⟩
    intro x
    have := a2 x
    rw [one_mul] at this
    exact this

theorem foldl_preserves {σ β : Type} (P : σ → Prop) (f : σ → β → σ)
    (h : ∀ s x, P s → P (f s x)) : ∀ (l : List β) (s : σ), P s → P (l.foldl f s) := by
  intro l
  induction l with
  | nil => exact fun s hs => hs
  | cons x l ih => exact fun s hs => ih (f s x) (h s x hs)

theorem assemble_QQt_int_num_rows {α : Type} [Semiring α] (c : Composite) :
    (assemble_QQt_int c : CSR_Matrix α).num_rows
      = c.sub_num_extended_dofs + c.sup_num_extended_dofs := by
  have h2 : ∀ elem (s : QQtState α) v,
      (qqt_extended_step c elem s v).QQt_int.num_rows = s.QQt_int.num_rows := by
    intro elem s v
    unfold qqt_extended_step
    by_cases h : 0 < elem.dof_num v ∧ s.work_hst0 (elem.dof_num v - 1).toNat = 0
    · rw [if_pos h]
      rfl
    · rw [if_neg h]
  have h5 : ∀ elem slem (s : QQtState α) v,
      (qqt_ring_step c elem slem s v).QQt_int.num_rows = s.QQt_int.num_rows := by
    intro elem slem s v
    unfold qqt_ring_step
    split_ifs <;> rfl
  unfold assemble_QQt_int
  show (QQtState.QQt_int _).num_rows = _
  apply foldl_preserves
    (fun s : QQtState α => s.QQt_int.num_rows
      = c.sub_num_extended_dofs + c.sup_num_extended_dofs)
  · intro s e hs
    apply foldl_preserves
      (fun s : QQtState α => s.QQt_int.num_rows
        = c.sub_num_extended_dofs + c.sup_num_extended_dofs)
    · intro s v hs
      rw [h5]
      exact hs
    · exact hs
  apply foldl_preserves
    (fun s : QQtState α => s.QQt_int.num_rows
      = c.sub_num_extended_dofs + c.sup_num_extended_dofs)
  · exact fun s i hs => hs
  apply foldl_preserves
    (fun s : QQtState α => s.QQt_int.num_rows
      = c.sub_num_extended_dofs + c.sup_num_extended_dofs)
  · exact fun s i hs => hs
  apply foldl_preserves
    (fun s : QQtState α => s.QQt_int.num_rows
      = c.sub_num_extended_dofs + c.sup_num_extended_dofs)
  · intro s e hs
    apply foldl_preserves
      (fun s : QQtState α => s.QQt_int.num_rows
        = c.sub_num_extended_dofs + c.sup_num_extended_dofs)
    · intro s v hs
      rw [h2]
      exact hs
    · exact hs
  apply foldl_preserves
    (fun s : QQtState α => s.QQt_int.num_rows
      = c.sub_num_extended_dofs + c.sup_num_extended_dofs)
  · exact fun s i hs => hs
  rfl

theorem overlap_composite_covered : QQtCovered overlap_composite where
  owned_le := by decide
  extended_le := by
    intro e v h1 h2 hv
    have he : e = 1 := by
      have a : 1 ≤ e := h1
      have b : e < 2 := h2
      omega
    subst he
    have hv4 : v < 4 := hv
    interval_cases v <;> decide
  extended_cover := by
    intro r h1 h2
    have a : 4 ≤ r := h1
    have b : r < 6 := h2
    interval_cases r
    · exact ⟨1, 1, by decide, by decide, by decide, by decide⟩
    · exact ⟨1, 3, by decide, by decide, by decide, by decide⟩
  ring_cover := by
    intro k h1 h2
    have a : 4 ≤ k := h1
    have b : k < 6 := h2
    interval_cases k
    · exact ⟨1, 0, by decide, by decide, by decide, by decide, by decide⟩
    · exact ⟨1, 2, by decide, by decide, by decide, by decide, by decide⟩

/-- C11: under the coverage the numbering provides, `QQt_int` has one row per
slot of the concatenated Subdomain-extended and Superdomain-extended DOF
spaces, every such row holds exactly one stored entry, that entry is `1`, and
every component of `QQt_int` applied to the all-ones vector is `1`. -/
theorem QQt_int_partition_of_unity {α : Type} [Semiring α] (c : Composite)
    (hc : QQtCovered c) :
    (assemble_QQt_int c : CSR_Matrix α).num_rows
      = c.sub_num_extended_dofs + c.sup_num_extended_dofs ∧
    ∀ r, r < c.sub_num_extended_dofs + c.sup_num_extended_dofs →
      (∃ col, (assemble_QQt_int c : CSR_Matrix α).entries.filter (fun t => t.1 = r)
        = [(r, col, 1)]) ∧
      (assemble_QQt_int c : CSR_Matrix α).multiply (fun _ => 1) r = 1 := by
  refine ⟨?_, ?_⟩
  · exact assemble_QQt_int_num_rows c
  · intro r hr
    obtain ⟨col, h1, h2⟩ := (qqt_rows_single c hc r hr : ∃ col, (assemble_QQt_int c : CSR_Matrix α).entries.filter
      (fun t => t.1 = r) = [(r, col, 1)] ∧ ∀ x : Nat → α,
      (assemble_QQt_int c : CSR_Matrix α).multiply x r = x col)
    exact ⟨⟨col, h1⟩, h2 _⟩

theorem QQt_int_partition_of_unity_witness :
    QQtCovered overlap_composite ∧
    (assemble_QQt_int overlap_composite : CSR_Matrix Int).num_rows = 6 + 6 ∧
    ∀ r, r < 6 + 6 →
      (∃ col, (assemble_QQt_int overlap_composite : CSR_Matrix Int).entries.filter
        (fun t => t.1 = r) = [(r, col, 1)]) ∧
      (assemble_QQt_int overlap_composite : CSR_Matrix Int).multiply (fun _ => 1) r = 1 :=
  ⟨overlap_composite_covered, QQt_int_partition_of_unity overlap_composite
    overlap_composite_covered⟩

theorem same_control_refl {K Vec : Type} (s : GMRES_State K Vec) : SameControl s s :=
  ⟨rfl, rfl, rfl, rfl, rfl, rfl⟩

theorem same_control_trans {K Vec : Type} {s t u : GMRES_State K Vec}
    (h1 : SameControl s t) (h2 : SameControl t u) : SameControl s u :=
  ⟨h2.1.trans h1.1, h2.2.1.trans h1.2.1, h2.2.2.1.trans h1.2.2.1,
    h2.2.2.2.1.trans h1.2.2.2.1, h2.2.2.2.2.1.trans h1.2.2.2.2.1,
    h2.2.2.2.2.2.trans h1.2.2.2.2.2⟩

theorem gram_schmidt_control {K Vec : Type} [LinearOrderedField K] (ops : Krylov_Ops K Vec)
    (j : Nat) (s : GMRES_State K Vec) : SameControl s (gram_schmidt ops j s) := by
  unfold gram_schmidt
  apply foldl_preserves (SameControl s)
  · exact fun t i ht => ht
  apply foldl_preserves (SameControl s)
  · exact fun t i ht => ht
  exact same_control_refl s

theorem givens_column_control {K Vec : Type} [LinearOrderedField K]
    (j : Nat) (s : GMRES_State K Vec) :
    SameControl s (givens_column j s) ∧ (givens_column j s).inner_products = s.inner_products ∧
      (givens_column j s).q_k = s.q_k := by
  unfold givens_column
  apply foldl_preserves
    (fun t => SameControl s t ∧ t.inner_products = s.inner_products ∧ t.q_k = s.q_k)
  · exact fun t i ht => ht
  exact ⟨same_control_refl s, rfl, rfl⟩

theorem back_substitution_control {K Vec : Type} [LinearOrderedField K]
    (bound : Nat) (s : GMRES_State K Vec) : SameControl s (back_substitution bound s) := by
  unfold back_substitution
  apply foldl_preserves (SameControl s)
  · exact fun t i ht => ht
  exact same_control_refl s

theorem sum_arnoldi_control {K Vec : Type} [LinearOrderedField K] (ops : Krylov_Ops K Vec)
    (bound : Nat) (s : GMRES_State K Vec) : SameControl s (sum_arnoldi ops bound s) := by
  unfold sum_arnoldi
  apply foldl_preserves (SameControl s)
  · exact fun t i ht => ht
  exact same_control_refl s

theorem restart_residual_control {K Vec : Type} [LinearOrderedField K] (ops : Krylov_Ops K Vec)
    (r_0_norm : K) (s : GMRES_State K Vec) : SameControl s (restart_residual ops r_0_norm s) := by
  unfold restart_residual
  by_cases h : 0 < s.iter
  · simp only [if_pos h]
    exact same_control_refl s
  · simp only [if_neg h]
    exact same_control_refl s

/-! ### Gram-Schmidt step of the GMRES driver -/

theorem gram_schmidt_products {K Vec : Type} [LinearOrderedField K] (ops : Krylov_Ops K Vec)
    (j : Nat) (s : GMRES_State K Vec) (n : Nat) :
    ((List.range n).foldl
      (fun s i =>
        { s with H := set2 s.H i j (ops.assembled_inner_product s.q_k (s.V i)),
                 inner_products := s.inner_products + 1 })
      s).inner_products = s.inner_products + n ∧
    ((List.range n).foldl
      (fun s i =>
        { s with H := set2 s.H i j (ops.assembled_inner_product s.q_k (s.V i)),
                 inner_products := s.inner_products + 1 })
      s).q_k = s.q_k ∧
    ((List.range n).foldl
      (fun s i =>
        { s with H := set2 s.H i j (ops.assembled_inner_product s.q_k (s.V i)),
                 inner_products := s.inner_products + 1 })
      s).V = s.V ∧
    ∀ i, ((List.range n).foldl
      (fun s i =>
        { s with H := set2 s.H i j (ops.assembled_inner_product s.q_k (s.V i)),
                 inner_products := s.inner_products + 1 })
      s).H i j = if i < n then ops.assembled_inner_product s.q_k (s.V i) else s.H i j := by
  induction n with
  | zero => simp
  | succ n ih =>
    obtain ⟨h1, h2, h3, h4⟩ := ih
    rw [List.range_succ, List.foldl_append]
    simp only [List.foldl_cons, List.foldl_nil]
    refine ⟨by rw [h1]; omega, h2, h3, ?_⟩
    intro i
    rw [h2, h3]
    by_cases hi : i = n
    · subst hi
      simp [set2]
    · have h5 := h4 i
      simp only [set2, hi, false_and, if_false]
      rw [h5]
      by_cases hlt : i < n
      · rw [if_pos hlt, if_pos (by omega)]
      · rw [if_neg hlt, if_neg (by omega)]

theorem gram_schmidt_subtract {K Vec : Type} [LinearOrderedField K] (ops : Krylov_Ops K Vec)
    (j : Nat) (s : GMRES_State K Vec) (n : Nat) :
    ((List.range n).foldl
      (fun s i =>
        { s with q_k := ops.vector_vector_addition 1 s.q_k (- s.H i j) (s.V i) })
      s).inner_products = s.inner_products ∧
    ((List.range n).foldl
      (fun s i =>
        { s with q_k := ops.vector_vector_addition 1 s.q_k (- s.H i j) (s.V i) })
      s).H = s.H ∧
    ((List.range n).foldl
      (fun s i =>
        { s with q_k := ops.vector_vector_addition 1 s.q_k (- s.H i j) (s.V i) })
      s).V = s.V ∧
    ((List.range n).foldl
      (fun s i =>
        { s with q_k := ops.vector_vector_addition 1 s.q_k (- s.H i j) (s.V i) })
      s).q_k = (List.range n).foldl
        (fun q i => ops.vector_vector_addition 1 q (- s.H i j) (s.V i)) s.q_k := by
  induction n with
  | zero => simp
  | succ n ih =>
    obtain ⟨h1, h2, h3, h4⟩ := ih
    rw [List.range_succ, List.foldl_append, List.foldl_append]
    simp only [List.foldl_cons, List.foldl_nil]
    exact ⟨h1, h2, h3, by rw [h4, h2, h3]⟩

theorem gram_schmidt_spec {K Vec : Type} [LinearOrderedField K] (ops : Krylov_Ops K Vec)
    (j : Nat) (s : GMRES_State K Vec) :
    (gram_schmidt ops j s).inner_products = s.inner_products + (j + 1) ∧
    (gram_schmidt ops j s).q_k = (List.range (j + 1)).foldl
      (fun q i => ops.vector_vector_addition 1 q
        (- ops.assembled_inner_product s.q_k (s.V i)) (s.V i)) s.q_k := by
  obtain ⟨a1, a2, a3, a4⟩ := gram_schmidt_products ops j s (j + 1)
  obtain ⟨b1, b2, b3, b4⟩ := gram_schmidt_subtract ops j
    ((List.range (j + 1)).foldl
      (fun s i =>
        { s with H := set2 s.H i j (ops.assembled_inner_product s.q_k (s.V i)),
                 inner_products := s.inner_products + 1 })
      s) (j + 1)
  unfold gram_schmidt
  refine ⟨by rw [b1, a1], ?_⟩
  rw [b4, a2, a3]
  apply List.foldl_ext
  intro q i hi
  rw [a4 i, if_pos (List.mem_range.mp hi)]

/-- C24: in an Arnoldi step `j` the driver calls the weighted inner product
`j + 1` times, once per basis vector and all on the vector `q_k` as the
operator left it, and subtracts each projection once before the norm
`alpha_j` is taken: one pass, not the two passes (`2 (j + 1)` inner
products) that the comment on line 4384 announces. -/
theorem gram_schmidt_single_pass {K Vec : Type} [LinearOrderedField K]
    (ops : Krylov_Ops K Vec) (j : Nat) (s : GMRES_State K Vec) :
    (arnoldi_vector ops j s).inner_products = s.inner_products + (j + 1) ∧
    (arnoldi_vector ops j s).inner_products ≠ s.inner_products + 2 * (j + 1) ∧
    (gram_schmidt ops j s).q_k = (List.range (j + 1)).foldl
      (fun q i => ops.vector_vector_addition 1 q
        (- ops.assembled_inner_product s.q_k (s.V i)) (s.V i)) s.q_k ∧
    (arnoldi_vector ops j s).alpha_j = ops.residual_norm
      (gram_schmidt ops j
        { s with iter := s.iter + 1, Z := vset s.Z j (ops.preconditioner (s.V j)),
                 q_k := ops.stiffness_matrix (ops.preconditioner (s.V j)) }).q_k := by
  have h1 : (arnoldi_vector ops j s).inner_products = s.inner_products + (j + 1) := by
    unfold arnoldi_vector
    show (givens_column j _).inner_products = _
    rw [(givens_column_control j _).2.1, (gram_schmidt_spec ops j _).1]
  refine ⟨h1, by rw [h1]; omega, (gram_schmidt_spec ops j s).2, ?_⟩
  unfold arnoldi_vector
  show ops.residual_norm (givens_column j _).q_k = _
  rw [(givens_column_control j _).2.2]

/-! ### Exits of the Krylov drivers -/

theorem reported_snoc {K : Type} [LinearOrderedField K] (cfg : Krylov_Settings K) (r_0_norm : K)
    (iter : Nat) (history : List (Nat × K)) (n : K)
    (h : Reported cfg r_0_norm iter history) (hn : below_tolerance cfg r_0_norm n = false) :
    Reported cfg r_0_norm (iter + 1) (history ++ [(iter + 1, n)]) := by
  obtain ⟨h1, h2⟩ := h
  refine ⟨?_, ?_⟩
  · rw [List.map_append, h1, List.range'_concat]
    simp [Nat.add_comm]
  · intro e he
    rcases List.mem_append.mp he with he | he
    · exact h2 e he
    · rw [List.mem_singleton] at he
      subst he
      exact hn

theorem fcg_loop_stops {K Vec : Type} [LinearOrderedField K] (ops : Krylov_Ops K Vec)
    (cfg : Krylov_Settings K) (r_0_norm : K) :
    ∀ (fuel : Nat) (s : FCG_State K Vec), Reported cfg r_0_norm s.iter s.history →
      s.iter < cfg.max_iterations → cfg.max_iterations - s.iter ≤ fuel →
      ∃ t, fcg_loop ops cfg r_0_norm fuel s = some t ∧ 1 ≤ t.iter ∧
        t.iter ≤ cfg.max_iterations ∧ StoppedOn cfg r_0_norm t.iter t.history ∧
        t.u_l = s.u_l ∧ t.num_iterations = s.num_iterations := by
  intro fuel
  induction fuel with
  | zero =>
    intro s _ h1 h2
    omega
  | succ fuel ih =>
    intro s hrep hlt hfuel
    have hi : (fcg_projection ops cfg r_0_norm s).iter = s.iter + 1 := rfl
    have hh : (fcg_projection ops cfg r_0_norm s).history
        = s.history ++ [(s.iter + 1, (fcg_projection ops cfg r_0_norm s).r_norm)] := rfl
    have hstop : (below_tolerance cfg r_0_norm (fcg_projection ops cfg r_0_norm s).r_norm = true
        ∨ (fcg_projection ops cfg r_0_norm s).iter = cfg.max_iterations) →
        StoppedOn cfg r_0_norm (fcg_projection ops cfg r_0_norm s).iter
          (fcg_projection ops cfg r_0_norm s).history := by
      intro h
      refine ⟨s.history, (fcg_projection ops cfg r_0_norm s).r_norm, ?_, ?_, h⟩
      · rw [hh, hi]
      · rw [hi, Nat.add_sub_cancel]
        exact hrep
    rw [fcg_loop, if_pos hlt]
    by_cases hb : below_tolerance cfg r_0_norm (fcg_projection ops cfg r_0_norm s).r_norm = true
    · rw [if_pos hb]
      exact ⟨_, rfl, by omega, by omega, hstop (Or.inl hb), rfl, rfl⟩
    · rw [if_neg hb]
      by_cases hm : (fcg_projection ops cfg r_0_norm s).iter = cfg.max_iterations
      · rw [if_pos hm]
        exact ⟨_, rfl, by omega, by omega, hstop (Or.inr hm), rfl, rfl⟩
      · rw [if_neg hm]
        have hb2 : below_tolerance cfg r_0_norm (fcg_projection ops cfg r_0_norm s).r_norm
            = false := by
          simpa using hb
        obtain ⟨t, h1, h2, h3, h4, h5, h6⟩ := ih
          (fcg_search_update ops (fcg_projection ops cfg r_0_norm s))
          (by
            show Reported cfg r_0_norm (s.iter + 1)
              (s.history ++ [(s.iter + 1, (fcg_projection ops cfg r_0_norm s).r_norm)])
            exact reported_snoc cfg r_0_norm _ _ _ hrep hb2)
          (by
            show s.iter + 1 < cfg.max_iterations
            omega)
          (by
            show cfg.max_iterations - (s.iter + 1) ≤ fuel
            omega)
        exact ⟨t, h1, h2, h3, h4, h5, h6⟩

theorem arnoldi_vector_control {K Vec : Type} [LinearOrderedField K] (ops : Krylov_Ops K Vec)
    (j : Nat) (s : GMRES_State K Vec) :
    (arnoldi_vector ops j s).iter = s.iter + 1 ∧
    (arnoldi_vector ops j s).history = s.history ∧
    (arnoldi_vector ops j s).converged = s.converged ∧
    (arnoldi_vector ops j s).u_l = s.u_l ∧
    (arnoldi_vector ops j s).num_iterations = s.num_iterations := by
  obtain ⟨a1, a2, a3, a4, a5, _⟩ := same_control_trans
    (gram_schmidt_control ops j
      { s with iter := s.iter + 1, Z := vset s.Z j (ops.preconditioner (s.V j)),
               q_k := ops.stiffness_matrix (ops.preconditioner (s.V j)) })
    (givens_column_control j _).1
  exact ⟨a1, a2, a3, a4, a5⟩

theorem gmres_stopped_of_control {K Vec : Type} [LinearOrderedField K]
    (cfg : Krylov_Settings K) (r_0_norm : K) (s t : GMRES_State K Vec)
    (h : SameControl s t) (hs : GmresStopped cfg r_0_norm s) : GmresStopped cfg r_0_norm t := by
  obtain ⟨a1, a2, a3, _, _, a6⟩ := h
  unfold GmresStopped at hs ⊢
  rw [a1, a2, a3, a6]
  exact hs

theorem arnoldi_step_cases {K Vec : Type} [LinearOrderedField K] (ops : Krylov_Ops K Vec)
    (cfg : Krylov_Settings K) (r_0_norm : K) (j : Nat) (s : GMRES_State K Vec)
    (hrep : Reported cfg r_0_norm s.iter s.history) (hlt : s.iter < cfg.max_iterations) :
    (arnoldi_step ops cfg r_0_norm j s).1.u_l = s.u_l ∧
    (arnoldi_step ops cfg r_0_norm j s).1.num_iterations = s.num_iterations ∧
    (arnoldi_step ops cfg r_0_norm j s).1.iter = s.iter + 1 ∧
    (((arnoldi_step ops cfg r_0_norm j s).2 = true ∧
        GmresStopped cfg r_0_norm (arnoldi_step ops cfg r_0_norm j s).1) ∨
      ((arnoldi_step ops cfg r_0_norm j s).2 = false ∧
        (arnoldi_step ops cfg r_0_norm j s).1.converged = s.converged ∧
        Reported cfg r_0_norm (arnoldi_step ops cfg r_0_norm j s).1.iter
          (arnoldi_step ops cfg r_0_norm j s).1.history ∧
        (arnoldi_step ops cfg r_0_norm j s).1.iter < cfg.max_iterations)) := by
  obtain ⟨a1, a2, a3, a4, a5⟩ := arnoldi_vector_control ops j s
  have g1 : (givens_update ops cfg r_0_norm j (arnoldi_vector ops j s)).iter = s.iter + 1 := a1
  have g2 : (givens_update ops cfg r_0_norm j (arnoldi_vector ops j s)).history
      = s.history ++ [(s.iter + 1,
          (givens_update ops cfg r_0_norm j (arnoldi_vector ops j s)).r_norm)] := by
    show (arnoldi_vector ops j s).history ++ [((arnoldi_vector ops j s).iter, _)] = _
    rw [a1, a2]
    rfl
  have g3 : (givens_update ops cfg r_0_norm j (arnoldi_vector ops j s)).converged
      = s.converged := a3
  have g4 : (givens_update ops cfg r_0_norm j (arnoldi_vector ops j s)).u_l = s.u_l := a4
  have g5 : (givens_update ops cfg r_0_norm j (arnoldi_vector ops j s)).num_iterations
      = s.num_iterations := a5
  have hstop : (below_tolerance cfg r_0_norm
        (givens_update ops cfg r_0_norm j (arnoldi_vector ops j s)).r_norm = true
      ∨ s.iter + 1 = cfg.max_iterations) →
      StoppedOn cfg r_0_norm (s.iter + 1)
        (givens_update ops cfg r_0_norm j (arnoldi_vector ops j s)).history := by
    intro h
    refine ⟨s.history, _, g2, ?_, h⟩
    rw [Nat.add_sub_cancel]
    exact hrep
  unfold arnoldi_step
  by_cases h0 : |(arnoldi_vector ops j s).alpha_j| = 0
  · rw [if_pos h0]
    refine ⟨a4, a5, a1, Or.inl ⟨rfl, rfl, ?_, ?_, Or.inr ⟨h0, ?_⟩⟩⟩
    · show 1 ≤ (arnoldi_vector ops j s).iter
      omega
    · show (arnoldi_vector ops j s).iter ≤ cfg.max_iterations
      omega
    · show Reported cfg r_0_norm ((arnoldi_vector ops j s).iter - 1)
        (arnoldi_vector ops j s).history
      rw [a1, a2, Nat.add_sub_cancel]
      exact hrep
  · rw [if_neg h0]
    by_cases hb : below_tolerance cfg r_0_norm
        (givens_update ops cfg r_0_norm j (arnoldi_vector ops j s)).r_norm = true
    · rw [if_pos hb]
      refine ⟨g4, g5, g1, Or.inl ⟨rfl, rfl, ?_, ?_, Or.inl ?_⟩⟩
      · show 1 ≤ (givens_update ops cfg r_0_norm j (arnoldi_vector ops j s)).iter
        omega
      · show (givens_update ops cfg r_0_norm j (arnoldi_vector ops j s)).iter
          ≤ cfg.max_iterations
        omega
      · show StoppedOn cfg r_0_norm
          (givens_update ops cfg r_0_norm j (arnoldi_vector ops j s)).iter
          (givens_update ops cfg r_0_norm j (arnoldi_vector ops j s)).history
        rw [g1]
        exact hstop (Or.inl hb)
    · rw [if_neg hb]
      by_cases hm : cfg.max_iterations
          ≤ (givens_update ops cfg r_0_norm j (arnoldi_vector ops j s)).iter
      · rw [if_pos hm]
        refine ⟨g4, g5, g1, Or.inl ⟨rfl, rfl, ?_, ?_, Or.inl ?_⟩⟩
        · show 1 ≤ (givens_update ops cfg r_0_norm j (arnoldi_vector ops j s)).iter
          omega
        · show (givens_update ops cfg r_0_norm j (arnoldi_vector ops j s)).iter
            ≤ cfg.max_iterations
          omega
        · show StoppedOn cfg r_0_norm
            (givens_update ops cfg r_0_norm j (arnoldi_vector ops j s)).iter
            (givens_update ops cfg r_0_norm j (arnoldi_vector ops j s)).history
          rw [g1]
          exact hstop (Or.inr (by omega))
      · rw [if_neg hm]
        have hb2 : below_tolerance cfg r_0_norm
            (givens_update ops cfg r_0_norm j (arnoldi_vector ops j s)).r_norm = false := by
          simpa using hb
        refine ⟨g4, g5, g1, Or.inr ⟨rfl, g3, ?_, ?_⟩⟩
        · show Reported cfg r_0_norm
            (givens_update ops cfg r_0_norm j (arnoldi_vector ops j s)).iter
            (givens_update ops cfg r_0_norm j (arnoldi_vector ops j s)).history
          rw [g1, g2]
          exact reported_snoc cfg r_0_norm _ _ _ hrep hb2
        · show (givens_update ops cfg r_0_norm j (arnoldi_vector ops j s)).iter
            < cfg.max_iterations
          omega

theorem arnoldi_loop_cases {K Vec : Type} [LinearOrderedField K] (ops : Krylov_Ops K Vec)
    (cfg : Krylov_Settings K) (r_0_norm : K) :
    ∀ (n j : Nat) (s : GMRES_State K Vec), Reported cfg r_0_norm s.iter s.history →
      s.converged = false → s.iter < cfg.max_iterations →
      (arnoldi_loop ops cfg r_0_norm n j s).1.u_l = s.u_l ∧
      (arnoldi_loop ops cfg r_0_norm n j s).1.num_iterations = s.num_iterations ∧
      (GmresStopped cfg r_0_norm (arnoldi_loop ops cfg r_0_norm n j s).1 ∨
        ((arnoldi_loop ops cfg r_0_norm n j s).1.converged = false ∧
          Reported cfg r_0_norm (arnoldi_loop ops cfg r_0_norm n j s).1.iter
            (arnoldi_loop ops cfg r_0_norm n j s).1.history ∧
          (arnoldi_loop ops cfg r_0_norm n j s).1.iter < cfg.max_iterations ∧
          (arnoldi_loop ops cfg r_0_norm n j s).1.iter = s.iter + n)) := by
  intro n
  induction n with
  | zero =>
    intro j s hrep hc hlt
    exact ⟨rfl, rfl, Or.inr ⟨hc, hrep, hlt, rfl⟩⟩
  | succ n ih =>
    intro j s hrep hc hlt
    obtain ⟨b1, b2, b3, b4⟩ := arnoldi_step_cases ops cfg r_0_norm j s hrep hlt
    rw [arnoldi_loop]
    rcases b4 with ⟨c1, c2⟩ | ⟨c1, c2, c3, c4⟩
    · rw [if_pos c1]
      exact ⟨b1, b2, Or.inl c2⟩
    · rw [if_neg (by rw [c1]; decide)]
      obtain ⟨d1, d2, d3⟩ := ih (j + 1) _ c3 (c2.trans hc) c4
      refine ⟨d1.trans b1, d2.trans b2, ?_⟩
      rcases d3 with d3 | ⟨e1, e2, e3, e4⟩
      · exact Or.inl d3
      · exact Or.inr ⟨e1, e2, e3, by rw [e4, b3]; omega⟩

theorem gmres_cycle_cases {K Vec : Type} [LinearOrderedField K] (ops : Krylov_Ops K Vec)
    (cfg : Krylov_Settings K) (r_0_norm : K) (s : GMRES_State K Vec)
    (hrep : Reported cfg r_0_norm s.iter s.history)
    (hc : s.converged = false) (hlt : s.iter < cfg.max_iterations) :
    (gmres_cycle ops cfg r_0_norm s).u_l = s.u_l ∧
    (gmres_cycle ops cfg r_0_norm s).num_iterations = s.num_iterations ∧
    (GmresStopped cfg r_0_norm (gmres_cycle ops cfg r_0_norm s) ∨
      ((gmres_cycle ops cfg r_0_norm s).converged = false ∧
        Reported cfg r_0_norm (gmres_cycle ops cfg r_0_norm s).iter
          (gmres_cycle ops cfg r_0_norm s).history ∧
        (gmres_cycle ops cfg r_0_norm s).iter < cfg.max_iterations ∧
        (gmres_cycle ops cfg r_0_norm s).iter = s.iter + cfg.num_vectors)) := by
  obtain ⟨r1, r2, r3, r4, r5, _⟩ := restart_residual_control ops r_0_norm s
  obtain ⟨b1, b2, b3⟩ := arnoldi_loop_cases ops cfg r_0_norm cfg.num_vectors 0
    (restart_residual ops r_0_norm s) (by rw [r1, r2]; exact hrep) (by rw [r3]; exact hc)
    (by rw [r1]; exact hlt)
  have hsc : SameControl
      (arnoldi_loop ops cfg r_0_norm cfg.num_vectors 0 (restart_residual ops r_0_norm s)).1
      (gmres_cycle ops cfg r_0_norm s) :=
    same_control_trans (back_substitution_control _ _) (sum_arnoldi_control ops _ _)
  have hsc2 := hsc
  obtain ⟨a1, a2, a3, a4, a5, a6⟩ := hsc
  refine ⟨by rw [a4, b1, r4], by rw [a5, b2, r5], ?_⟩
  rcases b3 with b3 | ⟨e1, e2, e3, e4⟩
  · exact Or.inl (gmres_stopped_of_control cfg r_0_norm _ _ hsc2 b3)
  · right
    rw [a1, a2, a3]
    exact ⟨e1, e2, e3, by rw [e4, r1]⟩

theorem gmres_loop_stops {K Vec : Type} [LinearOrderedField K] (ops : Krylov_Ops K Vec)
    (cfg : Krylov_Settings K) (r_0_norm : K) (hnv : 1 ≤ cfg.num_vectors) :
    ∀ (fuel : Nat) (s : GMRES_State K Vec), Reported cfg r_0_norm s.iter s.history →
      s.converged = false → s.iter < cfg.max_iterations →
      cfg.max_iterations - s.iter ≤ fuel →
      ∃ t, gmres_loop ops cfg r_0_norm fuel s = some t ∧ GmresStopped cfg r_0_norm t ∧
        t.u_l = s.u_l ∧ t.num_iterations = s.num_iterations := by
  intro fuel
  induction fuel with
  | zero =>
    intro s _ _ h1 h2
    omega
  | succ fuel ih =>
    intro s hrep hc hlt hfuel
    obtain ⟨b1, b2, b3⟩ := gmres_cycle_cases ops cfg r_0_norm s hrep hc hlt
    rw [gmres_loop, if_pos hlt]
    rcases b3 with b3 | ⟨e1, e2, e3, e4⟩
    · rw [if_pos b3.1]
      exact ⟨_, rfl, b3, b1, b2⟩
    · rw [if_neg (by rw [e1]; decide)]
      obtain ⟨t, h1, h2, h3, h4⟩ := ih
        { gmres_cycle ops cfg r_0_norm s with
          outer := (gmres_cycle ops cfg r_0_norm s).outer + 1 }
        e2 e1 e3
        (by
          show cfg.max_iterations - (gmres_cycle ops cfg r_0_norm s).iter ≤ fuel
          omega)
      exact ⟨t, h1, h2, h3.trans b1, h4.trans b2⟩

theorem gmres_zero_operator_run :
    (generalized_minimum_residual (scalar_ops 0) example_settings 5 gmres_members 1).map
      (fun s => (s.iter, s.converged, s.divisors, s.history, s.H 0 0, s.alpha_j, s.u_l))
      = some (1, true, [1, 0], [], 0, 0, 0) := by
  simp [generalized_minimum_residual, gmres_loop, gmres_cycle, arnoldi_loop, arnoldi_step,
    arnoldi_vector, givens_column, gram_schmidt, restart_residual, back_substitution,
    sum_arnoldi, scalar_ops, example_settings, gmres_members, vset, set2, List.range_succ]

/-- C14: on the one-dimensional system with the zero operator and right-hand
side `1` the guard on `alpha_j` fires at the first inner step (`converged` is
set, `iter` is `1`, no rotation is computed), and the back-substitution that
follows divides `gamma[0]` by `H[0][0]`, which is `0`: the divisors of the
solve are `gamma[0] = 1` and `H[0][0] = 0`. -/
theorem gmres_guard_back_substitution :
    ∃ t, generalized_minimum_residual (scalar_ops 0) example_settings 5 gmres_members 1
        = some t ∧
      t.converged = true ∧ |t.alpha_j| = 0 ∧ t.iter = 1 ∧ t.history = [] ∧
      t.H 0 0 = 0 ∧ t.divisors = [1, t.H 0 0] := by
  obtain ⟨t, h1, h2⟩ := Option.map_eq_some'.mp gmres_zero_operator_run
  simp only [Prod.mk.injEq] at h2
  obtain ⟨a1, a2, a3, a4, a5, a6, _⟩ := h2
  exact ⟨t, h1, a2, by rw [a6]; simp, a1, a4, a5, by rw [a3, a5]⟩

/-- C15, counterexample: with at most five iterations, restart length two and
absolute tolerance one half, GMRES on the one-dimensional system with the zero
operator and right-hand side `1` stops after one iteration, below the cap,
with no residual norm reported, so none below the tolerance; the residual of
the returned iterate has norm `1`. -/
theorem gmres_stop_counterexample :
    ∃ t, generalized_minimum_residual (scalar_ops 0) example_settings 5 gmres_members 1
        = some t ∧
      t.iter = 1 ∧ t.iter < example_settings.max_iterations ∧ t.history = [] ∧
      ¬ StoppedOn example_settings 1 t.iter t.history ∧
      below_tolerance example_settings 1 |1 - 0 * t.u_l| = false := by
  obtain ⟨t, h1, h2⟩ := Option.map_eq_some'.mp gmres_zero_operator_run
  simp only [Prod.mk.injEq] at h2
  obtain ⟨a1, a2, a3, a4, a5, a6, a7⟩ := h2
  refine ⟨t, h1, a1, by rw [a1]; decide, a4, ?_, ?_⟩
  · rintro ⟨h, n, hh, _⟩
    rw [a4] at hh
    simp at hh
  · rw [a7]
    simp [below_tolerance, example_settings]
    norm_num

/-- C15, amended: for every iteration cap of at least one (and restart length
of at least one for GMRES) both drivers return; the conjugate gradient driver
stops at the least iteration whose residual norm is below the tolerance, or
at the cap; GMRES stops at the least iteration whose residual estimate is
below the tolerance, or at the cap, or at an iteration whose new basis vector
has norm exactly zero, for which no estimate is reported; in every case
`1 ≤ iter ≤ max_iterations`, `num_iterations` has grown by `iter` and `u_k`
is written back to `u_l`. -/
theorem krylov_drivers_stop {K Vec : Type} [LinearOrderedField K] (ops : Krylov_Ops K Vec)
    (cfg : Krylov_Settings K) (fuel : Nat) (mem_fcg : FCG_State K Vec)
    (mem_gmres : GMRES_State K Vec) (f_l : Vec)
    (hmax : 1 ≤ cfg.max_iterations) (hnv : 1 ≤ cfg.num_vectors)
    (hfuel : cfg.max_iterations ≤ fuel) :
    (∃ t, flexible_conjugate_gradient ops cfg fuel mem_fcg f_l = some t ∧
      1 ≤ t.iter ∧ t.iter ≤ cfg.max_iterations ∧
      StoppedOn cfg (ops.residual_norm (ops.tree_operator f_l)) t.iter t.history ∧
      t.num_iterations = mem_fcg.num_iterations + t.iter ∧
      t.u_l = ops.copy_to_domain_data mem_fcg.u_l t.u_k) ∧
    (∃ t, generalized_minimum_residual ops cfg fuel mem_gmres f_l = some t ∧
      1 ≤ t.iter ∧ t.iter ≤ cfg.max_iterations ∧
      (StoppedOn cfg
          (ops.residual_norm
            (ops.initialize_arrays mem_gmres.u_k mem_gmres.r_k (ops.tree_operator f_l)).2)
          t.iter t.history ∨
        (|t.alpha_j| = 0 ∧
          Reported cfg
            (ops.residual_norm
              (ops.initialize_arrays mem_gmres.u_k mem_gmres.r_k (ops.tree_operator f_l)).2)
            (t.iter - 1) t.history)) ∧
      t.num_iterations = mem_gmres.num_iterations + t.iter ∧
      t.u_l = ops.copy_to_domain_data mem_gmres.u_l t.u_k) := by
  constructor
  · unfold flexible_conjugate_gradient
    obtain ⟨t, h1, h2, h3, h4, h5, h6⟩ := fcg_loop_stops ops cfg
      (ops.residual_norm (ops.tree_operator f_l)) fuel
      { mem_fcg with
        r_k := ops.tree_operator f_l, u_k := ops.set_to_zero mem_fcg.u_k,
        z_k := ops.preconditioner (ops.tree_operator f_l), iter := 0, divisors := [],
        history := [], p_k := ops.preconditioner (ops.tree_operator f_l) }
      ⟨rfl, fun e he => absurd he (List.not_mem_nil _)⟩ hmax (by
        show cfg.max_iterations - 0 ≤ fuel
        omega)
    refine ⟨{ t with num_iterations := t.num_iterations + t.iter,
                     u_l := ops.copy_to_domain_data t.u_l t.u_k },
      by simp only []; rw [h1]; rfl, h2, h3, h4, ?_, ?_⟩
    · show t.num_iterations + t.iter = _
      rw [h6]
    · show ops.copy_to_domain_data t.u_l t.u_k = _
      rw [h5]
  · unfold generalized_minimum_residual
    obtain ⟨t, h1, ⟨h2, h3, h4, h5⟩, h6, h7⟩ := gmres_loop_stops ops cfg
      (ops.residual_norm
        (ops.initialize_arrays mem_gmres.u_k mem_gmres.r_k (ops.tree_operator f_l)).2) hnv fuel
      { mem_gmres with
        f := ops.tree_operator f_l,
        u_k := (ops.initialize_arrays mem_gmres.u_k mem_gmres.r_k (ops.tree_operator f_l)).1,
        r_k := (ops.initialize_arrays mem_gmres.u_k mem_gmres.r_k (ops.tree_operator f_l)).2,
        converged := false, iter := 0, outer := 0, inner_products := 0, divisors := [],
        history := [] }
      ⟨rfl, fun e he => absurd he (List.not_mem_nil _)⟩ rfl hmax (by
        show cfg.max_iterations - 0 ≤ fuel
        omega)
    refine ⟨{ t with u_l := ops.copy_to_domain_data t.u_l t.u_k,
                     num_iterations := t.num_iterations + t.iter },
      by simp only []; rw [h1]; rfl, h3, h4, h5, ?_, ?_⟩
    · show t.num_iterations + t.iter = _
      rw [h7]
    · show ops.copy_to_domain_data t.u_l t.u_k = _
      rw [h6]

theorem krylov_drivers_stop_witness :
    (1 ≤ example_settings.max_iterations ∧ 1 ≤ example_settings.num_vectors ∧
      example_settings.max_iterations ≤ 5) ∧
    ((∃ t, flexible_conjugate_gradient (scalar_ops 2) example_settings 5 fcg_members 1 = some t ∧
      1 ≤ t.iter ∧ t.iter ≤ example_settings.max_iterations ∧
      StoppedOn example_settings ((scalar_ops 2).residual_norm ((scalar_ops 2).tree_operator 1))
        t.iter t.history ∧
      t.num_iterations = fcg_members.num_iterations + t.iter ∧
      t.u_l = (scalar_ops 2).copy_to_domain_data fcg_members.u_l t.u_k) ∧
    (∃ t, generalized_minimum_residual (scalar_ops 2) example_settings 5 gmres_members 1
        = some t ∧
      1 ≤ t.iter ∧ t.iter ≤ example_settings.max_iterations ∧
      (StoppedOn example_settings
          ((scalar_ops 2).residual_norm
            ((scalar_ops 2).initialize_arrays gmres_members.u_k gmres_members.r_k
              ((scalar_ops 2).tree_operator 1)).2)
          t.iter t.history ∨
        (|t.alpha_j| = 0 ∧
          Reported example_settings
            ((scalar_ops 2).residual_norm
              ((scalar_ops 2).initialize_arrays gmres_members.u_k gmres_members.r_k
                ((scalar_ops 2).tree_operator 1)).2)
            (t.iter - 1) t.history)) ∧
      t.num_iterations = gmres_members.num_iterations + t.iter ∧
      t.u_l = (scalar_ops 2).copy_to_domain_data gmres_members.u_l t.u_k)) :=
  ⟨⟨by decide, by decide, by decide⟩,
    krylov_drivers_stop (scalar_ops 2) example_settings 5 fcg_members gmres_members 1
      (by decide) (by decide) (by decide)⟩

/-! ### The rotation of the GMRES driver -/

theorem rat_sqrt_nat (n : Nat) : rat_sqrt ((n : ℚ) * n) = n := by
  unfold rat_sqrt
  have h : ((n : ℚ) * n) = ((n * n : Nat) : ℚ) := by push_cast; rfl
  rw [h, Rat.num_natCast, Rat.den_natCast, Int.toNat_natCast, Nat.sqrt_eq]
  simp

theorem arnoldi_vector_gamma {K Vec : Type} [LinearOrderedField K] (ops : Krylov_Ops K Vec)
    (j : Nat) (s : GMRES_State K Vec) : (arnoldi_vector ops j s).gamma = s.gamma := by
  unfold arnoldi_vector
  show (givens_column j _).gamma = _
  unfold givens_column
  apply foldl_preserves (fun t : GMRES_State K Vec => t.gamma = s.gamma)
  · exact fun t i ht => ht
  unfold gram_schmidt
  apply foldl_preserves (fun t : GMRES_State K Vec => t.gamma = s.gamma)
  · exact fun t i ht => ht
  apply foldl_preserves (fun t : GMRES_State K Vec => t.gamma = s.gamma)
  · exact fun t i ht => ht
  rfl

theorem givens_algebra {K : Type} [LinearOrderedField K] (h a b g : K) (ha : a ≠ 0)
    (hb : b * b = h * h + a * a) :
    (h * (1 / b)) ^ 2 + (a * (1 / b)) ^ 2 = 1 ∧
    - (a * (1 / b)) * h + (h * (1 / b)) * a = 0 ∧
    ((h * (1 / b)) * g) ^ 2 + (- (a * (1 / b)) * g) ^ 2 = g ^ 2 ∧
    |(- (a * (1 / b)) * g)| ≤ |g| := by
  have hpos : 0 < h * h + a * a := by
    have h1 : 0 ≤ h * h := mul_self_nonneg h
    have h2 : 0 < a * a := mul_self_pos.mpr ha
    linarith
  have hb0 : b ≠ 0 := by
    intro h0
    rw [h0] at hb
    simp at hb
    linarith
  have e1 : (h * (1 / b)) ^ 2 + (a * (1 / b)) ^ 2 = 1 := by
    field_simp
    rw [sq, sq, sq, hb]
  have e3 : ((h * (1 / b)) * g) ^ 2 + (- (a * (1 / b)) * g) ^ 2 = g ^ 2 := by
    have : ((h * (1 / b)) * g) ^ 2 + (- (a * (1 / b)) * g) ^ 2
        = ((h * (1 / b)) ^ 2 + (a * (1 / b)) ^ 2) * g ^ 2 := by ring
    rw [this, e1, one_mul]
  refine ⟨e1, by ring, e3, ?_⟩
  apply sq_le_sq.mp
  have h0 : 0 ≤ ((h * (1 / b)) * g) ^ 2 := sq_nonneg _
  linarith

/-- C28: at an inner step `j` whose new vector has a norm `alpha_j` different
from zero, with `h = H[j][j]` and a square root that is exact at
`h^2 + alpha_j^2`, the pair `c = h / sqrt(h^2 + alpha_j^2)`,
`s = alpha_j / sqrt(h^2 + alpha_j^2)` stored by the driver satisfies
`c^2 + s^2 = 1` and `-s * h + c * alpha_j = 0`; the new `gamma[j]` and
`gamma[j + 1]` have the sum of squares `gamma[j]^2` of the value rotated (the
sum of squares of the two entries is preserved when `gamma[j + 1]` was `0`);
and the reported `r_norm = |gamma[j + 1]|` is at most `|gamma[j]|` as the step
found it, which is the estimate reported by the step before, or the initial
`gamma[0]` for `j = 0`. -/
theorem givens_estimate_monotone {K Vec : Type} [LinearOrderedField K]
    (ops : Krylov_Ops K Vec) (cfg : Krylov_Settings K) (r_0_norm : K) (j : Nat)
    (s : GMRES_State K Vec)
    (halpha : (arnoldi_vector ops j s).alpha_j ≠ 0)
    (hsqrt : ops.sqrt ((arnoldi_vector ops j s).H j j * (arnoldi_vector ops j s).H j j
        + (arnoldi_vector ops j s).alpha_j * (arnoldi_vector ops j s).alpha_j)
      * ops.sqrt ((arnoldi_vector ops j s).H j j * (arnoldi_vector ops j s).H j j
        + (arnoldi_vector ops j s).alpha_j * (arnoldi_vector ops j s).alpha_j)
      = (arnoldi_vector ops j s).H j j * (arnoldi_vector ops j s).H j j
        + (arnoldi_vector ops j s).alpha_j * (arnoldi_vector ops j s).alpha_j) :
    (givens_update ops cfg r_0_norm j (arnoldi_vector ops j s)).c_gmres j
      = (arnoldi_vector ops j s).H j j
        / ops.sqrt ((arnoldi_vector ops j s).H j j * (arnoldi_vector ops j s).H j j
          + (arnoldi_vector ops j s).alpha_j * (arnoldi_vector ops j s).alpha_j) ∧
    (givens_update ops cfg r_0_norm j (arnoldi_vector ops j s)).s_gmres j
      = (arnoldi_vector ops j s).alpha_j
        / ops.sqrt ((arnoldi_vector ops j s).H j j * (arnoldi_vector ops j s).H j j
          + (arnoldi_vector ops j s).alpha_j * (arnoldi_vector ops j s).alpha_j) ∧
    (givens_update ops cfg r_0_norm j (arnoldi_vector ops j s)).c_gmres j ^ 2
      + (givens_update ops cfg r_0_norm j (arnoldi_vector ops j s)).s_gmres j ^ 2 = 1 ∧
    - (givens_update ops cfg r_0_norm j (arnoldi_vector ops j s)).s_gmres j
        * (arnoldi_vector ops j s).H j j
      + (givens_update ops cfg r_0_norm j (arnoldi_vector ops j s)).c_gmres j
        * (arnoldi_vector ops j s).alpha_j = 0 ∧
    (givens_update ops cfg r_0_norm j (arnoldi_vector ops j s)).gamma j ^ 2
      + (givens_update ops cfg r_0_norm j (arnoldi_vector ops j s)).gamma (j + 1) ^ 2
      = s.gamma j ^ 2 ∧
    (s.gamma (j + 1) = 0 →
      (givens_update ops cfg r_0_norm j (arnoldi_vector ops j s)).gamma j ^ 2
        + (givens_update ops cfg r_0_norm j (arnoldi_vector ops j s)).gamma (j + 1) ^ 2
        = s.gamma j ^ 2 + s.gamma (j + 1) ^ 2) ∧
    (givens_update ops cfg r_0_norm j (arnoldi_vector ops j s)).r_norm
      = |(givens_update ops cfg r_0_norm j (arnoldi_vector ops j s)).gamma (j + 1)| ∧
    (givens_update ops cfg r_0_norm j (arnoldi_vector ops j s)).r_norm ≤ |s.gamma j| := by
  obtain ⟨e1, e2, e3, e4⟩ := givens_algebra ((arnoldi_vector ops j s).H j j)
    (arnoldi_vector ops j s).alpha_j _ (s.gamma j) halpha hsqrt
  have hg := arnoldi_vector_gamma ops j s
  have hc : (givens_update ops cfg r_0_norm j (arnoldi_vector ops j s)).c_gmres j
      = (arnoldi_vector ops j s).H j j
        * (1 / ops.sqrt ((arnoldi_vector ops j s).H j j * (arnoldi_vector ops j s).H j j
          + (arnoldi_vector ops j s).alpha_j * (arnoldi_vector ops j s).alpha_j)) := by
    simp [givens_update, vset]
  have hs : (givens_update ops cfg r_0_norm j (arnoldi_vector ops j s)).s_gmres j
      = (arnoldi_vector ops j s).alpha_j
        * (1 / ops.sqrt ((arnoldi_vector ops j s).H j j * (arnoldi_vector ops j s).H j j
          + (arnoldi_vector ops j s).alpha_j * (arnoldi_vector ops j s).alpha_j)) := by
    simp [givens_update, vset]
  have hg1 : (givens_update ops cfg r_0_norm j (arnoldi_vector ops j s)).gamma (j + 1)
      = - ((arnoldi_vector ops j s).alpha_j
        * (1 / ops.sqrt ((arnoldi_vector ops j s).H j j * (arnoldi_vector ops j s).H j j
          + (arnoldi_vector ops j s).alpha_j * (arnoldi_vector ops j s).alpha_j)))
        * s.gamma j := by
    simp [givens_update, vset, hg]
  have hg0 : (givens_update ops cfg r_0_norm j (arnoldi_vector ops j s)).gamma j
      = ((arnoldi_vector ops j s).H j j
        * (1 / ops.sqrt ((arnoldi_vector ops j s).H j j * (arnoldi_vector ops j s).H j j
          + (arnoldi_vector ops j s).alpha_j * (arnoldi_vector ops j s).alpha_j)))
        * s.gamma j := by
    simp [givens_update, vset, hg]
  have hr : (givens_update ops cfg r_0_norm j (arnoldi_vector ops j s)).r_norm
      = |(givens_update ops cfg r_0_norm j (arnoldi_vector ops j s)).gamma (j + 1)| := rfl
  have hsum : (givens_update ops cfg r_0_norm j (arnoldi_vector ops j s)).gamma j ^ 2
      + (givens_update ops cfg r_0_norm j (arnoldi_vector ops j s)).gamma (j + 1) ^ 2
      = s.gamma j ^ 2 := by
    rw [hg0, hg1]
    exact e3
  refine ⟨by rw [hc, mul_one_div], by rw [hs, mul_one_div], by rw [hc, hs]; exact e1,
    by rw [hc, hs]; exact e2, hsum, ?_, hr, ?_⟩
  · intro h0
    rw [hsum, h0]
    ring
  · rw [hr, hg1]
    exact e4

theorem plane_first_step :
    (arnoldi_vector (plane_ops 3 0 4 1) 0 plane_members).alpha_j = 4 ∧
    (arnoldi_vector (plane_ops 3 0 4 1) 0 plane_members).H 0 0 = 3 := by
  have h16 : rat_sqrt 16 = 4 := by
    have := rat_sqrt_nat 4
    norm_num at this
    exact this
  simp [arnoldi_vector, givens_column, gram_schmidt, plane_ops, plane_members, vset, set2,
    List.range_succ]
  norm_num
  exact h16

theorem givens_estimate_monotone_witness :
    ((arnoldi_vector (plane_ops 3 0 4 1) 0 plane_members).alpha_j ≠ 0 ∧
      (plane_ops 3 0 4 1).sqrt
          ((arnoldi_vector (plane_ops 3 0 4 1) 0 plane_members).H 0 0
              * (arnoldi_vector (plane_ops 3 0 4 1) 0 plane_members).H 0 0
            + (arnoldi_vector (plane_ops 3 0 4 1) 0 plane_members).alpha_j
              * (arnoldi_vector (plane_ops 3 0 4 1) 0 plane_members).alpha_j)
        * (plane_ops 3 0 4 1).sqrt
          ((arnoldi_vector (plane_ops 3 0 4 1) 0 plane_members).H 0 0
              * (arnoldi_vector (plane_ops 3 0 4 1) 0 plane_members).H 0 0
            + (arnoldi_vector (plane_ops 3 0 4 1) 0 plane_members).alpha_j
              * (arnoldi_vector (plane_ops 3 0 4 1) 0 plane_members).alpha_j)
        = (arnoldi_vector (plane_ops 3 0 4 1) 0 plane_members).H 0 0
              * (arnoldi_vector (plane_ops 3 0 4 1) 0 plane_members).H 0 0
            + (arnoldi_vector (plane_ops 3 0 4 1) 0 plane_members).alpha_j
              * (arnoldi_vector (plane_ops 3 0 4 1) 0 plane_members).alpha_j) ∧
    (givens_update (plane_ops 3 0 4 1) example_settings 1 0
        (arnoldi_vector (plane_ops 3 0 4 1) 0 plane_members)).c_gmres 0 ^ 2
      + (givens_update (plane_ops 3 0 4 1) example_settings 1 0
        (arnoldi_vector (plane_ops 3 0 4 1) 0 plane_members)).s_gmres 0 ^ 2 = 1 ∧
    (givens_update (plane_ops 3 0 4 1) example_settings 1 0
        (arnoldi_vector (plane_ops 3 0 4 1) 0 plane_members)).r_norm ≤ |plane_members.gamma 0| := by
  have h25 : rat_sqrt 25 = 5 := by
    have := rat_sqrt_nat 5
    norm_num at this
    exact this
  have ha : (arnoldi_vector (plane_ops 3 0 4 1) 0 plane_members).alpha_j ≠ 0 := by
    rw [plane_first_step.1]
    norm_num
  have hs : (plane_ops 3 0 4 1).sqrt
        ((arnoldi_vector (plane_ops 3 0 4 1) 0 plane_members).H 0 0
            * (arnoldi_vector (plane_ops 3 0 4 1) 0 plane_members).H 0 0
          + (arnoldi_vector (plane_ops 3 0 4 1) 0 plane_members).alpha_j
            * (arnoldi_vector (plane_ops 3 0 4 1) 0 plane_members).alpha_j)
      * (plane_ops 3 0 4 1).sqrt
        ((arnoldi_vector (plane_ops 3 0 4 1) 0 plane_members).H 0 0
            * (arnoldi_vector (plane_ops 3 0 4 1) 0 plane_members).H 0 0
          + (arnoldi_vector (plane_ops 3 0 4 1) 0 plane_members).alpha_j
            * (arnoldi_vector (plane_ops 3 0 4 1) 0 plane_members).alpha_j)
      = (arnoldi_vector (plane_ops 3 0 4 1) 0 plane_members).H 0 0
            * (arnoldi_vector (plane_ops 3 0 4 1) 0 plane_members).H 0 0
          + (arnoldi_vector (plane_ops 3 0 4 1) 0 plane_members).alpha_j
            * (arnoldi_vector (plane_ops 3 0 4 1) 0 plane_members).alpha_j := by
    rw [plane_first_step.1, plane_first_step.2]
    show rat_sqrt (3 * 3 + 4 * 4) * rat_sqrt (3 * 3 + 4 * 4) = 3 * 3 + 4 * 4
    norm_num
    rw [h25]
    norm_num
  have h := givens_estimate_monotone (plane_ops 3 0 4 1) example_settings 1 0 plane_members ha hs
  exact ⟨⟨ha, hs⟩, h.2.2.1, h.2.2.2.2.2.2.2⟩

/-! ### Termination of the ladder loop -/

theorem int_wrap_eq (x : Int) (h1 : -2147483648 ≤ x) (h2 : x < 2147483648) :
    int_wrap x = x := by
  unfold int_wrap
  omega

theorem int_wrap_high (x : Int) (h1 : 2147483648 ≤ x) (h2 : x < 4294967296) :
    int_wrap x < 1 := by
  unfold int_wrap
  omega

theorem ladder_loop_int_eq (r : Int) (hr : 1 ≤ r) (hr2 : r < 2147483648) :
    ∀ (fuel : Nat) (init : List Int) (x : Int), -2147483648 ≤ x → x < 2147483648 →
      ladder_loop_int fuel r (init ++ [x]) = ladder_loop fuel r (init ++ [x]) := by
  intro fuel
  induction fuel with
  | zero => intro init x _ _; rfl
  | succ fuel ih =>
    intro init x h1 h2
    have hlast : (init ++ [x]).getLastD 0 = x := by simp
    unfold ladder_loop_int ladder_loop
    rw [hlast]
    by_cases hx : x > 1
    · rw [if_pos hx, if_pos hx, int_wrap_eq (x - r) (by omega) (by omega)]
      by_cases hy : x - r ≥ 1
      · rw [if_pos hy]
        exact ih (init ++ [x]) (x - r) (by omega) (by omega)
      · rw [if_neg hy]
        exact ih (init ++ [x]) 1 (by omega) (by omega)
    · rw [if_neg hx, if_neg hx]

theorem ladder_loop_int_low (r : Int) (fuel : Nat) (x : Int) (hx : x ≤ 1) :
    ladder_loop_int (fuel + 1) r [x] = some [x] := by
  unfold ladder_loop_int
  have hlast : ([x] : List Int).getLastD 0 = x := rfl
  rw [hlast, if_neg (by omega)]

theorem ladder_loop_int_zero :
    ∀ (fuel : Nat) (init : List Int) (x : Int), 2 ≤ x → x < 2147483648 →
      ladder_loop_int fuel 0 (init ++ [x]) = none := by
  intro fuel
  induction fuel with
  | zero => intro init x _ _; rfl
  | succ fuel ih =>
    intro init x hx h2
    have hlast : (init ++ [x]).getLastD 0 = x := by simp
    unfold ladder_loop_int
    rw [hlast, if_pos (by omega), int_wrap_eq (x - 0) (by omega) (by omega),
      if_pos (by omega)]
    exact ih (init ++ [x]) (x - 0) (by omega) (by omega)

theorem ladder_loop_int_negative (r : Int) (hr : r < 0) (hr2 : -2147483648 ≤ r) :
    ∀ (fuel : Nat) (init : List Int) (x : Int), 2 ≤ x → x < 2147483648 →
      ((2147483648 - x) / (-r)).toNat + 2 ≤ fuel →
      ∃ tail : List Int,
        ladder_loop_int fuel r (init ++ [x]) = some (init ++ x :: tail) ∧
        (x :: tail).getLast? = some 1 ∧
        tail.length ≤ ((2147483648 - x) / (-r)).toNat + 1 := by
  intro fuel
  induction fuel with
  | zero => intro init x _ _ hf; omega
  | succ fuel ih =>
    intro init x hx h2 hf
    have hlast : (init ++ [x]).getLastD 0 = x := by simp
    unfold ladder_loop_int
    rw [hlast, if_pos (by omega)]
    by_cases hover : x - r < 2147483648
    · rw [int_wrap_eq (x - r) (by omega) hover, if_pos (by omega)]
      have hq : (2147483648 - (x - r)) / (-r) = (2147483648 - x) / (-r) - 1 := by
        have : 2147483648 - (x - r) = (2147483648 - x) + (-1) * (-r) := by ring
        rw [this, Int.add_mul_ediv_right _ _ (by omega)]
        ring
      have hq1 : 1 ≤ (2147483648 - x) / (-r) := by
        apply Int.le_ediv_of_mul_le (by omega)
        omega
      obtain ⟨tail, t1, t2, t3⟩ := ih (init ++ [x]) (x - r) (by omega) hover
        (by rw [hq]; omega)
      refine ⟨(x - r) :: tail, ?_, ?_, ?_⟩
      · rw [t1]; simp
      · rw [List.getLast?_cons_cons]; exact t2
      · rw [hq] at t3
        simp only [List.length_cons]
        omega
    · have hw := int_wrap_high (x - r) (by omega) (by omega)
      rw [if_neg (by omega)]
      obtain ⟨n, rfl⟩ : ∃ n, fuel = n + 1 := ⟨fuel - 1, by omega⟩
      refine ⟨[1], ?_, by simp, by simp⟩
      unfold ladder_loop_int
      have hlast2 : ((init ++ [x]) ++ [1]).getLastD 0 = 1 := by simp
      rw [hlast2, if_neg (by omega)]
      simp

/-- C29, counterexample: degree `2` and reduction `-2^30`.  The first pass
pushes `2 + 2^30`; in the second the subtraction gives `2 + 2^31`, which an
`int` holds as `2 - 2^31`, below `1`, so `1` is pushed and the loop ends. -/
theorem ladder_negative_reduction_counterexample :
    (2 : Int) ≤ 2 ∧ (-1073741824 : Int) ≤ 0 ∧
    ladder_int 3 2 (-1073741824) = some [2, 1073741826, 1] := by
  decide

/-- C29, amended: for `int` arguments, the loop that builds `poly_degree` ends
for every `poly_degree_` when `poly_reduction >= 1`, after at most
`poly_degree_ - 1` pushes (none when `poly_degree_ <= 1`); it ends with no push
for every `poly_reduction` when `poly_degree_ <= 1`; for `poly_degree_ >= 2`
and `poly_reduction == 0` it does not end within any number of iterations; and
for `poly_degree_ >= 2` and `poly_reduction < 0` it ends: the degrees grow
until the `int` subtraction passes `2^31 - 1` and wraps below `1`, then `1` is
pushed, after at most `(2^31 - poly_degree_) / (-poly_reduction) + 1`
pushes. -/
theorem ladder_terminates_iff (poly_degree_ poly_reduction : Int) (fuel : Nat)
    (hd : -2147483648 ≤ poly_degree_ ∧ poly_degree_ < 2147483648)
    (hr : -2147483648 ≤ poly_reduction ∧ poly_reduction < 2147483648) :
    (1 ≤ poly_reduction → max poly_degree_.toNat 1 ≤ fuel →
      ∃ poly_degree : List Int,
        ladder_int fuel poly_degree_ poly_reduction = some poly_degree ∧
        poly_degree.length - 1 ≤ (poly_degree_ - 1).toNat) ∧
    (poly_degree_ ≤ 1 → 1 ≤ fuel →
      ladder_int fuel poly_degree_ poly_reduction = some [poly_degree_]) ∧
    (2 ≤ poly_degree_ → poly_reduction = 0 →
      ladder_int fuel poly_degree_ poly_reduction = none) ∧
    (2 ≤ poly_degree_ → poly_reduction < 0 →
      ((2147483648 - poly_degree_) / (-poly_reduction)).toNat + 2 ≤ fuel →
      ∃ poly_degree : List Int,
        ladder_int fuel poly_degree_ poly_reduction = some poly_degree ∧
        poly_degree.getLast? = some 1 ∧
        poly_degree.length - 1
          ≤ ((2147483648 - poly_degree_) / (-poly_reduction)).toNat + 1) := by
  have hlow : poly_degree_ ≤ 1 → 1 ≤ fuel →
      ladder_int fuel poly_degree_ poly_reduction = some [poly_degree_] := by
    intro hp hf
    obtain ⟨n, rfl⟩ : ∃ n, fuel = n + 1 := ⟨fuel - 1, by omega⟩
    exact ladder_loop_int_low poly_reduction n poly_degree_ hp
  refine ⟨?_, hlow, ?_, ?_⟩
  · intro hr1 hf
    by_cases hp : 1 ≤ poly_degree_
    · obtain ⟨tail, h1, _, _, h4⟩ :=
        ladder_loop_spec poly_reduction hr1 fuel [] poly_degree_ hp (by omega)
      have hbridge : ladder_loop_int fuel poly_reduction [poly_degree_]
          = ladder_loop fuel poly_reduction [poly_degree_] :=
        ladder_loop_int_eq poly_reduction hr1 hr.2 fuel [] poly_degree_ hd.1 hd.2
      refine ⟨poly_degree_ :: tail, ?_, ?_⟩
      · unfold ladder_int
        rw [hbridge]
        simpa using h1
      have hle : (poly_degree_ - 1 + poly_reduction - 1) / poly_reduction ≤ poly_degree_ - 1 := by
        by_cases hp1 : poly_degree_ = 1
        · subst hp1
          rw [Int.ediv_eq_zero_of_lt (by omega) (by omega)]
          omega
        · apply Int.ediv_le_of_le_mul (by omega)
          nlinarith [mul_nonneg (by omega : (0 : Int) ≤ poly_degree_ - 2)
            (by omega : (0 : Int) ≤ poly_reduction - 1)]
      simp only [List.length_cons, Nat.add_sub_cancel]
      omega
    · refine ⟨[poly_degree_], hlow (by omega) (by omega), ?_⟩
      simp
  · intro hp h0
    subst h0
    exact ladder_loop_int_zero fuel [] poly_degree_ hp hd.2
  · intro hp hneg hf
    obtain ⟨tail, t1, t2, t3⟩ := ladder_loop_int_negative poly_reduction hneg hr.1 fuel []
      poly_degree_ hp hd.2 hf
    refine ⟨poly_degree_ :: tail, by unfold ladder_int; simpa using t1, t2, ?_⟩
    simp only [List.length_cons, Nat.add_sub_cancel]
    exact t3

theorem ladder_terminates_iff_witness :
    ((1 : Int) ≤ 2 ∧ max (5 : Int).toNat 1 ≤ 5 ∧
      ∃ poly_degree : List Int, ladder_int 5 5 2 = some poly_degree ∧
        poly_degree.length - 1 ≤ ((5 : Int) - 1).toNat) ∧
    ((1 : Int) ≤ 1 ∧ 1 ≤ 3 ∧ ladder_int 3 1 (-4) = some [1]) ∧
    ((2 : Int) ≤ 2 ∧ ladder_int 7 2 0 = none) ∧
    ((2 : Int) ≤ 2 ∧ (-1073741824 : Int) < 0 ∧
      ∃ poly_degree : List Int, ladder_int 3 2 (-1073741824) = some poly_degree ∧
        poly_degree.getLast? = some 1 ∧
        poly_degree.length - 1
          ≤ ((2147483648 - 2) / (-(-1073741824 : Int))).toNat + 1) :=
  ⟨⟨by decide, by decide,
      (ladder_terminates_iff 5 2 5 (by decide) (by decide)).1 (by decide) (by decide)⟩,
    ⟨by decide, by decide,
      (ladder_terminates_iff 1 (-4) 3 (by decide) (by decide)).2.1 (by decide) (by decide)⟩,
    ⟨by decide, (ladder_terminates_iff 2 0 7 (by decide) (by decide)).2.2.1 (by decide) rfl⟩,
    ⟨by decide, by decide,
      (ladder_terminates_iff 2 (-1073741824) 3 (by decide) (by decide)).2.2.2 (by decide)
        (by decide) (by decide)⟩⟩

/-! ### Expander applications per level -/

theorem overlap_reset (s3 : Regions) (o : Int) (w : Nat → Nat)
    (ho : s3.subdomain_overlap = o) (hw : s3.work_dev0 = w) :
    (if s3.subdomain_overlap = 0 then { s3 with subdomain_overlap := 1 } else s3).subdomain_overlap
      = (if o = 0 then 1 else o) ∧
    (if s3.subdomain_overlap = 0 then { s3 with subdomain_overlap := 1 } else s3).work_dev0
      = w := by
  subst ho hw
  by_cases hz : s3.subdomain_overlap = 0
  · rw [if_pos hz, if_pos hz]
    exact ⟨rfl, rfl⟩
  · rw [if_neg hz, if_neg hz]
    exact ⟨rfl, rfl⟩

theorem level_step_overlap (m : Mesh) (poly_degree : List Int) (s : Regions) (l : Nat) :
    (level_step m poly_degree s l).subdomain_overlap
      = (if s.subdomain_overlap = 0 then 1 else s.subdomain_overlap) ∧
    (level_step m poly_degree s l).work_dev0
      = m.expander.multiply^[s.subdomain_overlap.toNat] s.work_dev0 := by
  have hexp := expand_fold m (List.range s.subdomain_overlap.toNat) s
  rw [List.length_range] at hexp
  have hcol : ∀ t : Regions,
      ((List.range m.num_total_elements).foldl (collect_step (poly_degree.getD l 0)) t
        ).subdomain_overlap = t.subdomain_overlap ∧
      ((List.range m.num_total_elements).foldl (collect_step (poly_degree.getD l 0)) t
        ).work_dev0 = t.work_dev0 := by
    intro t
    apply foldl_preserves
      (fun u : Regions => u.subdomain_overlap = t.subdomain_overlap ∧ u.work_dev0 = t.work_dev0)
    · intro u e hu
      unfold collect_step
      split_ifs
      · exact hu
      · exact hu
    · exact ⟨rfl, rfl⟩
  have h3 := hcol { (List.range s.subdomain_overlap.toNat).foldl (expand_step m) s with
    work_hst0 := ((List.range s.subdomain_overlap.toNat).foldl (expand_step m) s).work_dev0 }
  have ho : ((List.range s.subdomain_overlap.toNat).foldl (expand_step m) s).subdomain_overlap
      = s.subdomain_overlap := by rw [hexp]
  have hd : ((List.range s.subdomain_overlap.toNat).foldl (expand_step m) s).work_dev0
      = m.expander.multiply^[s.subdomain_overlap.toNat] s.work_dev0 := by rw [hexp]
  exact overlap_reset _ _ _ (h3.1.trans ho) (h3.2.trans hd)

theorem level_entry_zero_overlap (m : Mesh) (offset nl : Nat) (poly_degree : List Int)
    (k : Int) : (level_entry m offset nl poly_degree k 0).subdomain_overlap = k := by
  unfold level_entry
  simp only [List.range_zero, List.foldl_nil]
  apply foldl_preserves (fun u : Regions => u.subdomain_overlap = k)
  · exact fun u e hu => hu
  show ((List.range nl).foldl (owned_step poly_degree offset) (Regions.start k)).subdomain_overlap
    = k
  apply foldl_preserves (fun u : Regions => u.subdomain_overlap = k)
  · exact fun u e hu => hu
  rfl

theorem level_entry_succ (m : Mesh) (offset nl : Nat) (poly_degree : List Int)
    (k : Int) (l : Nat) :
    level_entry m offset nl poly_degree k (l + 1)
      = level_step m poly_degree (level_entry m offset nl poly_degree k l) l := by
  unfold level_entry
  simp only [List.range_succ, List.foldl_append, List.foldl_cons, List.foldl_nil]

theorem level_entry_overlap (m : Mesh) (offset nl : Nat) (poly_degree : List Int)
    (k : Int) (l : Nat) :
    (level_entry m offset nl poly_degree k l).subdomain_overlap
      = if l = 0 ∨ k ≠ 0 then k else 1 := by
  induction l with
  | zero =>
    rw [level_entry_zero_overlap]
    simp
  | succ l ih =>
    rw [level_entry_succ, (level_step_overlap m poly_degree _ l).1, ih]
    by_cases hk : k = 0
    · subst hk
      by_cases hl : l = 0
      · simp [hl]
      · simp [hl]
    · simp [hk]

/-- C22, counterexample: on the strip of five elements with element `0`
owned, ladder `[2, 1]` and `subdomain_overlap = 0`, level `0` makes no
expander application, while `max(subdomain_overlap, 1)` is `1`; the level
collects no element beyond the owned one. -/
theorem level_zero_applications_counterexample :
    expander_applications mesh_strip 0 1 [2, 1] 0 0 = 0 ∧
    expander_applications mesh_strip 0 1 [2, 1] 0 0 ≠ (max (0 : Int) 1).toNat ∧
    (level_entry mesh_strip 0 1 [2, 1] 0 1).subdomain_region = [⟨0, 2⟩] := by
  decide

/-- C22, amended: for every `subdomain_overlap >= 0` the expander is applied
`subdomain_overlap` times at level `0` and `max(subdomain_overlap, 1)` times
at every level `l >= 1`, before that level's newly reached elements are
collected: `work_dev[0]` after level `l` is the expander applied that many
times to `work_dev[0]` before it. -/
theorem level_applications (m : Mesh) (offset num_local_elements : Nat)
    (poly_degree : List Int) (subdomain_overlap : Int) (l : Nat)
    (hk : 0 ≤ subdomain_overlap) :
    expander_applications m offset num_local_elements poly_degree subdomain_overlap l
      = (if l = 0 then subdomain_overlap.toNat else max subdomain_overlap.toNat 1) ∧
    (level_entry m offset num_local_elements poly_degree subdomain_overlap (l + 1)).work_dev0
      = m.expander.multiply^[expander_applications m offset num_local_elements poly_degree
          subdomain_overlap l]
        (level_entry m offset num_local_elements poly_degree subdomain_overlap l).work_dev0 := by
  refine ⟨?_, ?_⟩
  · unfold expander_applications
    rw [level_entry_overlap]
    by_cases hl : l = 0
    · simp [hl]
    · by_cases hk0 : subdomain_overlap = 0
      · simp [hl, hk0]
      · simp only [hl, hk0, false_or, ne_eq, not_false_eq_true, if_true, if_false]
        omega
  · rw [level_entry_succ, (level_step_overlap m poly_degree _ l).2]
    rfl

theorem level_applications_witness :
    (0 : Int) ≤ 0 ∧
    expander_applications mesh_strip 0 1 [2, 1] 0 1 = max (0 : Int).toNat 1 ∧
    (level_entry mesh_strip 0 1 [2, 1] 0 2).work_dev0
      = mesh_strip.expander.multiply^[expander_applications mesh_strip 0 1 [2, 1] 0 1]
        (level_entry mesh_strip 0 1 [2, 1] 0 1).work_dev0 :=
  ⟨by decide, (level_applications mesh_strip 0 1 [2, 1] 0 1 (by decide)).1,
    (level_applications mesh_strip 0 1 [2, 1] 0 1 (by decide)).2⟩

/-! ### Degrees of the region elements -/

theorem level_entry_grown (m : Mesh) (offset nl : Nat) (poly_degree : List Int) (k : Int)
    (hwf : offset + nl ≤ m.num_total_elements) (l : Nat) :
    Grown m (level_entry m offset nl poly_degree k l) := by
  obtain ⟨hg, _, _⟩ := owned_state_grown m offset nl poly_degree k hwf
  exact (levels_grown m poly_degree (List.range l) _ hg).1

theorem level_entry_zero_region (m : Mesh) (offset nl : Nat) (poly_degree : List Int)
    (k : Int) :
    (level_entry m offset nl poly_degree k 0).subdomain_region
      = (List.range nl).map (fun e => ⟨offset + e, poly_degree.getD 0 0⟩) := by
  unfold level_entry
  simp only [List.range_zero, List.foldl_nil]
  apply foldl_preserves (fun u : Regions => u.subdomain_region
    = (List.range nl).map (fun e => ⟨offset + e, poly_degree.getD 0 0⟩))
  · exact fun u e hu => hu
  show ((List.range nl).foldl (owned_step poly_degree offset) (Regions.start k)).subdomain_region
    = _
  rw [owned_fold]
  simp [Regions.start]

theorem level_step_appended (m : Mesh) (poly_degree : List Int) (s : Regions) (l : Nat)
    (h : Grown m s) :
    (level_step m poly_degree s l).subdomain_region = s.subdomain_region ++
      ((List.range m.num_total_elements).filter (fun e =>
        0 < (level_step m poly_degree s l).work_dev0 e ∧ s.work_dev0 e = 0)).map
        (fun e => ⟨e, poly_degree.getD l 0⟩) := by
  have hexp := expand_fold m (List.range s.subdomain_overlap.toNat) s
  obtain ⟨h1, _, _⟩ := collect_fold (poly_degree.getD l 0) (List.range m.num_total_elements)
    (List.nodup_range _)
    { (List.range s.subdomain_overlap.toNat).foldl (expand_step m) s with
      work_hst0 := ((List.range s.subdomain_overlap.toNat).foldl (expand_step m) s).work_dev0 }
  have hr : ((List.range s.subdomain_overlap.toNat).foldl (expand_step m) s).subdomain_region
      = s.subdomain_region := by rw [hexp]
  have hw : ((List.range s.subdomain_overlap.toNat).foldl (expand_step m) s).work_hst1
      = s.work_hst1 := by rw [hexp]
  have hd : ((List.range s.subdomain_overlap.toNat).foldl (expand_step m) s).work_dev0
      = (level_step m poly_degree s l).work_dev0 := by
    rw [(level_step_overlap m poly_degree s l).2, hexp, List.length_range]
  have hreset : ∀ s3 : Regions,
      (if s3.subdomain_overlap = 0 then { s3 with subdomain_overlap := 1 } else s3).subdomain_region
        = s3.subdomain_region := by
    intro s3
    split_ifs <;> rfl
  have hreg : (level_step m poly_degree s l).subdomain_region = s.subdomain_region ++
      ((List.range m.num_total_elements).filter (fun e =>
        0 < ((List.range s.subdomain_overlap.toNat).foldl (expand_step m) s).work_dev0 e ∧
        s.work_hst1 e = 0)).map (fun e => ⟨e, poly_degree.getD l 0⟩) := by
    refine (hreset _).trans ?_
    rw [h1]
    simp only
    rw [hr, hw]
  rw [hreg, hd]
  congr 2
  apply List.filter_congr
  intro e _
  have hm := h.marks e
  by_cases h0 : s.work_hst1 e = 0
  · have : s.work_dev0 e = 0 := by
      by_contra hne
      exact (hm.mpr (Nat.pos_of_ne_zero hne)) h0
    simp [h0, this]
  · have : 0 < s.work_dev0 e := hm.mp h0
    have hne : s.work_dev0 e ≠ 0 := by omega
    simp [h0, hne]

/-- C23: the owned elements are listed first with degree `poly_degree[0]`.
Pass `l` of the level loop appends to the Subdomain exactly the elements first
reached during its growth, those where `work_dev[0]` is positive after the
expander applications of the pass and was zero before, in increasing order of
their index and each with degree `poly_degree[l]`; the elements listed before
the pass are those where `work_dev[0]` was positive before.  The elements of
the final extended ring of the Subdomain, which are those listed from position
`num_subdomain_elems` on, and all elements of the Superdomain have degree
`poly_degree[num_levels - 1]`. -/
theorem degrees_follow_ladder (m : Mesh) (offset num_local_elements : Nat)
    (poly_degree : List Int) (subdomain_overlap : Int)
    (hwf : offset + num_local_elements ≤ m.num_total_elements) :
    (level_entry m offset num_local_elements poly_degree subdomain_overlap 0).subdomain_region
      = (List.range num_local_elements).map (fun e => ⟨offset + e, poly_degree.getD 0 0⟩) ∧
    (∀ l, l < poly_degree.length →
      (level_entry m offset num_local_elements poly_degree subdomain_overlap
          (l + 1)).subdomain_region
        = (level_entry m offset num_local_elements poly_degree subdomain_overlap
            l).subdomain_region ++
          ((List.range m.num_total_elements).filter (fun e =>
            0 < (level_entry m offset num_local_elements poly_degree subdomain_overlap
              (l + 1)).work_dev0 e ∧
            (level_entry m offset num_local_elements poly_degree subdomain_overlap
              l).work_dev0 e = 0)).map (fun e => ⟨e, poly_degree.getD l 0⟩) ∧
      (level_entry m offset num_local_elements poly_degree subdomain_overlap (l + 1)).work_dev0
        = m.expander.multiply^[expander_applications m offset num_local_elements poly_degree
            subdomain_overlap l]
          (level_entry m offset num_local_elements poly_degree subdomain_overlap l).work_dev0 ∧
      (∀ e, e ∈ ids (level_entry m offset num_local_elements poly_degree subdomain_overlap
          l).subdomain_region ↔
        0 < (level_entry m offset num_local_elements poly_degree subdomain_overlap
          l).work_dev0 e) ∧
      (∀ e, 0 < (level_entry m offset num_local_elements poly_degree subdomain_overlap
            (l + 1)).work_dev0 e →
        (level_entry m offset num_local_elements poly_degree subdomain_overlap
          l).work_dev0 e = 0 →
        (⟨e, poly_degree.getD l 0⟩ : Element) ∈
          (level_entry m offset num_local_elements poly_degree subdomain_overlap
            (l + 1)).subdomain_region)) ∧
    (∃ ring : List Element,
      (build_regions m offset num_local_elements poly_degree subdomain_overlap).subdomain_region
        = (level_entry m offset num_local_elements poly_degree subdomain_overlap
            poly_degree.length).subdomain_region ++ ring ∧
      (build_regions m offset num_local_elements poly_degree
          subdomain_overlap).num_subdomain_elems
        = (level_entry m offset num_local_elements poly_degree subdomain_overlap
            poly_degree.length).subdomain_region.length ∧
      ∀ x ∈ ring, x.poly_degree = poly_degree.getD (poly_degree.length - 1) 0) ∧
    (∀ x ∈ (build_regions m offset num_local_elements poly_degree
        subdomain_overlap).superdomain_region,
      x.poly_degree = poly_degree.getD (poly_degree.length - 1) 0) := by
  have hgrow : grow_regions m offset num_local_elements poly_degree subdomain_overlap
      = level_entry m offset num_local_elements poly_degree subdomain_overlap
          poly_degree.length := rfl
  refine ⟨level_entry_zero_region m offset num_local_elements poly_degree subdomain_overlap,
    ?_, ?_, ?_⟩
  · intro l _
    have hg := level_entry_grown m offset num_local_elements poly_degree subdomain_overlap hwf l
    have hg1 := level_entry_grown m offset num_local_elements poly_degree subdomain_overlap hwf
      (l + 1)
    have happ := level_step_appended m poly_degree
      (level_entry m offset num_local_elements poly_degree subdomain_overlap l) l hg
    rw [← level_entry_succ] at happ
    have hlisted : ∀ e, e ∈ ids (level_entry m offset num_local_elements poly_degree
        subdomain_overlap l).subdomain_region ↔
        0 < (level_entry m offset num_local_elements poly_degree subdomain_overlap
          l).work_dev0 e :=
      fun e => (hg.mem e).trans (hg.marks e)
    refine ⟨happ, ?_, hlisted, ?_⟩
    · rw [level_entry_succ, (level_step_overlap m poly_degree _ l).2]
      rfl
    · intro e hpos hzero
      rw [happ]
      apply List.mem_append_right
      apply List.mem_map.mpr
      refine ⟨e, ?_, rfl⟩
      apply List.mem_filter.mpr
      refine ⟨List.mem_range.mpr (hg1.bound e hpos), ?_⟩
      simp [hpos, hzero]
  · obtain ⟨I, _, h2, h3, _, _, _, _⟩ :=
      build_regions_closed m offset num_local_elements poly_degree subdomain_overlap
    have hg := level_entry_grown m offset num_local_elements poly_degree subdomain_overlap hwf
      poly_degree.length
    rw [hgrow] at h2 h3
    refine ⟨_, h2, by rw [h3]; exact hg.count, ?_⟩
    intro x hx
    obtain ⟨e, _, rfl⟩ := List.mem_map.mp hx
    rfl
  · obtain ⟨I, _, _, _, _, h5, _, _⟩ :=
      build_regions_closed m offset num_local_elements poly_degree subdomain_overlap
    have hg := level_entry_grown m offset num_local_elements poly_degree subdomain_overlap hwf
      poly_degree.length
    rw [hgrow] at h5
    intro x hx
    rw [h5, hg.super_nil] at hx
    simp only [List.nil_append, List.mem_append, List.mem_map] at hx
    rcases hx with ⟨e, _, rfl⟩ | ⟨e, _, rfl⟩ <;> rfl

/-- Witness for C23 on the strip of five elements with the element `0` owned,
ladder `[2, 1]` and overlap `1`: the owned element has degree `2`, pass `0`
appends the element `1` with degree `2`, pass `1` the element `2` with degree
`1`, and the ring and the Superdomain have degree `1`. -/
theorem degrees_follow_ladder_witness :
    (0 + 1 ≤ mesh_strip.num_total_elements) ∧
    (build_regions mesh_strip 0 1 [2, 1] 1).subdomain_region
      = [⟨0, 2⟩, ⟨1, 2⟩, ⟨2, 1⟩, ⟨3, 1⟩] ∧
    (build_regions mesh_strip 0 1 [2, 1] 1).superdomain_region = [⟨3, 1⟩, ⟨4, 1⟩, ⟨2, 1⟩] ∧
    ((level_entry mesh_strip 0 1 [2, 1] 1 2).subdomain_region
      = (level_entry mesh_strip 0 1 [2, 1] 1 1).subdomain_region ++
          ((List.range mesh_strip.num_total_elements).filter (fun e =>
            0 < (level_entry mesh_strip 0 1 [2, 1] 1 2).work_dev0 e ∧
            (level_entry mesh_strip 0 1 [2, 1] 1 1).work_dev0 e = 0)).map
            (fun e => ⟨e, ([2, 1] : List Int).getD 1 0⟩)) ∧
    (level_entry mesh_strip 0 1 [2, 1] 1 2).subdomain_region = [⟨0, 2⟩, ⟨1, 2⟩, ⟨2, 1⟩] ∧
    (∀ x ∈ (build_regions mesh_strip 0 1 [2, 1] 1).superdomain_region,
      x.poly_degree = ([2, 1] : List Int).getD (([2, 1] : List Int).length - 1) 0) :=
  ⟨by decide, by decide, by decide,
    ((degrees_follow_ladder mesh_strip 0 1 [2, 1] 1 (by decide)).2.1 1 (by decide)).1,
    by decide,
    (degrees_follow_ladder mesh_strip 0 1 [2, 1] 1 (by decide)).2.2.2⟩

/-! ### Pattern of the expander -/

theorem mem_vert_conn (m : Mesh) (e vid e_j : Nat) :
    e_j ∈ m.vert_conn e vid ↔
      1 ≤ m.dim ∧ e_j < m.num_total_elements ∧ e_j ≠ e ∧
        ∃ vjd, vjd < m.num_vertices ∧ m.corner e_j vjd = m.corner e vid := by
  unfold Mesh.vert_conn
  by_cases hdim : 1 ≤ m.dim
  · rw [if_pos hdim]
    unfold Mesh.vertices
    simp only [List.mem_filter, List.mem_range, List.any_eq_true, decide_eq_true_eq]
    constructor
    · rintro ⟨⟨h1, vjd, h2, h3⟩, h4⟩
      exact ⟨hdim, h1, h4, vjd, h2, h3⟩
    · rintro ⟨_, h1, h4, vjd, h2, h3⟩
      exact ⟨⟨h1, vjd, h2, h3⟩, h4⟩
  · rw [if_neg hdim]
    simp [hdim]

theorem mem_edge_conn (m : Mesh) (e eid e_j : Nat) :
    e_j ∈ m.edge_conn e eid ↔
      e_j < m.num_total_elements ∧ e_j ≠ e ∧
        ∃ p ∈ m.edge_pairs, m.edge_key e_j p = m.edge_key e (m.edge_pairs.getD eid (0, 0)) := by
  unfold Mesh.edge_conn Mesh.edges
  simp only [List.mem_filter, List.mem_range, List.any_eq_true, decide_eq_true_eq]
  constructor
  · rintro ⟨⟨h1, p, h2, h3⟩, h4⟩
    exact ⟨h1, h4, p, h2, h3⟩
  · rintro ⟨h1, h4, p, h2, h3⟩
    exact ⟨⟨h1, p, h2, h3⟩, h4⟩

theorem mem_face_conn (m : Mesh) (e fid e_j : Nat) :
    e_j ∈ m.face_conn e fid ↔
      m.dim = 3 ∧ e_j < m.num_total_elements ∧ e_j ≠ e ∧
        ∃ f ∈ Mesh.face_pairs,
          m.face_key e_j f = m.face_key e (Mesh.face_pairs.getD fid (0, 0, 0, 0)) := by
  unfold Mesh.face_conn
  by_cases hdim : m.dim = 3
  · rw [if_pos hdim]
    unfold Mesh.faces
    simp only [List.mem_filter, List.mem_range, List.any_eq_true, decide_eq_true_eq]
    constructor
    · rintro ⟨⟨h1, p, h2, h3⟩, h4⟩
      exact ⟨hdim, h1, h4, p, h2, h3⟩
    · rintro ⟨_, h1, h4, p, h2, h3⟩
      exact ⟨⟨h1, p, h2, h3⟩, h4⟩
  · rw [if_neg hdim]
    simp [hdim]

theorem edge_pairs_getD_mem (m : Mesh) (eid : Nat) (h : eid < m.num_edges) :
    m.edge_pairs.getD eid (0, 0) ∈ m.edge_pairs := by
  unfold Mesh.num_edges at h
  unfold Mesh.edge_pairs
  by_cases hd : m.dim = 2
  · rw [if_pos hd] at h ⊢
    interval_cases eid <;> decide
  · rw [if_neg hd] at h ⊢
    interval_cases eid <;> decide

theorem edge_pairs_index (m : Mesh) (p : Nat × Nat) (hp : p ∈ m.edge_pairs) :
    (∃ eid, eid < m.num_edges ∧ m.edge_pairs.getD eid (0, 0) = p) ∧
      p.1 < m.num_vertices ∧ p.2 < m.num_vertices := by
  unfold Mesh.edge_pairs at hp ⊢
  unfold Mesh.num_edges Mesh.num_vertices
  by_cases hd : m.dim = 2
  · simp only [if_pos hd] at hp ⊢
    have hidx := List.mem_iff_getElem.mp hp
    obtain ⟨i, hi, rfl⟩ := hidx
    have hi4 : i < 4 := hi
    refine ⟨⟨i, hi4, ?_⟩, ?_⟩
    · interval_cases i <;> rfl
    · interval_cases i <;> simp [Mesh.face_pairs]
  · simp only [if_neg hd] at hp ⊢
    have hidx := List.mem_iff_getElem.mp hp
    obtain ⟨i, hi, rfl⟩ := hidx
    have hi12 : i < 12 := hi
    refine ⟨⟨i, hi12, ?_⟩, ?_⟩
    · interval_cases i <;> rfl
    · interval_cases i <;> simp [Mesh.face_pairs]

theorem face_pairs_index (f : Nat × Nat × Nat × Nat) (hf : f ∈ Mesh.face_pairs) :
    (∃ fid, fid < 6 ∧ Mesh.face_pairs.getD fid (0, 0, 0, 0) = f) ∧
      f.1 < 8 ∧ f.2.1 < 8 ∧ f.2.2.1 < 8 ∧ f.2.2.2 < 8 := by
  have hidx := List.mem_iff_getElem.mp hf
  obtain ⟨i, hi, rfl⟩ := hidx
  have hi6 : i < 6 := hi
  refine ⟨⟨i, hi6, ?_⟩, ?_⟩
  · interval_cases i <;> rfl
  · interval_cases i <;> simp [Mesh.face_pairs]

theorem face_pairs_getD_mem (fid : Nat) (h : fid < 6) :
    Mesh.face_pairs.getD fid (0, 0, 0, 0) ∈ Mesh.face_pairs := by
  interval_cases fid <;> decide

theorem vert_conn_symm (m : Mesh) (e e_j : Nat) (he : e < m.num_total_elements)
    (h : ∃ vid, vid < m.num_vertices ∧ e_j ∈ m.vert_conn e vid) :
    ∃ vjd, vjd < m.num_vertices ∧ e ∈ m.vert_conn e_j vjd := by
  obtain ⟨vid, hv, hmem⟩ := h
  obtain ⟨hdim, _, hne, vjd, hvj, hc⟩ := (mem_vert_conn m e vid e_j).mp hmem
  exact ⟨vjd, hvj, (mem_vert_conn m e_j vjd e).mpr ⟨hdim, he, Ne.symm hne, vid, hv, hc.symm⟩⟩

theorem edge_conn_symm (m : Mesh) (e e_j : Nat) (he : e < m.num_total_elements)
    (h : ∃ eid, eid < m.num_edges ∧ e_j ∈ m.edge_conn e eid) :
    ∃ ejd, ejd < m.num_edges ∧ e ∈ m.edge_conn e_j ejd := by
  obtain ⟨eid, hv, hmem⟩ := h
  obtain ⟨_, hne, p, hp, hk⟩ := (mem_edge_conn m e eid e_j).mp hmem
  obtain ⟨⟨ejd, hejd, hget⟩, _⟩ := edge_pairs_index m p hp
  refine ⟨ejd, hejd, (mem_edge_conn m e_j ejd e).mpr ⟨he, Ne.symm hne,
    m.edge_pairs.getD eid (0, 0), edge_pairs_getD_mem m eid hv, ?_⟩⟩
  rw [hget]
  exact hk.symm

theorem face_conn_symm (m : Mesh) (e e_j : Nat) (he : e < m.num_total_elements)
    (h : ∃ fid, fid < m.num_faces ∧ e_j ∈ m.face_conn e fid) :
    ∃ fjd, fjd < m.num_faces ∧ e ∈ m.face_conn e_j fjd := by
  obtain ⟨fid, hv, hmem⟩ := h
  obtain ⟨hdim, _, hne, f, hf, hk⟩ := (mem_face_conn m e fid e_j).mp hmem
  have hnf : m.num_faces = 6 := by
    unfold Mesh.num_faces
    rw [if_neg (by omega)]
  obtain ⟨⟨fjd, hfjd, hget⟩, _⟩ := face_pairs_index f hf
  refine ⟨fjd, by omega, (mem_face_conn m e_j fjd e).mpr ⟨hdim, he, Ne.symm hne,
    Mesh.face_pairs.getD fid (0, 0, 0, 0), face_pairs_getD_mem fid (by omega), ?_⟩⟩
  rw [hget]
  exact hk.symm

theorem edge_conn_vert_conn (m : Mesh) (e e_j : Nat) (hdim : 1 ≤ m.dim)
    (h : ∃ eid, eid < m.num_edges ∧ e_j ∈ m.edge_conn e eid) :
    ∃ vid, vid < m.num_vertices ∧ e_j ∈ m.vert_conn e vid := by
  obtain ⟨eid, hv, hmem⟩ := h
  obtain ⟨hlt, hne, p, hp, hk⟩ := (mem_edge_conn m e eid e_j).mp hmem
  obtain ⟨_, hp1, hp2⟩ := edge_pairs_index m p hp
  obtain ⟨_, hq1, hq2⟩ := edge_pairs_index m _ (edge_pairs_getD_mem m eid hv)
  have hmin := congrArg Prod.fst hk
  unfold Mesh.edge_key at hmin
  simp only at hmin
  rcases min_choice (m.corner e_j p.1) (m.corner e_j p.2) with h1 | h1 <;>
    rcases min_choice (m.corner e (m.edge_pairs.getD eid (0, 0)).1)
      (m.corner e (m.edge_pairs.getD eid (0, 0)).2) with h2 | h2
  · exact ⟨_, hq1, (mem_vert_conn m e _ e_j).mpr ⟨hdim, hlt, hne, p.1, hp1, by
      rw [← h1, ← h2]; exact hmin⟩⟩
  · exact ⟨_, hq2, (mem_vert_conn m e _ e_j).mpr ⟨hdim, hlt, hne, p.1, hp1, by
      rw [← h1, ← h2]; exact hmin⟩⟩
  · exact ⟨_, hq1, (mem_vert_conn m e _ e_j).mpr ⟨hdim, hlt, hne, p.2, hp2, by
      rw [← h1, ← h2]; exact hmin⟩⟩
  · exact ⟨_, hq2, (mem_vert_conn m e _ e_j).mpr ⟨hdim, hlt, hne, p.2, hp2, by
      rw [← h1, ← h2]; exact hmin⟩⟩

theorem face_conn_vert_conn (m : Mesh) (e e_j : Nat)
    (h : ∃ fid, fid < m.num_faces ∧ e_j ∈ m.face_conn e fid) :
    ∃ vid, vid < m.num_vertices ∧ e_j ∈ m.vert_conn e vid := by
  obtain ⟨fid, hv, hmem⟩ := h
  obtain ⟨hdim, hlt, hne, f, hf, hk⟩ := (mem_face_conn m e fid e_j).mp hmem
  have hnv : m.num_vertices = 8 := by
    unfold Mesh.num_vertices
    rw [if_neg (by omega)]
  have hnf : m.num_faces = 6 := by
    unfold Mesh.num_faces
    rw [if_neg (by omega)]
  obtain ⟨_, hf1, hf2, hf3, hf4⟩ := face_pairs_index f hf
  obtain ⟨_, hg1, _, _, _⟩ := face_pairs_index _ (face_pairs_getD_mem fid (by omega))
  have hin : m.corner e (Mesh.face_pairs.getD fid (0, 0, 0, 0)).1
      ∈ m.face_key e (Mesh.face_pairs.getD fid (0, 0, 0, 0)) := by
    unfold Mesh.face_key
    rw [(List.perm_insertionSort _ _).mem_iff]
    exact List.mem_cons_self _ _
  rw [← hk] at hin
  unfold Mesh.face_key at hin
  rw [(List.perm_insertionSort _ _).mem_iff] at hin
  simp only [List.mem_cons, List.mem_singleton, List.not_mem_nil, or_false] at hin
  refine ⟨_, by rw [hnv]; exact hg1, (mem_vert_conn m e _ e_j).mpr ⟨by omega, hlt, hne, ?_⟩⟩
  rcases hin with h1 | h1 | h1 | h1
  · exact ⟨f.1, by omega, h1.symm⟩
  · exact ⟨f.2.1, by omega, h1.symm⟩
  · exact ⟨f.2.2.1, by omega, h1.symm⟩
  · exact ⟨f.2.2.2, by omega, h1.symm⟩

theorem linked_iff_share_corner (m : Mesh) (hdim : 1 ≤ m.dim) (e e_j : Nat)
    (he : e < m.num_total_elements) (hj : e_j < m.num_total_elements) :
    m.linked e e_j ↔ (e_j = e ∨ m.share_corner e e_j) := by
  constructor
  · intro h
    obtain ⟨_, h⟩ := (linked_iff m e e_j).mp h
    have hvert : (∃ vid, vid < m.num_vertices ∧ e_j ∈ m.vert_conn e vid) →
        m.share_corner e e_j := by
      rintro ⟨vid, hv, hmem⟩
      obtain ⟨_, _, _, vjd, hvj, hc⟩ := (mem_vert_conn m e vid e_j).mp hmem
      exact ⟨vid, hv, vjd, hvj, hc.symm⟩
    rcases h with h | h | h | h
    · exact Or.inl h
    · exact Or.inr (hvert h)
    · exact Or.inr (hvert (edge_conn_vert_conn m e e_j hdim h))
    · exact Or.inr (hvert (face_conn_vert_conn m e e_j h))
  · rintro (h | h)
    · rw [h]
      exact linked_self m e he
    · exact linked_of_share_corner m e e_j hdim he hj h

theorem mem_expander_entries (m : Mesh) (t : Nat × Nat × Nat) :
    t ∈ m.expander.entries ↔ m.linked t.1 t.2.1 ∧ t.2.2 = 1 := by
  unfold Mesh.expander CSR_Matrix.set_to_value CSR_Matrix.assemble Mesh.linked
  simp only [List.mem_map, List.mem_dedup]
  constructor
  · rintro ⟨u, ⟨p, ⟨w, hw, rfl⟩, rfl⟩, rfl⟩
    exact ⟨⟨w, hw, rfl⟩, rfl⟩
  · rintro ⟨⟨w, hw, hwe⟩, h1⟩
    refine ⟨(t.1, t.2.1, _), ⟨(t.1, t.2.1), ⟨w, hw, hwe⟩, rfl⟩, ?_⟩
    obtain ⟨a, b, c⟩ := t
    simp only at h1
    rw [h1]

theorem expander_entries_nodup (m : Mesh) :
    (m.expander.entries.map (fun t => (t.1, t.2.1))).Nodup := by
  unfold Mesh.expander CSR_Matrix.set_to_value CSR_Matrix.assemble
  simp only [List.map_map]
  have : (fun t : Nat × Nat × Nat => (t.1, t.2.1)) ∘ (fun t : Nat × Nat × Nat => (t.1, t.2.1, 1))
      ∘ (fun p : Nat × Nat => (p.1, p.2,
        ((((List.range m.num_total_elements).flatMap m.expander_row).filter
          (fun t => t.1 = p.1 ∧ t.2.1 = p.2)).map (fun t => t.2.2)).sum)) = id := by
    funext p
    rfl
  rw [this, List.map_id]
  exact List.nodup_dedup _

/-- C26: for a mesh of dimension at least one and elements `e`, `e_j` of the
mesh, no adjacency set of `e` contains `e`; `e_j` is a vertex, edge or face
neighbour of `e` exactly when `e` is one of `e_j`; an edge or face neighbour
of `e` is a vertex neighbour of `e`; the expander stores each position at
most once, every stored value is `1`, and position `(e, e_j)` is stored
exactly when `e_j = e` or the two elements share a corner vertex id; so the
expander is symmetric with a unit diagonal. -/
theorem expander_pattern (m : Mesh) (e e_j : Nat) (hdim : 1 ≤ m.dim)
    (he : e < m.num_total_elements) (hj : e_j < m.num_total_elements) :
    ((∀ vid, e ∉ m.vert_conn e vid) ∧ (∀ eid, e ∉ m.edge_conn e eid) ∧
      (∀ fid, e ∉ m.face_conn e fid)) ∧
    (((∃ vid, vid < m.num_vertices ∧ e_j ∈ m.vert_conn e vid) ↔
        (∃ vid, vid < m.num_vertices ∧ e ∈ m.vert_conn e_j vid)) ∧
      ((∃ eid, eid < m.num_edges ∧ e_j ∈ m.edge_conn e eid) ↔
        (∃ eid, eid < m.num_edges ∧ e ∈ m.edge_conn e_j eid)) ∧
      ((∃ fid, fid < m.num_faces ∧ e_j ∈ m.face_conn e fid) ↔
        (∃ fid, fid < m.num_faces ∧ e ∈ m.face_conn e_j fid))) ∧
    (((∃ eid, eid < m.num_edges ∧ e_j ∈ m.edge_conn e eid) →
        ∃ vid, vid < m.num_vertices ∧ e_j ∈ m.vert_conn e vid) ∧
      ((∃ fid, fid < m.num_faces ∧ e_j ∈ m.face_conn e fid) →
        ∃ vid, vid < m.num_vertices ∧ e_j ∈ m.vert_conn e vid)) ∧
    ((m.expander.entries.map (fun t => (t.1, t.2.1))).Nodup ∧
      (∀ t ∈ m.expander.entries, t.2.2 = 1) ∧
      ((e, e_j, 1) ∈ m.expander.entries ↔ (e_j = e ∨ m.share_corner e e_j)) ∧
      ((e, e_j, 1) ∈ m.expander.entries ↔ (e_j, e, 1) ∈ m.expander.entries) ∧
      (e, e, 1) ∈ m.expander.entries) := by
  have hent : ∀ a b, a < m.num_total_elements → b < m.num_total_elements →
      ((a, b, 1) ∈ m.expander.entries ↔ (b = a ∨ m.share_corner a b)) := by
    intro a b ha hb
    rw [mem_expander_entries]
    simp only [and_true]
    exact linked_iff_share_corner m hdim a b ha hb
  refine ⟨⟨?_, ?_, ?_⟩, ⟨?_, ?_, ?_⟩, ⟨edge_conn_vert_conn m e e_j hdim,
    face_conn_vert_conn m e e_j⟩, expander_entries_nodup m,
    fun t ht => ((mem_expander_entries m t).mp ht).2, hent e e_j he hj, ?_,
    (hent e e he he).mpr (Or.inl rfl)⟩
  · intro vid h
    exact ((mem_vert_conn m e vid e).mp h).2.2.1 rfl
  · intro eid h
    exact ((mem_edge_conn m e eid e).mp h).2.1 rfl
  · intro fid h
    exact ((mem_face_conn m e fid e).mp h).2.2.1 rfl
  · exact ⟨vert_conn_symm m e e_j he, vert_conn_symm m e_j e hj⟩
  · exact ⟨edge_conn_symm m e e_j he, edge_conn_symm m e_j e hj⟩
  · exact ⟨face_conn_symm m e e_j he, face_conn_symm m e_j e hj⟩
  · rw [hent e e_j he hj, hent e_j e hj he]
    constructor
    · rintro (h | h)
      · exact Or.inl h.symm
      · exact Or.inr (share_corner_symm m e e_j h)
    · rintro (h | h)
      · exact Or.inl h.symm
      · exact Or.inr (share_corner_symm m e_j e h)

theorem expander_pattern_witness :
    (1 ≤ mesh_2x2.dim ∧ 0 < mesh_2x2.num_total_elements ∧ 3 < mesh_2x2.num_total_elements) ∧
    mesh_2x2.share_corner 0 3 ∧
    ((0, 3, 1) ∈ mesh_2x2.expander.entries ↔ (3 = 0 ∨ mesh_2x2.share_corner 0 3)) ∧
    ((0, 3, 1) ∈ mesh_2x2.expander.entries ↔ (3, 0, 1) ∈ mesh_2x2.expander.entries) :=
  ⟨⟨by decide, by decide, by decide⟩, ⟨3, by decide, 0, by decide, by decide⟩,
    (expander_pattern mesh_2x2 0 3 (by decide) (by decide) (by decide)).2.2.2.2.2.1,
    (expander_pattern mesh_2x2 0 3 (by decide) (by decide) (by decide)).2.2.2.2.2.2.1⟩

/-! ### The geometric inverse -/

theorem inverse_three_entries {K : Type} [Field K] (inv_A A : Nat → K) :
    (inverse 3 inv_A A).inv_A 0 = (1 / determinant 3 A) * (A 4 * A 8 - A 7 * A 5) ∧
    (inverse 3 inv_A A).inv_A 1 = (1 / determinant 3 A) * (A 2 * A 7 - A 8 * A 1) ∧
    (inverse 3 inv_A A).inv_A 2 = (1 / determinant 3 A) * (A 1 * A 5 - A 4 * A 2) ∧
    (inverse 3 inv_A A).inv_A 3 = (1 / determinant 3 A) * (A 5 * A 6 - A 8 * A 3) ∧
    (inverse 3 inv_A A).inv_A 4 = (1 / determinant 3 A) * (A 0 * A 8 - A 6 * A 2) ∧
    (inverse 3 inv_A A).inv_A 5 = (1 / determinant 3 A) * (A 2 * A 3 - A 5 * A 0) ∧
    (inverse 3 inv_A A).inv_A 6 = (1 / determinant 3 A) * (A 3 * A 7 - A 6 * A 4) ∧
    (inverse 3 inv_A A).inv_A 7 = (1 / determinant 3 A) * (A 1 * A 6 - A 7 * A 0) ∧
    (inverse 3 inv_A A).inv_A 8 = (1 / determinant 3 A) * (A 0 * A 4 - A 3 * A 1) := by
  refine ⟨?_, ?_, ?_, ?_, ?_, ?_, ?_, ?_, ?_⟩ <;> simp [inverse, assign_over, vset]

theorem inverse_three_left {K : Type} [Field K] (inv_A A : Nat → K)
    (hdet : determinant 3 A ≠ 0) :
    row_major 3 (inverse 3 inv_A A).inv_A * row_major 3 A = 1 := by
  obtain ⟨e0, e1, e2, e3, e4, e5, e6, e7, e8⟩ := inverse_three_entries inv_A A
  have hd : determinant 3 A = A 0 * (A 4 * A 8 - A 5 * A 7) - A 1 * (A 3 * A 8 - A 5 * A 6)
      + A 2 * (A 3 * A 7 - A 4 * A 6) := by
    simp [determinant]
  generalize determinant 3 A = d at *
  ext i j
  fin_cases i <;> fin_cases j <;>
    simp only [Matrix.mul_apply, Fin.sum_univ_three, row_major, Matrix.of_apply,
      Matrix.one_apply, Fin.zero_eta, Fin.mk_one, Fin.reduceFinMk, Fin.isValue,
      Fin.val_zero, Fin.val_one, Fin.val_two, Nat.zero_mul, Nat.zero_add, Nat.one_mul,
      Nat.reduceAdd, Nat.reduceMul, e0, e1, e2, e3, e4, e5, e6, e7, e8] <;>
    norm_num [Fin.ext_iff] <;> field_simp <;>
    first | ring1 | linear_combination (-1 : K) * hd

/-- C30: `determinant` is the determinant of the row-major matrix (the
cofactor expansion along the first row); for a `2 x 2` (`dim = 2`) or `3 x 3`
(`dim = 3`) matrix `A` with `determinant(A) != 0` the array written by
`inverse` is a left and right inverse of `A`; and for every `A` the run of
`inverse` performs one division by `det_A` for each of its four or nine
entries, so four or nine divisions by zero when `determinant(A) == 0`. -/
theorem inverse_exact {K : Type} [Field K] (inv_A A : Nat → K) :
    (determinant 2 A = (row_major 2 A).det ∧ determinant 3 A = (row_major 3 A).det) ∧
    (determinant 2 A ≠ 0 →
      row_major 2 (inverse 2 inv_A A).inv_A * row_major 2 A = 1 ∧
      row_major 2 A * row_major 2 (inverse 2 inv_A A).inv_A = 1) ∧
    (determinant 3 A ≠ 0 →
      row_major 3 (inverse 3 inv_A A).inv_A * row_major 3 A = 1 ∧
      row_major 3 A * row_major 3 (inverse 3 inv_A A).inv_A = 1) ∧
    ((inverse 2 inv_A A).divisors = List.replicate 4 (determinant 2 A) ∧
      (inverse 3 inv_A A).divisors = List.replicate 9 (determinant 3 A) ∧
      (determinant 2 A = 0 → (inverse 2 inv_A A).divisors = [0, 0, 0, 0]) ∧
      (determinant 3 A = 0 →
        (inverse 3 inv_A A).divisors = [0, 0, 0, 0, 0, 0, 0, 0, 0])) := by
  have hd2 : determinant 2 A = (row_major 2 A).det := by
    rw [Matrix.det_fin_two]
    simp [determinant, row_major]
  have hd3 : determinant 3 A = (row_major 3 A).det := by
    rw [Matrix.det_fin_three]
    simp [determinant, row_major]
    ring
  have hl2 : (inverse 2 inv_A A).divisors = List.replicate 4 (determinant 2 A) := by
    simp [inverse, assign_over, List.replicate]
  have hl3 : (inverse 3 inv_A A).divisors = List.replicate 9 (determinant 3 A) := by
    simp [inverse, assign_over, List.replicate]
  refine ⟨⟨hd2, hd3⟩, ?_, ?_, hl2, hl3, ?_, ?_⟩
  · intro hdet
    have hl : row_major 2 (inverse 2 inv_A A).inv_A * row_major 2 A = 1 := by
      ext i j
      fin_cases i <;> fin_cases j <;>
        simp [Matrix.mul_apply, Fin.sum_univ_two, row_major, inverse, assign_over, vset] <;>
        simp only [determinant, if_true] at hdet ⊢ <;>
        field_simp <;> ring
    exact ⟨hl, Matrix.mul_eq_one_comm.mp hl⟩
  · intro hdet
    have hl := inverse_three_left inv_A A hdet
    exact ⟨hl, Matrix.mul_eq_one_comm.mp hl⟩
  · intro h0
    rw [hl2, h0]
    rfl
  · intro h0
    rw [hl3, h0]
    rfl

theorem inverse_exact_witness :
    determinant 2 (fun i => (([2, 1, 1, 1] : List ℚ).getD i 0)) ≠ 0 ∧
    row_major 2 (inverse 2 (fun _ => 0) (fun i => (([2, 1, 1, 1] : List ℚ).getD i 0))).inv_A
        * row_major 2 (fun i => (([2, 1, 1, 1] : List ℚ).getD i 0)) = 1 ∧
    (determinant 2 (fun i => (([1, 2, 2, 4] : List ℚ).getD i 0)) = 0 ∧
      (inverse 2 (fun _ => 0) (fun i => (([1, 2, 2, 4] : List ℚ).getD i 0))).divisors
        = [0, 0, 0, 0]) := by
  have h : determinant 2 (fun i => (([2, 1, 1, 1] : List ℚ).getD i 0)) ≠ 0 := by
    simp [determinant]
    norm_num
  have h0 : determinant 2 (fun i => (([1, 2, 2, 4] : List ℚ).getD i 0)) = 0 := by
    simp [determinant]
    norm_num
  exact ⟨h, ((inverse_exact (fun _ => 0) (fun i => (([2, 1, 1, 1] : List ℚ).getD i 0))).2.1
    h).1, h0,
    (inverse_exact (fun _ => 0) (fun i => (([1, 2, 2, 4] : List ℚ).getD i 0))).2.2.2.2.2.1 h0⟩

/-! ### Symmetry of the coarse element matrices -/

theorem fold_add_eq_sum {K : Type} [Ring K] (f : Nat → K) (n : Nat) :
    (List.range n).foldl (fun a k => a + f k) 0 = ∑ k in Finset.range n, f k := by
  induction n with
  | zero => simp
  | succ n ih =>
    rw [List.range_succ, List.foldl_append, ih, Finset.sum_range_succ]
    rfl

theorem list_sum_range {K : Type} [AddCommMonoid K] (f : Nat → K) (n : Nat) :
    ((List.range n).map f).sum = ∑ k in Finset.range n, f k := by
  induction n with
  | zero => simp
  | succ n ih =>
    rw [List.range_succ, List.map_append, List.sum_append, ih, Finset.sum_range_succ]
    simp

theorem flat_index_inj (n i k i2 k2 : Nat) (hk : k < n) (hk2 : k2 < n) :
    i * n + k = i2 * n + k2 ↔ i = i2 ∧ k = k2 := by
  constructor
  · intro h
    have hn : 0 < n := by omega
    have h1 : (i * n + k) / n = i := by
      rw [Nat.add_comm, Nat.add_mul_div_right _ _ hn, Nat.div_eq_of_lt hk, Nat.zero_add]
    have h2 : (i2 * n + k2) / n = i2 := by
      rw [Nat.add_comm, Nat.add_mul_div_right _ _ hn, Nat.div_eq_of_lt hk2, Nat.zero_add]
    have hi : i = i2 := by rw [← h1, ← h2, h]
    subst hi
    exact ⟨rfl, by omega⟩
  · rintro ⟨rfl, rfl⟩
    rfl

theorem flat_index_div_mod (n i k : Nat) (hk : k < n) :
    (i * n + k) / n = i ∧ (i * n + k) % n = k := by
  have hn : 0 < n := by omega
  constructor
  · rw [Nat.add_comm, Nat.add_mul_div_right _ _ hn, Nat.div_eq_of_lt hk, Nat.zero_add]
  · rw [Nat.add_comm, Nat.add_mul_mod_self_right, Nat.mod_eq_of_lt hk]

theorem G_factors_apply {K : Type} [Zero K] (n : Nat) (geom_fact_coarse : Nat → Nat → K)
    (e g i k : Nat) (hi : i < n) (hk : k < n) :
    G_factors n geom_fact_coarse e g (i * n + k)
      = if i = k then geom_fact_coarse g (e * n + i) else 0 := by
  have key : ∀ m, m ≤ n →
      ((List.range m).foldl
        (fun G v => vset G (v * n + v) (geom_fact_coarse g (e * n + v))) (fun _ => 0))
        (i * n + k) = if i = k ∧ i < m then geom_fact_coarse g (e * n + i) else 0 := by
    intro m
    induction m with
    | zero =>
      intro _
      simp
    | succ m ih =>
      intro hm
      rw [List.range_succ, List.foldl_append]
      simp only [List.foldl_cons, List.foldl_nil, vset]
      by_cases hx : i * n + k = m * n + m
      · obtain ⟨h1, h2⟩ := (flat_index_inj n i k m m hk (by omega)).mp hx
        subst h1
        subst h2
        rw [if_pos rfl, if_pos ⟨rfl, by omega⟩]
      · rw [if_neg hx, ih (by omega)]
        have hne : ¬ (i = k ∧ i = m) := by
          rintro ⟨h1, h2⟩
          apply hx
          rw [← h1, h2]
        by_cases hc : i = k ∧ i < m
        · rw [if_pos hc, if_pos ⟨hc.1, by omega⟩]
        · rw [if_neg hc, if_neg]
          rintro ⟨h1, h2⟩
          by_cases h3 : i = m
          · exact hne ⟨h1, h3⟩
          · exact hc ⟨h1, by omega⟩
  unfold G_factors
  rw [key n (le_refl n)]
  by_cases h : i = k
  · rw [if_pos ⟨h, hi⟩, if_pos h]
  · rw [if_neg (fun hc => h hc.1), if_neg h]

theorem diagonal_sum {K : Type} [Ring K] (n : Nat) (geom_fact_coarse : Nat → Nat → K)
    (e g k : Nat) (hk : k < n) (X : Nat → K) :
    ∑ l in Finset.range n, G_factors n geom_fact_coarse e g (k * n + l) * X l
      = geom_fact_coarse g (e * n + k) * X k := by
  rw [Finset.sum_eq_single k]
  · rw [G_factors_apply n geom_fact_coarse e g k k hk hk, if_pos rfl]
  · intro l hl hne
    rw [G_factors_apply n geom_fact_coarse e g k l hk (Finset.mem_range.mp hl),
      if_neg (Ne.symm hne), zero_mul]
  · intro h
    exact absurd (Finset.mem_range.mpr hk) h

theorem A_e_two {K : Type} [CommRing K] (geom_fact_coarse : Nat → Nat → K) (D : Nat → Nat → K)
    (e i j : Nat) (hj : j < 4) :
    A_e 2 (G_factors 4 geom_fact_coarse e) D (i * 4 + j)
      = ∑ k in Finset.range 4,
        (D 0 (k * 4 + i) * (geom_fact_coarse 0 (e * 4 + k) * D 0 (k * 4 + j)
            + geom_fact_coarse 2 (e * 4 + k) * D 1 (k * 4 + j))
          + D 1 (k * 4 + i) * (geom_fact_coarse 2 (e * 4 + k) * D 0 (k * 4 + j)
            + geom_fact_coarse 1 (e * 4 + k) * D 1 (k * 4 + j))) := by
  obtain ⟨h1, h2⟩ := flat_index_div_mod 4 i j hj
  unfold A_e
  rw [if_pos rfl, fold_add_eq_sum, h1, h2]
  apply Finset.sum_congr rfl
  intro k hk
  have hk4 : k < 4 := Finset.mem_range.mp hk
  obtain ⟨h3, h4⟩ := flat_index_div_mod 4 k j hj
  have g0 : GD 2 (G_factors 4 geom_fact_coarse e) D 0 (k * 4 + j)
      = geom_fact_coarse 0 (e * 4 + k) * D 0 (k * 4 + j)
        + geom_fact_coarse 2 (e * 4 + k) * D 1 (k * 4 + j) := by
    unfold GD
    rw [if_pos rfl, if_pos rfl, fold_add_eq_sum, h3, h4, Finset.sum_add_distrib,
      diagonal_sum 4 geom_fact_coarse e 0 k hk4 (fun l => D 0 (l * 4 + j)),
      diagonal_sum 4 geom_fact_coarse e 2 k hk4 (fun l => D 1 (l * 4 + j))]
  have g1 : GD 2 (G_factors 4 geom_fact_coarse e) D 1 (k * 4 + j)
      = geom_fact_coarse 2 (e * 4 + k) * D 0 (k * 4 + j)
        + geom_fact_coarse 1 (e * 4 + k) * D 1 (k * 4 + j) := by
    unfold GD
    rw [if_pos rfl, if_neg (by decide), fold_add_eq_sum, h3, h4, Finset.sum_add_distrib,
      diagonal_sum 4 geom_fact_coarse e 2 k hk4 (fun l => D 0 (l * 4 + j)),
      diagonal_sum 4 geom_fact_coarse e 1 k hk4 (fun l => D 1 (l * 4 + j))]
  rw [g0, g1]

theorem A_e_three {K : Type} [CommRing K] (dim : Nat) (hd : dim ≠ 2)
    (geom_fact_coarse : Nat → Nat → K) (D : Nat → Nat → K)
    (e i j : Nat) (hj : j < 8) :
    A_e dim (G_factors 8 geom_fact_coarse e) D (i * 8 + j)
      = ∑ k in Finset.range 8,
        (D 0 (k * 8 + i) * (geom_fact_coarse 0 (e * 8 + k) * D 0 (k * 8 + j)
            + geom_fact_coarse 3 (e * 8 + k) * D 1 (k * 8 + j)
            + geom_fact_coarse 4 (e * 8 + k) * D 2 (k * 8 + j))
          + D 1 (k * 8 + i) * (geom_fact_coarse 3 (e * 8 + k) * D 0 (k * 8 + j)
            + geom_fact_coarse 1 (e * 8 + k) * D 1 (k * 8 + j)
            + geom_fact_coarse 5 (e * 8 + k) * D 2 (k * 8 + j))
          + D 2 (k * 8 + i) * (geom_fact_coarse 4 (e * 8 + k) * D 0 (k * 8 + j)
            + geom_fact_coarse 5 (e * 8 + k) * D 1 (k * 8 + j)
            + geom_fact_coarse 2 (e * 8 + k) * D 2 (k * 8 + j))) := by
  obtain ⟨h1, h2⟩ := flat_index_div_mod 8 i j hj
  unfold A_e
  rw [if_neg hd, fold_add_eq_sum, h1, h2]
  apply Finset.sum_congr rfl
  intro k hk
  have hk8 : k < 8 := Finset.mem_range.mp hk
  obtain ⟨h3, h4⟩ := flat_index_div_mod 8 k j hj
  have g0 : GD dim (G_factors 8 geom_fact_coarse e) D 0 (k * 8 + j)
      = geom_fact_coarse 0 (e * 8 + k) * D 0 (k * 8 + j)
        + geom_fact_coarse 3 (e * 8 + k) * D 1 (k * 8 + j)
        + geom_fact_coarse 4 (e * 8 + k) * D 2 (k * 8 + j) := by
    unfold GD
    rw [if_neg hd, if_pos rfl, fold_add_eq_sum, h3, h4, Finset.sum_add_distrib,
      Finset.sum_add_distrib,
      diagonal_sum 8 geom_fact_coarse e 0 k hk8 (fun l => D 0 (l * 8 + j)),
      diagonal_sum 8 geom_fact_coarse e 3 k hk8 (fun l => D 1 (l * 8 + j)),
      diagonal_sum 8 geom_fact_coarse e 4 k hk8 (fun l => D 2 (l * 8 + j))]
  have g1 : GD dim (G_factors 8 geom_fact_coarse e) D 1 (k * 8 + j)
      = geom_fact_coarse 3 (e * 8 + k) * D 0 (k * 8 + j)
        + geom_fact_coarse 1 (e * 8 + k) * D 1 (k * 8 + j)
        + geom_fact_coarse 5 (e * 8 + k) * D 2 (k * 8 + j) := by
    unfold GD
    rw [if_neg hd, if_neg (by decide), if_pos rfl, fold_add_eq_sum, h3, h4,
      Finset.sum_add_distrib, Finset.sum_add_distrib,
      diagonal_sum 8 geom_fact_coarse e 3 k hk8 (fun l => D 0 (l * 8 + j)),
      diagonal_sum 8 geom_fact_coarse e 1 k hk8 (fun l => D 1 (l * 8 + j)),
      diagonal_sum 8 geom_fact_coarse e 5 k hk8 (fun l => D 2 (l * 8 + j))]
  have g2 : GD dim (G_factors 8 geom_fact_coarse e) D 2 (k * 8 + j)
      = geom_fact_coarse 4 (e * 8 + k) * D 0 (k * 8 + j)
        + geom_fact_coarse 5 (e * 8 + k) * D 1 (k * 8 + j)
        + geom_fact_coarse 2 (e * 8 + k) * D 2 (k * 8 + j) := by
    unfold GD
    rw [if_neg hd, if_neg (by decide), if_neg (by decide), fold_add_eq_sum, h3, h4,
      Finset.sum_add_distrib, Finset.sum_add_distrib,
      diagonal_sum 8 geom_fact_coarse e 4 k hk8 (fun l => D 0 (l * 8 + j)),
      diagonal_sum 8 geom_fact_coarse e 5 k hk8 (fun l => D 1 (l * 8 + j)),
      diagonal_sum 8 geom_fact_coarse e 2 k hk8 (fun l => D 2 (l * 8 + j))]
  rw [g0, g1, g2]

theorem element_matrix_symm {K : Type} [CommRing K] (dim : Nat)
    (geom_fact_coarse : Nat → Nat → K) (D_hat : Nat → K) (e i j : Nat)
    (hi : i < (if dim = 2 then 4 else 8)) (hj : j < (if dim = 2 then 4 else 8)) :
    coarse_element_matrix dim geom_fact_coarse D_hat e (i * (if dim = 2 then 4 else 8) + j)
      = coarse_element_matrix dim geom_fact_coarse D_hat e
          (j * (if dim = 2 then 4 else 8) + i) := by
  unfold coarse_element_matrix
  by_cases hd : dim = 2
  · subst hd
    simp only [if_true] at hi hj ⊢
    rw [A_e_two _ _ e i j hj, A_e_two _ _ e j i hi]
    apply Finset.sum_congr rfl
    intro k _
    ring
  · simp only [if_neg hd] at hi hj ⊢
    rw [A_e_three dim hd _ _ e i j hj, A_e_three dim hd _ _ e j i hi]
    apply Finset.sum_congr rfl
    intro k _
    ring

theorem kept_symm {K : Type} [LinearOrderedField K] (dim : Nat)
    (geom_fact_coarse : Nat → Nat → K) (D_hat : Nat → K) (dof_num_coarse : Nat → Int)
    (epsilon : K) (e i j : Nat)
    (hi : i < (if dim = 2 then 4 else 8)) (hj : j < (if dim = 2 then 4 else 8)) :
    kept dim geom_fact_coarse D_hat dof_num_coarse epsilon e i j
      = kept dim geom_fact_coarse D_hat dof_num_coarse epsilon e j i := by
  unfold kept
  rw [element_matrix_symm dim geom_fact_coarse D_hat e i j hi hj]
  apply decide_eq_decide.mpr
  constructor
  · rintro ⟨h1, h2, h3⟩
    exact ⟨h2, h1, h3⟩
  · rintro ⟨h1, h2, h3⟩
    exact ⟨h2, h1, h3⟩

/-- C27: for every element `e`, geometric factors, reference matrix `D_hat`
and `dim`, the element matrix `A_e` computed by the constructor satisfies
`A_e[i][j] = A_e[j][i]` for all vertices `i`, `j`; the test
`|val| > epsilon` (with both DOFs present) keeps `(i, j)` exactly when it
keeps `(j, i)`; and the assembled low-order matrix has equal entries at
`(row, col)` and `(col, row)`. -/
theorem coarse_matrix_symmetric {K : Type} [LinearOrderedField K] (dim num_total_elements : Nat)
    (geom_fact_coarse : Nat → Nat → K) (D_hat : Nat → K) (dof_num_coarse : Nat → Int)
    (epsilon : K) (e i j : Nat) (row col : Int)
    (hi : i < (if dim = 2 then 4 else 8)) (hj : j < (if dim = 2 then 4 else 8)) :
    coarse_element_matrix dim geom_fact_coarse D_hat e (i * (if dim = 2 then 4 else 8) + j)
      = coarse_element_matrix dim geom_fact_coarse D_hat e
          (j * (if dim = 2 then 4 else 8) + i) ∧
    kept dim geom_fact_coarse D_hat dof_num_coarse epsilon e i j
      = kept dim geom_fact_coarse D_hat dof_num_coarse epsilon e j i ∧
    A_coarse dim num_total_elements geom_fact_coarse D_hat dof_num_coarse epsilon row col
      = A_coarse dim num_total_elements geom_fact_coarse D_hat dof_num_coarse epsilon
          col row := by
  refine ⟨element_matrix_symm dim geom_fact_coarse D_hat e i j hi hj,
    kept_symm dim geom_fact_coarse D_hat dof_num_coarse epsilon e i j hi hj, ?_⟩
  unfold A_coarse
  congr 1
  apply List.map_congr_left
  intro e2 _
  rw [list_sum_range, list_sum_range]
  simp only [list_sum_range]
  rw [Finset.sum_comm]
  apply Finset.sum_congr rfl
  intro a ha
  apply Finset.sum_congr rfl
  intro b hb
  rw [element_matrix_symm dim geom_fact_coarse D_hat e2 b a (Finset.mem_range.mp hb)
      (Finset.mem_range.mp ha),
    kept_symm dim geom_fact_coarse D_hat dof_num_coarse epsilon e2 b a (Finset.mem_range.mp hb)
      (Finset.mem_range.mp ha)]
  exact if_congr ⟨fun h => ⟨h.2.1, h.1, h.2.2⟩, fun h => ⟨h.2.1, h.1, h.2.2⟩⟩ rfl rfl

theorem coarse_matrix_symmetric_witness :
    ((0 : Nat) < (if (2 : Nat) = 2 then 4 else 8) ∧ (1 : Nat) < (if (2 : Nat) = 2 then 4 else 8)) ∧
    coarse_element_matrix 2 (fun g v => ((g + v + 1 : Nat) : ℚ))
        (fun i => ([-1 / 2, 1 / 2, -1 / 2, 1 / 2] : List ℚ).getD i 0) 0
        (0 * (if (2 : Nat) = 2 then 4 else 8) + 1)
      = coarse_element_matrix 2 (fun g v => ((g + v + 1 : Nat) : ℚ))
        (fun i => ([-1 / 2, 1 / 2, -1 / 2, 1 / 2] : List ℚ).getD i 0) 0
        (1 * (if (2 : Nat) = 2 then 4 else 8) + 0) ∧
    A_coarse 2 1 (fun g v => ((g + v + 1 : Nat) : ℚ))
        (fun i => ([-1 / 2, 1 / 2, -1 / 2, 1 / 2] : List ℚ).getD i 0)
        (fun v => ([1, 2, 3, 4] : List Int).getD v 0) (1 / 100) 0 1
      = A_coarse 2 1 (fun g v => ((g + v + 1 : Nat) : ℚ))
        (fun i => ([-1 / 2, 1 / 2, -1 / 2, 1 / 2] : List ℚ).getD i 0)
        (fun v => ([1, 2, 3, 4] : List Int).getD v 0) (1 / 100) 1 0 :=
  ⟨⟨by decide, by decide⟩,
    (coarse_matrix_symmetric 2 1 (fun g v => ((g + v + 1 : Nat) : ℚ))
      (fun i => ([-1 / 2, 1 / 2, -1 / 2, 1 / 2] : List ℚ).getD i 0)
      (fun v => ([1, 2, 3, 4] : List Int).getD v 0) (1 / 100) 0 0 1 0 1
      (by decide) (by decide)).1,
    (coarse_matrix_symmetric 2 1 (fun g v => ((g + v + 1 : Nat) : ℚ))
      (fun i => ([-1 / 2, 1 / 2, -1 / 2, 1 / 2] : List ℚ).getD i 0)
      (fun v => ([1, 2, 3, 4] : List Int).getD v 0) (1 / 100) 0 0 1 0 1
      (by decide) (by decide)).2.2⟩

/-! ### Horner form of the host smoothing -/

theorem fold_vset_apply {α : Type} (g : Nat → α) (n : Nat) (a : Nat → α) (i : Nat) :
    ((List.range n).foldl (fun a2 row => vset a2 row (g row)) a) i
      = if i < n then g i else a i := by
  induction n with
  | zero => simp
  | succ n ih =>
    rw [List.range_succ, List.foldl_append]
    simp only [List.foldl_cons, List.foldl_nil, vset]
    by_cases h : i = n
    · subst h
      simp
    · rw [if_neg h, ih]
      by_cases h2 : i < n
      · rw [if_pos h2, if_pos (by omega)]
      · rw [if_neg h2, if_neg (by omega)]

theorem update_field_apply {K : Type} [CommRing K] (size : Nat) (u w D_val : Nat → K)
    (i : Nat) :
    update_field size u w D_val i = if i < size then u i + D_val i * w i else u i := by
  unfold update_field
  induction size with
  | zero => simp
  | succ n ih =>
    rw [List.range_succ, List.foldl_append]
    simp only [List.foldl_cons, List.foldl_nil, vset]
    by_cases h : i = n
    · subst h
      have hn := fold_vset_apply (fun _ => (0 : K)) 0 u i
      simp only [lt_self_iff_false, if_false, Nat.lt_succ_self, if_true]
      congr 1
      clear hn
      have key : ∀ m, m ≤ i →
          ((List.range m).foldl (fun u2 idx => vset u2 idx (u2 idx + D_val idx * w idx)) u) i
            = u i := by
        intro m
        induction m with
        | zero => intro _; rfl
        | succ m ihm =>
          intro hm
          rw [List.range_succ, List.foldl_append]
          simp only [List.foldl_cons, List.foldl_nil, vset]
          rw [if_neg (by omega)]
          exact ihm (by omega)
      exact key i (le_refl i)
    · rw [if_neg h, ih]
      by_cases h2 : i < n
      · rw [if_pos h2, if_pos (by omega)]
      · rw [if_neg h2, if_neg (by omega)]

theorem fold_vset_pair {α : Type} (g h : Nat → α) (l : List Nat) :
    ∀ a b : Nat → α,
      l.foldl (fun s row => (vset s.1 row (g row), vset s.2 row (h row))) (a, b)
        = (l.foldl (fun a2 row => vset a2 row (g row)) a,
            l.foldl (fun b2 row => vset b2 row (h row)) b) := by
  induction l with
  | nil => intro a b; rfl
  | cons x l ih =>
    intro a b
    rw [List.foldl_cons, List.foldl_cons, List.foldl_cons]
    exact ih _ _

theorem scaled_residual_apply {K : Type} [CommRing K] (A : AMG_Matrix K) (u f S : Nat → K)
    (alpha : K) (Sr w : Nat → K) (i : Nat) :
    (scaled_residual A u f S alpha Sr w).1 i
      = (if i < A.num_rows then S i * (f i - A.row_sum u i) else Sr i) ∧
    (scaled_residual A u f S alpha Sr w).2 i
      = (if i < A.num_rows then alpha * (S i * (f i - A.row_sum u i)) else w i) := by
  have hstep : (fun (s : (Nat → K) × (Nat → K)) (row : Nat) =>
        (vset s.1 row (S row * (f row - A.row_sum u row)),
          vset s.2 row (alpha * vset s.1 row (S row * (f row - A.row_sum u row)) row)))
      = (fun s row => (vset s.1 row (S row * (f row - A.row_sum u row)),
          vset s.2 row (alpha * (S row * (f row - A.row_sum u row))))) := by
    funext s row
    simp [vset]
  unfold scaled_residual
  rw [hstep, fold_vset_pair]
  exact ⟨fold_vset_apply _ _ _ _, fold_vset_apply _ _ _ _⟩

theorem fold_add_congr {K : Type} [CommRing K] (g h : Nat → K) (l : List Nat)
    (hgh : ∀ idx ∈ l, g idx = h idx) (a : K) :
    l.foldl (fun acc idx => acc + g idx) a = l.foldl (fun acc idx => acc + h idx) a := by
  induction l generalizing a with
  | nil => rfl
  | cons x l ih =>
    rw [List.foldl_cons, List.foldl_cons, hgh x (List.mem_cons_self _ _)]
    exact ih (fun idx hidx => hgh idx (List.mem_cons_of_mem _ hidx)) _

theorem polynomial_evaluation_apply {K : Type} [CommRing K] (A : AMG_Matrix K)
    (r D_val : Nat → K) (alpha : K) (w v : Nat → K) (i : Nat) :
    (polynomial_evaluation A r D_val alpha w v).1 i
      = (if i < A.num_rows then alpha * r i + spec_scaled_operator A D_val w i else w i) := by
  unfold polynomial_evaluation
  simp only
  rw [fold_vset_apply (fun row => alpha * r row + _)]
  by_cases h : i < A.num_rows
  · rw [if_pos h, if_pos h, fold_vset_apply, if_pos h]
    unfold spec_scaled_operator AMG_Matrix.row_sum
    congr 2
    apply fold_add_congr
    intro idx _
    rw [mul_assoc]
  · rw [if_neg h, if_neg h]

theorem fold_add_sum {K : Type} [CommRing K] (g : Nat → K) (l : List Nat) (a : K) :
    l.foldl (fun acc idx => acc + g idx) a = a + (l.map g).sum := by
  induction l generalizing a with
  | nil => simp
  | cons x l ih =>
    rw [List.foldl_cons, ih, List.map_cons, List.sum_cons, add_assoc]

theorem row_sum_eq {K : Type} [CommRing K] (A : AMG_Matrix K) (x : Nat → K) (row : Nat) :
    A.row_sum x row
      = ((List.range' (A.ptr row) (A.ptr (row + 1) - A.ptr row)).map
          (fun idx => A.val idx * x (A.col idx))).sum := by
  unfold AMG_Matrix.row_sum
  rw [fold_add_sum, zero_add]

theorem row_sum_congr {K : Type} [CommRing K] (A : AMG_Matrix K) (x y : Nat → K) (row : Nat)
    (h : ∀ idx, A.ptr row ≤ idx → idx < A.ptr (row + 1) → x (A.col idx) = y (A.col idx)) :
    A.row_sum x row = A.row_sum y row := by
  rw [row_sum_eq, row_sum_eq]
  congr 1
  apply List.map_congr_left
  intro idx hidx
  rw [List.mem_range'_1] at hidx
  rw [h idx hidx.1 (by omega)]

theorem row_sum_add {K : Type} [CommRing K] (A : AMG_Matrix K) (x y : Nat → K) (row : Nat) :
    A.row_sum (fun j => x j + y j) row = A.row_sum x row + A.row_sum y row := by
  rw [row_sum_eq, row_sum_eq, row_sum_eq, ← List.sum_map_add]
  congr 1
  apply List.map_congr_left
  intro idx _
  ring

theorem row_sum_smul {K : Type} [CommRing K] (A : AMG_Matrix K) (a : K) (x : Nat → K)
    (row : Nat) :
    A.row_sum (fun j => a * x j) row = a * A.row_sum x row := by
  rw [row_sum_eq, row_sum_eq, ← List.sum_map_mul_left]
  congr 1
  apply List.map_congr_left
  intro idx _
  ring

theorem scaled_operator_add {K : Type} [CommRing K] (A : AMG_Matrix K) (D x y : Nat → K) :
    spec_scaled_operator A D (fun j => x j + y j)
      = fun i => spec_scaled_operator A D x i + spec_scaled_operator A D y i := by
  funext i
  unfold spec_scaled_operator
  have : (fun j => D j * (x j + y j)) = (fun j => D j * x j + D j * y j) := by
    funext j
    ring
  rw [this, row_sum_add]
  ring

theorem scaled_operator_smul {K : Type} [CommRing K] (A : AMG_Matrix K) (D : Nat → K) (a : K)
    (x : Nat → K) :
    spec_scaled_operator A D (fun j => a * x j)
      = fun i => a * spec_scaled_operator A D x i := by
  funext i
  unfold spec_scaled_operator
  have : (fun j => D j * (a * x j)) = (fun j => a * (D j * x j)) := by
    funext j
    ring
  rw [this, row_sum_smul]
  ring

theorem scaled_operator_sum {K : Type} [CommRing K] (A : AMG_Matrix K) (D : Nat → K)
    (a : Nat → K) (X : Nat → Nat → K) (m : Nat) :
    spec_scaled_operator A D (fun j => ∑ t in Finset.range m, a t * X t j)
      = fun i => ∑ t in Finset.range m, a t * spec_scaled_operator A D (X t) i := by
  induction m with
  | zero =>
    funext i
    simp only [Finset.range_zero, Finset.sum_empty]
    have := scaled_operator_smul A D 0 (fun _ => (0 : K))
    simp only [zero_mul] at this
    rw [this]
  | succ m ih =>
    have h1 : (fun j => ∑ t in Finset.range (m + 1), a t * X t j)
        = (fun j => (∑ t in Finset.range m, a t * X t j) + a m * X m j) := by
      funext j
      rw [Finset.sum_range_succ]
    rw [h1, scaled_operator_add, ih, scaled_operator_smul]
    funext i
    rw [Finset.sum_range_succ]

theorem scaled_operator_congr {K : Type} [CommRing K] (A : AMG_Matrix K) (D x y : Nat → K)
    (i : Nat) (hi : i < A.num_rows)
    (hcol : ∀ row idx, row < A.num_rows → A.ptr row ≤ idx → idx < A.ptr (row + 1) →
      A.col idx < A.num_rows)
    (h : ∀ j, j < A.num_rows → x j = y j) :
    spec_scaled_operator A D x i = spec_scaled_operator A D y i := by
  unfold spec_scaled_operator
  congr 1
  apply row_sum_congr
  intro idx h1 h2
  show D (A.col idx) * x (A.col idx) = D (A.col idx) * y (A.col idx)
  rw [h _ (hcol i idx hi h1 h2)]

/-- The value of the Horner recursion before the pass with coefficient
`c[p - 1]`: the sum of `c[p + t] (D A D)^t r` over `t < k - p`. -/
theorem horner_step {K : Type} [CommRing K] (A : AMG_Matrix K) (D r0 : Nat → K) (c : Nat → K)
    (k p : Nat) (hp : p < k) (i : Nat) :
    ∑ t in Finset.range (k - p), c (p + t) * ((spec_scaled_operator A D)^[t] r0) i
      = c p * r0 i + spec_scaled_operator A D
          (fun j => ∑ t in Finset.range (k - (p + 1)),
            c (p + 1 + t) * ((spec_scaled_operator A D)^[t] r0) j) i := by
  have hk : k - p = (k - (p + 1)) + 1 := by omega
  rw [hk, Finset.sum_range_succ', scaled_operator_sum]
  simp only [Function.iterate_zero, id_eq, Nat.add_zero]
  rw [add_comm]
  congr 1
  apply Finset.sum_congr rfl
  intro t _
  rw [Function.iterate_succ_apply']
  congr 2
  omega

theorem smoothing_passes {K : Type} [CommRing K] (A : AMG_Matrix K) (coefs : Nat → K)
    (k : Nat) (u0 f0 D : Nat → K)
    (hcol : ∀ row idx, row < A.num_rows → A.ptr row ≤ idx → idx < A.ptr (row + 1) →
      A.col idx < A.num_rows) :
    ∀ (m : Nat) (s : Smoother_State K), m < k → s.D_val = D →
      (∀ i, i < A.num_rows → s.r i = D i * (f0 i - A.row_sum u0 i)) →
      (∀ i, i < A.num_rows → s.w i = ∑ t in Finset.range (k - m),
        coefs (m + t) * ((spec_scaled_operator A D)^[t]
          (fun j => D j * (f0 j - A.row_sum u0 j))) i) →
      (∀ i, i < A.num_rows →
        ((List.range m).reverse.foldl (smoothing_pass A coefs) s).w i
          = ∑ t in Finset.range k,
            coefs t * ((spec_scaled_operator A D)^[t]
              (fun j => D j * (f0 j - A.row_sum u0 j))) i) ∧
      ((List.range m).reverse.foldl (smoothing_pass A coefs) s).u = s.u ∧
      ((List.range m).reverse.foldl (smoothing_pass A coefs) s).f = s.f ∧
      ((List.range m).reverse.foldl (smoothing_pass A coefs) s).D_val = s.D_val ∧
      ((List.range m).reverse.foldl (smoothing_pass A coefs) s).size = s.size := by
  intro m
  induction m with
  | zero =>
    intro s _ _ _ hw
    refine ⟨?_, rfl, rfl, rfl, rfl⟩
    intro i hi
    have := hw i hi
    simpa using this
  | succ m ih =>
    intro s hm hD hr hw
    rw [List.range_succ, List.reverse_append, List.reverse_singleton, List.singleton_append,
      List.foldl_cons]
    have hpass : ∀ i, i < A.num_rows → (smoothing_pass A coefs s m).w i
        = ∑ t in Finset.range (k - m),
          coefs (m + t) * ((spec_scaled_operator A D)^[t]
            (fun j => D j * (f0 j - A.row_sum u0 j))) i := by
      intro i hi
      show (polynomial_evaluation A s.r s.D_val (coefs m) s.w s.v).1 i = _
      rw [polynomial_evaluation_apply, if_pos hi, hD, hr i hi,
        horner_step A D _ coefs k m (by omega) i]
      congr 1
      exact scaled_operator_congr A D _ _ i hi hcol hw
    obtain ⟨a1, a2, a3, a4, a5⟩ := ih (smoothing_pass A coefs s m) (by omega) hD hr hpass
    exact ⟨a1, a2, a3, a4, a5⟩

/-- C25: for an order `cheby_order >= 1` (the constructor clamps it to
`1..4`), a matrix whose column indices are below `num_rows` and vectors of size
`num_rows`, the host smoothing step leaves `f` and `D_val` unchanged and
gives `u + D q(D A D) D (f - A u)` with `q(x)` the sum of `c[p] x^p` over
`p < cheby_order`. -/
theorem host_smoothing_horner {K : Type} [CommRing K] (A : AMG_Matrix K) (coefs : Nat → K)
    (cheby_order : Int) (s : Smoother_State K)
    (hk : 1 ≤ cheby_order) (hsize : s.size = A.num_rows)
    (hcol : ∀ row idx, row < A.num_rows → A.ptr row ≤ idx → idx < A.ptr (row + 1) →
      A.col idx < A.num_rows) :
    (∀ i, i < A.num_rows →
      (host_smoothing A coefs cheby_order s).u i
        = spec_smoothing A s.u s.f s.D_val coefs cheby_order.toNat i) ∧
    (host_smoothing A coefs cheby_order s).f = s.f ∧
    (host_smoothing A coefs cheby_order s).D_val = s.D_val ∧
    (∀ c : Int, 1 ≤ clamp_cheby_order c ∧ clamp_cheby_order c ≤ 4) := by
  have hk1 : (cheby_order - 1).toNat < cheby_order.toNat := by omega
  have hk2 : cheby_order.toNat - (cheby_order - 1).toNat = 1 := by omega
  obtain ⟨a1, a2, a3, a4, a5⟩ := smoothing_passes A coefs cheby_order.toNat s.u s.f s.D_val hcol
    (cheby_order - 1).toNat
    { s with
      r := (scaled_residual A s.u s.f s.D_val (coefs (cheby_order - 1).toNat) s.r s.w).1,
      w := (scaled_residual A s.u s.f s.D_val (coefs (cheby_order - 1).toNat) s.r s.w).2 }
    hk1 rfl
    (by
      intro i hi
      show (scaled_residual A s.u s.f s.D_val (coefs (cheby_order - 1).toNat) s.r s.w).1 i = _
      rw [(scaled_residual_apply A s.u s.f s.D_val _ s.r s.w i).1, if_pos hi])
    (by
      intro i hi
      show (scaled_residual A s.u s.f s.D_val (coefs (cheby_order - 1).toNat) s.r s.w).2 i = _
      rw [(scaled_residual_apply A s.u s.f s.D_val _ s.r s.w i).2, if_pos hi, hk2]
      simp)
  refine ⟨?_, a3, a4, ?_⟩
  · intro i hi
    show update_field _ _ _ _ i = _
    rw [update_field_apply, a5, a2, a4]
    show (if i < s.size then _ else _) = _
    rw [if_pos (by omega), a1 i hi]
    rfl
  · intro c
    unfold clamp_cheby_order
    split_ifs <;> omega

theorem host_smoothing_horner_witness :
    ((1 : Int) ≤ 2 ∧ (2 : Nat) = 2) ∧
    ∀ i, i < 2 →
      (host_smoothing
        ({ num_rows := 2, ptr := fun r => 2 * r, col := fun idx => idx % 2,
           val := fun idx => ([2, -1, -1, 2] : List ℚ).getD idx 0 } : AMG_Matrix ℚ)
        (fun p => ([1, 1 / 2] : List ℚ).getD p 0) 2
        { u := fun _ => 0, f := fun _ => 1, r := fun _ => 0, w := fun _ => 0, v := fun _ => 0,
          D_val := fun _ => 1 / 2, size := 2 }).u i
      = spec_smoothing
        ({ num_rows := 2, ptr := fun r => 2 * r, col := fun idx => idx % 2,
           val := fun idx => ([2, -1, -1, 2] : List ℚ).getD idx 0 } : AMG_Matrix ℚ)
        (fun _ => 0) (fun _ => 1) (fun _ => 1 / 2)
        (fun p => ([1, 1 / 2] : List ℚ).getD p 0) (2 : Int).toNat i :=
  ⟨⟨by decide, rfl⟩,
    (host_smoothing_horner
      ({ num_rows := 2, ptr := fun r => 2 * r, col := fun idx => idx % 2,
         val := fun idx => ([2, -1, -1, 2] : List ℚ).getD idx 0 } : AMG_Matrix ℚ)
      (fun p => ([1, 1 / 2] : List ℚ).getD p 0) 2
      { u := fun _ => 0, f := fun _ => 1, r := fun _ => 0, w := fun _ => 0, v := fun _ => 0,
        D_val := fun _ => 1 / 2, size := 2 }
      (by decide) rfl
      (by
        intro row idx _ _ _
        exact Nat.mod_lt _ (by decide))).1⟩

/-! ### Edge matching -/

theorem fill_indices_apply (r : EdgeRow) (k : Nat) :
    fill_indices r k = if k < r.count then r.idx k else 0 := by
  unfold fill_indices
  exact fold_vset_apply r.idx r.count (fun _ => 0) k

theorem edge_rows_ends (dim n_x n_y n_z : Nat) (hx : 1 ≤ n_x) (hy : 1 ≤ n_y) (hz : 1 ≤ n_z)
    (r : EdgeRow) (hr : r ∈ edge_rows dim n_x n_y n_z) :
    1 ≤ r.count ∧ r.idx 0 = r.c1 ∧ r.idx (r.count - 1) = r.c2 := by
  unfold edge_rows at hr
  by_cases hd : dim = 2
  · rw [if_pos hd] at hr
    simp only [List.mem_cons, List.mem_singleton, List.not_mem_nil, or_false] at hr
    rcases hr with rfl | rfl | rfl | rfl <;> exact ⟨by assumption, rfl, rfl⟩
  · rw [if_neg hd] at hr
    simp only [List.mem_cons, List.mem_singleton, List.not_mem_nil, or_false] at hr
    rcases hr with rfl | rfl | rfl | rfl | rfl | rfl | rfl | rfl | rfl | rfl | rfl | rfl <;>
      exact ⟨by assumption, rfl, rfl⟩

theorem fill_indices_ends (dim n_x n_y n_z : Nat) (hx : 1 ≤ n_x) (hy : 1 ≤ n_y) (hz : 1 ≤ n_z)
    (r : EdgeRow) (hr : r ∈ edge_rows dim n_x n_y n_z) :
    fill_indices r 0 = r.c1 ∧ fill_indices r (r.count - 1) = r.c2 := by
  obtain ⟨h1, h2, h3⟩ := edge_rows_ends dim n_x n_y n_z hx hy hz r hr
  rw [fill_indices_apply, fill_indices_apply, if_pos (by omega), if_pos (by omega)]
  exact ⟨h2, h3⟩

/-- C21, counterexample: two bilinear elements whose edge `0` carries the
corner ids `1, 2` in the first and `2, 1` in the second.  Both index sequences
run along edge `0` in increasing local order, so the first index carries id
`1` in the first element and id `2` in the second.  With the second element
`[1, 1, 2, 7]`, whose edge `2` carries the ids `1, 2`, the sequence runs along
its edge `0`, both of whose corner ids are `1`. -/
theorem matching_edge_counterexample :
    ((bilinear_with [1, 2, 3, 4]).glo_num
        ((matching_edge 2 (bilinear_with [1, 2, 3, 4]) (bilinear_with [2, 1, 5, 6]) 0).1 0) = 1 ∧
      (bilinear_with [2, 1, 5, 6]).glo_num
        ((matching_edge 2 (bilinear_with [1, 2, 3, 4]) (bilinear_with [2, 1, 5, 6]) 0).2 0) = 2 ∧
      (bilinear_with [2, 1, 5, 6]).glo_num
        ((matching_edge 2 (bilinear_with [1, 2, 3, 4]) (bilinear_with [2, 1, 5, 6]) 0).2 1) = 1) ∧
    ((bilinear_with [1, 1, 2, 7]).glo_num 0 = 1 ∧ (bilinear_with [1, 1, 2, 7]).glo_num 2 = 2 ∧
      (matching_edge 2 (bilinear_with [1, 2, 3, 4]) (bilinear_with [1, 1, 2, 7]) 0).2 0 = 0 ∧
      (matching_edge 2 (bilinear_with [1, 2, 3, 4]) (bilinear_with [1, 1, 2, 7]) 0).2 1 = 1 ∧
      (bilinear_with [1, 1, 2, 7]).glo_num 1 = 1) := by
  decide

/-- The result of `matching_edge` when edge `eid` exists and some edge of the
second element has both corner ids in the set: the second sequence runs along
the first such edge. -/
theorem matching_edge_first (dim eid : Nat) (elem_i elem_j : RegionElement) (r_i : EdgeRow)
    (hi : (edge_rows dim elem_i.n_x elem_i.n_y elem_i.n_z)[eid]? = some r_i)
    (hex : ∃ r ∈ edge_rows dim elem_j.n_x elem_j.n_y elem_j.n_z,
      elem_j.glo_num r.c1 ∈ [elem_i.glo_num r_i.c1, elem_i.glo_num r_i.c2] ∧
      elem_j.glo_num r.c2 ∈ [elem_i.glo_num r_i.c1, elem_i.glo_num r_i.c2]) :
    ∃ r_j ∈ edge_rows dim elem_j.n_x elem_j.n_y elem_j.n_z,
      elem_j.glo_num r_j.c1 ∈ [elem_i.glo_num r_i.c1, elem_i.glo_num r_i.c2] ∧
      elem_j.glo_num r_j.c2 ∈ [elem_i.glo_num r_i.c1, elem_i.glo_num r_i.c2] ∧
      matching_edge dim elem_i elem_j eid = (fill_indices r_i, fill_indices r_j) := by
  cases hfind : (edge_rows dim elem_j.n_x elem_j.n_y elem_j.n_z).find?
      (fun r => decide (elem_j.glo_num r.c1 ∈ [elem_i.glo_num r_i.c1, elem_i.glo_num r_i.c2]) &&
        decide (elem_j.glo_num r.c2 ∈ [elem_i.glo_num r_i.c1, elem_i.glo_num r_i.c2])) with
  | none =>
    exfalso
    obtain ⟨r, hr, h1, h2⟩ := hex
    have h := List.find?_eq_none.mp hfind r hr
    simp only [Bool.and_eq_true, decide_eq_true_eq] at h
    exact h ⟨h1, h2⟩
  | some r_j =>
    have hp := List.find?_some hfind
    simp only [Bool.and_eq_true, decide_eq_true_eq] at hp
    refine ⟨r_j, List.mem_of_find?_eq_some hfind, hp.1, hp.2, ?_⟩
    simp only [matching_edge, hi, hfind]

/-- C21, amended: let edge `eid` of `i` exist with corner ids `a ≠ b`, let some
edge of `j` have the corner ids `a` and `b`, and let no edge of `j` have twice
the same corner id (all point counts at least one).  Then `idx_i` holds the
local indices along edge `eid` of `i`, from the corner with id `a` to the
corner with id `b`, and `idx_j` holds the local indices along an edge `r_j` of
`j` whose corner ids are `a` and `b`, in increasing local order of `j`: from
its first corner to its second.  The two sequences start on the same id and
end on the same id exactly when the first corner of `r_j` carries `a`;
otherwise `idx_j` starts on `b` and ends on `a`. -/
theorem matching_edge_orientation (dim eid : Nat) (elem_i elem_j : RegionElement)
    (r_i : EdgeRow)
    (hi : (edge_rows dim elem_i.n_x elem_i.n_y elem_i.n_z)[eid]? = some r_i)
    (hni : 1 ≤ elem_i.n_x ∧ 1 ≤ elem_i.n_y ∧ 1 ≤ elem_i.n_z)
    (hnj : 1 ≤ elem_j.n_x ∧ 1 ≤ elem_j.n_y ∧ 1 ≤ elem_j.n_z)
    (hab : elem_i.glo_num r_i.c1 ≠ elem_i.glo_num r_i.c2)
    (hshared : ∃ r ∈ edge_rows dim elem_j.n_x elem_j.n_y elem_j.n_z,
      (elem_j.glo_num r.c1 = elem_i.glo_num r_i.c1 ∧
        elem_j.glo_num r.c2 = elem_i.glo_num r_i.c2) ∨
      (elem_j.glo_num r.c1 = elem_i.glo_num r_i.c2 ∧
        elem_j.glo_num r.c2 = elem_i.glo_num r_i.c1))
    (hdistinct : ∀ r ∈ edge_rows dim elem_j.n_x elem_j.n_y elem_j.n_z,
      elem_j.glo_num r.c1 ≠ elem_j.glo_num r.c2) :
    ∃ r_j ∈ edge_rows dim elem_j.n_x elem_j.n_y elem_j.n_z,
      (matching_edge dim elem_i elem_j eid).1 = fill_indices r_i ∧
      (matching_edge dim elem_i elem_j eid).2 = fill_indices r_j ∧
      elem_i.glo_num ((matching_edge dim elem_i elem_j eid).1 0) = elem_i.glo_num r_i.c1 ∧
      elem_i.glo_num ((matching_edge dim elem_i elem_j eid).1 (r_i.count - 1)) =
        elem_i.glo_num r_i.c2 ∧
      elem_j.glo_num ((matching_edge dim elem_i elem_j eid).2 0) = elem_j.glo_num r_j.c1 ∧
      elem_j.glo_num ((matching_edge dim elem_i elem_j eid).2 (r_j.count - 1)) =
        elem_j.glo_num r_j.c2 ∧
      ((elem_j.glo_num r_j.c1 = elem_i.glo_num r_i.c1 ∧
          elem_j.glo_num r_j.c2 = elem_i.glo_num r_i.c2) ∨
        (elem_j.glo_num r_j.c1 = elem_i.glo_num r_i.c2 ∧
          elem_j.glo_num r_j.c2 = elem_i.glo_num r_i.c1)) ∧
      ((elem_i.glo_num ((matching_edge dim elem_i elem_j eid).1 0) =
            elem_j.glo_num ((matching_edge dim elem_i elem_j eid).2 0) ∧
          elem_i.glo_num ((matching_edge dim elem_i elem_j eid).1 (r_i.count - 1)) =
            elem_j.glo_num ((matching_edge dim elem_i elem_j eid).2 (r_j.count - 1))) ↔
        elem_j.glo_num r_j.c1 = elem_i.glo_num r_i.c1) := by
  have hex : ∃ r ∈ edge_rows dim elem_j.n_x elem_j.n_y elem_j.n_z,
      elem_j.glo_num r.c1 ∈ [elem_i.glo_num r_i.c1, elem_i.glo_num r_i.c2] ∧
      elem_j.glo_num r.c2 ∈ [elem_i.glo_num r_i.c1, elem_i.glo_num r_i.c2] := by
    obtain ⟨r, hr, h⟩ := hshared
    refine ⟨r, hr, ?_⟩
    rcases h with ⟨h1, h2⟩ | ⟨h1, h2⟩ <;> simp [h1, h2]
  obtain ⟨r_j, hrj, h1, h2, heq⟩ := matching_edge_first dim eid elem_i elem_j r_i hi hex
  have hri : r_i ∈ edge_rows dim elem_i.n_x elem_i.n_y elem_i.n_z := List.getElem?_mem hi
  obtain ⟨ei0, ei1⟩ := fill_indices_ends dim _ _ _ hni.1 hni.2.1 hni.2.2 r_i hri
  obtain ⟨ej0, ej1⟩ := fill_indices_ends dim _ _ _ hnj.1 hnj.2.1 hnj.2.2 r_j hrj
  have hd := hdistinct r_j hrj
  simp only [List.mem_cons, List.mem_singleton, List.not_mem_nil, or_false] at h1 h2
  have hcorners : (elem_j.glo_num r_j.c1 = elem_i.glo_num r_i.c1 ∧
        elem_j.glo_num r_j.c2 = elem_i.glo_num r_i.c2) ∨
      (elem_j.glo_num r_j.c1 = elem_i.glo_num r_i.c2 ∧
        elem_j.glo_num r_j.c2 = elem_i.glo_num r_i.c1) := by
    rcases h1 with h1 | h1 <;> rcases h2 with h2 | h2
    · exact absurd (h1.trans h2.symm) hd
    · exact Or.inl ⟨h1, h2⟩
    · exact Or.inr ⟨h1, h2⟩
    · exact absurd (h1.trans h2.symm) hd
  refine ⟨r_j, hrj, ?_⟩
  rw [heq]
  dsimp only
  rw [ei0, ei1, ej0, ej1]
  refine ⟨rfl, rfl, rfl, rfl, rfl, rfl, hcorners, ?_⟩
  constructor
  · intro h
    exact h.1.symm
  · intro h
    rcases hcorners with ⟨_, h4⟩ | ⟨h3, _⟩
    · exact ⟨h.symm, h4.symm⟩
    · exact absurd (h.symm.trans h3) hab

theorem matching_edge_orientation_witness :
    ∃ r_j ∈ edge_rows 2 (bilinear_with [2, 1, 5, 6]).n_x (bilinear_with [2, 1, 5, 6]).n_y
        (bilinear_with [2, 1, 5, 6]).n_z,
      (matching_edge 2 (bilinear_with [1, 2, 3, 4]) (bilinear_with [2, 1, 5, 6]) 0).2 =
        fill_indices r_j ∧
      (bilinear_with [2, 1, 5, 6]).glo_num
          ((matching_edge 2 (bilinear_with [1, 2, 3, 4]) (bilinear_with [2, 1, 5, 6]) 0).2 0) =
        (bilinear_with [2, 1, 5, 6]).glo_num r_j.c1 :=
  (matching_edge_orientation 2 0 (bilinear_with [1, 2, 3, 4]) (bilinear_with [2, 1, 5, 6])
    ⟨0, 1, 2, fun k => k + 0 * 2⟩ rfl (by decide) (by decide) (by decide) (by decide)
    (by decide)).elim
    (fun r_j h => ⟨r_j, h.1, h.2.2.1, h.2.2.2.2.2.1⟩)

/-! ### Final ranking of a region in `DType` -/

end Subdomain
